import Mathlib

/-!
aptly: package catalogue and dependency resolver

A shallow embedding of `deb/package.go`, `deb/list.go` and `deb/index_files.go`.

* Go strings are `String`; Go's `<` on strings is the byte-wise lexicographic order, which on
  valid UTF-8 coincides with the code-point order of `String`.
* `*Package` pointers are package values; a `map[string]T` is an association list whose order
  stands for one iteration order of the map.
* `deb/version.go` is not part of the sources at hand. The functions it exports and that the
  code below calls (`CompareVersions`, `ParseDependency`, `ParseDependencyVariants`,
  `Dependency.Hash`) are parameters of the definitions that use them; `ParseDependency` returns
  a value together with an error, as in Go.
* A Go `panic` and a returned `error` are constructors of `Failure`.
-/

namespace Aptly

/-! ## Data model -/

/-- Version relations of `deb/version.go` (the constants used by `versionSatisfiesDependency`).
`VersionDontCare` is the zero value of `Dependency.Relation`. -/
inductive VersionRelation where
  | VersionDontCare
  | VersionLess
  | VersionLessOrEqual
  | VersionEqual
  | VersionGreaterOrEqual
  | VersionGreater
  | VersionPatternMatch
  | VersionRegexp
  deriving DecidableEq, Repr

open VersionRelation

/-- Dependency as used by `package.go` and `list.go`: fields `Pkg`, `Relation`, `Version`,
`Architecture` and the compiled `Regexp` (kept as its pattern text). -/
structure Dependency where
  Pkg : String := ""
  Relation : VersionRelation := VersionDontCare
  Version : String := ""
  Architecture : String := ""
  Regexp : Option String := none
  deriving DecidableEq, Repr

/-- Parsed dependency fields of a package (`PackageDependencies`). -/
structure PackageDependencies where
  Depends : List String := []
  BuildDepends : List String := []
  BuildDependsInDep : List String := []
  PreDepends : List String := []
  Suggests : List String := []
  Recommends : List String := []
  deriving DecidableEq, Repr

/-- Package is a single instance of a Debian package (`type Package struct`). The offloaded
`extra`, `files`, `contents` and the back-reference `collection` play no part in the catalogue
operations and are left out; `deps` is kept in its loaded form. -/
structure Package where
  Name : String := ""
  Version : String := ""
  Architecture : String := ""
  SourceArchitecture : String := ""
  Source : String := ""
  Provides : List String := []
  FilesHash : Nat := 0
  IsInstaller : Bool := false
  IsSource : Bool := false
  IsUdeb : Bool := false
  V06Plus : Bool := false
  deps : PackageDependencies := {}
  deriving DecidableEq, Repr

/-- Failure of a call: a Go `panic`, a returned plain `error`, or a returned
`PackageConflictError`, each with its message. -/
inductive Failure where
  | panic (msg : String)
  | error (msg : String)
  | PackageConflictError (msg : String)
  deriving DecidableEq, Repr

deriving instance DecidableEq for Except

/-- Functions that the catalogue code calls and that live outside the sources at hand:
`CompareVersions`, `ParseDependency` (value and error, as returned in Go),
`ParseDependencyVariants` and `Dependency.Hash` of `deb/version.go`; `filepath.Match` (`none`
for a malformed pattern); and `Regexp.FindStringIndex(..) != nil` on the pattern of a
dependency. -/
structure Externals where
  CompareVersions : String → String → Int
  ParseDependency : String → Dependency × Option String
  ParseDependencyVariants : String → Except String (List Dependency)
  Hash : Dependency → String
  filepathMatch : String → String → Option Bool
  regexpFind : Option String → String → Bool

/-- Go's `a < b` on strings: lexicographic order of the characters. -/
def strLt (a b : String) : Bool := decide (a.data < b.data)

def ArchitectureAll : String := "all"

def ArchitectureAny : String := "any"

def ArchitectureSource : String := "source"

/-! ## `deb/package.go` -/

/-- Lower-case hexadecimal digits of `n`, left-padded with zeros to eight characters
(`%08x`). -/
def hex08 (n : Nat) : String :=
  let ds := Nat.toDigits 16 n
  String.mk (List.replicate (8 - ds.length) '0' ++ ds)

/-- ShortKey returns key for the package that should be unique in one list. -/
def Package.ShortKey (p : Package) (pfx : String) : String :=
  pfx ++ "P" ++ p.Architecture ++ " " ++ p.Name ++ " " ++ p.Version

/-- Key returns unique key identifying package. -/
def Package.Key (p : Package) (pfx : String) : String :=
  if p.V06Plus then
    pfx ++ "P" ++ p.Architecture ++ " " ++ p.Name ++ " " ++ p.Version ++ " " ++ hex08 p.FilesHash
  else
    p.ShortKey pfx

/-- String creates readable representation (`Package.String`). -/
def PackageString (p : Package) : String :=
  p.Name ++ "_" ++ p.Version ++ "_" ++ p.Architecture

/-- ProvidedPackages returns just the package names of the provided packages; an entry the
parser rejects is returned as it stands. -/
def Package.ProvidedPackages (E : Externals) (p : Package) : List String :=
  p.Provides.map fun provided =>
    match E.ParseDependency provided with
    | (_, some _) => provided
    | (providedDep, none) => providedDep.Pkg

/-- MatchesArchitecture checks whether packages matches specified architecture. -/
def Package.MatchesArchitecture (p : Package) (arch : String) : Bool :=
  if p.Architecture = ArchitectureAll ∧ arch ≠ ArchitectureSource then true
  else decide (p.Architecture = arch)

/-- Function versionSatisfiesDependency of `package.go`. The relation type is closed, so the
`default: panic` branch has no counterpart. -/
def versionSatisfiesDependency (E : Externals) (version : String) (dep : Dependency) : Bool :=
  let r := E.CompareVersions version dep.Version
  match dep.Relation with
  | VersionEqual => decide (r = 0)
  | VersionLess => decide (r < 0)
  | VersionGreater => decide (r > 0)
  | VersionLessOrEqual => decide (r ≤ 0)
  | VersionGreaterOrEqual => decide (r ≥ 0)
  | VersionPatternMatch =>
    match E.filepathMatch dep.Version version with
    | some matched => matched
    | none => false
  | VersionRegexp => E.regexpFind dep.Regexp version
  | VersionDontCare => true

/-- Loop of `providesDependency` over the remaining `Provides` entries, with the errors
collected so far. A parse error is recorded and the returned value is examined all the same;
an unsupported relation is recorded and the entry skipped. The text of that message prints
the parsed dependency in Go; the entry stands for it here, the errors being only logged. -/
def providesDependencyLoop (E : Externals) (p : Package) (dep : Dependency) :
    List String → List String → Bool × List String
  | [], errs => (false, errs)
  | provided :: rest, errs =>
    let providedDep := (E.ParseDependency provided).1
    let errs := match (E.ParseDependency provided).2 with
      | some e => errs ++ [e]
      | none => errs
    if providedDep.Relation ≠ VersionEqual ∧ providedDep.Relation ≠ VersionDontCare then
      providesDependencyLoop E p dep rest
        (errs ++ ["unsupported relation in Provides: " ++ provided])
    else
      let providedVersion := if providedDep.Version = "" then p.Version else providedDep.Version
      if providedDep.Pkg = dep.Pkg ∧ versionSatisfiesDependency E providedVersion dep then
        (true, [])
      else
        providesDependencyLoop E p dep rest errs

/-- Method providesDependency checks if the package provides the dependency, assuming that
the architecture matches; it returns the answer and the collected errors. -/
def Package.providesDependency (E : Externals) (p : Package) (dep : Dependency) :
    Bool × List String :=
  providesDependencyLoop E p dep p.Provides []

/-- MatchesDependency checks whether package matches specified dependency (the warning that is
logged for the collected errors has no effect on the result). -/
def Package.MatchesDependency (E : Externals) (p : Package) (dep : Dependency) : Bool :=
  if dep.Architecture ≠ "" ∧ !p.MatchesArchitecture dep.Architecture then false
  else if (p.providesDependency E dep).1 then true
  else if dep.Pkg ≠ p.Name then false
  else versionSatisfiesDependency E p.Version dep

/-- Equals compares two packages to be identical. -/
def Package.Equals (p p2 : Package) : Bool :=
  p.Name = p2.Name ∧ p.Version = p2.Version ∧ p.SourceArchitecture = p2.SourceArchitecture ∧
    p.Architecture = p2.Architecture ∧ p.Source = p2.Source ∧ p.IsSource = p2.IsSource ∧
    p.FilesHash = p2.FilesHash

/-! ## `deb/list.go` -/

def DepFollowSource : Nat := 1

def DepFollowSuggests : Nat := 2

def DepFollowRecommends : Nat := 4

def DepFollowAllVariants : Nat := 8

def DepFollowBuild : Nat := 16

def DepVerboseResolve : Nat := 32

/-- PackageList is list of unique (by key) packages. The key function is fixed by
`duplicatesAllowed` when the list is created (`keyFunc` below). -/
structure PackageList where
  packages : List (String × Package) := []
  packagesIndex : List Package := []
  providesIndex : List (String × List Package) := []
  duplicatesAllowed : Bool := false
  indexed : Bool := false
  deriving DecidableEq, Repr

/-- Map assignment `m[k] = v`: the entry is replaced where it stands, or added. -/
def mapSet {α : Type} (m : List (String × α)) (k : String) (v : α) : List (String × α) :=
  match m.lookup k with
  | some _ => m.map fun e => if e.1 = k then (k, v) else e
  | none => m ++ [(k, v)]

/-- Map removal `delete(m, k)`. -/
def mapDelete {α : Type} (m : List (String × α)) (k : String) : List (String × α) :=
  m.filter fun e => e.1 ≠ k

/-- Map read `m[k]` of a slice-valued map: the nil slice when the key is absent. -/
def mapGetD {α : Type} (m : List (String × List α)) (k : String) : List α :=
  (m.lookup k).getD []

def packageShortKey (p : Package) : String := p.ShortKey ""

def packageFullKey (p : Package) : String := p.Key ""

/-- Field `keyFunc`, as set by `NewPackageListWithDuplicates`. -/
def PackageList.keyFunc (l : PackageList) (p : Package) : String :=
  if l.duplicatesAllowed then packageFullKey p else packageShortKey p

/-- NewPackageListWithDuplicates creates empty package list which might allow or block
duplicate packages (the capacity is a hint for the allocator only). -/
def NewPackageListWithDuplicates (duplicates : Bool) (capacity : Nat) : PackageList :=
  let _capacity := if capacity = 0 then 1000 else capacity
  { packages := [], duplicatesAllowed := duplicates }

/-- NewPackageList creates empty package list without duplicate package. -/
def NewPackageList : PackageList := NewPackageListWithDuplicates false 1000

/-- Has checks whether package is already in the list. -/
def PackageList.Has (l : PackageList) (p : Package) : Bool :=
  (l.packages.lookup (l.keyFunc p)).isSome

/-- Len returns number of packages in the list. -/
def PackageList.Len (l : PackageList) : Nat := l.packages.length

/-- Method lessPackages: name ascending, then version descending, then architecture
ascending. -/
def lessPackages (E : Externals) (iPkg jPkg : Package) : Bool :=
  if iPkg.Name = jPkg.Name then
    let cmp := E.CompareVersions iPkg.Version jPkg.Version
    if cmp = 0 then strLt iPkg.Architecture jPkg.Architecture
    else decide (cmp = 1)
  else strLt iPkg.Name jPkg.Name

/-- Loop of Go's `sort.Search`: binary search on `[i, j)`; `fuel` bounds the number of
iterations and `j - i` of them always suffice. -/
def sortSearchLoop (f : Nat → Bool) : Nat → Nat → Nat → Nat
  | 0, i, _ => i
  | fuel + 1, i, j =>
    if i < j then
      let h := (i + j) / 2
      if !f h then sortSearchLoop f fuel (h + 1) j else sortSearchLoop f fuel i h
    else i

/-- Go's `sort.Search(n, f)`: the smallest index in `[0, n]` at which `f` holds, for an `f`
that is false and then true. -/
def sortSearch (n : Nat) (f : Nat → Bool) : Nat := sortSearchLoop f n 0 n

/-- The test `f(j)` of a `sort.Search` over a slice of packages. -/
def atIndex (xs : List Package) (f : Package → Bool) (j : Nat) : Bool :=
  match xs[j]? with
  | some q => f q
  | none => false

/-- The provides-index update of `Add` and `PrepareIndex` for one package. -/
def addProvides (E : Externals) (idx : List (String × List Package)) (p : Package) :
    List (String × List Package) :=
  (p.ProvidedPackages E).foldl (fun m provides => mapSet m provides (mapGetD m provides ++ [p])) idx

/-- Add appends package to package list, additionally checking for uniqueness. It returns the
list after the call and the error. -/
def PackageList.Add (E : Externals) (l : PackageList) (p : Package) :
    PackageList × Option Failure :=
  let key := l.keyFunc p
  match l.packages.lookup key with
  | some existing =>
    if !existing.Equals p then
      (l, some (Failure.PackageConflictError
        ("package already exists and is different: " ++ PackageString p)))
    else (l, none)
  | none =>
    let l1 := { l with packages := mapSet l.packages key p }
    if l.indexed then
      let i := sortSearch l.packagesIndex.length (atIndex l.packagesIndex (lessPackages E p))
      ({ l1 with
          providesIndex := addProvides E l.providesIndex p
          packagesIndex := l.packagesIndex.take i ++ p :: l.packagesIndex.drop i }, none)
    else (l1, none)

/-- Removal of element `i` of a slice without preserving order: the last element takes its
place. -/
def swapRemove (xs : List Package) (i : Nat) : List Package :=
  match xs.getLast? with
  | some last => (xs.set i last).dropLast
  | none => xs

/-- The provides-index update of `Remove`: under each provided name, the first package that
`Equals` the argument is removed. -/
def removeProvides (E : Externals) (idx : List (String × List Package)) (p : Package) :
    List (String × List Package) :=
  (p.ProvidedPackages E).foldl (fun m provides =>
    match (mapGetD m provides).findIdx? (fun pkg => pkg.Equals p) with
    | some i => mapSet m provides (swapRemove (mapGetD m provides) i)
    | none => m) idx

/-- The scan of `Remove` through the run of packages named like `p`, from the position found
by the binary search: the first package that `Equals` the argument is removed. -/
def removeFromRun (p : Package) : List Package → List Package
  | [] => []
  | q :: rest =>
    if q.Name = p.Name then
      if q.Equals p then rest else q :: removeFromRun p rest
    else q :: rest

/-- Remove removes package from the list, and updates index when required. -/
def PackageList.Remove (E : Externals) (l : PackageList) (p : Package) : PackageList :=
  let l1 := { l with packages := mapDelete l.packages (l.keyFunc p) }
  if l.indexed then
    let i := sortSearch l.packagesIndex.length
      (atIndex l.packagesIndex fun q => !strLt q.Name p.Name)
    { l1 with
        providesIndex := removeProvides E l.providesIndex p
        packagesIndex := l.packagesIndex.take i ++ removeFromRun p (l.packagesIndex.drop i) }
  else l1

/-- Go's `sort.Sort` with `Less`: elements that do not compare less either way may come out in
any order, and every such order arises from some iteration order of the map, so a stable
insertion sort of the iteration order stands for it. -/
def sortPackages (E : Externals) (xs : List Package) : List Package :=
  xs.insertionSort fun a b => lessPackages E b a = false

/-- PrepareIndex prepares list for indexing. -/
def PackageList.PrepareIndex (E : Externals) (l : PackageList) : PackageList :=
  if l.indexed then l
  else
    let vals := l.packages.map Prod.snd
    { l with
        packagesIndex := sortPackages E vals
        providesIndex := vals.foldl (addProvides E) []
        indexed := true }

/-- First loop of `Search`, over the run of packages named `dep.Pkg`: the results so far and
whether the function has returned. -/
def searchNameRun (E : Externals) (dep : Dependency) (allMatches : Bool) :
    List Package → List Package → List Package × Bool
  | [], acc => (acc, false)
  | p :: rest, acc =>
    if p.Name = dep.Pkg then
      if p.MatchesDependency E dep then
        if !allMatches then (acc ++ [p], true)
        else searchNameRun E dep allMatches rest (acc ++ [p])
      else searchNameRun E dep allMatches rest acc
    else (acc, false)

/-- Second loop of `Search`, over the providers of `dep.Pkg`. -/
def searchProviders (E : Externals) (dep : Dependency) (allMatches : Bool) :
    List Package → List Package → List Package
  | [], acc => acc
  | p :: rest, acc =>
    if dep.Architecture = "" ∨ p.MatchesArchitecture dep.Architecture then
      let acc := if p.MatchesDependency E dep then acc ++ [p] else acc
      if !allMatches then acc
      else searchProviders E dep allMatches rest acc
    else searchProviders E dep allMatches rest acc

/-- Search searches package index for specified package(s) using optimized queries. The nil
slice is the empty list. -/
def PackageList.Search (E : Externals) (l : PackageList) (dep : Dependency)
    (allMatches searchProvided : Bool) : Except Failure (List Package) :=
  if !l.indexed then Except.error (Failure.panic "list not indexed, can't search")
  else
    let i := sortSearch l.packagesIndex.length
      (atIndex l.packagesIndex fun q => !strLt q.Name dep.Pkg)
    let r := searchNameRun E dep allMatches (l.packagesIndex.drop i) []
    if r.2 then Except.ok r.1
    else if searchProvided then
      match l.providesIndex.lookup dep.Pkg with
      | none => Except.ok r.1
      | some providers => Except.ok (searchProviders E dep allMatches providers r.1)
    else Except.ok r.1

/-! ## `deb/list.go`: dependencies and `Filter` -/

/-- Loop of `Append` over the entries of the other list. -/
def appendLoop (m : List (String × Package)) :
    List (String × Package) → List (String × Package) × Option Failure
  | [] => (m, none)
  | (k, p) :: rest =>
    match m.lookup k with
    | some existing =>
      if !existing.Equals p then
        (m, some (Failure.error
          ("package already exists and is different: " ++ PackageString p)))
      else appendLoop m rest
    | none => appendLoop (mapSet m k p) rest

/-- Append adds content from one package list to another; the entries keep the keys they
have in the other list. -/
def PackageList.Append (l pl : PackageList) : PackageList × Option Failure :=
  if l.indexed then (l, some (Failure.panic "Append not supported when indexed"))
  else
    let r := appendLoop l.packages pl.packages
    ({ l with packages := r.1 }, r.2)

/-- GetDependencies compiles list of dependencies by flags from options. -/
def Package.GetDependencies (p : Package) (options : Nat) : List String :=
  let deps := p.deps
  let dependencies := deps.Depends ++ deps.PreDepends
  let dependencies :=
    if options &&& DepFollowRecommends = DepFollowRecommends then
      dependencies ++ deps.Recommends
    else dependencies
  let dependencies :=
    if options &&& DepFollowSuggests = DepFollowSuggests then dependencies ++ deps.Suggests
    else dependencies
  let dependencies :=
    if options &&& DepFollowBuild = DepFollowBuild then
      dependencies ++ deps.BuildDepends ++ deps.BuildDependsInDep
    else dependencies
  if options &&& DepFollowSource = DepFollowSource then
    let source := if p.Source = "" then p.Name else p.Source
    if source.data.contains ')' then dependencies ++ [source ++ " \x7bsource\x7d"]
    else dependencies ++ [source ++ " (= " ++ p.Version ++ ") \x7bsource\x7d"]
  else dependencies

/-- Loop of `depSliceDeduplicate`: the first dependency of each hash is kept. -/
def dedupLoop (E : Externals) : List Dependency → List String → List Dependency
  | [], _ => []
  | x :: rest, found =>
    if found.contains (E.Hash x) then dedupLoop E rest found
    else x :: dedupLoop E rest (E.Hash x :: found)

/-- Function depSliceDeduplicate removes dups in slice of Dependencies. -/
def depSliceDeduplicate (E : Externals) (s : List Dependency) : List Dependency :=
  if s.length < 2 then s
  else
    match s with
    | [a, b] => if a = b then [a] else s
    | _ => dedupLoop E s []

/-- Dependency of a package examined for architecture `arch`: an empty architecture is set to
`arch`. -/
def forArchitecture (arch : String) (dep : Dependency) : Dependency :=
  if dep.Architecture = "" then { dep with Architecture := arch } else dep

/-- The cached test of `VerifyDependencies` whether `dep` is satisfied in `sources`: the
answer stored under the hash of `dep`, or else whether `Search(dep, false, true)` is not nil,
which is then stored. -/
def cachedSatisfied (E : Externals) (sources : PackageList) (dep : Dependency)
    (cache : List (String × Bool)) : Except Failure (List (String × Bool) × Bool) :=
  match cache.lookup (E.Hash dep) with
  | some satisfied => Except.ok (cache, satisfied)
  | none =>
    match sources.Search E dep false true with
    | Except.error f => Except.error f
    | Except.ok found => Except.ok (mapSet cache (E.Hash dep) (!found.isEmpty), !found.isEmpty)

/-- Loop of `VerifyDependencies` over the variants of one dependency line: the cache and the
variants found missing. -/
def verifyVariants (E : Externals) (options : Nat) (arch : String) (sources : PackageList) :
    List Dependency → List (String × Bool) → List Dependency →
      Except Failure (List (String × Bool) × List Dependency)
  | [], cache, variantsMissing => Except.ok (cache, variantsMissing)
  | dep :: rest, cache, variantsMissing =>
    match cachedSatisfied E sources (forArchitecture arch dep) cache with
    | Except.error f => Except.error f
    | Except.ok (cache, satisfied) =>
      let variantsMissing :=
        if !satisfied then variantsMissing ++ [forArchitecture arch dep] else variantsMissing
      if satisfied ∧ options &&& DepFollowAllVariants = 0 then Except.ok (cache, [])
      else verifyVariants E options arch sources rest cache variantsMissing

/-- Loop of `VerifyDependencies` over the dependency lines of one package. -/
def verifyLines (E : Externals) (options : Nat) (arch : String) (sources : PackageList)
    (p : Package) :
    List String → List (String × Bool) → List Dependency →
      Except Failure (List (String × Bool) × List Dependency)
  | [], cache, missing => Except.ok (cache, missing)
  | dep :: rest, cache, missing =>
    match E.ParseDependencyVariants dep with
    | Except.error err =>
      Except.error (Failure.error
        ("unable to process package " ++ PackageString p ++ ": " ++ err))
    | Except.ok variants =>
      match verifyVariants E options arch sources (depSliceDeduplicate E variants) cache [] with
      | Except.error f => Except.error f
      | Except.ok (cache, variantsMissing) =>
        verifyLines E options arch sources p rest cache (missing ++ variantsMissing)

/-- Loop of `VerifyDependencies` over the packages of the sorted vector, for one
architecture. -/
def verifyPackages (E : Externals) (options : Nat) (arch : String) (sources : PackageList) :
    List Package → List (String × Bool) → List Dependency →
      Except Failure (List (String × Bool) × List Dependency)
  | [], cache, missing => Except.ok (cache, missing)
  | p :: rest, cache, missing =>
    if !p.MatchesArchitecture arch then
      verifyPackages E options arch sources rest cache missing
    else
      match verifyLines E options arch sources p (p.GetDependencies options) cache missing with
      | Except.error f => Except.error f
      | Except.ok (cache, missing) => verifyPackages E options arch sources rest cache missing

/-- Loop of `VerifyDependencies` over the architectures; each starts with an empty cache. -/
def verifyArchitectures (E : Externals) (options : Nat) (sources : PackageList)
    (index : List Package) : List String → List Dependency → Except Failure (List Dependency)
  | [], missing => Except.ok missing
  | arch :: rest, missing =>
    match verifyPackages E options arch sources index [] missing with
    | Except.error f => Except.error f
    | Except.ok (_, missing) => verifyArchitectures E options sources index rest missing

/-- VerifyDependencies looks for missing dependencies in package list. It returns the list
itself after its `PrepareIndex` and the result; progress reporting is left out, and `sources`
is a list of its own. -/
def PackageList.VerifyDependencies (E : Externals) (l : PackageList) (options : Nat)
    (architectures : List String) (sources : PackageList) :
    PackageList × Except Failure (List Dependency) :=
  let l := l.PrepareIndex E
  if architectures.length = 0 then
    (l, Except.error (Failure.error "no architectures defined, cannot verify dependencies"))
  else
    match verifyArchitectures E options sources l.packagesIndex architectures [] with
    | Except.error f => (l, Except.error f)
    | Except.ok missing => (l, Except.ok (depSliceDeduplicate E missing))

/-- A package query (`PackageQuery`), by what its `Query` returns on a list. -/
abbrev PackageQuery := PackageList → PackageList

/-- FilterOptions specifies options for `Filter` (progress reporting left out). -/
structure FilterOptions where
  Queries : List PackageQuery := []
  WithDependencies : Bool := false
  WithSources : Bool := false
  Source : Option PackageList := none
  DependencyOptions : Nat := 0
  Architectures : List String := []

/-- Character class `[a-z0-9]`. -/
def isSourceNameStart (c : Char) : Bool := c.isLower || c.isDigit

/-- Character class `[-+.a-z0-9]`. -/
def isSourceNameChar (c : Char) : Bool :=
  c = '-' || c = '+' || c = '.' || c.isLower || c.isDigit

/-- Character class `\s` of Go regular expressions. -/
def isRegexSpace (c : Char) : Bool :=
  c = '\t' || c = '\n' || c = '\x0c' || c = '\r' || c = ' '

/-- Match of `SourceRegex`, `^([a-z0-9][-+.a-z0-9]+)(?:\s+\(([^)]+)\))?$`: the two groups, the
second empty when it takes no part; `none` when the text does not match. Each repetition is
followed by a character outside its class, so the longest run is the only match. -/
def SourceRegexFindStringSubmatch (s : String) : Option (String × String) :=
  match s.data with
  | [] => none
  | c :: cs =>
    if !isSourceNameStart c then none
    else
      let name := cs.takeWhile isSourceNameChar
      let rest := (cs.dropWhile isSourceNameChar).dropWhile isRegexSpace
      if name = [] then none
      else if cs.dropWhile isSourceNameChar = [] then some (String.mk (c :: name), "")
      else if (cs.dropWhile isSourceNameChar).takeWhile isRegexSpace = [] then none
      else
        match rest with
        | '(' :: body =>
          if body.takeWhile (fun x => x ≠ ')') ≠ [] ∧ body.dropWhile (fun x => x ≠ ')') = [')']
          then some (String.mk (c :: name), String.mk (body.takeWhile fun x => x ≠ ')'))
          else none
        | _ => none

/-- Loop of `Filter` through the result for the source queries: the dependencies to query,
or the error for an invalid `Source` field. -/
def sourceQueriesLoop : List (String × Package) → List Dependency →
    Except Failure (List Dependency)
  | [], acc => Except.ok acc
  | (_, pkg) :: rest, acc =>
    if pkg.Source = "" then sourceQueriesLoop rest acc
    else
      match SourceRegexFindStringSubmatch pkg.Source with
      | none => Except.error (Failure.error ("invalid Source field: " ++ pkg.Source))
      | some (sourceName, version) =>
        if sourceName = pkg.Name then sourceQueriesLoop rest acc
        else
          let sourceVersion := if version ≠ "" then version else pkg.Version
          sourceQueriesLoop rest (acc ++ [{
            Pkg := sourceName, Version := sourceVersion, Relation := VersionEqual,
            Architecture := ArchitectureSource }])

/-- State of the dependency loop of `Filter`: the result, the dependency source and the
number of packages added in the current pass. -/
structure FilterState where
  result : PackageList
  dependencySource : PackageList
  added : Nat

/-- Loop of `Filter` over the packages found for one missing dependency. -/
def injectLoop (E : Externals) (options : Nat) : List Package → FilterState → FilterState
  | [], st => st
  | p :: rest, st =>
    if st.result.Has p then injectLoop E options rest st
    else
      let st2 : FilterState :=
        { result := (st.result.Add E p).1
          dependencySource := (st.dependencySource.Add E p).1
          added := st.added + 1 }
      if options &&& DepFollowAllVariants = 0 then st2
      else injectLoop E options rest st2

/-- Loop of `Filter` over the missing dependencies of one pass. -/
def satisfyLoop (E : Externals) (l : PackageList) (options : Nat) :
    List Dependency → FilterState → Except Failure FilterState
  | [], st => Except.ok st
  | dep :: rest, st =>
    let skip : Except Failure Bool :=
      if options &&& DepFollowAllVariants = 0 then
        match st.result.Search E dep false true with
        | Except.error f => Except.error f
        | Except.ok found => Except.ok (!found.isEmpty)
      else Except.ok false
    match skip with
    | Except.error f => Except.error f
    | Except.ok true => satisfyLoop E l options rest st
    | Except.ok false =>
      match l.Search E dep true true with
      | Except.error f => Except.error f
      | Except.ok searchResults =>
        satisfyLoop E l options rest (injectLoop E options searchResults st)

/-- The loop `for added > 0` of `Filter`. `fuel` bounds the number of passes; `none` when it
runs out. -/
def filterLoop (E : Externals) (l : PackageList) (options : FilterOptions) :
    Nat → FilterState → Option (Except Failure PackageList)
  | 0, st => if st.added > 0 then none else some (Except.ok st.result)
  | fuel + 1, st =>
    if st.added > 0 then
      match st.result.VerifyDependencies E options.DependencyOptions options.Architectures
          st.dependencySource with
      | (_, Except.error f) => some (Except.error f)
      | (result, Except.ok missing) =>
        match satisfyLoop E l options.DependencyOptions missing
            { st with result := result, added := 0 } with
        | Except.error f => some (Except.error f)
        | Except.ok st2 => filterLoop E l options fuel st2
    else some (Except.ok st.result)

/-- Filter filters package index by specified queries (ORed together), possibly pulling
dependencies. `DependencyQuery` is what the `Query` of a dependency query returns
(`deb/query.go` is not among the sources); `fuel` bounds the passes of the dependency loop,
and the result is `none` when it runs out. -/
def PackageList.Filter (E : Externals) (DependencyQuery : Dependency → PackageQuery)
    (l : PackageList) (options : FilterOptions) (fuel : Nat) :
    Option (Except Failure PackageList) :=
  if !l.indexed then some (Except.error (Failure.panic "list not indexed, can't filter"))
  else
    let result := options.Queries.foldl (fun r query => (r.Append (query l)).1) NewPackageList
    let withSources : Except Failure PackageList :=
      if options.WithSources then
        match sourceQueriesLoop result.packages [] with
        | Except.error f => Except.error f
        | Except.ok sourceQueries =>
          Except.ok (sourceQueries.foldl
            (fun r dep => (r.Append (DependencyQuery dep l)).1) result)
      else Except.ok result
    match withSources with
    | Except.error f => some (Except.error f)
    | Except.ok result =>
      if options.WithDependencies then
        let added := result.Len
        let result := result.PrepareIndex E
        let dependencySource :=
          match options.Source with
          | some source => (NewPackageList.Append source).1
          | none => NewPackageList
        let dependencySource := ((dependencySource.Append result).1).PrepareIndex E
        filterLoop E l options fuel
          { result := result, dependencySource := dependencySource, added := added }
      else some (Except.ok result)

/-! ## `deb/list.go`: `SearchByKey` -/

/-- SearchByKey looks up package by exact key reference. -/
def PackageList.SearchByKey (E : Externals) (l : PackageList) (arch name version : String) :
    PackageList :=
  let result := NewPackageListWithDuplicates l.duplicatesAllowed 0
  match l.packages.lookup ("P" ++ arch ++ " " ++ name ++ " " ++ version) with
  | some pkg => (result.Add E pkg).1
  | none => result

/-! ## `deb/package.go`: `PoolDirectory` -/

/-- UTF-8 encoding of a character. A Go string is a sequence of bytes: `len` counts them
and `s[:n]` cuts between them. -/
def utf8Bytes (c : Char) : List Nat :=
  let n := c.toNat
  if n < 0x80 then [n]
  else if n < 0x800 then [0xC0 + n / 64, 0x80 + n % 64]
  else if n < 0x10000 then [0xE0 + n / 4096, 0x80 + n / 64 % 64, 0x80 + n % 64]
  else [0xF0 + n / 262144, 0x80 + n / 4096 % 64, 0x80 + n / 64 % 64, 0x80 + n % 64]

/-- Bytes of a string. -/
def goBytes (s : String) : List Nat := s.data.flatMap utf8Bytes

/-- Go's `unicode.IsSpace`. -/
def unicodeIsSpace (c : Char) : Bool :=
  let n := c.toNat
  (9 ≤ n && n ≤ 13) || n = 0x20 || n = 0x85 || n = 0xA0 || n = 0x1680 ||
    (0x2000 ≤ n && n ≤ 0x200A) || n = 0x2028 || n = 0x2029 || n = 0x202F || n = 0x205F ||
    n = 0x3000

/-- Go's `strings.TrimSpace`. -/
def stringsTrimSpace (cs : List Char) : List Char :=
  ((cs.dropWhile unicodeIsSpace).reverse.dropWhile unicodeIsSpace).reverse

/-- The `source` of `PoolDirectory`: the `Source` field, cut before its first `(` and trimmed
when it has one, or the name when `Source` is empty. -/
def poolSource (p : Package) : String :=
  if p.Source = "" then p.Name
  else if p.Source.data.contains '(' then
    String.mk (stringsTrimSpace (p.Source.data.takeWhile fun c => c ≠ '('))
  else p.Source

/-- PoolDirectory returns directory in package pool of published repository for this package
files. The result is the bytes of the path; `filepathJoin` is `filepath.Join` of the
standard library. A slice expression whose bound exceeds the length is a run-time panic. -/
def Package.PoolDirectory (filepathJoin : List Nat → List Nat → List Nat) (p : Package) :
    Except Failure (List Nat) :=
  let source := goBytes (poolSource p)
  if source.length < 2 then
    Except.error (Failure.error ("package source " ++ poolSource p ++ " too short"))
  else if goBytes "lib" <+: source then
    if 4 ≤ source.length then Except.ok (filepathJoin (source.take 4) source)
    else Except.error (Failure.panic
      ("runtime error: slice bounds out of range [:4] with length " ++
        toString source.length))
  else Except.ok (filepathJoin (source.take 1) source)

/-! ## Index files (`deb/index_files.go`)

* `filepath.Join`, `filepath.Clean`, `filepath.Dir`, `filepath.Base` and `path.Base` are the
  functions of the Go library, in their Unix form.
* The published storage is an interface value: a function from the call made and the state
  of the storage to the reply and the next state. Code that calls the storage returns, with
  its value, the state afterwards and the calls it made, in order.
* The local files that `Finalize` writes, compresses and hashes, and the signer, are
  parameters: what they answer is not decided by the code at hand.
* A `range` over a Go map visits the keys in an order that the language leaves open; the
  order is a parameter of the loop.
-/

/-- The call `strings.Replace(s, "/", "_", -1)`: every slash becomes an underscore. -/
def replaceSlashes (s : String) : String :=
  String.mk (s.data.map fun c => if c = '/' then '_' else c)

/-- One round of the loop of `filepath.Clean`, on the path element `elem` and the elements
`out` written so far: an empty element and `.` are dropped; `..` removes the last element
written, unless there is none or it is itself a `..` that could not be resolved, in which
case `..` is written when the path is not rooted; any other element is written. -/
def cleanStep (rooted : Bool) (out : List (List Char)) (elem : List Char) :
    List (List Char) :=
  if elem = [] ∨ elem = ['.'] then out
  else if elem = ['.', '.'] then
    match out.getLast? with
    | some last => if last = ['.', '.'] then out ++ [elem] else out.dropLast
    | none => if rooted then out else out ++ [elem]
  else out ++ [elem]

/-- The function `filepath.Clean` of Go, on Unix. -/
def filepathClean (path : String) : String :=
  if path = "" then "."
  else
    let rooted : Bool := path.data.head? = some '/'
    let out := (path.data.splitOn '/').foldl (cleanStep rooted) []
    let text := (if rooted then ['/'] else []) ++ List.intercalate ['/'] out
    if text = [] then "." else String.mk text

/-- The function `filepath.Join` of Go, on Unix: the elements from the first non-empty one
on, joined with slashes and cleaned; the empty string when all are empty. -/
def filepathJoin (elem : List String) : String :=
  match elem.dropWhile fun e => e = "" with
  | [] => ""
  | rest => filepathClean (String.intercalate "/" rest)

/-- The function `filepath.Dir` of Go, on Unix: the path up to the last slash, cleaned. -/
def filepathDir (path : String) : String :=
  filepathClean (String.mk (path.data.reverse.dropWhile fun c => c ≠ '/').reverse)

/-- The function `path.Base` of Go: the last element of the path, trailing slashes
removed. -/
def pathBase (path : String) : String :=
  if path = "" then "."
  else
    let last := ((path.data.reverse.dropWhile fun c => c = '/').takeWhile
      fun c => c ≠ '/').reverse
    if last = [] then "/" else String.mk last

/-- The function `filepath.Base` of Go, on Unix. -/
def filepathBase (path : String) : String := pathBase path

/-- Verb `%v` of a boolean. -/
def boolString (b : Bool) : String := if b then "true" else "false"

/-- The checksums `utils.ChecksumInfo` of a file, with the fields that the index files
read. -/
structure ChecksumInfo where
  MD5 : String := ""
  SHA1 : String := ""
  SHA256 : String := ""
  SHA512 : String := ""
  deriving DecidableEq, Repr

/-- A call of a method of the interface `aptly.PublishedStorage`, with its arguments. -/
inductive StorageCall where
  | MkDir (path : String)
  | PutFile (path sourceFilename : String)
  | FileExists (path : String)
  | HardLink (src dst : String)
  | ReadLink (path : String)
  | Remove (path : String)
  | RenameFile (oldName newName : String)
  | SymLink (src dst : String)
  deriving DecidableEq, Repr

/-- What a method of the storage returns: the error (`none` for `nil`), the boolean of
`FileExists` and the string of `ReadLink`. -/
structure StorageReply where
  err : Option String := none
  found : Bool := false
  target : String := ""
  deriving DecidableEq, Repr

/-- A published storage with states `σ`: the reply to a call and the state after it. -/
structure PublishedStorage (σ : Type) where
  call : StorageCall → σ → StorageReply × σ

/-- Outcome of code that calls the storage: the value returned, the state of the storage
afterwards and the calls made, in order. -/
structure Ran (σ α : Type) where
  value : α
  state : σ
  calls : List StorageCall

/-- The local files behind an index file: the error of `os.Create` for a name, of `Flush`
on the writer of a file, of `utils.CompressFile` (with its flag `onlyGzip`), and the result
of `utils.ChecksumsForFile`. -/
structure LocalFiles where
  Create : String → Option String
  Flush : String → Option String
  CompressFile : String → Bool → Option String
  ChecksumsForFile : String → Except String ChecksumInfo

/-- The interface `pgp.Signer`, with the two methods that `Finalize` calls: the error of
signing the file named first into the file named second. -/
structure Signer where
  DetachedSign : String → String → Option String
  ClearSign : String → String → Option String

/-- An index file. `w` tells whether the writer is set (not `nil`); the `parent` is passed
to the functions that read it. -/
structure indexFile where
  discardable : Bool := false
  compressable : Bool := false
  onlyGzip : Bool := false
  clearSign : Bool := false
  detachedSign : Bool := false
  acquireByHash : Bool := false
  relativePath : String := ""
  tempFilename : String := ""
  w : Bool := false
  deriving DecidableEq, Repr

/-- The set of index files of one publication. The published storage is passed to the
functions that call it. -/
structure indexFiles where
  basePath : String := ""
  renameMap : List (String × String) := []
  generatedFiles : List (String × ChecksumInfo) := []
  tempDir : String := ""
  suffix : String := ""
  indexes : List (String × indexFile) := []
  acquireByHash : Bool := false
  skipBz2 : Bool := false
  deriving DecidableEq, Repr

/-- Outcome of `Finalize`: the error (`none` for `nil`), the index file and the set of index
files as they are left, the state of the storage and the calls made on it. -/
structure Finalized (σ : Type) where
  err : Option Failure
  file : indexFile
  files : indexFiles
  state : σ
  calls : List StorageCall

/-- BufWriter returns the index file with its writer, creating the temporary file on first
use, and the error. -/
def indexFile.BufWriter (L : LocalFiles) (files : indexFiles) (file : indexFile) :
    indexFile × Option String :=
  if file.w = false then
    let tempFilename := filepathJoin [files.tempDir, replaceSlashes file.relativePath]
    match L.Create tempFilename with
    | some err =>
      ({ file with tempFilename := tempFilename },
        some ("unable to create temporary index file: " ++ err))
    | none => ({ file with tempFilename := tempFilename, w := true }, none)
  else (file, none)

/-- The slices `exts` and `cksumExts` of `Finalize`. -/
def finalizeExts (files : indexFiles) (file : indexFile) : List String × List String :=
  let exts := [""]
  let cksumExts := exts
  if file.compressable then
    if file.onlyGzip then ([".gz"], ["", ".gz"])
    else
      let exts := exts ++ [".gz"]
      let exts := if !files.skipBz2 then exts ++ [".bz2"] else exts
      (exts, exts)
  else (exts, cksumExts)

/-- Loop of `Finalize` over `cksumExts`: the error, and `generatedFiles` as it is left. -/
def checksumLoop (L : LocalFiles) (file : indexFile) :
    List String → List (String × ChecksumInfo) → Option String × List (String × ChecksumInfo)
  | [], generatedFiles => (none, generatedFiles)
  | ext :: rest, generatedFiles =>
    match L.ChecksumsForFile (file.tempFilename ++ ext) with
    | Except.error err => (some err, generatedFiles)
    | Except.ok checksumInfo =>
      checksumLoop L file rest (mapSet generatedFiles (file.relativePath ++ ext) checksumInfo)

/-- Loop of `Finalize` that creates the directories `by-hash/<hash>`. -/
def mkDirByHash {σ : Type} (S : PublishedStorage σ) (filedir : String) :
    List String → σ → Ran σ (Option String)
  | [], st => ⟨none, st, []⟩
  | hash :: rest, st =>
    let r := S.call (StorageCall.MkDir (filepathJoin [filedir, "by-hash", hash])) st
    match r.1.err with
    | some err => ⟨some err, r.2, [StorageCall.MkDir (filepathJoin [filedir, "by-hash", hash])]⟩
    | none =>
      let t := mkDirByHash S filedir rest r.2
      ⟨t.value, t.state,
        StorageCall.MkDir (filepathJoin [filedir, "by-hash", hash]) :: t.calls⟩

/-- Block of `packageIndexByHash` entered when the old symlink exists: its target is
removed when it can be read, then the old symlink. Errors of `Remove` are dropped. -/
def removeOldLink {σ : Type} (S : PublishedStorage σ) (oldIndexPath : String) (st : σ) :
    Ran σ Unit :=
  let r := S.call (StorageCall.ReadLink oldIndexPath) st
  let t : Ran σ Unit :=
    if r.1.err = none then
      ⟨(), (S.call (StorageCall.Remove r.1.target) r.2).2, [StorageCall.Remove r.1.target]⟩
    else ⟨(), r.2, []⟩
  ⟨(), (S.call (StorageCall.Remove oldIndexPath) t.state).2,
    [StorageCall.ReadLink oldIndexPath] ++ t.calls ++ [StorageCall.Remove oldIndexPath]⟩

/-- Block of `packageIndexByHash` that backs up the symlink of a previous index file. The
errors of `FileExists` and `RenameFile` are dropped. -/
def backupLink {σ : Type} (S : PublishedStorage σ) (indexPath oldIndexPath : String)
    (st : σ) : Ran σ Unit :=
  let r1 := S.call (StorageCall.FileExists indexPath) st
  if r1.1.found then
    let r2 := S.call (StorageCall.FileExists oldIndexPath) r1.2
    let t : Ran σ Unit :=
      if r2.1.found then removeOldLink S oldIndexPath r2.2 else ⟨(), r2.2, []⟩
    ⟨(), (S.call (StorageCall.RenameFile indexPath oldIndexPath) t.state).2,
      [StorageCall.FileExists indexPath, StorageCall.FileExists oldIndexPath] ++ t.calls ++
        [StorageCall.RenameFile indexPath oldIndexPath]⟩
  else ⟨(), r1.2, [StorageCall.FileExists indexPath]⟩

/-- The function `packageIndexByHash`: the error message, or `none`. -/
def packageIndexByHash {σ : Type} (S : PublishedStorage σ) (files : indexFiles)
    (file : indexFile) (ext hash sum : String) (st : σ) : Ran σ (Option String) :=
  let src := filepathJoin [files.basePath, file.relativePath]
  let indexfile := pathBase (src ++ ext)
  let src := src ++ files.suffix ++ ext
  let filedir := filepathDir (filepathJoin [files.basePath, file.relativePath])
  let dst := filepathJoin [filedir, "by-hash", hash]
  let sumfilePath := filepathJoin [dst, sum]
  let r1 := S.call (StorageCall.FileExists sumfilePath) st
  match r1.1.err with
  | some err =>
    ⟨some ("Acquire-By-Hash: error checking exists of file " ++ sumfilePath ++ ": " ++ err),
      r1.2, [StorageCall.FileExists sumfilePath]⟩
  | none =>
    if r1.1.found then ⟨none, r1.2, [StorageCall.FileExists sumfilePath]⟩
    else
      let r2 := S.call (StorageCall.HardLink src sumfilePath) r1.2
      match r2.1.err with
      | some err =>
        ⟨some ("Acquire-By-Hash: error creating hardlink " ++ sumfilePath ++ ": " ++ err),
          r2.2, [StorageCall.FileExists sumfilePath, StorageCall.HardLink src sumfilePath]⟩
      | none =>
        let indexPath := filepathJoin [dst, indexfile]
        let oldIndexPath := filepathJoin [dst, indexfile ++ ".old"]
        let b := backupLink S indexPath oldIndexPath r2.2
        let r3 := S.call
          (StorageCall.SymLink (filepathJoin [dst, sum]) (filepathJoin [dst, indexfile]))
          b.state
        ⟨r3.1.err.map fun err =>
            "Acquire-By-Hash: error creating symlink " ++ filepathJoin [dst, indexfile] ++
              ": " ++ err,
          r3.2,
          [StorageCall.FileExists sumfilePath, StorageCall.HardLink src sumfilePath] ++
            b.calls ++
            [StorageCall.SymLink (filepathJoin [dst, sum]) (filepathJoin [dst, indexfile])]⟩

/-- The map literal of the by-hash loop of `Finalize`: hash name and sum. -/
def hashSums (sums : ChecksumInfo) : List (String × String) :=
  [("SHA512", sums.SHA512), ("SHA256", sums.SHA256), ("SHA1", sums.SHA1),
    ("MD5Sum", sums.MD5)]

/-- Loop of `Finalize` over the map literal `sums` of hash names and sums, its keys visited
in the order given. -/
def byHashLoop {σ : Type} (S : PublishedStorage σ) (files : indexFiles) (file : indexFile)
    (ext : String) (sums : List (String × String)) :
    List String → σ → Ran σ (Option String)
  | [], st => ⟨none, st, []⟩
  | hash :: rest, st =>
    match sums.lookup hash with
    | none => byHashLoop S files file ext sums rest st
    | some sum =>
      let r := packageIndexByHash S files file ext hash sum st
      match r.value with
      | some err => ⟨some err, r.state, r.calls⟩
      | none =>
        let t := byHashLoop S files file ext sums rest r.state
        ⟨t.value, t.state, r.calls ++ t.calls⟩

/-- Body of the loop of `Finalize` over `exts`: the variant `ext` is put on the storage,
entered in the rename map when there is a suffix, and linked by hash when the file asks for
it. The value is the error and the rename map as it is left; `hashOrder ext` is the order in
which the hash names are visited for the variant. -/
def uploadVariant {σ : Type} (S : PublishedStorage σ) (hashOrder : String → List String)
    (files : indexFiles) (file : indexFile) (ext : String)
    (renameMap : List (String × String)) (st : σ) :
    Ran σ (Option Failure × List (String × String)) :=
  let target := filepathJoin [files.basePath, file.relativePath ++ files.suffix ++ ext]
  let put := StorageCall.PutFile target (file.tempFilename ++ ext)
  let r := S.call put st
  match r.1.err with
  | some err => ⟨(some (Failure.error ("unable to publish file: " ++ err)), renameMap),
      r.2, [put]⟩
  | none =>
    let renameMap :=
      if files.suffix ≠ "" then
        mapSet renameMap target (filepathJoin [files.basePath, file.relativePath ++ ext])
      else renameMap
    if file.acquireByHash then
      let h := byHashLoop S files file ext
        (hashSums ((files.generatedFiles.lookup (file.relativePath ++ ext)).getD {}))
        (hashOrder ext) r.2
      match h.value with
      | some err =>
        ⟨(some (Failure.error ("unable to build hash file: " ++ err)), renameMap), h.state,
          put :: h.calls⟩
      | none => ⟨(none, renameMap), h.state, put :: h.calls⟩
    else ⟨(none, renameMap), r.2, [put]⟩

/-- Loop of `Finalize` over `exts`; it stops at the first error. -/
def uploadLoop {σ : Type} (S : PublishedStorage σ) (hashOrder : String → List String)
    (files : indexFiles) (file : indexFile) :
    List String → List (String × String) → σ →
      Ran σ (Option Failure × List (String × String))
  | [], renameMap, st => ⟨(none, renameMap), st, []⟩
  | ext :: rest, renameMap, st =>
    let r := uploadVariant S hashOrder files file ext renameMap st
    match r.value.1 with
    | some f => ⟨(some f, r.value.2), r.state, r.calls⟩
    | none =>
      let t := uploadLoop S hashOrder files file rest r.value.2 r.state
      ⟨t.value, t.state, r.calls ++ t.calls⟩

/-- Part of `Finalize` for the detached signature. -/
def signDetached {σ : Type} (S : PublishedStorage σ) (signer : Signer) (files : indexFiles)
    (file : indexFile) (renameMap : List (String × String)) (st : σ) :
    Ran σ (Option Failure × List (String × String)) :=
  let gpgExt := ".gpg"
  if file.detachedSign then
    match signer.DetachedSign file.tempFilename (file.tempFilename ++ gpgExt) with
    | some err =>
      ⟨(some (Failure.error ("unable to detached sign file: " ++ err)), renameMap), st, []⟩
    | none =>
      let target :=
        filepathJoin [files.basePath, file.relativePath ++ files.suffix ++ gpgExt]
      let renameMap :=
        if files.suffix ≠ "" then
          mapSet renameMap target
            (filepathJoin [files.basePath, file.relativePath ++ gpgExt])
        else renameMap
      let put := StorageCall.PutFile target (file.tempFilename ++ gpgExt)
      let r := S.call put st
      match r.1.err with
      | some err =>
        ⟨(some (Failure.error ("unable to publish file: " ++ err)), renameMap), r.2, [put]⟩
      | none => ⟨(none, renameMap), r.2, [put]⟩
  else ⟨(none, renameMap), st, []⟩

/-- Part of `Finalize` for the clear-signed file. -/
def signClear {σ : Type} (S : PublishedStorage σ) (signer : Signer) (files : indexFiles)
    (file : indexFile) (renameMap : List (String × String)) (st : σ) :
    Ran σ (Option Failure × List (String × String)) :=
  if file.clearSign then
    let signed :=
      filepathJoin [filepathDir file.tempFilename, "In" ++ filepathBase file.tempFilename]
    match signer.ClearSign file.tempFilename signed with
    | some err =>
      ⟨(some (Failure.error ("unable to clearsign file: " ++ err)), renameMap), st, []⟩
    | none =>
      let target :=
        filepathJoin [files.basePath, "In" ++ file.relativePath ++ files.suffix]
      let renameMap :=
        if files.suffix ≠ "" then
          mapSet renameMap target (filepathJoin [files.basePath, "In" ++ file.relativePath])
        else renameMap
      let put := StorageCall.PutFile target signed
      let r := S.call put st
      match r.1.err with
      | some err =>
        ⟨(some (Failure.error ("unable to publish file: " ++ err)), renameMap), r.2, [put]⟩
      | none => ⟨(none, renameMap), r.2, [put]⟩
  else ⟨(none, renameMap), st, []⟩

/-- Part of `Finalize` under `if signer != nil`. -/
def signFiles {σ : Type} (S : PublishedStorage σ) (signer : Option Signer)
    (files : indexFiles) (file : indexFile) (renameMap : List (String × String)) (st : σ) :
    Ran σ (Option Failure × List (String × String)) :=
  match signer with
  | none => ⟨(none, renameMap), st, []⟩
  | some sg =>
    let d := signDetached S sg files file renameMap st
    match d.value.1 with
    | some f => ⟨(some f, d.value.2), d.state, d.calls⟩
    | none =>
      let c := signClear S sg files file d.value.2 d.state
      ⟨c.value, c.state, d.calls ++ c.calls⟩

/-- Part of `Finalize` from `MkDir` on: the directories, the uploads and the signatures.
The value is the error and the rename map as it is left. -/
def publishFile {σ : Type} (S : PublishedStorage σ) (hashOrder : String → List String)
    (signer : Option Signer) (files : indexFiles) (file : indexFile) (exts : List String)
    (st : σ) : Ran σ (Option Failure × List (String × String)) :=
  let filedir := filepathDir (filepathJoin [files.basePath, file.relativePath])
  let r1 := S.call (StorageCall.MkDir filedir) st
  match r1.1.err with
  | some err =>
    ⟨(some (Failure.error ("unable to create dir: " ++ err)), files.renameMap), r1.2,
      [StorageCall.MkDir filedir]⟩
  | none =>
    let r2 : Ran σ (Option String) :=
      if file.acquireByHash then
        mkDirByHash S filedir ["MD5Sum", "SHA1", "SHA256", "SHA512"] r1.2
      else ⟨none, r1.2, []⟩
    match r2.value with
    | some err =>
      ⟨(some (Failure.error ("unable to create dir: " ++ err)), files.renameMap), r2.state,
        StorageCall.MkDir filedir :: r2.calls⟩
    | none =>
      let r3 := uploadLoop S hashOrder files file exts files.renameMap r2.state
      match r3.value.1 with
      | some f =>
        ⟨(some f, r3.value.2), r3.state, StorageCall.MkDir filedir :: (r2.calls ++ r3.calls)⟩
      | none =>
        let r4 := signFiles S signer files file r3.value.2 r3.state
        ⟨r4.value, r4.state,
          StorageCall.MkDir filedir :: (r2.calls ++ r3.calls ++ r4.calls)⟩

/-- Part of `Finalize` from `Flush` on. A writer that is still `nil`, after `BufWriter`
failed, makes `Flush` panic. -/
def finalizeWritten {σ : Type} (S : PublishedStorage σ) (L : LocalFiles)
    (hashOrder : String → List String) (signer : Option Signer) (files : indexFiles)
    (file : indexFile) (st : σ) : Finalized σ :=
  if file.w = false then
    ⟨some (Failure.panic "runtime error: invalid memory address or nil pointer dereference"),
      file, files, st, []⟩
  else
    match L.Flush file.tempFilename with
    | some err =>
      ⟨some (Failure.error ("unable to write to index file: " ++ err)), file, files, st, []⟩
    | none =>
      let compressed : Option String :=
        if file.compressable then
          L.CompressFile file.tempFilename (file.onlyGzip || files.skipBz2)
        else none
      match compressed with
      | some err =>
        ⟨some (Failure.error ("unable to compress index file: " ++ err)), file, files, st, []⟩
      | none =>
        let exts := finalizeExts files file
        let sums := checksumLoop L file exts.2 files.generatedFiles
        let files := { files with generatedFiles := sums.2 }
        match sums.1 with
        | some err =>
          ⟨some (Failure.error ("unable to collect checksums: " ++ err)), file, files, st, []⟩
        | none =>
          let r := publishFile S hashOrder signer files file exts.1 st
          ⟨r.value.1, file, { files with renameMap := r.value.2 }, r.state, r.calls⟩

/-- Finalize closes the index file, compresses it, collects its checksums and publishes it
with its signatures. A discardable file without a writer is left alone; any other file
without a writer gets one from `BufWriter`, whose error is dropped. -/
def indexFile.Finalize {σ : Type} (S : PublishedStorage σ) (L : LocalFiles)
    (hashOrder : String → List String) (signer : Option Signer) (files : indexFiles)
    (file : indexFile) (st : σ) : Finalized σ :=
  if file.w = false ∧ file.discardable = true then ⟨none, file, files, st, []⟩
  else
    finalizeWritten S L hashOrder signer files
      (if file.w = false then (file.BufWriter L files).1 else file) st

/-- The function `newIndexFiles`. -/
def newIndexFiles (basePath tempDir suffix : String) (acquireByHash skipBz2 : Bool) :
    indexFiles :=
  { basePath := basePath, renameMap := [], generatedFiles := [], tempDir := tempDir,
    suffix := suffix, indexes := [], acquireByHash := acquireByHash, skipBz2 := skipBz2 }

/-- Modelled from the spec: the constant `aptly.DistributionFocal`, the codename `focal`. -/
def DistributionFocal : String := "focal"

/-- PackageIndex returns the index file of the packages of a component and architecture,
and the set of index files with it entered. -/
def indexFiles.PackageIndex (files : indexFiles) (component arch : String)
    (udeb installer : Bool) (distribution : String) : indexFile × indexFiles :=
  let udeb := if arch = ArchitectureSource then false else udeb
  let key := "pi-" ++ component ++ "-" ++ arch ++ "-" ++ boolString udeb ++ "-" ++
    boolString installer
  match files.indexes.lookup key with
  | some file => (file, files)
  | none =>
    let relativePath :=
      if arch = ArchitectureSource then filepathJoin [component, "source", "Sources"]
      else if udeb then
        filepathJoin [component, "debian-installer", "binary-" ++ arch, "Packages"]
      else if installer then
        if distribution = DistributionFocal then
          filepathJoin [component, "installer-" ++ arch, "current", "legacy-images",
            "SHA256SUMS"]
        else
          filepathJoin [component, "installer-" ++ arch, "current", "images", "SHA256SUMS"]
      else filepathJoin [component, "binary-" ++ arch, "Packages"]
    let file : indexFile :=
      { discardable := false, compressable := !installer, detachedSign := installer,
        clearSign := false, acquireByHash := files.acquireByHash,
        relativePath := relativePath }
    (file, { files with indexes := mapSet files.indexes key file })

/-- ReleaseIndex returns the index file of the `Release` file of a component and
architecture, and the set of index files with it entered. -/
def indexFiles.ReleaseIndex (files : indexFiles) (component arch : String) (udeb : Bool) :
    indexFile × indexFiles :=
  let udeb := if arch = ArchitectureSource then false else udeb
  let key := "ri-" ++ component ++ "-" ++ arch ++ "-" ++ boolString udeb
  match files.indexes.lookup key with
  | some file => (file, files)
  | none =>
    let relativePath :=
      if arch = ArchitectureSource then filepathJoin [component, "source", "Release"]
      else if udeb then
        filepathJoin [component, "debian-installer", "binary-" ++ arch, "Release"]
      else filepathJoin [component, "binary-" ++ arch, "Release"]
    let file : indexFile :=
      { discardable := udeb, compressable := false, detachedSign := false,
        clearSign := false, acquireByHash := files.acquireByHash,
        relativePath := relativePath }
    (file, { files with indexes := mapSet files.indexes key file })

/-- ContentsIndex returns the index file of the contents of a component and architecture,
and the set of index files with it entered. -/
def indexFiles.ContentsIndex (files : indexFiles) (component arch : String) (udeb : Bool) :
    indexFile × indexFiles :=
  let udeb := if arch = ArchitectureSource then false else udeb
  let key := "ci-" ++ component ++ "-" ++ arch ++ "-" ++ boolString udeb
  match files.indexes.lookup key with
  | some file => (file, files)
  | none =>
    let relativePath :=
      if udeb then filepathJoin [component, "Contents-udeb-" ++ arch]
      else filepathJoin [component, "Contents-" ++ arch]
    let file : indexFile :=
      { discardable := true, compressable := true, onlyGzip := true, detachedSign := false,
        clearSign := false, acquireByHash := files.acquireByHash,
        relativePath := relativePath }
    (file, { files with indexes := mapSet files.indexes key file })

/-- LegacyContentsIndex returns the index file of the contents of an architecture at the
top of the distribution, and the set of index files with it entered. -/
def indexFiles.LegacyContentsIndex (files : indexFiles) (arch : String) (udeb : Bool) :
    indexFile × indexFiles :=
  let udeb := if arch = ArchitectureSource then false else udeb
  let key := "lci-" ++ arch ++ "-" ++ boolString udeb
  match files.indexes.lookup key with
  | some file => (file, files)
  | none =>
    let relativePath := if udeb then "Contents-udeb-" ++ arch else "Contents-" ++ arch
    let file : indexFile :=
      { discardable := true, compressable := true, onlyGzip := true, detachedSign := false,
        clearSign := false, acquireByHash := files.acquireByHash,
        relativePath := relativePath }
    (file, { files with indexes := mapSet files.indexes key file })

/-- SkelIndex returns the index file of a file of the skeleton, and the set of index files
with it entered. -/
def indexFiles.SkelIndex (files : indexFiles) (component path : String) :
    indexFile × indexFiles :=
  let key := "si-" ++ component ++ "-" ++ path
  match files.indexes.lookup key with
  | some file => (file, files)
  | none =>
    let file : indexFile :=
      { discardable := false, compressable := false, onlyGzip := false,
        relativePath := filepathJoin [component, path] }
    (file, { files with indexes := mapSet files.indexes key file })

/-- ReleaseFile returns the index file of the top-level `Release` file. -/
def indexFiles.ReleaseFile (_files : indexFiles) : indexFile :=
  { discardable := false, compressable := false, detachedSign := true, clearSign := true,
    relativePath := "Release" }

/-- Loop of `FinalizeAll` over the index files, the keys of `indexes` visited in the order
given: it stops at the first error. `hashOrder` gives, for the key of an index file, the
orders in which its by-hash loops visit the hash names. An index file is a pointer in Go:
what `Finalize` changes in it is stored back. -/
def finalizeAllLoop {σ : Type} (S : PublishedStorage σ) (L : LocalFiles)
    (hashOrder : String → String → List String) (signer : Option Signer) :
    List String → indexFiles → σ → Ran σ (Option Failure × indexFiles)
  | [], files, st => ⟨(none, files), st, []⟩
  | key :: rest, files, st =>
    match files.indexes.lookup key with
    | none => finalizeAllLoop S L hashOrder signer rest files st
    | some file =>
      let r := file.Finalize S L (hashOrder key) signer files st
      let files := { r.files with indexes := mapSet r.files.indexes key r.file }
      match r.err with
      | some f => ⟨(some f, files), r.state, r.calls⟩
      | none =>
        let t := finalizeAllLoop S L hashOrder signer rest files r.state
        ⟨t.value, t.state, r.calls ++ t.calls⟩

/-- FinalizeAll finalizes every index file of the set and empties the set (progress
reporting left out). -/
def indexFiles.FinalizeAll {σ : Type} (S : PublishedStorage σ) (L : LocalFiles)
    (order : List String) (hashOrder : String → String → List String)
    (signer : Option Signer) (files : indexFiles) (st : σ) :
    Ran σ (Option Failure × indexFiles) :=
  let r := finalizeAllLoop S L hashOrder signer order files st
  match r.value.1 with
  | some f => ⟨(some f, r.value.2), r.state, r.calls⟩
  | none => ⟨(none, { r.value.2 with indexes := [] }), r.state, r.calls⟩

/-- Loop of `RenameFiles` over the rename map, its keys visited in the order given. -/
def renameLoop {σ : Type} (S : PublishedStorage σ) (renameMap : List (String × String)) :
    List String → σ → Ran σ (Option Failure)
  | [], st => ⟨none, st, []⟩
  | oldName :: rest, st =>
    match renameMap.lookup oldName with
    | none => renameLoop S renameMap rest st
    | some newName =>
      let r := S.call (StorageCall.RenameFile oldName newName) st
      match r.1.err with
      | some err =>
        ⟨some (Failure.error ("unable to rename: " ++ err)), r.2,
          [StorageCall.RenameFile oldName newName]⟩
      | none =>
        let t := renameLoop S renameMap rest r.2
        ⟨t.value, t.state, StorageCall.RenameFile oldName newName :: t.calls⟩

/-- RenameFiles renames every file of the rename map, in the order in which the map is
ranged over. -/
def indexFiles.RenameFiles {σ : Type} (S : PublishedStorage σ) (order : List String)
    (files : indexFiles) (st : σ) : Ran σ (Option Failure) :=
  renameLoop S files.renameMap order st

/-! ## Fields of a package (`deb/package.go`) and fatal errors (`context/context.go`) -/

/-- The call `strings.Index(s, "(")`: the characters before the first `c`, or `none` when
there is no `c` (Go's `-1`). -/
def beforeFirst (c : Char) (s : List Char) : Option (List Char) :=
  if c ∈ s then some (s.takeWhile fun x => x ≠ c) else none

/-- The slice `source[pos+1 : pos2]` for `pos` the index of the first `(` and `pos2` the
index of the last `)`: `none` unless both are there and `pos2 > pos`. -/
def betweenParens (s : List Char) : Option (List Char) :=
  if '(' ∈ s then
    let rest := (s.dropWhile fun x => x ≠ '(').drop 1
    if ')' ∈ rest then
      some (((rest.reverse.dropWhile fun x => x ≠ ')').drop 1).reverse)
    else none
  else none

/-- GetField returns fields from package: the cases `$Source` and `$SourceVersion`. -/
def Package.GetFieldSource (p : Package) : String :=
  if p.IsSource then ""
  else if p.Source = "" then p.Name
  else
    match beforeFirst '(' p.Source.data with
    | some name => String.mk (stringsTrimSpace name)
    | none => p.Source

/-- GetField returns fields from package: the case `$SourceVersion`. -/
def Package.GetFieldSourceVersion (p : Package) : String :=
  if p.IsSource then ""
  else
    match betweenParens p.Source.data with
    | some version => String.mk (stringsTrimSpace version)
    | none => p.Version

/-- FatalError is type for panicking to abort execution with non-zero exit code and print
meaningful explanation. -/
structure FatalError where
  ReturnCode : Int
  Message : String
  deriving DecidableEq, Repr

/-- Fatal panics and aborts execution: the value it panics with. The errors are values of a
type `ε` with their text `Error` and the two errors `ErrFlagError` and `ErrCommandError` of
the package `commander`; `==` on errors is equality of the values. -/
def Fatal {ε : Type} [DecidableEq ε] (Error : ε → String) (ErrFlagError ErrCommandError : ε)
    (err : ε) : Except FatalError Unit :=
  let returnCode : Int := 1
  let returnCode := if err = ErrFlagError ∨ err = ErrCommandError then 2 else returnCode
  Except.error { ReturnCode := returnCode, Message := Error err }

/-! ## Models of `deb/version.go`

`deb/version.go` is not among the sources at hand. The functions below follow the
specification (section 4.1); they give the concrete instances at which the statements about
the catalogue are evaluated. -/

/-- Go's `strings.TrimSpace` on a list of characters. -/
def trimSpace (cs : List Char) : List Char :=
  ((cs.dropWhile Char.isWhitespace).reverse.dropWhile Char.isWhitespace).reverse

/-- Modelled from the spec: part of `CompareVersions` (`deb/version.go`). Rank of a non-digit
character: `~` before everything, letters before all other non-digits. -/
def charOrder (c : Char) : Int :=
  if c = '~' then -1 else if c.isAlpha then (c.toNat : Int) else (c.toNat : Int) + 256

/-- Modelled from the spec: part of `CompareVersions` (`deb/version.go`). Comparison of two
non-digit runs; `~` sorts before the end of the run. -/
def compareLexicographic : List Char → List Char → Int
  | [], [] => 0
  | [], c :: _ => if c = '~' then 1 else -1
  | c :: _, [] => if c = '~' then -1 else 1
  | a :: as, b :: bs =>
    if a = b then compareLexicographic as bs
    else if charOrder a < charOrder b then -1 else 1

/-- Modelled from the spec: part of `CompareVersions` (`deb/version.go`). Value of a digit run
(leading zeros ignored, the empty run is zero). -/
def digitsValue (ds : List Char) : Nat :=
  ds.foldl (fun n c => 10 * n + (c.toNat - '0'.toNat)) 0

/-- Modelled from the spec: part of `CompareVersions` (`deb/version.go`). Comparison of one part
of a version: repeatedly a non-digit run, then a digit run. `fuel` bounds the number of rounds; the total length of the two parts plus one suffices. -/
def compareVersionPart : Nat → List Char → List Char → Int
  | 0, _, _ => 0
  | fuel + 1, part1, part2 =>
    let r := compareLexicographic (part1.takeWhile fun c => !c.isDigit)
      (part2.takeWhile fun c => !c.isDigit)
    if r ≠ 0 then r
    else
      let rest1 := part1.dropWhile fun c => !c.isDigit
      let rest2 := part2.dropWhile fun c => !c.isDigit
      let n1 := digitsValue (rest1.takeWhile Char.isDigit)
      let n2 := digitsValue (rest2.takeWhile Char.isDigit)
      if n1 < n2 then -1
      else if n2 < n1 then 1
      else
        let tail1 := rest1.dropWhile Char.isDigit
        let tail2 := rest2.dropWhile Char.isDigit
        if tail1 = [] ∧ tail2 = [] then 0 else compareVersionPart fuel tail1 tail2

/-- Characters before the first `c`, and those after it; `none` without a `c`. -/
def splitFirst (c : Char) : List Char → Option (List Char × List Char)
  | [] => none
  | x :: xs =>
    if x = c then some ([], xs)
    else match splitFirst c xs with
      | some (a, b) => some (x :: a, b)
      | none => none

/-- Characters before the last `c`, and those after it; `none` without a `c`. -/
def splitLast (c : Char) (cs : List Char) : Option (List Char × List Char) :=
  match splitFirst c cs.reverse with
  | some (a, b) => some (b.reverse, a.reverse)
  | none => none

/-- Modelled from the spec: part of `CompareVersions` (`deb/version.go`). Split of a version
into epoch, upstream part and debian revision (each possibly empty): the revision follows the last `-`, the epoch precedes the first `:`. -/
def parseVersion (ver : List Char) : List Char × List Char × List Char :=
  let (ver1, debian) := match splitLast '-' ver with
    | some (a, b) => (a, b)
    | none => (ver, [])
  match splitFirst ':' ver1 with
  | some (epoch, upstream) => (epoch, upstream, debian)
  | none => ([], ver1, debian)

/-- Modelled from the spec: `CompareVersions` of `deb/version.go`, which is not among the
sources. Debian version comparison: epoch, upstream part and revision are compared in turn,
each by alternating non-digit and digit runs; a missing epoch equals `0` and a missing
revision is empty. The result is `-1`, `0` or `1`. -/
def CompareVersions (ver1 ver2 : String) : Int :=
  let (e1, u1, d1) := parseVersion ver1.data
  let (e2, u2, d2) := parseVersion ver2.data
  let r := compareVersionPart (e1.length + e2.length + 1) e1 e2
  if r ≠ 0 then r
  else
    let r := compareVersionPart (u1.length + u2.length + 1) u1 u2
    if r ≠ 0 then r
    else compareVersionPart (d1.length + d2.length + 1) d1 d2

/-- Modelled from the spec: part of `ParseDependency` (`deb/version.go`). Relation and version
text of the parenthesised part of a dependency. -/
def parseRelation (body : List Char) : String × List Char :=
  match body with
  | c1 :: c2 :: rest =>
    if c1 = '>' ∨ c1 = '<' ∨ c1 = '=' then
      if c2 = '>' ∨ c2 = '<' ∨ c2 = '=' then (String.mk [c1, c2], rest)
      else (String.mk [c1], c2 :: rest)
    else ("", body)
  | [c1] => if c1 = '>' ∨ c1 = '<' ∨ c1 = '=' then (String.mk [c1], []) else ("", body)
  | [] => ("", [])

/-- Modelled from the spec: `ParseDependency` of `deb/version.go`, which is not among the
sources. Grammar `name[:arch] [(rel version)]` with `rel` one of `<<`, `<=`, `=`, `>=`, `>>`,
the legacy `<` and `>` standing for `<<` and `>>`; a trailing architecture in braces is the
form `GetDependencies` writes. The function returns the fields it has filled in together with
the error, as a Go function with a named result does. -/
def ParseDependency (s : String) : Dependency × Option String :=
  let failure := some ("unable to parse dependency: " ++ s)
  let braces : Option (String × List Char) :=
    if s.data.getLast? = some '\x7d' then
      match splitLast '\x7b' s.data.dropLast with
      | some (a, b) => some (String.mk b, trimSpace a)
      | none => none
    else some ("", s.data)
  match braces with
  | none => ({}, failure)
  | some (arch, dep) =>
    let named (d : Dependency) (name : List Char) : Dependency :=
      match splitFirst ':' name with
      | some (a, b) => { d with Pkg := String.mk a, Architecture := String.mk b }
      | none => { d with Pkg := String.mk name }
    if dep.getLast? ≠ some ')' then
      (named { Architecture := arch } (trimSpace dep), none)
    else
      match splitFirst '(' dep with
      | none => ({ Architecture := arch }, failure)
      | some (name, rest) =>
        let d := named { Architecture := arch } (trimSpace name)
        let (rel, ver) := parseRelation rest.dropLast
        let d := { d with Version := String.mk (trimSpace ver) }
        if rel = "<<" ∨ rel = "<" then ({ d with Relation := VersionLess }, none)
        else if rel = "<=" then ({ d with Relation := VersionLessOrEqual }, none)
        else if rel = ">>" ∨ rel = ">" then ({ d with Relation := VersionGreater }, none)
        else if rel = ">=" then ({ d with Relation := VersionGreaterOrEqual }, none)
        else if rel = "" ∨ rel = "=" then ({ d with Relation := VersionEqual }, none)
        else (d, some ("relation unknown " ++ rel ++ " in dependency " ++ s))

/-- Pieces of a list of characters between the occurrences of `c`. -/
def splitAll (c : Char) : List Char → List (List Char)
  | [] => [[]]
  | x :: xs =>
    match splitAll c xs with
    | [] => [[]]
    | piece :: pieces => if x = c then [] :: piece :: pieces else (x :: piece) :: pieces

/-- Modelled from the spec: part of `ParseDependencyVariants` (`deb/version.go`). Parse of the
alternatives of a dependency line, in turn; the first error ends it. -/
def parseVariants : List (List Char) → Except String (List Dependency)
  | [] => Except.ok []
  | part :: rest =>
    match ParseDependency (String.mk (trimSpace part)) with
    | (_, some err) => Except.error err
    | (d, none) =>
      match parseVariants rest with
      | Except.error err => Except.error err
      | Except.ok ds => Except.ok (d :: ds)

/-- Modelled from the spec: `ParseDependencyVariants` of `deb/version.go`, which is not among
the sources. The alternatives of a line are separated by `|` and each is parsed as a
dependency. -/
def ParseDependencyVariants (variants : String) : Except String (List Dependency) :=
  parseVariants (splitAll '|' variants.data)

/-- Modelled from the spec: part of `Dependency.Hash` (`deb/version.go`). Number of a relation,
in the order in which the constants are declared. -/
def relationCode : VersionRelation → String
  | VersionDontCare => "0"
  | VersionLess => "1"
  | VersionLessOrEqual => "2"
  | VersionEqual => "3"
  | VersionGreaterOrEqual => "4"
  | VersionGreater => "5"
  | VersionPatternMatch => "6"
  | VersionRegexp => "7"

/-- Modelled from the spec: `Dependency.Hash` of `deb/version.go`, which is not among the
sources; the results of `VerifyDependencies` are deduplicated by it. Architecture, name,
relation and version are written one after the other, separated by colons. -/
def DependencyHash (d : Dependency) : String :=
  d.Architecture ++ ":" ++ d.Pkg ++ ":" ++ relationCode d.Relation ++ ":" ++ d.Version

/-- Modelled from the spec: the functions of `deb/version.go` as modelled above, taken
together; glob and regular-expression matching are not exercised at the instances that use
it. -/
def debExternals : Externals where
  CompareVersions := CompareVersions
  ParseDependency := ParseDependency
  ParseDependencyVariants := ParseDependencyVariants
  Hash := DependencyHash
  filepathMatch := fun _ _ => none
  regexpFind := fun _ _ => false

/-- Modelled from the spec: the `Query` of a dependency query (`deb/query.go` is not among the
sources), which uses `Search`: the packages found for the dependency, added to a new list. -/
def DependencyQuery (dep : Dependency) (l : PackageList) : PackageList :=
  match l.Search debExternals dep true true with
  | Except.ok found => found.foldl (fun r p => (r.Add debExternals p).1) NewPackageList
  | Except.error _ => NewPackageList

/-! ## A local published storage

The backends of the published storage are not among the sources at hand. The model below
follows the contract of the storage and the tests of the local backend
(`files/public_test.go`); it serves as the storage of the examples. -/

/-- Modelled from the spec: what a path of the local published storage holds, a file with
the name of the local file it was put from, or a symlink with its target. -/
inductive StoredEntry where
  | file (source : String)
  | link (target : String)
  deriving DecidableEq, Repr

/-- Modelled from the spec: the local published storage of section 4.5, as its tests use it.
`MkDir` succeeds; `PutFile` writes the file, over an existing one; `FileExists` tells
whether the path is there; `HardLink` gives the destination what the source holds and fails
when the source is missing or the destination exists; `SymLink` stores the source as the
target of the destination, and `ReadLink` returns it, failing on a path that is not a
symlink; `Remove` deletes a path that exists; `RenameFile` moves a path that exists, over
the new name. -/
def localStorage : PublishedStorage (List (String × StoredEntry)) where
  call c fs :=
    match c with
    | StorageCall.MkDir _ => ({}, fs)
    | StorageCall.PutFile path source => ({}, mapSet fs path (StoredEntry.file source))
    | StorageCall.FileExists path => ({ found := (fs.lookup path).isSome }, fs)
    | StorageCall.HardLink src dst =>
      match fs.lookup src, fs.lookup dst with
      | some e, none => ({}, mapSet fs dst e)
      | some _, some _ => ({ err := some "link: file exists" }, fs)
      | none, _ => ({ err := some "link: no such file or directory" }, fs)
    | StorageCall.ReadLink path =>
      match fs.lookup path with
      | some (StoredEntry.link target) => ({ target := target }, fs)
      | some (StoredEntry.file _) => ({ err := some "readlink: invalid argument" }, fs)
      | none => ({ err := some "readlink: no such file or directory" }, fs)
    | StorageCall.Remove path =>
      if (fs.lookup path).isSome then ({}, mapDelete fs path)
      else ({ err := some "remove: no such file or directory" }, fs)
    | StorageCall.RenameFile oldName newName =>
      match fs.lookup oldName with
      | some e => ({}, mapSet (mapDelete fs oldName) newName e)
      | none => ({ err := some "rename: no such file or directory" }, fs)
    | StorageCall.SymLink src dst =>
      if (fs.lookup dst).isSome then ({ err := some "symlink: file exists" }, fs)
      else ({}, mapSet fs dst (StoredEntry.link src))

/-- Modelled from the spec: the two verification methods of the local published storage of
section 4.5, full checksum and size only (`files/public.go` is not among the sources; the
names are those of `files/public_test.go`). -/
inductive VerificationMethod where
  | VerificationMethodChecksum
  | VerificationMethodFileSize
  deriving DecidableEq, Repr

/-- Modelled from the spec: the comparison of an existing target with the pool file per the
verification method of the backend (section 4.5; the backends are not among the sources):
by the checksums, which stand for the bytes, or by the size only. -/
def verifiedEqual (verifyMethod : VerificationMethod) (target poolFile : List Nat) : Bool :=
  match verifyMethod with
  | VerificationMethod.VerificationMethodChecksum => decide (target = poolFile)
  | VerificationMethod.VerificationMethodFileSize => decide (target.length = poolFile.length)

/-- Modelled from the spec: `LinkFromPool` of a published storage (section 4.5; the
backends, `files/public.go` and the object stores, are not among the sources). It places
the pool file into the published tree under `publishPrefix/publishRelDir/fileName`; if the
target exists, it compares per the verification method of the backend; if equal, it does
nothing; if different and not `force`, it fails with `file already exists and is different`;
if different and `force`, it overwrites. The storage and the pool are maps from paths to the
bytes of the files; the result is the storage and the error. -/
def LinkFromPool (verifyMethod : VerificationMethod) (storage : List (String × List Nat))
    (publishPrefix publishRelDir fileName : String) (pool : List (String × List Nat))
    (sourcePoolPath : String) (force : Bool) : List (String × List Nat) × Option String :=
  let target := filepathJoin [publishPrefix, publishRelDir, fileName]
  match pool.lookup sourcePoolPath with
  | none => (storage, some ("error getting information about pool file " ++ sourcePoolPath))
  | some poolFile =>
    match storage.lookup target with
    | none => (mapSet storage target poolFile, none)
    | some existing =>
      if verifiedEqual verifyMethod existing poolFile then (storage, none)
      else if !force then
        (storage, some ("error linking file to " ++ target ++
          ": file already exists and is different"))
      else (mapSet storage target poolFile, none)

/-! ## Predicates of the statements, and the lists they are evaluated at -/

/-- A `Provides` entry `s` of `p` provides `dep`: the value parsed from it carries the name
`dep.Pkg` with relation `=` or none, and the provided version (the version of `p` when the
entry has none) satisfies `dep`. -/
def providesEntry (E : Externals) (p : Package) (dep : Dependency) (s : String) : Prop :=
  ((E.ParseDependency s).1.Relation = VersionEqual ∨
      (E.ParseDependency s).1.Relation = VersionDontCare) ∧
    (E.ParseDependency s).1.Pkg = dep.Pkg ∧
    versionSatisfiesDependency E
      (if (E.ParseDependency s).1.Version = "" then p.Version else (E.ParseDependency s).1.Version)
      dep = true

/-- The sign table of the specification for the six ordering relations; the two matching
relations (glob and regular expression) have no row in it. -/
def signFitsRelation (rel : VersionRelation) (r : Int) : Prop :=
  match rel with
  | VersionEqual => r = 0
  | VersionLess => r < 0
  | VersionGreater => r > 0
  | VersionLessOrEqual => r ≤ 0
  | VersionGreaterOrEqual => r ≥ 0
  | VersionDontCare => True
  | VersionPatternMatch => False
  | VersionRegexp => False

/-- The package of the test "Provides with version number" in `list_test.go`. -/
def python3CFFIBackend : Package :=
  { Name := "python3-cffi-backend", Version := "1.15.1-5+b1", Architecture := "amd64",
    Provides := ["python3-cffi-backend-api-9729", "python3-cffi-backend-api-max (= 10495)",
      "python3-cffi-backend-api-min (= 9729)"] }

/-- Dependency `python3-cffi-backend-api-max (>= 9729)` of the same test. -/
def depApiMaxGe : Dependency :=
  { Pkg := "python3-cffi-backend-api-max", Relation := VersionGreaterOrEqual, Version := "9729" }

/-- Dependency `python3-cffi-backend-api-max (<< 9729)` of the same test. -/
def depApiMaxLt : Dependency :=
  { Pkg := "python3-cffi-backend-api-max", Relation := VersionLess, Version := "9729" }

/-- Package `app 1.1~bp1 i386` of `list_test.go`. -/
def pkgApp : Package := { Name := "app", Version := "1.1~bp1", Architecture := "i386" }

/-- Dependency `app (<< 1.1)` on `i386` of `TestSearch`. -/
def depAppLt : Dependency :=
  { Architecture := "i386", Pkg := "app", Relation := VersionLess, Version := "1.1" }

/-- Package `app 1.1~bp1 i386` with another files hash. -/
def pkgAppOther : Package := { pkgApp with FilesHash := 2 }

/-- List without duplicates that holds `pkgApp`. -/
def listApp : PackageList := (NewPackageList.Add debExternals pkgApp).1

/-- Provider of `mail-agent` in version 1. -/
def pkgPostfix : Package :=
  { Name := "postfix", Version := "1.0", Architecture := "amd64",
    Provides := ["mail-agent (= 1)"] }

/-- Provider of `mail-agent` in version 2. -/
def pkgSendmail : Package :=
  { Name := "sendmail", Version := "1.0", Architecture := "amd64",
    Provides := ["mail-agent (= 2)"] }

/-- Indexed list that holds the two providers of `mail-agent`: `Add` of the one, `Add` of the
other, `PrepareIndex`. -/
def listMailAgents (E : Externals) : PackageList :=
  (((NewPackageList.Add E pkgPostfix).1.Add E pkgSendmail).1).PrepareIndex E

/-- Reading of the entry `mail-agent (= 1)`. -/
def provMailAgentOne : Dependency :=
  { Pkg := "mail-agent", Relation := VersionEqual, Version := "1" }

/-- Reading of the entry `mail-agent (= 2)`. -/
def provMailAgentTwo : Dependency :=
  { Pkg := "mail-agent", Relation := VersionEqual, Version := "2" }

/-- Dependency `mail-agent (>= 2)`. -/
def depMailAgentGe2 : Dependency :=
  { Pkg := "mail-agent", Relation := VersionGreaterOrEqual, Version := "2" }

/-- The comparison `cmp` is a total preorder presented by its sign: values `-1`, `0`, `1`,
zero on equal arguments, sign reversed when the arguments are exchanged, transitive. -/
structure IsTotalPreorder (cmp : String → String → Int) : Prop where
  range : ∀ a b, cmp a b = -1 ∨ cmp a b = 0 ∨ cmp a b = 1
  refl : ∀ a, cmp a a = 0
  antisymm : ∀ a b, cmp a b = - cmp b a
  trans : ∀ a b c, cmp a b ≤ 0 → cmp b c ≤ 0 → cmp a c ≤ 0

/-- The order of the sorted vector: `b` may follow `a` when `b` does not compare less than
`a`. -/
def notAfter (E : Externals) (a b : Package) : Prop := lessPackages E b a = false

instance (E : Externals) : DecidableRel (notAfter E) := fun a b =>
  inferInstanceAs (Decidable (lessPackages E b a = false))

/-- The sorted vector is in order: no element compares less than an element before it. -/
def SortedIndex (E : Externals) (xs : List Package) : Prop :=
  xs.Pairwise (notAfter E)

/-- A call on a package list: `Add(p)` or `Remove(p)`. -/
inductive Op where
  | Add (p : Package)
  | Remove (p : Package)
  deriving DecidableEq, Repr

/-- The list after one call. -/
def applyOp (E : Externals) (l : PackageList) : Op → PackageList
  | Op.Add p => (l.Add E p).1
  | Op.Remove p => l.Remove E p

/-- The list after a sequence of calls. -/
def runOps (E : Externals) (l : PackageList) (ops : List Op) : PackageList :=
  ops.foldl (applyOp E) l

/-- Comparison by a numeric key: `-1`, `0` or `1` as the key of the first argument is below,
equal to or above the key of the second. -/
def compareByKey (key : String → Nat) (a b : String) : Int :=
  if key a < key b then -1 else if key b < key a then 1 else 0

/-- Externals for versions that are plain decimal numbers, compared by value (on such
versions the Debian comparison is this one). -/
def plainExternals : Externals :=
  { debExternals with CompareVersions := compareByKey fun v => digitsValue v.data }

/-- Unindexed list that holds `lib 2`, `app 1` and `app 3`. -/
def listPlain : PackageList :=
  { packages := [
      ("Pi386 lib 2", { Name := "lib", Version := "2", Architecture := "i386" }),
      ("Pi386 app 1", { Name := "app", Version := "1", Architecture := "i386" }),
      ("Pi386 app 3", { Name := "app", Version := "3", Architecture := "i386" })] }

/-- Calls on `listPlain`: add `app 2`, remove `lib 2`. -/
def opsPlain : List Op :=
  [Op.Add { Name := "app", Version := "2", Architecture := "i386" },
   Op.Remove { Name := "lib", Version := "2", Architecture := "i386" }]

/-- The value of `Search` on an indexed list. -/
def searchIndexed (E : Externals) (l : PackageList) (dep : Dependency)
    (allMatches searchProvided : Bool) : List Package :=
  let r := searchNameRun E dep allMatches
    (l.packagesIndex.drop (sortSearch l.packagesIndex.length
      (atIndex l.packagesIndex fun q => !strLt q.Name dep.Pkg))) []
  if r.2 then r.1
  else if searchProvided then
    searchProviders E dep allMatches (mapGetD l.providesIndex dep.Pkg) r.1
  else r.1

/-- The "sorted vector and provides index agree with the contents" of an indexed list: the
vector is sorted and holds the packages of the map, and the entry of the provides index for
a name holds the packages of the map that provide the name. -/
structure IndexConsistent (E : Externals) (l : PackageList) : Prop where
  indexed : l.indexed = true
  sorted : SortedIndex E l.packagesIndex
  index_mem : ∀ p, p ∈ l.packagesIndex ↔ p ∈ l.packages.map Prod.snd
  provides_mem : ∀ n p, p ∈ mapGetD l.providesIndex n ↔
    (p ∈ l.packages.map Prod.snd ∧ n ∈ p.ProvidedPackages E)

/-- Every `Provides` entry of every package of the list is accepted by the parser. -/
def AcceptedProvides (E : Externals) (l : PackageList) : Prop :=
  ∀ p ∈ l.packages.map Prod.snd, ∀ s ∈ p.Provides, (E.ParseDependency s).2 = none

/-- Some package with key `k` was added by a successful `Add` of the sequence `ops`, run from
`l`, and no package with key `k` was removed by a later `Remove`. -/
def AddedAndKept (E : Externals) (l : PackageList) (ops : List Op) (k : String) : Prop :=
  ∃ pre q post, ops = pre ++ Op.Add q :: post ∧ l.keyFunc q = k ∧
    ((runOps E l pre).Add E q).2 = none ∧ ∀ r, Op.Remove r ∈ post → l.keyFunc r ≠ k

/-- Package whose only `Provides` entry carries a relation the parser does not know. -/
def pkgBar : Package :=
  { Name := "bar", Version := "1.0", Architecture := "amd64", Provides := ["foo (<> 1)"] }

/-- Indexed list that holds `pkgBar`: `Add`, then `PrepareIndex`. -/
def listBar (E : Externals) : PackageList :=
  ((NewPackageList.Add E pkgBar).1).PrepareIndex E

/-- Fields that are filled in when the entry `foo (<> 1)` is rejected for its relation. -/
def readFooRejected : Dependency := { Pkg := "foo", Version := "1" }

/-- Dependency `foo`. -/
def depFoo : Dependency := { Pkg := "foo" }

/-- Package `mailer 3.5.8 i386` of `list_test.go`, a provider of `mail-agent`. -/
def pkgMailer : Package :=
  { Name := "mailer", Version := "3.5.8", Architecture := "i386", Source := "postfix (1.3)",
    Provides := ["mail-agent"] }

/-- Package `mailer 3.5.8 i386` with another files hash. -/
def pkgMailerOther : Package := { pkgMailer with FilesHash := 7 }

/-- Some package of the sorted vector of `ds`, or of its providers of `d.Pkg`, satisfies
`d`. -/
def SatisfiedIn (E : Externals) (ds : PackageList) (d : Dependency) : Prop :=
  ∃ x, (x ∈ ds.packagesIndex ∨ x ∈ mapGetD ds.providesIndex d.Pkg) ∧
    x.MatchesDependency E d = true

/-- The hash tells the dependencies of `D` apart. -/
def HashInjectiveOn (E : Externals) (D : Dependency → Prop) : Prop :=
  ∀ d1 d2, D d1 → D d2 → E.Hash d1 = E.Hash d2 → d1 = d2

/-- Every dependency of `D` whose hash is cached as satisfied is satisfied in `ds`. -/
def CacheSound (E : Externals) (ds : PackageList) (D : Dependency → Prop)
    (cache : List (String × Bool)) : Prop :=
  ∀ d, D d → cache.lookup (E.Hash d) = some true → SatisfiedIn E ds d

/-- The dependency line, examined for `arch`, parses and is either cleared by `ds` (one of
its variants is satisfied there) or has every variant among `missing`. -/
def LineSettled (E : Externals) (ds : PackageList) (arch : String) (line : String)
    (missing : List Dependency) : Prop :=
  ∃ variants, E.ParseDependencyVariants line = Except.ok variants ∧
    ((∃ v ∈ variants, SatisfiedIn E ds (forArchitecture arch v)) ∨
      (∀ v ∈ variants, forArchitecture arch v ∈ missing))

/-- The variants of the dependency line, as parsed and with the architecture `arch` filled
in, all belong to `D`. -/
def LineIn (E : Externals) (D : Dependency → Prop) (arch : String) (line : String) : Prop :=
  ∀ variants, E.ParseDependencyVariants line = Except.ok variants →
    ∀ v ∈ variants, D v ∧ D (forArchitecture arch v)

/-- What the dependency loop of `Filter` keeps true of its state, for a list `l` and the
packages `S` of the external source: the result is an indexed list without duplicates whose
entries are entries of `l`, its sorted vector holds its packages and its provides index only
its packages; the vector and the provides index of the dependency source hold only packages
of `S` or of the result. -/
structure FilterInv (l : PackageList) (S : List Package) (st : FilterState) : Prop where
  r_indexed : st.result.indexed = true
  r_short : st.result.duplicatesAllowed = false
  r_entries : ∀ k p, st.result.packages.lookup k = some p → l.packages.lookup k = some p
  r_sub : ∀ p ∈ st.result.packages.map Prod.snd, p ∈ l.packages.map Prod.snd
  r_index : ∀ p, p ∈ st.result.packagesIndex ↔ p ∈ st.result.packages.map Prod.snd
  r_provides : ∀ n x, x ∈ mapGetD st.result.providesIndex n →
    x ∈ st.result.packages.map Prod.snd
  d_indexed : st.dependencySource.indexed = true
  d_index : ∀ x ∈ st.dependencySource.packagesIndex,
    x ∈ S ∨ x ∈ st.result.packages.map Prod.snd
  d_provides : ∀ n x, x ∈ mapGetD st.dependencySource.providesIndex n →
    x ∈ S ∨ x ∈ st.result.packages.map Prod.snd

/-- Every package of `l` is stored under its short key. -/
def ShortKeyed (l : PackageList) : Prop :=
  ∀ p ∈ l.packages.map Prod.snd, l.packages.lookup (packageShortKey p) = some p

/-- Packages of the external source of the options (`options.Source`). -/
def sourcePackages (options : FilterOptions) : List Package :=
  match options.Source with
  | some source => source.packages.map Prod.snd
  | none => []

/-- The list `R` is dependency-closed relative to `l`: for every package of `R` that matches
one of the architectures and every dependency line of it that the options select, if a
package of `l` satisfies a variant of the line for the architecture then a package of the
external source or of `R` satisfies a variant of the line for it. -/
def DependencyClosed (E : Externals) (l : PackageList) (options : FilterOptions)
    (R : PackageList) : Prop :=
  ∀ p ∈ R.packages.map Prod.snd, ∀ a ∈ options.Architectures,
    p.MatchesArchitecture a = true →
    ∀ line ∈ p.GetDependencies options.DependencyOptions,
    ∀ variants, E.ParseDependencyVariants line = Except.ok variants →
      (∃ v ∈ variants, ∃ x ∈ l.packages.map Prod.snd,
        x.MatchesDependency E (forArchitecture a v) = true) →
      ∃ v ∈ variants, ∃ x, (x ∈ sourcePackages options ∨ x ∈ R.packages.map Prod.snd) ∧
        x.MatchesDependency E (forArchitecture a v) = true

/-- The dependencies that occur when the dependency lines of the packages are examined for
the architectures: the variants of each line as parsed, and with each architecture filled
in. -/
def occurringDependencies (E : Externals) (pkgs : List Package) (options : Nat)
    (archs : List String) : List Dependency :=
  pkgs.flatMap fun p => (p.GetDependencies options).flatMap fun line =>
    match E.ParseDependencyVariants line with
    | Except.ok variants => variants ++ archs.flatMap fun a => variants.map (forArchitecture a)
    | Except.error _ => []

/-- The list that `query` returns on `l` holds entries of `l` only. -/
def QueryWithin (l : PackageList) (query : PackageQuery) : Prop :=
  ∀ e ∈ (query l).packages, l.packages.lookup e.1 = some e.2

/-- An unindexed list without duplicates whose entries are entries of `l`. -/
structure PartOf (l r : PackageList) : Prop where
  unindexed : r.indexed = false
  short : r.duplicatesAllowed = false
  entries : ∀ k p, r.packages.lookup k = some p → l.packages.lookup k = some p
  sub : ∀ p ∈ r.packages.map Prod.snd, p ∈ l.packages.map Prod.snd

/-- Package `app 2 i386`, which depends on `lib (>> 1)`. -/
def pkgAppTwo : Package :=
  { Name := "app", Version := "2", Architecture := "i386",
    deps := { Depends := ["lib (>> 1)"] } }

/-- Package `lib 3 i386`. -/
def pkgLibThree : Package := { Name := "lib", Version := "3", Architecture := "i386" }

/-- Indexed list without duplicates that holds `app 2` and `lib 3`. -/
def listAppLib : PackageList :=
  PackageList.PrepareIndex plainExternals
    { packages := [("Pi386 app 2", pkgAppTwo), ("Pi386 lib 3", pkgLibThree)] }

/-- Query for the packages named `app`: a scan of the list. -/
def queryNamedApp : PackageQuery := fun l =>
  { packages := l.packages.filter fun e => e.2.Name = "app" }

/-- Options: the packages named `app` with their dependencies, for `i386`. -/
def optionsAppDeps : FilterOptions :=
  { Queries := [queryNamedApp], WithDependencies := true, Architectures := ["i386"] }

/-- The list that `Filter` returns on `listAppLib` for `optionsAppDeps`. -/
def resultAppLib : PackageList :=
  match listAppLib.Filter plainExternals DependencyQuery optionsAppDeps 3 with
  | some (Except.ok R) => R
  | _ => NewPackageList

/-- Package `prov 1 i386` that provides nothing. -/
def pkgProvPlain : Package :=
  { Name := "prov", Version := "1", Architecture := "i386", FilesHash := 1, V06Plus := true }

/-- Package `prov 1 i386` with another files hash, which provides `foo`. -/
def pkgProvFoo : Package :=
  { Name := "prov", Version := "1", Architecture := "i386", FilesHash := 2, V06Plus := true,
    Provides := ["foo"] }

/-- Package `tool 1 i386`, which depends on `foo`. -/
def pkgTool : Package :=
  { Name := "tool", Version := "1", Architecture := "i386", V06Plus := true,
    deps := { Depends := ["foo"] } }

/-- Indexed list with duplicates that holds the two `prov 1 i386` and `tool`. -/
def listDuplicates : PackageList :=
  ((((((NewPackageListWithDuplicates true 0).Add debExternals pkgProvPlain).1).Add debExternals
    pkgProvFoo).1).Add debExternals pkgTool).1.PrepareIndex debExternals

/-- Options: the dependency queries `tool` and `prov` with their dependencies, for `i386`. -/
def optionsToolProv : FilterOptions :=
  { Queries := [DependencyQuery { Pkg := "tool" }, DependencyQuery { Pkg := "prov" }],
    WithDependencies := true, Architectures := ["i386"] }

/-- The list that `Filter` returns on `listDuplicates` for `optionsToolProv`. -/
def resultToolProv : PackageList :=
  match listDuplicates.Filter debExternals DependencyQuery optionsToolProv 3 with
  | some (Except.ok R) => R
  | _ => NewPackageList

/-! ## Further predicates and inputs of the statements -/

/-- Package `P` with its version replaced: a package that differs from `P` in `Version`
only. -/
def Package.withVersion (P : Package) (version : String) : Package :=
  { P with Version := version }

/-- Lower-case hexadecimal digit: `0` to `9` or `a` to `f`. -/
def isLowerHexDigit (c : Char) : Bool :=
  ('0'.toNat ≤ c.toNat && c.toNat ≤ '9'.toNat) || ('a'.toNat ≤ c.toNat && c.toNat ≤ 'f'.toNat)

/-- Value of a hexadecimal digit. -/
def hexDigitValue (c : Char) : Nat :=
  if c.toNat ≤ '9'.toNat then c.toNat - '0'.toNat else c.toNat - 'a'.toNat + 10

/-- Number that a run of hexadecimal digits writes, the first digit being the most
significant. -/
def hexValue (cs : List Char) : Nat :=
  cs.foldl (fun n c => 16 * n + hexDigitValue c) 0

/-- Package of format 0.6 whose files hash does not fit 32 bits. -/
def pkgWideHash : Package :=
  { Name := "app", Version := "1", Architecture := "i386", FilesHash := 4294967296,
    V06Plus := true }

/-- Package `app 1.1~bp1 i386` of format 0.6 with the files hash `0xabc`. -/
def pkgAppKeyed : Package :=
  { Name := "app", Version := "1.1~bp1", Architecture := "i386", FilesHash := 2748,
    V06Plus := true }

/-- Package `app 1.1~bp1 i386` of format 0.6 with the files hash `0xabd`. -/
def pkgAppKeyedOther : Package :=
  { Name := "app", Version := "1.1~bp1", Architecture := "i386", FilesHash := 2749,
    V06Plus := true }

/-- Package `lib 1.0 i386` of `list_test.go`. -/
def pkgLib : Package := { Name := "lib", Version := "1.0", Architecture := "i386" }

/-- The package fits the architecture of the dependency: the dependency names none, or the
package matches the one it names. -/
def archFits (dep : Dependency) (p : Package) : Prop :=
  dep.Architecture = "" ∨ p.MatchesArchitecture dep.Architecture = true

/-- The test of `VerifyDependencies` whether `dep` is satisfied in `sources`:
`sources.Search(dep, false, true) != nil`. -/
def satisfiedInSources (E : Externals) (sources : PackageList) (dep : Dependency) : Bool :=
  match sources.Search E dep false true with
  | Except.ok found => !found.isEmpty
  | Except.error _ => false

/-- What the specification has a dependency line report for an architecture, from the
variants of the line with the architecture filled in: without `DepFollowAllVariants`, all of
them when none is satisfied and nothing when one is; with it, the ones that are not
satisfied. -/
def lineReport (E : Externals) (options : Nat) (sources : PackageList) (arch : String)
    (variants : List Dependency) : List Dependency :=
  if options &&& DepFollowAllVariants = 0 then
    if (variants.map (forArchitecture arch)).any (satisfiedInSources E sources) then []
    else variants.map (forArchitecture arch)
  else (variants.map (forArchitecture arch)).filter fun d => !satisfiedInSources E sources d

/-- What a dependency line reports for an architecture: the report of its variants, a
variant written more than once counting once. -/
def reportOfLine (E : Externals) (options : Nat) (sources : PackageList) (arch : String)
    (line : String) : List Dependency :=
  match E.ParseDependencyVariants line with
  | Except.ok variants => lineReport E options sources arch (depSliceDeduplicate E variants)
  | Except.error _ => []

/-- The reports of the lines of the examined packages, architecture by architecture, before
the final removal of duplicates. -/
def reportOfPackages (E : Externals) (options : Nat) (sources : PackageList)
    (index : List Package) (architectures : List String) : List Dependency :=
  architectures.flatMap fun arch =>
    (index.filter fun p => p.MatchesArchitecture arch).flatMap fun p =>
      (p.GetDependencies options).flatMap fun line => reportOfLine E options sources arch line

/-- Every answer that the cache holds for a dependency of `D` is the answer of the test in
`sources`. -/
def CacheExact (E : Externals) (sources : PackageList) (D : Dependency → Prop)
    (cache : List (String × Bool)) : Prop :=
  ∀ d, D d → ∀ b, cache.lookup (E.Hash d) = some b → b = satisfiedInSources E sources d

/-- Package `needy 1 i386`, which depends on `alpha | beta` and on `gamma`. -/
def pkgNeedy : Package :=
  { Name := "needy", Version := "1", Architecture := "i386",
    deps := { Depends := ["alpha | beta", "gamma"] } }

/-- Package `beta 1 i386`. -/
def pkgBeta : Package := { Name := "beta", Version := "1", Architecture := "i386" }

/-- Unindexed list that holds `pkgNeedy`. -/
def listNeedy : PackageList := { packages := [("Pi386 needy 1", pkgNeedy)] }

/-- Indexed list that holds `pkgBeta`. -/
def sourcesBeta : PackageList :=
  ((NewPackageList.Add debExternals pkgBeta).1).PrepareIndex debExternals

/-- Dependency `gamma` for `i386`. -/
def depGamma : Dependency := { Pkg := "gamma", Architecture := "i386" }

/-- Dependency `alpha` for `i386`. -/
def depAlpha : Dependency := { Pkg := "alpha", Architecture := "i386" }

/-- The result of the queries of `Filter`, before source packages and dependencies are
pulled in. -/
def queryResult (l : PackageList) (options : FilterOptions) : PackageList :=
  options.Queries.foldl (fun r query => (r.Append (query l)).1) NewPackageList

/-- The dependency with which `Filter` looks for the source package `name` in the version
given in the `Source` field, or in the version of the binary package `b` when the field
gives none. -/
def sourceDependency (b : Package) (name version : String) : Dependency :=
  { Pkg := name, Version := if version ≠ "" then version else b.Version,
    Relation := VersionEqual, Architecture := ArchitectureSource }

/-- The dependencies for which `Filter` queries source packages: those that the loop through
the query result collects (none when a `Source` field is invalid). -/
def sourceQueriesOf (l : PackageList) (options : FilterOptions) : List Dependency :=
  match sourceQueriesLoop (queryResult l options).packages [] with
  | Except.ok qs => qs
  | Except.error _ => []

/-- Package `libc1 1.0 i386` of `TestFilter`, built from the source `glibc`. -/
def pkgLibc1 : Package :=
  { Name := "libc1", Version := "1.0", Architecture := "i386", Source := "glibc" }

/-- Source package `glibc 1.0` of `TestFilter`. -/
def pkgGlibc : Package :=
  { Name := "glibc", Version := "1.0", Architecture := "source", SourceArchitecture := "any",
    IsSource := true }

/-- Indexed list that holds `pkgLibc1` and `pkgGlibc`. -/
def listLibc : PackageList :=
  PackageList.PrepareIndex plainExternals
    { packages := [("Pi386 libc1 1.0", pkgLibc1), ("Psource glibc 1.0", pkgGlibc)] }

/-- Options: the dependency query `libc1` with source packages, for `i386`. -/
def optionsLibcSources : FilterOptions :=
  { Queries := [DependencyQuery { Pkg := "libc1" }], WithSources := true,
    Architectures := ["i386"] }

/-- The list that `Filter` returns on `listLibc` for `optionsLibcSources`. -/
def resultLibc : PackageList :=
  match listLibc.Filter plainExternals DependencyQuery optionsLibcSources 1 with
  | some (Except.ok R) => R
  | _ => NewPackageList

/-- Package `lib 1.0 i386` built from the source `lib` in version 0.9, as in
`list_test.go`. -/
def pkgLibBinary : Package :=
  { Name := "lib", Version := "1.0", Architecture := "i386", Source := "lib (0.9)" }

/-- Source package `lib 0.9` of `list_test.go`. -/
def pkgLibSource : Package :=
  { Name := "lib", Version := "0.9", Architecture := "source", SourceArchitecture := "any",
    IsSource := true }

/-- Indexed list that holds `pkgLibBinary` and `pkgLibSource`. -/
def listLibSources : PackageList :=
  PackageList.PrepareIndex debExternals
    { packages := [("Pi386 lib 1.0", pkgLibBinary), ("Psource lib 0.9", pkgLibSource)] }

/-- Query for the package `lib 1.0 i386` by its key. -/
def queryLibByKey : PackageQuery := fun l => l.SearchByKey debExternals "i386" "lib" "1.0"

/-- Options: the package `lib 1.0 i386` with source packages, for `i386`. -/
def optionsLibByKey : FilterOptions :=
  { Queries := [queryLibByKey], WithSources := true, Architectures := ["i386"] }

/-- The list that `Filter` returns on `listLibSources` for `optionsLibByKey`. -/
def resultLibByKey : PackageList :=
  match listLibSources.Filter debExternals DependencyQuery optionsLibByKey 1 with
  | some (Except.ok R) => R
  | _ => NewPackageList

/-! ## Predicates and inputs of the statements on rejected entries and `Source` fields -/

/-- The failure is the error `invalid Source field` of `Filter`. -/
def IsInvalidSource (f : Failure) : Prop :=
  ∃ src, f = Failure.error ("invalid Source field: " ++ src)

/-- A failure of the dependency loop of `Filter`: a panic, or one of the two errors of
`VerifyDependencies`. -/
def IsDependencyFailure (f : Failure) : Prop :=
  (∃ msg, f = Failure.panic msg) ∨
    (∃ msg, f = Failure.error ("unable to process package " ++ msg)) ∨
    f = Failure.error "no architectures defined, cannot verify dependencies"

/-- The strict source pattern `^([a-z0-9][-+.a-z0-9]+)(?:\s+\(([^)]+)\))?$`, read out: a name
of a lower-case letter or digit followed by one or more name characters, and then either
nothing or blanks, an opening parenthesis, a version of one or more characters other than
the closing parenthesis, and the closing parenthesis. -/
def StrictSourcePattern (s : String) : Prop :=
  ∃ (c : Char) (name : List Char), isSourceNameStart c = true ∧ name ≠ [] ∧
    (∀ x ∈ name, isSourceNameChar x = true) ∧
    (s.data = c :: name ∨
      ∃ blanks version : List Char, blanks ≠ [] ∧ (∀ x ∈ blanks, isRegexSpace x = true) ∧
        version ≠ [] ∧ ')' ∉ version ∧
        s.data = c :: name ++ blanks ++ '(' :: version ++ [')'])

/-- Package `tool 1.0 i386` whose `Source` field `Tool` starts with a capital letter. -/
def pkgBadSource : Package :=
  { Name := "tool", Version := "1.0", Architecture := "i386", Source := "Tool" }

/-- Indexed list that holds `pkgBadSource`. -/
def listBadSource : PackageList :=
  PackageList.PrepareIndex debExternals { packages := [("Pi386 tool 1.0", pkgBadSource)] }

/-- Options: the package `tool 1.0 i386` by its key, with source packages. -/
def optionsBadSource : FilterOptions :=
  { Queries := [fun l => l.SearchByKey debExternals "i386" "tool" "1.0"], WithSources := true,
    Architectures := ["i386"] }

/-! ## Predicates and inputs of the statements on index files -/

/-- The relative path that the description of `PackageIndex` names, written out with
slashes: `<component>/source/Sources` for the architecture `source`; otherwise
`<component>/debian-installer/binary-<arch>/Packages` for udebs; otherwise, for the
installer, `<component>/installer-<arch>/current/legacy-images/SHA256SUMS` on `focal` and
`<component>/installer-<arch>/current/images/SHA256SUMS` elsewhere; otherwise
`<component>/binary-<arch>/Packages`. -/
def packageIndexPath (component arch : String) (udeb installer : Bool)
    (distribution : String) : String :=
  if arch = "source" then component ++ "/source/Sources"
  else if udeb then component ++ "/debian-installer/binary-" ++ arch ++ "/Packages"
  else if installer then
    if distribution = DistributionFocal then
      component ++ "/installer-" ++ arch ++ "/current/legacy-images/SHA256SUMS"
    else component ++ "/installer-" ++ arch ++ "/current/images/SHA256SUMS"
  else component ++ "/binary-" ++ arch ++ "/Packages"

/-- A fresh set of index files for the distribution `squeeze`, with the suffix `.tmp`. -/
def freshFiles : indexFiles := newIndexFiles "dists/squeeze" "/tmp/aptly" ".tmp" false false

/-- The extension of a file name: its end from the last dot on, empty when there is no
dot. -/
def fileExtension (name : String) : String :=
  if '.' ∈ name.data then
    String.mk ('.' :: (name.data.reverse.takeWhile fun c => c ≠ '.').reverse)
  else ""

/-- Local files that can be created, written and compressed, every one with sums made of
the name of the hash, the mark `tag` of the content and the extension of the file. -/
def localFilesOf (tag : String) : LocalFiles where
  Create _ := none
  Flush _ := none
  CompressFile _ _ := none
  ChecksumsForFile name := Except.ok
    { MD5 := "md5-" ++ tag ++ fileExtension name,
      SHA1 := "sha1-" ++ tag ++ fileExtension name,
      SHA256 := "sha256-" ++ tag ++ fileExtension name,
      SHA512 := "sha512-" ++ tag ++ fileExtension name }

/-- The order in which the map literal of the by-hash loop is written. -/
def literalOrder (_ext : String) : List String := ["SHA512", "SHA256", "SHA1", "MD5Sum"]

/-- The call is a `PutFile`. -/
def isPutFile : StorageCall → Bool
  | StorageCall.PutFile _ _ => true
  | _ => false

/-- The call is a `MkDir`. -/
def isMkDir : StorageCall → Bool
  | StorageCall.MkDir _ => true
  | _ => false

/-- The name under which `Finalize` puts the variant `ext` of an index file on the storage:
`basePath/relativePath+suffix+ext`. -/
def suffixedName (files : indexFiles) (file : indexFile) (ext : String) : String :=
  filepathJoin [files.basePath, file.relativePath ++ files.suffix ++ ext]

/-- The final name of the variant `ext` of an index file: `basePath/relativePath+ext`. -/
def finalName (files : indexFiles) (file : indexFile) (ext : String) : String :=
  filepathJoin [files.basePath, file.relativePath ++ ext]

/-- The upload of the variant `ext` of an index file: the local file `tempFilename+ext` put
under the suffixed name. -/
def variantUpload (files : indexFiles) (file : indexFile) (ext : String) : StorageCall :=
  StorageCall.PutFile (suffixedName files file ext) (file.tempFilename ++ ext)

/-- The index file as `Finalize` works on it: with the writer that `BufWriter` sets when
there was none. -/
def finalizeFile (L : LocalFiles) (files : indexFiles) (file : indexFile) : indexFile :=
  if file.w = false then (file.BufWriter L files).1 else file

/-- The index file is skipped by `Finalize`: it is discardable and nothing was written to
it. -/
def isSkipped (file : indexFile) : Bool := file.discardable && !file.w

/-- The variants of an index file that the description of `Finalize` has it upload: the
plain file only when the file is not compressible; the `.gz` file only when it is
compressible and gzip-only; the plain and the `.gz` file, and the `.bz2` file unless
`skipBz2` is set, when it is compressible and not gzip-only. -/
def uploadedVariants (files : indexFiles) (file : indexFile) : List String :=
  if file.compressable = false then [""]
  else if file.onlyGzip = true then [".gz"]
  else if files.skipBz2 = true then ["", ".gz"]
  else ["", ".gz", ".bz2"]

/-- The variants of an index file whose checksums `Finalize` records: the uploaded ones,
and the plain file of a gzip-only file. -/
def recordedVariants (files : indexFiles) (file : indexFile) : List String :=
  if file.compressable = true ∧ file.onlyGzip = true then ["", ".gz"]
  else uploadedVariants files file

/-- The name under which `Finalize` puts the clear-signed file on the storage:
`basePath/In+relativePath+suffix`. -/
def suffixedClearName (files : indexFiles) (file : indexFile) : String :=
  filepathJoin [files.basePath, "In" ++ file.relativePath ++ files.suffix]

/-- The final name of the clear-signed file: `basePath/In+relativePath`. -/
def finalClearName (files : indexFiles) (file : indexFile) : String :=
  filepathJoin [files.basePath, "In" ++ file.relativePath]

/-- The local name of the clear-signed file: `In` before the base name of the temporary
file, in its directory. -/
def clearSignedFile (file : indexFile) : String :=
  filepathJoin [filepathDir file.tempFilename, "In" ++ filepathBase file.tempFilename]

/-- The uploads of signatures by `Finalize`: with a signer, the detached signature of a
file that is detached-signed, then the clear-signed file of one that is clear-signed. -/
def signatureUploads (signer : Option Signer) (files : indexFiles) (file : indexFile) :
    List StorageCall :=
  if signer.isSome then
    (if file.detachedSign then
        [StorageCall.PutFile (suffixedName files file ".gpg") (file.tempFilename ++ ".gpg")]
      else []) ++
    (if file.clearSign then
        [StorageCall.PutFile (suffixedClearName files file) (clearSignedFile file)]
      else [])
  else []

/-- The renames of the signatures: suffixed name and final name of each. -/
def signatureEntries (signer : Option Signer) (files : indexFiles) (file : indexFile) :
    List (String × String) :=
  if signer.isSome then
    (if file.detachedSign then
        [(suffixedName files file ".gpg", finalName files file ".gpg")]
      else []) ++
    (if file.clearSign then [(suffixedClearName files file, finalClearName files file)]
      else [])
  else []

/-- The renames of the variants `exts`: suffixed name and final name of each. -/
def variantEntries (files : indexFiles) (file : indexFile) (exts : List String) :
    List (String × String) :=
  exts.map fun ext => (suffixedName files file ext, finalName files file ext)

/-- The map with the entries assigned, in order. -/
def mapSetAll {α : Type} (m : List (String × α)) (entries : List (String × α)) :
    List (String × α) :=
  entries.foldl (fun m e => mapSet m e.1 e.2) m

/-- The path of a `PutFile`. -/
def putTargets (calls : List StorageCall) : List String :=
  calls.filterMap fun c =>
    match c with
    | StorageCall.PutFile path _ => some path
    | _ => none

/-- The checksums that `utils.ChecksumsForFile` returns for a local file; the zero value
when it fails. -/
def sumsOf (L : LocalFiles) (name : String) : ChecksumInfo :=
  match L.ChecksumsForFile name with
  | Except.ok info => info
  | Except.error _ => {}

/-- The entries of `generatedFiles` for the variants `exts` of an index file: relative path
and checksums of the local file of each. -/
def checksumEntries (L : LocalFiles) (file : indexFile) (exts : List String) :
    List (String × ChecksumInfo) :=
  exts.map fun ext => (file.relativePath ++ ext, sumsOf L (file.tempFilename ++ ext))

/-- The entries that the description has a successful `Finalize` add to the rename map
when there is a suffix, one per object uploaded: none for a skipped file; otherwise those of
the uploaded variants, then those of the signatures. -/
def renameEntries (signer : Option Signer) (files : indexFiles) (file : indexFile) :
    List (String × String) :=
  if isSkipped file then []
  else variantEntries files file (uploadedVariants files file) ++
    signatureEntries signer files file

/-- The suffixed names of an index file: those of its variants, of its detached signature
and of its clear-signed file. -/
def suffixedNames (files : indexFiles) (file : indexFile) : List String :=
  (uploadedVariants files file).map (suffixedName files file) ++
    [suffixedName files file ".gpg", suffixedClearName files file]

/-- A signer that signs every file. -/
def acceptingSigner : Signer where
  DetachedSign _ _ := none
  ClearSign _ _ := none

/-- Set of index files for the distribution `squeeze` with the suffix `.tmp`, links by hash
and no `.bz2` files. -/
def byHashFiles (tempDir : String) : indexFiles :=
  newIndexFiles "dists/squeeze" tempDir ".tmp" true true

/-- The index file of the packages of `main` for `i386` in a fresh set. -/
def packagesFile : indexFile :=
  (freshFiles.PackageIndex "main" "i386" false false "squeeze").1

/-- The directory `by-hash/<hash>` beside an index file. -/
def byHashDir (files : indexFiles) (file : indexFile) (hash : String) : String :=
  filepathJoin [filepathDir (filepathJoin [files.basePath, file.relativePath]), "by-hash",
    hash]

/-- The digest file `by-hash/<hash>/<sum>` of an index file. -/
def sumFilePath (files : indexFiles) (file : indexFile) (hash sum : String) : String :=
  filepathJoin [byHashDir files file hash, sum]

/-- The name of the variant `ext` of an index file in its directory. -/
def indexFileName (files : indexFiles) (file : indexFile) (ext : String) : String :=
  pathBase (filepathJoin [files.basePath, file.relativePath] ++ ext)

/-- The link `by-hash/<hash>/<indexFileName>` of the variant `ext` of an index file. -/
def indexLinkPath (files : indexFiles) (file : indexFile) (ext hash : String) : String :=
  filepathJoin [byHashDir files file hash, indexFileName files file ext]

/-- The link `by-hash/<hash>/<indexFileName>.old` of the variant `ext` of an index file. -/
def oldIndexLinkPath (files : indexFiles) (file : indexFile) (ext hash : String) : String :=
  filepathJoin [byHashDir files file hash, indexFileName files file ext ++ ".old"]

/-- The file that `packageIndexByHash` links the digest file to: the variant under its
suffixed name. -/
def hardLinkSource (files : indexFiles) (file : indexFile) (ext : String) : String :=
  filepathJoin [files.basePath, file.relativePath] ++ files.suffix ++ ext

/-- The state of the storage after the calls, made in order from the state `st`. -/
def stateAfter {σ : Type} (S : PublishedStorage σ) (calls : List StorageCall) (st : σ) : σ :=
  calls.foldl (fun s c => (S.call c s).2) st

/-- The reply of the storage to the call `c` made after the calls `calls`, from the state
`st`. -/
def replyAfter {σ : Type} (S : PublishedStorage σ) (calls : List StorageCall)
    (c : StorageCall) (st : σ) : StorageReply :=
  (S.call c (stateAfter S calls st)).1

/-- The calls with which `packageIndexByHash` starts a rotation: whether the digest file
exists, its hard link, whether the index link exists, whether the old index link exists. -/
def rotationStart (files : indexFiles) (file : indexFile) (ext hash sum : String) :
    List StorageCall :=
  [StorageCall.FileExists (sumFilePath files file hash sum),
    StorageCall.HardLink (hardLinkSource files file ext) (sumFilePath files file hash sum),
    StorageCall.FileExists (indexLinkPath files file ext hash),
    StorageCall.FileExists (oldIndexLinkPath files file ext hash)]

/-- The removals of a rotation: none when the storage answers that the old index link does
not exist; otherwise the old link is read, the file it points to is removed when reading
succeeded, and the old link is removed. -/
def rotationRemovals {σ : Type} (S : PublishedStorage σ) (files : indexFiles)
    (file : indexFile) (ext hash sum : String) (st : σ) : List StorageCall :=
  if (replyAfter S ((rotationStart files file ext hash sum).take 3)
      (StorageCall.FileExists (oldIndexLinkPath files file ext hash)) st).found then
    [StorageCall.ReadLink (oldIndexLinkPath files file ext hash)] ++
      (if (replyAfter S (rotationStart files file ext hash sum)
          (StorageCall.ReadLink (oldIndexLinkPath files file ext hash)) st).err = none then
        [StorageCall.Remove (replyAfter S (rotationStart files file ext hash sum)
          (StorageCall.ReadLink (oldIndexLinkPath files file ext hash)) st).target]
      else []) ++
      [StorageCall.Remove (oldIndexLinkPath files file ext hash)]
  else []

/-- The index file of the `Release` file of `main` for `i386` in a set with links by
hash. -/
def releaseByHashFile : indexFile := ((byHashFiles "/tmp/a").ReleaseIndex "main" "i386" false).1

/-- One publication of the `Release` file of `main` for `i386` with the content `tag` on the
local storage `fs`, with links by hash: `Finalize` of the index file in a fresh set of index
files. -/
def finalizeRelease (tag : String) (fs : List (String × StoredEntry)) :
    Finalized (List (String × StoredEntry)) :=
  ((byHashFiles ("/tmp/" ++ tag)).ReleaseIndex "main" "i386" false).1.Finalize
    localStorage (localFilesOf tag) literalOrder none (byHashFiles ("/tmp/" ++ tag)) fs

/-- The local storage after the publication `finalizeRelease` and `RenameFiles`, the rename
map ranged over in the order of its entries. -/
def publishRelease (tag : String) (fs : List (String × StoredEntry)) :
    List (String × StoredEntry) :=
  ((finalizeRelease tag fs).files.RenameFiles localStorage
    ((finalizeRelease tag fs).files.renameMap.map Prod.fst)
    (finalizeRelease tag fs).state).state

/-- The local storage that holds the publication of the content `a`. -/
def storageA : List (String × StoredEntry) :=
  [("dists/squeeze/main/binary-i386/by-hash/SHA512/sha512-a",
      StoredEntry.file "/tmp/a/main_binary-i386_Release"),
    ("dists/squeeze/main/binary-i386/by-hash/SHA512/Release",
      StoredEntry.link "dists/squeeze/main/binary-i386/by-hash/SHA512/sha512-a"),
    ("dists/squeeze/main/binary-i386/by-hash/SHA256/sha256-a",
      StoredEntry.file "/tmp/a/main_binary-i386_Release"),
    ("dists/squeeze/main/binary-i386/by-hash/SHA256/Release",
      StoredEntry.link "dists/squeeze/main/binary-i386/by-hash/SHA256/sha256-a"),
    ("dists/squeeze/main/binary-i386/by-hash/SHA1/sha1-a",
      StoredEntry.file "/tmp/a/main_binary-i386_Release"),
    ("dists/squeeze/main/binary-i386/by-hash/SHA1/Release",
      StoredEntry.link "dists/squeeze/main/binary-i386/by-hash/SHA1/sha1-a"),
    ("dists/squeeze/main/binary-i386/by-hash/MD5Sum/md5-a",
      StoredEntry.file "/tmp/a/main_binary-i386_Release"),
    ("dists/squeeze/main/binary-i386/by-hash/MD5Sum/Release",
      StoredEntry.link "dists/squeeze/main/binary-i386/by-hash/MD5Sum/md5-a"),
    ("dists/squeeze/main/binary-i386/Release", StoredEntry.file "/tmp/a/main_binary-i386_Release")]

/-- The local storage that holds the publication of the content `a` and then that of the
content `b`. -/
def storageAB : List (String × StoredEntry) :=
  [("dists/squeeze/main/binary-i386/by-hash/SHA512/sha512-a",
      StoredEntry.file "/tmp/a/main_binary-i386_Release"),
    ("dists/squeeze/main/binary-i386/by-hash/SHA256/sha256-a",
      StoredEntry.file "/tmp/a/main_binary-i386_Release"),
    ("dists/squeeze/main/binary-i386/by-hash/SHA1/sha1-a",
      StoredEntry.file "/tmp/a/main_binary-i386_Release"),
    ("dists/squeeze/main/binary-i386/by-hash/MD5Sum/md5-a",
      StoredEntry.file "/tmp/a/main_binary-i386_Release"),
    ("dists/squeeze/main/binary-i386/Release", StoredEntry.file "/tmp/b/main_binary-i386_Release"),
    ("dists/squeeze/main/binary-i386/by-hash/SHA512/sha512-b",
      StoredEntry.file "/tmp/b/main_binary-i386_Release"),
    ("dists/squeeze/main/binary-i386/by-hash/SHA512/Release.old",
      StoredEntry.link "dists/squeeze/main/binary-i386/by-hash/SHA512/sha512-a"),
    ("dists/squeeze/main/binary-i386/by-hash/SHA512/Release",
      StoredEntry.link "dists/squeeze/main/binary-i386/by-hash/SHA512/sha512-b"),
    ("dists/squeeze/main/binary-i386/by-hash/SHA256/sha256-b",
      StoredEntry.file "/tmp/b/main_binary-i386_Release"),
    ("dists/squeeze/main/binary-i386/by-hash/SHA256/Release.old",
      StoredEntry.link "dists/squeeze/main/binary-i386/by-hash/SHA256/sha256-a"),
    ("dists/squeeze/main/binary-i386/by-hash/SHA256/Release",
      StoredEntry.link "dists/squeeze/main/binary-i386/by-hash/SHA256/sha256-b"),
    ("dists/squeeze/main/binary-i386/by-hash/SHA1/sha1-b",
      StoredEntry.file "/tmp/b/main_binary-i386_Release"),
    ("dists/squeeze/main/binary-i386/by-hash/SHA1/Release.old",
      StoredEntry.link "dists/squeeze/main/binary-i386/by-hash/SHA1/sha1-a"),
    ("dists/squeeze/main/binary-i386/by-hash/SHA1/Release",
      StoredEntry.link "dists/squeeze/main/binary-i386/by-hash/SHA1/sha1-b"),
    ("dists/squeeze/main/binary-i386/by-hash/MD5Sum/md5-b",
      StoredEntry.file "/tmp/b/main_binary-i386_Release"),
    ("dists/squeeze/main/binary-i386/by-hash/MD5Sum/Release.old",
      StoredEntry.link "dists/squeeze/main/binary-i386/by-hash/MD5Sum/md5-a"),
    ("dists/squeeze/main/binary-i386/by-hash/MD5Sum/Release",
      StoredEntry.link "dists/squeeze/main/binary-i386/by-hash/MD5Sum/md5-b")]

/-- The local storage `storageAB` in which the old index link of `SHA256` has been replaced
by a regular file, and the packages with the content `c` are put under the suffixed name. -/
def storageOldFile : List (String × StoredEntry) :=
  mapSet
    (mapSet storageAB "dists/squeeze/main/binary-i386/by-hash/SHA256/Release.old"
      (StoredEntry.file "/srv/copy/Release"))
    "dists/squeeze/main/binary-i386/Release.tmp"
    (StoredEntry.file "/tmp/c/main_binary-i386_Release")

/-- The local storage `storageAB` with the file of the content `c` put under the suffixed
name. -/
def storageWithC : List (String × StoredEntry) :=
  mapSet storageAB "dists/squeeze/main/binary-i386/Release.tmp"
    (StoredEntry.file "/tmp/c/main_binary-i386_Release")

/-- The index file of the contents of `main` for `i386` in a fresh set, with a writer. -/
def contentsFile : indexFile :=
  ((freshFiles.ContentsIndex "main" "i386" false).1.BufWriter (localFilesOf "a")
    freshFiles).1

/-- The `Release` file of `main` for `i386` and then the top-level `Release` file finalized
with a signer on the local storage, in a set with the suffix `.tmp`. -/
def releaseFinalized : Finalized (List (String × StoredEntry)) :=
  freshFiles.ReleaseFile.Finalize localStorage (localFilesOf "a") literalOrder
    (some acceptingSigner)
    ((freshFiles.ReleaseIndex "main" "i386" false).1.Finalize localStorage (localFilesOf "a")
      literalOrder (some acceptingSigner) freshFiles []).files
    ((freshFiles.ReleaseIndex "main" "i386" false).1.Finalize localStorage (localFilesOf "a")
      literalOrder (some acceptingSigner) freshFiles []).state

/-- An order of the keys of the rename map of `releaseFinalized` that starts with the
top-level `Release` file. -/
def releaseFirstOrder : List String :=
  ["dists/squeeze/Release.tmp", "dists/squeeze/main/binary-i386/Release.tmp",
    "dists/squeeze/InRelease.tmp", "dists/squeeze/Release.tmp.gpg"]

/-- The contents index of `main` for `i386`, with a writer, finalized on the local
storage. -/
def contentsFinalized : Finalized (List (String × StoredEntry)) :=
  contentsFile.Finalize localStorage (localFilesOf "a") literalOrder none freshFiles []

/-! ## Predicates and inputs of the statements on keys, fields, termination and order -/

/-- Every entry of the list is stored under the key that the key function of the list
assigns to its package. -/
def OwnKeyed (l : PackageList) : Prop :=
  ∀ e ∈ l.packages, e.1 = l.keyFunc e.2

instance (l : PackageList) : Decidable (OwnKeyed l) := by
  unfold OwnKeyed; infer_instance

/-- A list that allows duplicates and holds the package `app` under its full key. -/
def listAppFullKey : PackageList :=
  ((NewPackageListWithDuplicates true 0).Add debExternals pkgAppKeyed).1

/-- A binary package whose `Source` field has blanks around the version. -/
def pkgBlankSourceVersion : Package :=
  { Name := "libfoo1", Version := "1.0-1", Architecture := "i386",
    Source := "foo ( 1.0 )" }

/-- The index files after the first request for the packages of component `main` and
architecture `kfreebsd-amd64`. -/
def filesKfreebsd : indexFiles :=
  (freshFiles.PackageIndex "main" "kfreebsd-amd64" false false "squeeze").2

/-- The text ends in the given suffix. -/
def endsWith (s suffix : String) : Prop := suffix.data <:+ s.data

instance (s suffix : String) : Decidable (endsWith s suffix) := by
  unfold endsWith; infer_instance

/-- Bytes of `Contents`, the first file of the test of `LinkFromPool`. -/
def bytesContents : List Nat := [67, 111, 110, 116, 101, 110, 116, 115]

/-- Bytes of `Spam`, the second file of the test of `LinkFromPool`. -/
def bytesSpam : List Nat := [83, 112, 97, 109]

/-- Pool of the test of `LinkFromPool`. -/
def poolMars : List (String × List Nat) :=
  [("c1/df/mars-invaders_1.03.deb", bytesContents), ("e9/dc/mars-invaders_1.03.deb", bytesSpam)]

/-- Published storage after the first link of the test of `LinkFromPool`. -/
def storageMars : List (String × List Nat) :=
  [("pool/main/m/mars-invaders/mars-invaders_1.03.deb", bytesContents)]

/-- One publication of the contents index of `main` for the architecture `arch` with the
content `tag` on the local storage `fs`, with links by hash: `Finalize` of the index file,
with a writer, in a fresh set of index files. -/
def finalizeContents (arch tag : String) (fs : List (String × StoredEntry)) :
    Finalized (List (String × StoredEntry)) :=
  (((byHashFiles ("/tmp/" ++ tag)).ContentsIndex "main" arch false).1.BufWriter
      (localFilesOf tag) (byHashFiles ("/tmp/" ++ tag))).1.Finalize
    localStorage (localFilesOf tag) literalOrder none (byHashFiles ("/tmp/" ++ tag)) fs

/-- The local storage after the publication `finalizeContents` and `RenameFiles`, the rename
map ranged over in the order of its entries. -/
def publishContents (arch tag : String) (fs : List (String × StoredEntry)) :
    List (String × StoredEntry) :=
  ((finalizeContents arch tag fs).files.RenameFiles localStorage
    ((finalizeContents arch tag fs).files.renameMap.map Prod.fst)
    (finalizeContents arch tag fs).state).state

/-- The local storage that holds the contents indexes of `i386` and `amd64`, both with the
content `x`, published in this order. -/
def storageContentsX : List (String × StoredEntry) :=
  [("dists/squeeze/main/by-hash/SHA512/sha512-x.gz",
      StoredEntry.file "/tmp/x/main_Contents-i386.gz"),
    ("dists/squeeze/main/by-hash/SHA512/Contents-i386.gz",
      StoredEntry.link "dists/squeeze/main/by-hash/SHA512/sha512-x.gz"),
    ("dists/squeeze/main/by-hash/SHA256/sha256-x.gz",
      StoredEntry.file "/tmp/x/main_Contents-i386.gz"),
    ("dists/squeeze/main/by-hash/SHA256/Contents-i386.gz",
      StoredEntry.link "dists/squeeze/main/by-hash/SHA256/sha256-x.gz"),
    ("dists/squeeze/main/by-hash/SHA1/sha1-x.gz",
      StoredEntry.file "/tmp/x/main_Contents-i386.gz"),
    ("dists/squeeze/main/by-hash/SHA1/Contents-i386.gz",
      StoredEntry.link "dists/squeeze/main/by-hash/SHA1/sha1-x.gz"),
    ("dists/squeeze/main/by-hash/MD5Sum/md5-x.gz",
      StoredEntry.file "/tmp/x/main_Contents-i386.gz"),
    ("dists/squeeze/main/by-hash/MD5Sum/Contents-i386.gz",
      StoredEntry.link "dists/squeeze/main/by-hash/MD5Sum/md5-x.gz"),
    ("dists/squeeze/main/Contents-i386.gz",
      StoredEntry.file "/tmp/x/main_Contents-i386.gz"),
    ("dists/squeeze/main/Contents-amd64.gz",
      StoredEntry.file "/tmp/x/main_Contents-amd64.gz")]

/-- The local storage `storageContentsX` after the publication of the content `q` for
`i386`. -/
def storageContentsXQ : List (String × StoredEntry) :=
  [("dists/squeeze/main/by-hash/SHA512/sha512-x.gz",
      StoredEntry.file "/tmp/x/main_Contents-i386.gz"),
    ("dists/squeeze/main/by-hash/SHA256/sha256-x.gz",
      StoredEntry.file "/tmp/x/main_Contents-i386.gz"),
    ("dists/squeeze/main/by-hash/SHA1/sha1-x.gz",
      StoredEntry.file "/tmp/x/main_Contents-i386.gz"),
    ("dists/squeeze/main/by-hash/MD5Sum/md5-x.gz",
      StoredEntry.file "/tmp/x/main_Contents-i386.gz"),
    ("dists/squeeze/main/Contents-i386.gz",
      StoredEntry.file "/tmp/q/main_Contents-i386.gz"),
    ("dists/squeeze/main/Contents-amd64.gz",
      StoredEntry.file "/tmp/x/main_Contents-amd64.gz"),
    ("dists/squeeze/main/by-hash/SHA512/sha512-q.gz",
      StoredEntry.file "/tmp/q/main_Contents-i386.gz"),
    ("dists/squeeze/main/by-hash/SHA512/Contents-i386.gz.old",
      StoredEntry.link "dists/squeeze/main/by-hash/SHA512/sha512-x.gz"),
    ("dists/squeeze/main/by-hash/SHA512/Contents-i386.gz",
      StoredEntry.link "dists/squeeze/main/by-hash/SHA512/sha512-q.gz"),
    ("dists/squeeze/main/by-hash/SHA256/sha256-q.gz",
      StoredEntry.file "/tmp/q/main_Contents-i386.gz"),
    ("dists/squeeze/main/by-hash/SHA256/Contents-i386.gz.old",
      StoredEntry.link "dists/squeeze/main/by-hash/SHA256/sha256-x.gz"),
    ("dists/squeeze/main/by-hash/SHA256/Contents-i386.gz",
      StoredEntry.link "dists/squeeze/main/by-hash/SHA256/sha256-q.gz"),
    ("dists/squeeze/main/by-hash/SHA1/sha1-q.gz",
      StoredEntry.file "/tmp/q/main_Contents-i386.gz"),
    ("dists/squeeze/main/by-hash/SHA1/Contents-i386.gz.old",
      StoredEntry.link "dists/squeeze/main/by-hash/SHA1/sha1-x.gz"),
    ("dists/squeeze/main/by-hash/SHA1/Contents-i386.gz",
      StoredEntry.link "dists/squeeze/main/by-hash/SHA1/sha1-q.gz"),
    ("dists/squeeze/main/by-hash/MD5Sum/md5-q.gz",
      StoredEntry.file "/tmp/q/main_Contents-i386.gz"),
    ("dists/squeeze/main/by-hash/MD5Sum/Contents-i386.gz.old",
      StoredEntry.link "dists/squeeze/main/by-hash/MD5Sum/md5-x.gz"),
    ("dists/squeeze/main/by-hash/MD5Sum/Contents-i386.gz",
      StoredEntry.link "dists/squeeze/main/by-hash/MD5Sum/md5-q.gz")]

/-- Package `webmail 1 i386`, which depends on `mail-agent`. -/
def pkgWebmail : Package :=
  { Name := "webmail", Version := "1", Architecture := "i386",
    deps := { Depends := ["mail-agent"] } }

/-- Package `exim4 4.9 i386`, a provider of `mail-agent`. -/
def pkgExim : Package :=
  { Name := "exim4", Version := "4.9", Architecture := "i386", Provides := ["mail-agent"] }

/-- Indexed list to which `webmail`, `mailer` and `exim4` are added in this order. -/
def listMailerFirst : PackageList :=
  ((((NewPackageList.PrepareIndex debExternals).Add debExternals pkgWebmail).1.Add debExternals
    pkgMailer).1.Add debExternals pkgExim).1

/-- Indexed list to which `webmail`, `exim4` and `mailer` are added in this order. -/
def listEximFirst : PackageList :=
  ((((NewPackageList.PrepareIndex debExternals).Add debExternals pkgWebmail).1.Add debExternals
    pkgExim).1.Add debExternals pkgMailer).1

/-- Options: the dependency query `webmail` with its dependencies, for `i386`. -/
def optionsWebmailDeps : FilterOptions :=
  { Queries := [DependencyQuery { Pkg := "webmail" }], WithDependencies := true,
    Architectures := ["i386"] }

/-- Options: the dependency query `mail-agent` with source packages, without
dependencies. -/
def optionsMailAgentSources : FilterOptions :=
  { Queries := [DependencyQuery { Pkg := "mail-agent" }], WithSources := true }

/-- The packages of the list that `Filter` returns, none when it fails or does not
return. -/
def filteredPackages (l : PackageList) (options : FilterOptions) (fuel : Nat) :
    List Package :=
  match l.Filter debExternals DependencyQuery options fuel with
  | some (Except.ok R) => R.packages.map Prod.snd
  | _ => []

/-- Package `top 1 i386`, which depends on `mid`. -/
def pkgTop : Package :=
  { Name := "top", Version := "1", Architecture := "i386", deps := { Depends := ["mid"] } }

/-- Package `mid 1 i386`, which depends on `leaf`. -/
def pkgMid : Package :=
  { Name := "mid", Version := "1", Architecture := "i386", deps := { Depends := ["leaf"] } }

/-- Package `leaf 1 i386`. -/
def pkgLeaf : Package := { Name := "leaf", Version := "1", Architecture := "i386" }

/-- The indexed list to which `top`, `mid` and `leaf` are added and from which packages with
the keys of `mid` and `leaf` and other files hashes are removed: `top` is its only package,
and its sorted vector still holds `mid` and `leaf`. -/
def listStale : PackageList :=
  runOps debExternals (NewPackageList.PrepareIndex debExternals)
    [Op.Add pkgTop, Op.Add pkgMid, Op.Add pkgLeaf, Op.Remove { pkgMid with FilesHash := 7 },
      Op.Remove { pkgLeaf with FilesHash := 7 }]

/-- Options: the dependency query `top` with its dependencies, for `i386`. -/
def optionsTopDeps : FilterOptions :=
  { Queries := [DependencyQuery { Pkg := "top" }], WithDependencies := true,
    Architectures := ["i386"] }

/-- The number of entries of `l` whose short key the list `result` does not hold. -/
def pendingKeys (l result : PackageList) : Nat :=
  l.packages.countP fun e => (result.packages.lookup (packageShortKey e.2)).isNone

/-- The comparison `cmp` on `α` is a total preorder presented by its sign: values `-1`, `0`,
`1`, zero on equal arguments, sign reversed when the arguments are exchanged, transitive. -/
structure IsSignPreorder {α : Type} (cmp : α → α → Int) : Prop where
  range : ∀ a b, cmp a b = -1 ∨ cmp a b = 0 ∨ cmp a b = 1
  refl : ∀ a, cmp a a = 0
  antisymm : ∀ a b, cmp a b = - cmp b a
  trans : ∀ a b c, cmp a b ≤ 0 → cmp b c ≤ 0 → cmp a c ≤ 0

/-- Comparison of two numbers by their sign. -/
def compareNat (m n : Nat) : Int := if m < n then -1 else if n < m then 1 else 0

/-- The non-digit run at the head of a part. -/
def headRun (part : List Char) : List Char := part.takeWhile fun c => !c.isDigit

/-- The value of the digit run that follows the non-digit run at the head of a part. -/
def headNumber (part : List Char) : Nat :=
  digitsValue ((part.dropWhile fun c => !c.isDigit).takeWhile Char.isDigit)

/-- The part after its first non-digit run and the digit run that follows it. -/
def afterRuns (part : List Char) : List Char :=
  (part.dropWhile fun c => !c.isDigit).dropWhile Char.isDigit

/-- The first round of `compareVersionPart`: the non-digit runs, then the digit runs. -/
def compareRound (part1 part2 : List Char) : Int :=
  if compareLexicographic (headRun part1) (headRun part2) ≠ 0 then
    compareLexicographic (headRun part1) (headRun part2)
  else compareNat (headNumber part1) (headNumber part2)

/-- The comparison of two parts by `compareVersionPart` with the fuel that `CompareVersions`
gives it. -/
def comparePart (part1 part2 : List Char) : Int :=
  compareVersionPart (part1.length + part2.length + 1) part1 part2

/-! ## Inputs of the statements on colliding hashes and conflicting query results -/

/-- Package `clash 1 i386`, which depends on `3:a:b` (the package `3` for the architecture
`a:b`) and on `b:a (= 0:)` (the package `b` for the architecture `a` in the version
`0:`). -/
def pkgClash : Package :=
  { Name := "clash", Version := "1", Architecture := "i386",
    deps := { Depends := ["3:a:b", "b:a (= 0:)"] } }

/-- Package `b 0: a`. -/
def pkgZeroEpoch : Package := { Name := "b", Version := "0:", Architecture := "a" }

/-- Unindexed list that holds `pkgClash`. -/
def listClash : PackageList := { packages := [("Pi386 clash 1", pkgClash)] }

/-- Indexed list that holds `pkgZeroEpoch`. -/
def sourcesZeroEpoch : PackageList :=
  ((NewPackageList.Add debExternals pkgZeroEpoch).1).PrepareIndex debExternals

/-- Dependency `3:a:b` as parsed. -/
def depThree : Dependency := { Pkg := "3", Architecture := "a:b" }

/-- Dependency `b:a (= 0:)` as parsed. -/
def depZeroEpoch : Dependency :=
  { Pkg := "b", Relation := VersionEqual, Version := "0:", Architecture := "a" }

/-- Package `tool 1.0 i386` without `Source` field. -/
def pkgToolPlain : Package := { Name := "tool", Version := "1.0", Architecture := "i386" }

/-- A query that returns `tool 1.0 i386` without `Source` field, whatever the list. -/
def queryToolPlain : PackageQuery := fun _ =>
  (NewPackageList.Add debExternals pkgToolPlain).1

/-- Query for the package `tool 1.0 i386` by its key. -/
def queryToolByKey : PackageQuery := fun l => l.SearchByKey debExternals "i386" "tool" "1.0"

/-- Options: the two queries for `tool`, with source packages. -/
def optionsToolConflict : FilterOptions :=
  { Queries := [queryToolPlain, queryToolByKey], WithSources := true,
    Architectures := ["i386"] }

/-! ## Theorems -/

theorem providesDependencyLoop_iff (E : Externals) (p : Package) (dep : Dependency)
    (entries errs : List String) :
    (providesDependencyLoop E p dep entries errs).1 = true ↔
      ∃ s ∈ entries, providesEntry E p dep s := by
  induction entries generalizing errs with
  | nil => simp [providesDependencyLoop]
  | cons s rest ih =>
    simp only [providesDependencyLoop, List.mem_cons, exists_eq_or_imp]
    by_cases hrel : (E.ParseDependency s).1.Relation ≠ VersionEqual ∧
        (E.ParseDependency s).1.Relation ≠ VersionDontCare
    · rw [if_pos hrel, ih]
      have : ¬ providesEntry E p dep s := by
        intro h
        rcases h.1 with h1 | h1
        · exact hrel.1 h1
        · exact hrel.2 h1
      simp [this]
    · rw [if_neg hrel]
      have hrel2 : (E.ParseDependency s).1.Relation = VersionEqual ∨
          (E.ParseDependency s).1.Relation = VersionDontCare := by
        by_contra hc
        exact hrel ⟨fun h => hc (Or.inl h), fun h => hc (Or.inr h)⟩
      by_cases hm : (E.ParseDependency s).1.Pkg = dep.Pkg ∧
          versionSatisfiesDependency E
            (if (E.ParseDependency s).1.Version = "" then p.Version
              else (E.ParseDependency s).1.Version) dep = true
      · rw [if_pos hm]
        simp only [true_iff]
        exact Or.inl ⟨hrel2, hm.1, hm.2⟩
      · rw [if_neg hm, ih]
        have : ¬ providesEntry E p dep s := fun h => hm ⟨h.2.1, h.2.2⟩
        simp [this]

theorem providesDependency_iff (E : Externals) (p : Package) (dep : Dependency) :
    (p.providesDependency E dep).1 = true ↔ ∃ s ∈ p.Provides, providesEntry E p dep s :=
  providesDependencyLoop_iff E p dep p.Provides []

/-- MatchesDependency, unfolded: the architecture test, then a providing entry or the name
and version of the package itself. -/
theorem MatchesDependency_iff (E : Externals) (p : Package) (dep : Dependency) :
    p.MatchesDependency E dep = true ↔
      (dep.Architecture = "" ∨ p.MatchesArchitecture dep.Architecture = true) ∧
        ((∃ s ∈ p.Provides, providesEntry E p dep s) ∨
          (dep.Pkg = p.Name ∧ versionSatisfiesDependency E p.Version dep = true)) := by
  unfold Package.MatchesDependency
  by_cases ha : dep.Architecture ≠ "" ∧ (!p.MatchesArchitecture dep.Architecture) = true
  · rw [if_pos ha]
    have h1 := ha.1
    have h2 := ha.2
    simp only [Bool.not_eq_true', ne_eq] at h1 h2
    simp [h1, h2]
  · rw [if_neg ha]
    have harch : dep.Architecture = "" ∨ p.MatchesArchitecture dep.Architecture = true := by
      by_contra hc
      apply ha
      constructor
      · exact fun h => hc (Or.inl h)
      · cases hm : p.MatchesArchitecture dep.Architecture
        · rfl
        · exact absurd (Or.inr hm) hc
    by_cases hp : (p.providesDependency E dep).1 = true
    · rw [if_pos hp]
      simp only [true_iff]
      exact ⟨harch, Or.inl ((providesDependency_iff E p dep).1 hp)⟩
    · rw [if_neg hp]
      have hp2 : ¬ ∃ s ∈ p.Provides, providesEntry E p dep s :=
        fun h => hp ((providesDependency_iff E p dep).2 h)
      by_cases hn : dep.Pkg ≠ p.Name
      · rw [if_pos hn]
        simp only [ne_eq] at hn
        simp [hp2, hn]
      · rw [if_neg hn]
        simp only [ne_eq, not_not] at hn
        simp [hp2, hn, harch]

theorem versionSatisfiesDependency_sign (E : Externals) (version : String) (dep : Dependency)
    (hrel : dep.Relation ≠ VersionPatternMatch ∧ dep.Relation ≠ VersionRegexp) :
    versionSatisfiesDependency E version dep = true ↔
      signFitsRelation dep.Relation (E.CompareVersions version dep.Version) := by
  unfold versionSatisfiesDependency signFitsRelation
  cases hr : dep.Relation <;> simp_all

/-- C3: for a package `P` and a dependency `D` whose architecture is unset or matched by
`P`: a `Provides` entry that parses to the name `D.Pkg` with relation `=` or none and whose
version (the version of `P` when the entry has none) satisfies `D` makes
`P.MatchesDependency(D)` true; when `P.Name` differs from `D.Pkg` and no entry does so the
result is false. In particular, for a parser that reads an entry `e` as `n (= 10495)` and a
comparator that puts `10495` above `9729`, a package providing `e` (named otherwise, with no
other entry for `n`) satisfies `n (>= 9729)` and not `n (<< 9729)`, whatever its own
version. -/
theorem C3_provides_with_version (E : Externals) (P : Package) (D : Dependency)
    (harch : D.Architecture = "" ∨ P.MatchesArchitecture D.Architecture = true) :
    ((∃ s ∈ P.Provides, providesEntry E P D s) → P.MatchesDependency E D = true) ∧
    (P.Name ≠ D.Pkg → (¬ ∃ s ∈ P.Provides, providesEntry E P D s) →
      P.MatchesDependency E D = false) ∧
    (∀ e n : String, e ∈ P.Provides → P.Name ≠ n →
      (E.ParseDependency e).1.Pkg = n → (E.ParseDependency e).1.Relation = VersionEqual →
      (E.ParseDependency e).1.Version = "10495" →
      (∀ s ∈ P.Provides, s ≠ e → (E.ParseDependency s).1.Pkg ≠ n) →
      E.CompareVersions "10495" "9729" = 1 →
      P.MatchesDependency E { Pkg := n, Relation := VersionGreaterOrEqual, Version := "9729" }
          = true ∧
        P.MatchesDependency E { Pkg := n, Relation := VersionLess, Version := "9729" }
          = false) := by
  refine ⟨fun h => (MatchesDependency_iff E P D).2 ⟨harch, Or.inl h⟩, ?_, ?_⟩
  · intro hn hno
    cases hm : P.MatchesDependency E D
    · rfl
    · rcases ((MatchesDependency_iff E P D).1 hm).2 with h | h
      · exact absurd h hno
      · exact absurd h.1.symm hn
  · intro e n he hname hpkg hrel hver hother hcmp
    constructor
    · refine (MatchesDependency_iff E P _).2 ⟨Or.inl rfl, Or.inl ⟨e, he, Or.inl hrel, hpkg, ?_⟩⟩
      simp [hver, versionSatisfiesDependency, hcmp]
    · cases hm : P.MatchesDependency E
          { Pkg := n, Relation := VersionLess, Version := "9729" }
      · rfl
      · rcases ((MatchesDependency_iff E P _).1 hm).2 with ⟨s, hs, -, hp, hv⟩ | h
        · by_cases hse : s = e
          · subst hse
            simp [hver, versionSatisfiesDependency, hcmp] at hv
          · exact absurd hp (hother s hs hse)
        · exact absurd h.1.symm hname

/-- C4: for a package without `Provides` and a dependency with one of the six ordering
relations, `MatchesDependency` holds exactly when the architecture of the dependency is empty
or matched, the names agree, and the sign of `CompareVersions(P.Version, D.Version)` fits
the relation. -/
theorem C4_matches_without_provides (E : Externals) (P : Package) (D : Dependency)
    (hprov : P.Provides = [])
    (hrel : D.Relation ≠ VersionPatternMatch ∧ D.Relation ≠ VersionRegexp) :
    P.MatchesDependency E D = true ↔
      ((D.Architecture = "" ∨ P.MatchesArchitecture D.Architecture = true) ∧
        D.Pkg = P.Name ∧
        signFitsRelation D.Relation (E.CompareVersions P.Version D.Version)) := by
  rw [MatchesDependency_iff, versionSatisfiesDependency_sign E P.Version D hrel, hprov]
  simp

/-- C5: when the key of `p` is already present in `l`, `Add(p)` leaves the list unchanged
(map, sorted vector, provides index and length); it returns a `PackageConflictError` with the
text `package already exists and is different` exactly when the stored package is not
`Equals` to `p`, and no error when it is. -/
theorem C5_add_existing_key (E : Externals) (l : PackageList) (p existing : Package)
    (h : l.packages.lookup (l.keyFunc p) = some existing) :
    (l.Add E p).1 = l ∧ (l.Add E p).1.Len = l.Len ∧
    ((l.Add E p).2 = some (Failure.PackageConflictError
        ("package already exists and is different: " ++ PackageString p)) ↔
      existing.Equals p = false) ∧
    ((∃ msg, (l.Add E p).2 = some (Failure.PackageConflictError msg)) ↔
      existing.Equals p = false) ∧
    (existing.Equals p = true → (l.Add E p).2 = none) := by
  unfold PackageList.Add
  simp only [h]
  cases he : existing.Equals p <;> simp

theorem C3_provides_with_version_witness :
    (depApiMaxGe.Architecture = "" ∨
      python3CFFIBackend.MatchesArchitecture depApiMaxGe.Architecture = true) ∧
    python3CFFIBackend.MatchesDependency debExternals depApiMaxGe = true ∧
    python3CFFIBackend.MatchesDependency debExternals depApiMaxLt = false :=
  ⟨Or.inl rfl,
    (C3_provides_with_version debExternals python3CFFIBackend depApiMaxGe (Or.inl rfl)).2.2
      "python3-cffi-backend-api-max (= 10495)" "python3-cffi-backend-api-max"
      (by decide) (by decide) (by decide) (by decide) (by decide) (by decide) (by decide)⟩

theorem C4_matches_without_provides_witness :
    pkgApp.Provides = [] ∧
    (depAppLt.Relation ≠ VersionPatternMatch ∧ depAppLt.Relation ≠ VersionRegexp) ∧
    (pkgApp.MatchesDependency debExternals depAppLt = true ↔
      ((depAppLt.Architecture = "" ∨ pkgApp.MatchesArchitecture depAppLt.Architecture = true) ∧
        depAppLt.Pkg = pkgApp.Name ∧
        signFitsRelation depAppLt.Relation
          (debExternals.CompareVersions pkgApp.Version depAppLt.Version))) :=
  ⟨rfl, by decide, C4_matches_without_provides debExternals pkgApp depAppLt rfl (by decide)⟩

theorem C5_add_existing_key_witness :
    listApp.packages.lookup (listApp.keyFunc pkgAppOther) = some pkgApp ∧
    (listApp.Add debExternals pkgAppOther).1 = listApp ∧
    (listApp.Add debExternals pkgAppOther).2 = some (Failure.PackageConflictError
        "package already exists and is different: app_1.1~bp1_i386") :=
  ⟨by decide,
    (C5_add_existing_key debExternals listApp pkgAppOther pkgApp (by decide)).1,
    ((C5_add_existing_key debExternals listApp pkgAppOther pkgApp (by decide)).2.2.1).2
      (by decide)⟩

/-- C2, evaluated on the list of the two providers of `mail-agent`, for every parser that
reads their entries as `mail-agent (= 1)` and `mail-agent (= 2)` and every comparator that
puts version `1` below version `2`: the search for `mail-agent (>= 2)` in all-matches mode
returns the provider of version 2, and in first-match mode it returns nothing. The provider
loop returns after the first provider whose architecture fits, although that provider does
not satisfy the dependency. -/
theorem C2_first_match_returns_after_first_provider (E : Externals)
    (hone : E.ParseDependency "mail-agent (= 1)" = (provMailAgentOne, none))
    (htwo : E.ParseDependency "mail-agent (= 2)" = (provMailAgentTwo, none))
    (hlt : E.CompareVersions "1" "2" < 0) (hge : 0 ≤ E.CompareVersions "2" "2") :
    (listMailAgents E).indexed = true ∧
    (listMailAgents E).Search E depMailAgentGe2 true true = Except.ok [pkgSendmail] ∧
    (listMailAgents E).Search E depMailAgentGe2 false true = Except.ok [] := by
  have hp1 : pkgPostfix.ProvidedPackages E = ["mail-agent"] := by
    simp [Package.ProvidedPackages, pkgPostfix, hone, provMailAgentOne]
  have hp2 : pkgSendmail.ProvidedPackages E = ["mail-agent"] := by
    simp [Package.ProvidedPackages, pkgSendmail, htwo, provMailAgentTwo]
  have hm1 : pkgPostfix.MatchesDependency E depMailAgentGe2 = false := by
    simp [Package.MatchesDependency, Package.providesDependency, providesDependencyLoop,
      pkgPostfix, depMailAgentGe2, hone, provMailAgentOne, versionSatisfiesDependency,
      not_le.mpr hlt]
  have hm2 : pkgSendmail.MatchesDependency E depMailAgentGe2 = true := by
    simp [Package.MatchesDependency, Package.providesDependency, providesDependencyLoop,
      pkgSendmail, depMailAgentGe2, htwo, provMailAgentTwo, versionSatisfiesDependency, hge]
  have hind : (listMailAgents E).indexed = true := rfl
  have hvec : (listMailAgents E).packagesIndex = [pkgPostfix, pkgSendmail] := by
    with_unfolding_all rfl
  have hidx : (listMailAgents E).providesIndex =
      [("mail-agent", [pkgPostfix, pkgSendmail])] := by
    have h : (listMailAgents E).providesIndex =
        [pkgPostfix, pkgSendmail].foldl (addProvides E) [] := by with_unfolding_all rfl
    rw [h]
    simp [addProvides, hp1, hp2, mapSet, mapGetD, List.lookup]
  have hpostfix : pkgPostfix.Name = "postfix" := rfl
  have hsendmail : pkgSendmail.Name = "sendmail" := rfl
  have hdep : depMailAgentGe2.Pkg = "mail-agent" := rfl
  have harch : depMailAgentGe2.Architecture = "" := rfl
  refine ⟨hind, ?_, ?_⟩
  · unfold PackageList.Search
    rw [hidx, hvec, hind]
    simp [sortSearch, sortSearchLoop, atIndex, strLt, searchNameRun, searchProviders,
      List.lookup, hpostfix, hsendmail, hdep, harch, hm1, hm2]
  · unfold PackageList.Search
    rw [hidx, hvec, hind]
    simp [sortSearch, sortSearchLoop, atIndex, strLt, searchNameRun, searchProviders,
      List.lookup, hpostfix, hsendmail, hdep, harch, hm1, hm2]

theorem C2_first_match_returns_after_first_provider_witness :
    debExternals.ParseDependency "mail-agent (= 1)" = (provMailAgentOne, none) ∧
    debExternals.ParseDependency "mail-agent (= 2)" = (provMailAgentTwo, none) ∧
    debExternals.CompareVersions "1" "2" < 0 ∧ 0 ≤ debExternals.CompareVersions "2" "2" ∧
    (listMailAgents debExternals).Search debExternals depMailAgentGe2 true true =
      Except.ok [pkgSendmail] ∧
    (listMailAgents debExternals).Search debExternals depMailAgentGe2 false true =
      Except.ok [] :=
  ⟨by decide, by decide, by decide, by decide,
    (C2_first_match_returns_after_first_provider debExternals (by decide) (by decide)
      (by decide) (by decide)).2⟩

theorem strLt_iff (a b : String) : strLt a b = true ↔ a.data < b.data := by
  simp [strLt]

theorem strLt_irrefl (a : String) : strLt a a = false := by
  simp [strLt]

theorem strLt_asymm {a b : String} (h : strLt a b = true) : strLt b a = false := by
  simp only [strLt, decide_eq_true_eq, decide_eq_false_iff_not] at *
  exact lt_asymm h

theorem strLt_cotrans {a c : String} (h : strLt a c = true) (b : String) :
    strLt a b = true ∨ strLt b c = true := by
  simp only [strLt, decide_eq_true_eq] at *
  by_cases hab : a.data < b.data
  · exact Or.inl hab
  · exact Or.inr (lt_of_le_of_lt (not_lt.1 hab) h)

theorem strLt_total_of_ne {a b : String} (h : a ≠ b) : strLt a b = true ∨ strLt b a = true := by
  simp only [strLt, decide_eq_true_eq]
  rcases lt_trichotomy a.data b.data with h1 | h1 | h1
  · exact Or.inl h1
  · exact absurd (String.ext h1) h
  · exact Or.inr h1

theorem lessPackages_irrefl (E : Externals) (hE : IsTotalPreorder E.CompareVersions)
    (a : Package) : lessPackages E a a = false := by
  simp [lessPackages, hE.refl, strLt_irrefl]

theorem lessPackages_asymm (E : Externals) (hE : IsTotalPreorder E.CompareVersions)
    {a b : Package} (h : lessPackages E a b = true) : lessPackages E b a = false := by
  simp only [lessPackages] at *
  by_cases hn : a.Name = b.Name
  · rw [if_pos hn] at h
    rw [if_pos hn.symm]
    have hanti := hE.antisymm a.Version b.Version
    by_cases h0 : E.CompareVersions a.Version b.Version = 0
    · have h0b : E.CompareVersions b.Version a.Version = 0 := by omega
      rw [if_pos h0] at h
      rw [if_pos h0b]
      exact strLt_asymm h
    · rw [if_neg h0] at h
      have h1 : E.CompareVersions a.Version b.Version = 1 := by simpa using h
      have h0b : E.CompareVersions b.Version a.Version ≠ 0 := by omega
      have h1b : E.CompareVersions b.Version a.Version ≠ 1 := by omega
      rw [if_neg h0b]
      simpa using h1b
  · rw [if_neg hn] at h
    rw [if_neg (fun h2 => hn h2.symm)]
    exact strLt_asymm h

theorem lessPackages_cotrans (E : Externals) (hE : IsTotalPreorder E.CompareVersions)
    {c a : Package} (h : lessPackages E c a = true) (b : Package) :
    lessPackages E c b = true ∨ lessPackages E b a = true := by
  simp only [lessPackages] at *
  by_cases hca : c.Name = a.Name
  · rw [if_pos hca] at h
    by_cases hcb : c.Name = b.Name
    · have hba : b.Name = a.Name := hcb.symm.trans hca
      rw [if_pos hcb, if_pos hba]
      have r1 := hE.range c.Version b.Version
      have r2 := hE.range b.Version a.Version
      have r3 := hE.range c.Version a.Version
      have a1 := hE.antisymm c.Version b.Version
      have a2 := hE.antisymm b.Version a.Version
      have a3 := hE.antisymm c.Version a.Version
      have t1 := hE.trans c.Version b.Version a.Version
      have t2 := hE.trans b.Version a.Version c.Version
      have t3 := hE.trans a.Version c.Version b.Version
      by_cases x1 : E.CompareVersions c.Version b.Version = 1
      · left
        have x0 : E.CompareVersions c.Version b.Version ≠ 0 := by omega
        rw [if_neg x0]
        simpa using x1
      by_cases y1 : E.CompareVersions b.Version a.Version = 1
      · right
        have y0 : E.CompareVersions b.Version a.Version ≠ 0 := by omega
        rw [if_neg y0]
        simpa using y1
      by_cases z0 : E.CompareVersions c.Version a.Version = 0
      · rw [if_pos z0] at h
        have x0 : E.CompareVersions c.Version b.Version = 0 := by omega
        have y0 : E.CompareVersions b.Version a.Version = 0 := by omega
        rw [if_pos x0, if_pos y0]
        exact strLt_cotrans h _
      · rw [if_neg z0] at h
        have z1 : E.CompareVersions c.Version a.Version = 1 := by simpa using h
        omega
    · have hba : ¬ b.Name = a.Name := fun h2 => hcb (hca.trans h2.symm)
      rw [if_neg hcb, if_neg hba, ← hca]
      exact strLt_total_of_ne hcb
  · rw [if_neg hca] at h
    by_cases hcb : c.Name = b.Name
    · have hba : ¬ b.Name = a.Name := fun h2 => hca (hcb.trans h2)
      right
      rw [if_neg hba, ← hcb]
      exact h
    · rw [if_neg hcb]
      by_cases hba : b.Name = a.Name
      · left
        rw [hba]
        exact h
      · rw [if_neg hba]
        exact strLt_cotrans h _

theorem sortSearchLoop_spec (f : Nat → Bool) (n : Nat)
    (hmono : ∀ a b, a ≤ b → b < n → f a = true → f b = true) :
    ∀ fuel i j, i ≤ j → j ≤ n → j - i ≤ fuel →
      (∀ k, k < i → f k = false) → (∀ k, j ≤ k → k < n → f k = true) →
      (sortSearchLoop f fuel i j ≤ n ∧
        (∀ k, k < sortSearchLoop f fuel i j → f k = false) ∧
        (∀ k, sortSearchLoop f fuel i j ≤ k → k < n → f k = true)) := by
  intro fuel
  induction fuel with
  | zero =>
    intro i j hij hjn hfuel hlo hhi
    have : i = j := by omega
    subst this
    simp only [sortSearchLoop]
    exact ⟨hjn, hlo, hhi⟩
  | succ fuel ih =>
    intro i j hij hjn hfuel hlo hhi
    simp only [sortSearchLoop]
    by_cases hlt : i < j
    · rw [if_pos hlt]
      have hh1 : i ≤ (i + j) / 2 := by omega
      have hh2 : (i + j) / 2 < j := by omega
      cases hf : f ((i + j) / 2)
      · simp only [Bool.not_false, if_true]
        apply ih ((i + j) / 2 + 1) j (by omega) hjn (by omega) _ hhi
        intro k hk
        cases hfk : f k
        · rfl
        · have := hmono k ((i + j) / 2) (by omega) (by omega) hfk
          rw [hf] at this
          exact absurd this (by simp)
      · simp only [Bool.not_true, Bool.false_eq_true, if_false]
        apply ih i ((i + j) / 2) hh1 (by omega) (by omega) hlo
        intro k hk hkn
        exact hmono ((i + j) / 2) k hk hkn hf
    · rw [if_neg hlt]
      have : i = j := by omega
      subst this
      exact ⟨hjn, hlo, hhi⟩

theorem atIndex_of_lt (xs : List Package) (f : Package → Bool) (k : Nat) (hk : k < xs.length) :
    atIndex xs f k = f xs[k] := by
  simp [atIndex, List.getElem?_eq_getElem hk]

/-- Result of `sort.Search` on a slice along which the test is false and then true: the test
fails on every element before the returned position and holds from there on. -/
theorem sortSearch_split (xs : List Package) (f : Package → Bool)
    (hmono : xs.Pairwise (fun a b => f a = true → f b = true)) :
    (∀ x ∈ xs.take (sortSearch xs.length (atIndex xs f)), f x = false) ∧
    (∀ x ∈ xs.drop (sortSearch xs.length (atIndex xs f)), f x = true) := by
  have hm : ∀ a b, a ≤ b → b < xs.length → atIndex xs f a = true → atIndex xs f b = true := by
    intro a b hab hb hfa
    have ha : a < xs.length := by omega
    rw [atIndex_of_lt xs f a ha] at hfa
    rw [atIndex_of_lt xs f b hb]
    rcases Nat.lt_or_ge a b with hlt | hge
    · exact (List.pairwise_iff_getElem.1 hmono) a b ha hb hlt hfa
    · have : a = b := by omega
      subst this
      exact hfa
  have hspec : sortSearch xs.length (atIndex xs f) ≤ xs.length ∧
      (∀ k, k < sortSearch xs.length (atIndex xs f) → atIndex xs f k = false) ∧
      (∀ k, sortSearch xs.length (atIndex xs f) ≤ k → k < xs.length →
        atIndex xs f k = true) :=
    sortSearchLoop_spec (atIndex xs f) xs.length hm xs.length 0 xs.length
      (Nat.zero_le _) (Nat.le_refl _) (by omega) (by intro k hk; omega)
      (by intro k hk hkn; omega)
  obtain ⟨hle, hlo, hhi⟩ := hspec
  constructor
  · intro x hx
    obtain ⟨k, hk, rfl⟩ := List.mem_iff_getElem.1 hx
    have hk2 : k < sortSearch xs.length (atIndex xs f) ∧ k < xs.length := by
      simpa [List.length_take] using hk
    have := hlo k hk2.1
    rw [atIndex_of_lt xs f k hk2.2] at this
    rw [List.getElem_take]
    exact this
  · intro x hx
    obtain ⟨k, hk, rfl⟩ := List.mem_iff_getElem.1 hx
    have hk2 : sortSearch xs.length (atIndex xs f) + k < xs.length := by
      have hk3 := hk
      rw [List.length_drop] at hk3
      omega
    have := hhi (sortSearch xs.length (atIndex xs f) + k) (by omega) hk2
    rw [atIndex_of_lt xs f _ hk2] at this
    rw [List.getElem_drop]
    exact this

theorem notAfter_total (E : Externals) (hE : IsTotalPreorder E.CompareVersions)
    (a b : Package) : notAfter E a b ∨ notAfter E b a := by
  unfold notAfter
  cases h : lessPackages E b a
  · exact Or.inl rfl
  · exact Or.inr (lessPackages_asymm E hE h)

theorem notAfter_trans (E : Externals) (hE : IsTotalPreorder E.CompareVersions)
    {a b c : Package} (h1 : notAfter E a b) (h2 : notAfter E b c) : notAfter E a c := by
  unfold notAfter at *
  cases h : lessPackages E c a
  · rfl
  · rcases lessPackages_cotrans E hE h b with h3 | h3
    · rw [h2] at h3
      exact absurd h3 (by simp)
    · rw [h1] at h3
      exact absurd h3 (by simp)

theorem sortPackages_perm (E : Externals) (xs : List Package) :
    (sortPackages E xs).Perm xs :=
  List.perm_insertionSort _ xs

theorem sortPackages_sorted (E : Externals) (hE : IsTotalPreorder E.CompareVersions)
    (xs : List Package) : SortedIndex E (sortPackages E xs) := by
  haveI : IsTotal Package (fun a b => lessPackages E b a = false) :=
    ⟨fun a b => notAfter_total E hE a b⟩
  haveI : IsTrans Package (fun a b => lessPackages E b a = false) :=
    ⟨fun a b c h1 h2 => notAfter_trans E hE h1 h2⟩
  exact List.sorted_insertionSort (fun a b => lessPackages E b a = false) xs

theorem removeFromRun_sublist (p : Package) (ys : List Package) :
    (removeFromRun p ys).Sublist ys := by
  induction ys with
  | nil => exact List.Sublist.refl _
  | cons q rest ih =>
    simp only [removeFromRun]
    split
    · split
      · exact List.sublist_cons_self q rest
      · exact ih.cons₂ q
    · exact List.Sublist.refl _

theorem Remove_packagesIndex_sublist (E : Externals) (l : PackageList) (p : Package) :
    (l.Remove E p).packagesIndex.Sublist l.packagesIndex := by
  unfold PackageList.Remove
  split
  · simp only
    conv => rhs; rw [← List.take_append_drop (sortSearch l.packagesIndex.length
      (atIndex l.packagesIndex fun q => !strLt q.Name p.Name)) l.packagesIndex]
    exact List.Sublist.append (List.Sublist.refl _) (removeFromRun_sublist p _)
  · exact List.Sublist.refl _

theorem Remove_sorted (E : Externals) (l : PackageList) (p : Package)
    (h : SortedIndex E l.packagesIndex) : SortedIndex E (l.Remove E p).packagesIndex :=
  List.Pairwise.sublist (Remove_packagesIndex_sublist E l p) h

/-- Insertion of `p` at the position that `sort.Search` finds for `lessPackages p` keeps a
sorted vector sorted. -/
theorem insert_sorted (E : Externals) (hE : IsTotalPreorder E.CompareVersions)
    (xs : List Package) (p : Package) (h : SortedIndex E xs) :
    SortedIndex E
      (xs.take (sortSearch xs.length (atIndex xs (lessPackages E p))) ++
        p :: xs.drop (sortSearch xs.length (atIndex xs (lessPackages E p)))) := by
  have hmono : xs.Pairwise (fun a b => lessPackages E p a = true → lessPackages E p b = true) := by
    refine List.Pairwise.imp ?_ h
    intro a b hab hpa
    rcases lessPackages_cotrans E hE hpa b with h1 | h1
    · exact h1
    · unfold notAfter at hab
      rw [hab] at h1
      exact absurd h1 (by simp)
  obtain ⟨hlo, hhi⟩ := sortSearch_split xs (lessPackages E p) hmono
  have hsplit : SortedIndex E (xs.take (sortSearch xs.length (atIndex xs (lessPackages E p))) ++
      xs.drop (sortSearch xs.length (atIndex xs (lessPackages E p)))) := by
    rw [List.take_append_drop]
    exact h
  unfold SortedIndex at *
  rw [List.pairwise_append] at hsplit ⊢
  refine ⟨hsplit.1, ?_, ?_⟩
  · rw [List.pairwise_cons]
    exact ⟨fun b hb => lessPackages_asymm E hE (hhi b hb), hsplit.2.1⟩
  · intro a ha b hb
    rcases List.mem_cons.1 hb with rfl | hb
    · exact hlo a ha
    · exact hsplit.2.2 a ha b hb

theorem Add_present (E : Externals) (l : PackageList) (p existing : Package)
    (h : l.packages.lookup (l.keyFunc p) = some existing) :
    l.Add E p = (l, if (!existing.Equals p) = true then
      some (Failure.PackageConflictError
        ("package already exists and is different: " ++ PackageString p)) else none) := by
  unfold PackageList.Add
  simp only [h]
  split <;> rfl

theorem Add_absent_indexed (E : Externals) (l : PackageList) (p : Package)
    (h : l.packages.lookup (l.keyFunc p) = none) (hi : l.indexed = true) :
    l.Add E p = ({ l with
      packages := mapSet l.packages (l.keyFunc p) p
      providesIndex := addProvides E l.providesIndex p
      packagesIndex :=
        l.packagesIndex.take
            (sortSearch l.packagesIndex.length (atIndex l.packagesIndex (lessPackages E p))) ++
          p :: l.packagesIndex.drop
            (sortSearch l.packagesIndex.length (atIndex l.packagesIndex (lessPackages E p))) },
      none) := by
  unfold PackageList.Add
  simp only [h, hi, if_true]

theorem Add_absent_unindexed (E : Externals) (l : PackageList) (p : Package)
    (h : l.packages.lookup (l.keyFunc p) = none) (hi : l.indexed = false) :
    l.Add E p = ({ l with packages := mapSet l.packages (l.keyFunc p) p }, none) := by
  unfold PackageList.Add
  simp only [h, hi, Bool.false_eq_true, if_false]

theorem Add_sorted (E : Externals) (hE : IsTotalPreorder E.CompareVersions)
    (l : PackageList) (p : Package) (h : SortedIndex E l.packagesIndex) :
    SortedIndex E (l.Add E p).1.packagesIndex := by
  cases hlk : l.packages.lookup (l.keyFunc p) with
  | some existing =>
    rw [Add_present E l p existing hlk]
    exact h
  | none =>
    cases hi : l.indexed
    · rw [Add_absent_unindexed E l p hlk hi]
      exact h
    · rw [Add_absent_indexed E l p hlk hi]
      exact insert_sorted E hE l.packagesIndex p h

theorem PrepareIndex_sorted (E : Externals) (hE : IsTotalPreorder E.CompareVersions)
    (l : PackageList) (h : l.indexed = false) :
    SortedIndex E (l.PrepareIndex E).packagesIndex := by
  unfold PackageList.PrepareIndex
  simp only [h, Bool.false_eq_true, if_false]
  exact sortPackages_sorted E hE _

theorem runOps_sorted (E : Externals) (hE : IsTotalPreorder E.CompareVersions)
    (ops : List Op) : ∀ l : PackageList, SortedIndex E l.packagesIndex →
      SortedIndex E (runOps E l ops).packagesIndex := by
  induction ops with
  | nil => intro l h; exact h
  | cons op rest ih =>
    intro l h
    simp only [runOps, List.foldl_cons]
    apply ih
    cases op with
    | Add p => exact Add_sorted E hE l p h
    | Remove p => exact Remove_sorted E l p h

/-- C7: after `PrepareIndex` and any sequence of `Add` and `Remove` calls the sorted vector
is in order (name ascending, then version descending, then architecture ascending, as
`lessPackages` compares): no element compares less than an element before it, given that
`CompareVersions` is a total preorder. -/
theorem C7_sorted_vector_stays_sorted (E : Externals)
    (hE : IsTotalPreorder E.CompareVersions) (l : PackageList) (h : l.indexed = false)
    (ops : List Op) :
    (runOps E (l.PrepareIndex E) ops).packagesIndex.Pairwise
      (fun a b => lessPackages E b a = false) :=
  runOps_sorted E hE ops (l.PrepareIndex E) (PrepareIndex_sorted E hE l h)

theorem compareByKey_isTotalPreorder (key : String → Nat) :
    IsTotalPreorder (compareByKey key) where
  range a b := by unfold compareByKey; split_ifs <;> simp
  refl a := by simp [compareByKey]
  antisymm a b := by unfold compareByKey; split_ifs <;> omega
  trans a b c := by unfold compareByKey; split_ifs <;> omega

theorem C7_sorted_vector_stays_sorted_witness :
    IsTotalPreorder plainExternals.CompareVersions ∧ listPlain.indexed = false ∧
    (runOps plainExternals (listPlain.PrepareIndex plainExternals) opsPlain).packagesIndex.map
        PackageString = ["app_3_i386", "app_2_i386", "app_1_i386"] ∧
    (runOps plainExternals (listPlain.PrepareIndex plainExternals) opsPlain).packagesIndex.Pairwise
      (fun a b => lessPackages plainExternals b a = false) :=
  ⟨compareByKey_isTotalPreorder _, rfl, by decide,
    C7_sorted_vector_stays_sorted plainExternals (compareByKey_isTotalPreorder _) listPlain rfl
      opsPlain⟩

theorem Search_indexed (E : Externals) (l : PackageList) (dep : Dependency)
    (allMatches searchProvided : Bool) (h : l.indexed = true) :
    l.Search E dep allMatches searchProvided =
      Except.ok (searchIndexed E l dep allMatches searchProvided) := by
  unfold PackageList.Search searchIndexed mapGetD
  simp only [h, Bool.not_true, Bool.false_eq_true, if_false]
  split
  · rfl
  · split
    · cases hlk : List.lookup dep.Pkg l.providesIndex <;> simp [searchProviders]
    · rfl

theorem searchNameRun_all (E : Externals) (dep : Dependency) (ys acc : List Package) :
    searchNameRun E dep true ys acc =
      (acc ++ (ys.takeWhile fun p => decide (p.Name = dep.Pkg)).filter
        (fun p => p.MatchesDependency E dep), false) := by
  induction ys generalizing acc with
  | nil => simp [searchNameRun]
  | cons p rest ih =>
    simp only [searchNameRun, List.takeWhile_cons]
    by_cases hn : p.Name = dep.Pkg
    · simp only [hn, if_true, decide_True, List.filter_cons]
      cases hm : p.MatchesDependency E dep
      · simp [ih]
      · simp [ih]
    · simp [hn]

theorem searchNameRun_sound (E : Externals) (dep : Dependency) (allMatches : Bool)
    (ys acc : List Package) :
    ∀ x ∈ (searchNameRun E dep allMatches ys acc).1,
      x ∈ acc ∨ (x ∈ ys ∧ x.Name = dep.Pkg ∧ x.MatchesDependency E dep = true) := by
  induction ys generalizing acc with
  | nil => intro x hx; exact Or.inl (by simpa [searchNameRun] using hx)
  | cons p rest ih =>
    intro x hx
    simp only [searchNameRun] at hx
    by_cases hn : p.Name = dep.Pkg
    · rw [if_pos hn] at hx
      cases hm : p.MatchesDependency E dep
      · simp only [hm, Bool.false_eq_true, if_false] at hx
        rcases ih acc x hx with h | h
        · exact Or.inl h
        · exact Or.inr ⟨List.mem_cons_of_mem _ h.1, h.2⟩
      · simp only [hm, if_true] at hx
        cases allMatches
        · simp only [Bool.not_false, if_true, List.mem_append, List.mem_singleton] at hx
          rcases hx with h | h
          · exact Or.inl h
          · subst h
            exact Or.inr ⟨List.mem_cons_self _ _, hn, hm⟩
        · simp only [Bool.not_true, Bool.false_eq_true, if_false] at hx
          rcases ih (acc ++ [p]) x hx with h | h
          · rcases List.mem_append.1 h with h | h
            · exact Or.inl h
            · rw [List.mem_singleton] at h
              subst h
              exact Or.inr ⟨List.mem_cons_self _ _, hn, hm⟩
          · exact Or.inr ⟨List.mem_cons_of_mem _ h.1, h.2⟩
    · rw [if_neg hn] at hx
      exact Or.inl hx

theorem searchProviders_sound (E : Externals) (dep : Dependency) (allMatches : Bool)
    (ps acc : List Package) :
    ∀ x ∈ searchProviders E dep allMatches ps acc,
      x ∈ acc ∨ (x ∈ ps ∧ x.MatchesDependency E dep = true) := by
  induction ps generalizing acc with
  | nil => intro x hx; exact Or.inl (by simpa [searchProviders] using hx)
  | cons p rest ih =>
    intro x hx
    simp only [searchProviders] at hx
    have key : ∀ y, y ∈ (if p.MatchesDependency E dep = true then acc ++ [p] else acc) →
        y ∈ acc ∨ (y ∈ p :: rest ∧ y.MatchesDependency E dep = true) := by
      intro y hy
      cases hm : p.MatchesDependency E dep
      · simp only [hm, Bool.false_eq_true, if_false] at hy
        exact Or.inl hy
      · simp only [hm, if_true, List.mem_append, List.mem_singleton] at hy
        rcases hy with h | h
        · exact Or.inl h
        · subst h
          exact Or.inr ⟨List.mem_cons_self _ _, hm⟩
    split at hx
    · split at hx
      · exact key x hx
      · rcases ih _ x hx with h | h
        · exact key x h
        · exact Or.inr ⟨List.mem_cons_of_mem _ h.1, h.2⟩
    · rcases ih _ x hx with h | h
      · exact Or.inl h
      · exact Or.inr ⟨List.mem_cons_of_mem _ h.1, h.2⟩

/-- Every package that `Search` returns satisfies the dependency and comes from the sorted
vector or from the providers recorded under the name of the dependency. -/
theorem searchIndexed_sound (E : Externals) (l : PackageList) (dep : Dependency)
    (allMatches searchProvided : Bool) :
    ∀ x ∈ searchIndexed E l dep allMatches searchProvided,
      x.MatchesDependency E dep = true ∧
        (x ∈ l.packagesIndex ∨ x ∈ mapGetD l.providesIndex dep.Pkg) := by
  intro x hx
  unfold searchIndexed at hx
  have hrun := searchNameRun_sound E dep allMatches
    (l.packagesIndex.drop (sortSearch l.packagesIndex.length
      (atIndex l.packagesIndex fun q => !strLt q.Name dep.Pkg))) []
  have hrun2 : ∀ y ∈ (searchNameRun E dep allMatches
      (l.packagesIndex.drop (sortSearch l.packagesIndex.length
        (atIndex l.packagesIndex fun q => !strLt q.Name dep.Pkg))) []).1,
      y.MatchesDependency E dep = true ∧ y ∈ l.packagesIndex := by
    intro y hy
    rcases hrun y hy with h | h
    · exact absurd h (List.not_mem_nil _)
    · exact ⟨h.2.2, List.mem_of_mem_drop h.1⟩
  simp only at hx
  split at hx
  · exact ⟨(hrun2 x hx).1, Or.inl (hrun2 x hx).2⟩
  · split at hx
    · rcases searchProviders_sound E dep allMatches _ _ x hx with h | h
      · exact ⟨(hrun2 x h).1, Or.inl (hrun2 x h).2⟩
      · exact ⟨h.2, Or.inr h.1⟩
    · exact ⟨(hrun2 x hx).1, Or.inl (hrun2 x hx).2⟩

theorem MatchesDependency_arch (E : Externals) (p : Package) (dep : Dependency)
    (h : p.MatchesDependency E dep = true) :
    dep.Architecture = "" ∨ p.MatchesArchitecture dep.Architecture = true :=
  ((MatchesDependency_iff E p dep).1 h).1

theorem searchProviders_all (E : Externals) (dep : Dependency) (ps acc : List Package) :
    searchProviders E dep true ps acc =
      acc ++ ps.filter (fun p => p.MatchesDependency E dep) := by
  induction ps generalizing acc with
  | nil => simp [searchProviders]
  | cons p rest ih =>
    simp only [searchProviders, List.filter_cons]
    cases hm : p.MatchesDependency E dep
    · simp only [Bool.false_eq_true, if_false, Bool.not_true, ite_self]
      exact ih acc
    · have ha := MatchesDependency_arch E p dep hm
      simp only [ha, if_true, Bool.not_true, Bool.false_eq_true, if_false]
      rw [ih]
      simp

theorem mem_takeWhile_of_pairwise {q : Package → Bool} :
    ∀ (ys : List Package), ys.Pairwise (fun a b => q b = true → q a = true) →
      ∀ x ∈ ys, q x = true → x ∈ ys.takeWhile q := by
  intro ys
  induction ys with
  | nil => intro _ x hx; exact absurd hx (List.not_mem_nil _)
  | cons y rest ih =>
    intro hp x hx hq
    rw [List.pairwise_cons] at hp
    rcases List.mem_cons.1 hx with rfl | hx
    · simp [List.takeWhile_cons, hq]
    · have hy : q y = true := hp.1 x hx hq
      rw [List.takeWhile_cons, hy]
      exact List.mem_cons_of_mem _ (ih hp.2 x hx hq)

theorem notAfter_name_ge (E : Externals) {a b : Package} (pkg : String)
    (hab : notAfter E a b) (ha : (!strLt a.Name pkg) = true) : (!strLt b.Name pkg) = true := by
  cases hb : strLt b.Name pkg
  · rfl
  · exfalso
    simp only [Bool.not_eq_true'] at ha
    rcases strLt_cotrans hb a.Name with h | h
    · have hne : ¬ b.Name = a.Name := by
        intro he
        rw [he, strLt_irrefl] at h
        exact absurd h (by simp)
      unfold notAfter lessPackages at hab
      rw [if_neg hne, h] at hab
      exact absurd hab (by simp)
    · rw [ha] at h
      exact absurd h (by simp)

/-- In a sorted vector every package named `dep.Pkg` lies in the run that the first loop of
`Search` walks through. -/
theorem mem_name_run (E : Externals) (xs : List Package) (pkg : String)
    (hs : SortedIndex E xs) (x : Package) (hx : x ∈ xs) (hn : x.Name = pkg) :
    x ∈ (xs.drop (sortSearch xs.length (atIndex xs fun q => !strLt q.Name pkg))).takeWhile
      fun p => decide (p.Name = pkg) := by
  have hmono : xs.Pairwise (fun a b => (!strLt a.Name pkg) = true → (!strLt b.Name pkg) = true) :=
    List.Pairwise.imp (fun hab ha => notAfter_name_ge E pkg hab ha) hs
  obtain ⟨hlo, hhi⟩ := sortSearch_split xs (fun q => !strLt q.Name pkg) hmono
  have hxd : x ∈ xs.drop (sortSearch xs.length (atIndex xs fun q => !strLt q.Name pkg)) := by
    have hx2 := hx
    rw [← List.take_append_drop (sortSearch xs.length (atIndex xs fun q => !strLt q.Name pkg)) xs]
      at hx2
    rcases List.mem_append.1 hx2 with h | h
    · have := hlo x h
      simp [hn, strLt_irrefl] at this
    · exact h
  apply mem_takeWhile_of_pairwise _ _ x hxd (by simp [hn])
  have hsd : SortedIndex E
      (xs.drop (sortSearch xs.length (atIndex xs fun q => !strLt q.Name pkg))) :=
    List.Pairwise.sublist (List.drop_sublist _ _) hs
  refine List.Pairwise.imp_of_mem ?_ hsd
  intro a b ha _ hab hb
  have hage := hhi a ha
  simp only [decide_eq_true_eq] at hb ⊢
  by_contra hne
  have hne2 : ¬ b.Name = a.Name := fun h => hne (h ▸ hb)
  unfold notAfter lessPackages at hab
  rw [if_neg hne2, hb] at hab
  simp only [Bool.not_eq_true'] at hage
  rcases strLt_total_of_ne hne with h | h
  · rw [hage] at h; exact absurd h (by simp)
  · rw [hab] at h; exact absurd h (by simp)

theorem mem_ProvidedPackages_of_accepted (E : Externals) (p : Package) (s : String)
    (hs : s ∈ p.Provides) (hacc : (E.ParseDependency s).2 = none) :
    (E.ParseDependency s).1.Pkg ∈ p.ProvidedPackages E := by
  unfold Package.ProvidedPackages
  rw [List.mem_map]
  refine ⟨s, hs, ?_⟩
  cases hp : E.ParseDependency s with
  | mk d e =>
    rw [hp] at hacc
    simp only at hacc
    subst hacc
    rfl

/-- Search in all-matches mode with providers, on a list with a consistent index whose
`Provides` entries the parser accepts: the packages returned are those of the list that
satisfy the dependency. -/
theorem searchIndexed_all_iff (E : Externals) (l : PackageList) (dep : Dependency)
    (hc : IndexConsistent E l) (hacc : AcceptedProvides E l) (p : Package) :
    p ∈ searchIndexed E l dep true true ↔
      (p ∈ l.packages.map Prod.snd ∧ p.MatchesDependency E dep = true) := by
  constructor
  · intro hp
    obtain ⟨hm, hmem⟩ := searchIndexed_sound E l dep true true p hp
    refine ⟨?_, hm⟩
    rcases hmem with h | h
    · exact (hc.index_mem p).1 h
    · exact ((hc.provides_mem dep.Pkg p).1 h).1
  · intro ⟨hmem, hm⟩
    unfold searchIndexed
    simp only [searchNameRun_all, Bool.false_eq_true, if_false, if_true, List.nil_append,
      searchProviders_all, List.mem_append, List.mem_filter]
    rcases ((MatchesDependency_iff E p dep).1 hm).2 with ⟨s, hs, hentry⟩ | ⟨hname, _⟩
    · right
      refine ⟨?_, hm⟩
      rw [hc.provides_mem dep.Pkg p]
      refine ⟨hmem, ?_⟩
      rw [← hentry.2.1]
      exact mem_ProvidedPackages_of_accepted E p s hs (hacc p hmem s hs)
    · left
      exact ⟨mem_name_run E l.packagesIndex dep.Pkg hc.sorted p ((hc.index_mem p).2 hmem)
        hname.symm, hm⟩

theorem lookup_cons_ite {α : Type} (k k1 : String) (v1 : α) (rest : List (String × α)) :
    List.lookup k ((k1, v1) :: rest) = if k = k1 then some v1 else List.lookup k rest := by
  rw [List.lookup_cons]
  by_cases h : k = k1
  · simp [h]
  · have : (k == k1) = false := by simpa using h
    simp [h, this]

theorem lookup_append {α : Type} (m1 m2 : List (String × α)) (k : String) :
    (m1 ++ m2).lookup k = (m1.lookup k).or (m2.lookup k) := by
  induction m1 with
  | nil => simp
  | cons e rest ih =>
    obtain ⟨k1, v1⟩ := e
    rw [List.cons_append, lookup_cons_ite, lookup_cons_ite, ih]
    split_ifs <;> simp

theorem lookup_map_replace {α : Type} (m : List (String × α)) (k k2 : String) (v : α) :
    (m.map fun e => if e.1 = k then (k, v) else e).lookup k2 =
      if k2 = k then (m.lookup k).map (fun _ => v) else m.lookup k2 := by
  induction m with
  | nil => simp
  | cons e rest ih =>
    obtain ⟨k1, v1⟩ := e
    rw [List.map_cons]
    by_cases h1 : k1 = k
    · rw [if_pos h1, lookup_cons_ite, lookup_cons_ite, lookup_cons_ite, ih]
      subst h1
      split_ifs <;> simp_all
    · rw [if_neg h1, lookup_cons_ite, lookup_cons_ite, lookup_cons_ite, ih]
      have h1b : ¬ k = k1 := fun h => h1 h.symm
      split_ifs <;> simp_all

theorem lookup_mapSet {α : Type} (m : List (String × α)) (k k2 : String) (v : α) :
    (mapSet m k v).lookup k2 = if k2 = k then some v else m.lookup k2 := by
  unfold mapSet
  cases h : m.lookup k with
  | none =>
    simp only [lookup_append, lookup_cons_ite, List.lookup_nil]
    split_ifs with h2
    · subst h2
      simp [h]
    · simp
  | some w =>
    simp only [lookup_map_replace, h, Option.map_some']

theorem lookup_mapDelete {α : Type} (m : List (String × α)) (k k2 : String) :
    (mapDelete m k).lookup k2 = if k2 = k then none else m.lookup k2 := by
  unfold mapDelete
  induction m with
  | nil => simp
  | cons e rest ih =>
    obtain ⟨k1, v1⟩ := e
    by_cases h1 : k1 = k
    · rw [List.filter_cons_of_neg (by simpa using h1), ih, lookup_cons_ite]
      subst h1
      split_ifs <;> simp_all
    · rw [List.filter_cons_of_pos (by simpa using h1), lookup_cons_ite, ih, lookup_cons_ite]
      have h1b : ¬ k = k1 := fun h => h1 h.symm
      split_ifs <;> simp_all

theorem Add_duplicatesAllowed (E : Externals) (l : PackageList) (p : Package) :
    (l.Add E p).1.duplicatesAllowed = l.duplicatesAllowed := by
  cases hlk : l.packages.lookup (l.keyFunc p) with
  | some existing => rw [Add_present E l p existing hlk]
  | none =>
    cases hi : l.indexed
    · rw [Add_absent_unindexed E l p hlk hi]
    · rw [Add_absent_indexed E l p hlk hi]

theorem Remove_duplicatesAllowed (E : Externals) (l : PackageList) (p : Package) :
    (l.Remove E p).duplicatesAllowed = l.duplicatesAllowed := by
  unfold PackageList.Remove
  split <;> rfl

theorem keyFunc_congr {l1 l2 : PackageList} (h : l1.duplicatesAllowed = l2.duplicatesAllowed)
    (p : Package) : l1.keyFunc p = l2.keyFunc p := by
  unfold PackageList.keyFunc
  rw [h]

theorem Add_packages (E : Externals) (l : PackageList) (p : Package) :
    (l.Add E p).1.packages =
      if l.packages.lookup (l.keyFunc p) = none then mapSet l.packages (l.keyFunc p) p
      else l.packages := by
  cases hlk : l.packages.lookup (l.keyFunc p) with
  | some existing => rw [Add_present E l p existing hlk]; simp
  | none =>
    cases hi : l.indexed
    · rw [Add_absent_unindexed E l p hlk hi]; simp
    · rw [Add_absent_indexed E l p hlk hi]; simp

theorem Remove_packages (E : Externals) (l : PackageList) (p : Package) :
    (l.Remove E p).packages = mapDelete l.packages (l.keyFunc p) := by
  unfold PackageList.Remove
  split <;> rfl

theorem Has_Add (E : Externals) (l : PackageList) (p q : Package) :
    (l.Add E p).1.Has q = true ↔ (l.Has q = true ∨ l.keyFunc p = l.keyFunc q) := by
  unfold PackageList.Has
  rw [keyFunc_congr (Add_duplicatesAllowed E l p) q, Add_packages]
  by_cases hk : l.keyFunc p = l.keyFunc q
  · rw [← hk]
    cases hlk : l.packages.lookup (l.keyFunc p) with
    | some existing => simp [hlk]
    | none => simp [lookup_mapSet]
  · have hk2 : ¬ l.keyFunc q = l.keyFunc p := fun h => hk h.symm
    cases hlk : l.packages.lookup (l.keyFunc p) with
    | some existing => simp [hk]
    | none => simp [lookup_mapSet, hk, hk2]

theorem Has_Remove (E : Externals) (l : PackageList) (p q : Package) :
    (l.Remove E p).Has q = true ↔ (l.Has q = true ∧ l.keyFunc p ≠ l.keyFunc q) := by
  unfold PackageList.Has
  rw [keyFunc_congr (Remove_duplicatesAllowed E l p) q, Remove_packages, lookup_mapDelete]
  by_cases hk : l.keyFunc q = l.keyFunc p
  · simp [hk]
  · have hk2 : ¬ l.keyFunc p = l.keyFunc q := fun h => hk h.symm
    simp [hk, hk2]

theorem Add_fails_has (E : Externals) (l : PackageList) (p : Package)
    (h : (l.Add E p).2 ≠ none) : l.Has p = true := by
  unfold PackageList.Has
  cases hlk : l.packages.lookup (l.keyFunc p) with
  | some existing => rfl
  | none =>
    exfalso
    apply h
    cases hi : l.indexed
    · rw [Add_absent_unindexed E l p hlk hi]
    · rw [Add_absent_indexed E l p hlk hi]

theorem runOps_append_singleton (E : Externals) (l : PackageList) (ops : List Op) (op : Op) :
    runOps E l (ops ++ [op]) = applyOp E (runOps E l ops) op := by
  simp [runOps, List.foldl_append]

theorem runOps_duplicatesAllowed (E : Externals) (l : PackageList) (ops : List Op) :
    (runOps E l ops).duplicatesAllowed = l.duplicatesAllowed := by
  induction ops using List.reverseRecOn with
  | nil => rfl
  | append_singleton ops op ih =>
    rw [runOps_append_singleton]
    cases op with
    | Add p => simp only [applyOp]; rw [Add_duplicatesAllowed, ih]
    | Remove p => simp only [applyOp]; rw [Remove_duplicatesAllowed, ih]

theorem append_singleton_eq_iff {α : Type} (ops pre post : List α) (x y : α) :
    ops ++ [x] = pre ++ y :: post ↔
      (post = [] ∧ pre = ops ∧ y = x) ∨ ∃ post2, post = post2 ++ [x] ∧ ops = pre ++ y :: post2 := by
  constructor
  · intro h
    rcases List.eq_nil_or_concat post with hp | ⟨post2, z, hp⟩
    · subst hp
      have := List.append_inj' h rfl
      exact Or.inl ⟨rfl, this.1.symm, (List.cons.inj this.2).1.symm⟩
    · rw [List.concat_eq_append] at hp
      subst hp
      have h2 : ops ++ [x] = (pre ++ y :: post2) ++ [z] := by simpa using h
      have := List.append_inj' h2 rfl
      have hz : x = z := (List.cons.inj this.2).1
      subst hz
      exact Or.inr ⟨post2, rfl, this.1⟩
  · rintro (⟨rfl, rfl, rfl⟩ | ⟨post2, rfl, rfl⟩)
    · rfl
    · simp

theorem AddedAndKept_snoc_Remove (E : Externals) (l : PackageList) (ops : List Op)
    (r : Package) (k : String) :
    AddedAndKept E l (ops ++ [Op.Remove r]) k ↔ (AddedAndKept E l ops k ∧ l.keyFunc r ≠ k) := by
  unfold AddedAndKept
  constructor
  · rintro ⟨pre, q, post, heq, hk, hok, hrem⟩
    rcases (append_singleton_eq_iff _ _ _ _ _).1 heq with ⟨_, _, h3⟩ | ⟨post2, rfl, rfl⟩
    · exact absurd h3 (by simp)
    · refine ⟨⟨pre, q, post2, rfl, hk, hok, fun r2 hr2 => hrem r2 ?_⟩, hrem r ?_⟩
      · exact List.mem_append_left _ hr2
      · exact List.mem_append_right _ (List.mem_singleton_self _)
  · rintro ⟨⟨pre, q, post, rfl, hk, hok, hrem⟩, hr⟩
    refine ⟨pre, q, post ++ [Op.Remove r], by simp, hk, hok, ?_⟩
    intro r2 hr2
    rcases List.mem_append.1 hr2 with h | h
    · exact hrem r2 h
    · rw [List.mem_singleton] at h
      cases h
      exact hr

theorem AddedAndKept_snoc_Add (E : Externals) (l : PackageList) (ops : List Op)
    (q : Package) (k : String) :
    AddedAndKept E l (ops ++ [Op.Add q]) k ↔
      (AddedAndKept E l ops k ∨ (l.keyFunc q = k ∧ ((runOps E l ops).Add E q).2 = none)) := by
  unfold AddedAndKept
  constructor
  · rintro ⟨pre, q2, post, heq, hk, hok, hrem⟩
    rcases (append_singleton_eq_iff _ _ _ _ _).1 heq with ⟨_, rfl, h3⟩ | ⟨post2, rfl, rfl⟩
    · cases h3
      exact Or.inr ⟨hk, hok⟩
    · exact Or.inl ⟨pre, q2, post2, rfl, hk, hok,
        fun r hr => hrem r (List.mem_append_left _ hr)⟩
  · rintro (⟨pre, q2, post, rfl, hk, hok, hrem⟩ | ⟨hk, hok⟩)
    · refine ⟨pre, q2, post ++ [Op.Add q], by simp, hk, hok, ?_⟩
      intro r hr
      rcases List.mem_append.1 hr with h | h
      · exact hrem r h
      · rw [List.mem_singleton] at h
        cases h
    · exact ⟨ops, q, [], rfl, hk, hok, fun r hr => absurd hr (List.not_mem_nil _)⟩

/-- C6, with packages identified by their key in the list: for every sequence of `Add` and
`Remove` calls on an initially empty list and every package `p`, `Has(p)` holds afterwards
exactly when some package with the key of `p` was added by a successful `Add` of the
sequence and no package with that key was removed by a later `Remove`. -/
theorem C6_has_iff_key_added_and_kept (E : Externals) (l : PackageList)
    (hempty : l.packages = []) (ops : List Op) (p : Package) :
    (runOps E l ops).Has p = true ↔ AddedAndKept E l ops (l.keyFunc p) := by
  induction ops using List.reverseRecOn with
  | nil =>
    simp only [runOps, List.foldl_nil, PackageList.Has, hempty, List.lookup_nil,
      Option.isSome_none, Bool.false_eq_true, false_iff]
    rintro ⟨pre, q, post, heq, -⟩
    cases pre <;> simp at heq
  | append_singleton ops op ih =>
    have hdup := runOps_duplicatesAllowed E l ops
    rw [runOps_append_singleton]
    cases op with
    | Add q =>
      simp only [applyOp]
      rw [Has_Add, AddedAndKept_snoc_Add, ih, keyFunc_congr hdup q, keyFunc_congr hdup p]
      constructor
      · rintro (h | h)
        · exact Or.inl h
        · by_cases hok : ((runOps E l ops).Add E q).2 = none
          · exact Or.inr ⟨h, hok⟩
          · left
            have := Add_fails_has E (runOps E l ops) q hok
            rw [← ih]
            unfold PackageList.Has at this ⊢
            rw [keyFunc_congr hdup q, h] at this
            rw [keyFunc_congr hdup p]
            exact this
      · rintro (h | ⟨h, -⟩)
        · exact Or.inl h
        · exact Or.inr h
    | Remove r =>
      simp only [applyOp]
      rw [Has_Remove, AddedAndKept_snoc_Remove, ih, keyFunc_congr hdup r, keyFunc_congr hdup p]

theorem C6_has_iff_key_added_and_kept_witness :
    NewPackageList.packages = [] ∧
    ((runOps debExternals NewPackageList
        [Op.Add pkgApp, Op.Remove pkgPostfix, Op.Add pkgAppOther]).Has pkgAppOther = true ↔
      AddedAndKept debExternals NewPackageList
        [Op.Add pkgApp, Op.Remove pkgPostfix, Op.Add pkgAppOther]
        (NewPackageList.keyFunc pkgAppOther)) :=
  ⟨rfl, C6_has_iff_key_added_and_kept debExternals NewPackageList rfl
    [Op.Add pkgApp, Op.Remove pkgPostfix, Op.Add pkgAppOther] pkgAppOther⟩

/-- C6 as worded, refuted: after `Add(pkgApp)` alone, `Has` holds for the package
`pkgAppOther`, which shares the key of `pkgApp` and differs in its files hash, although no
`Add(pkgAppOther)` is part of the sequence. -/
theorem C6_has_without_add :
    ¬ ((runOps debExternals NewPackageList [Op.Add pkgApp]).Has pkgAppOther = true ↔
      ∃ pre post, [Op.Add pkgApp] = pre ++ Op.Add pkgAppOther :: post ∧
        ((runOps debExternals NewPackageList pre).Add debExternals pkgAppOther).2 = none ∧
        Op.Remove pkgAppOther ∉ post) := by
  intro h
  obtain ⟨pre, post, heq, -⟩ := h.1 (by decide)
  cases pre with
  | nil =>
    have h1 := (List.cons.inj heq).1
    have h2 : pkgApp = pkgAppOther := by injection h1
    exact absurd h2 (by decide)
  | cons a pre2 =>
    have h1 := (List.cons.inj heq).2
    cases pre2 <;> simp at h1

/-- C1, evaluated on the indexed list of the one package `bar`, whose `Provides` entry is
`foo (<> 1)`, for every parser that rejects the entry and returns with its error a value of
name `foo` whose relation is `=` or none: the package is indexed under the entry as it
stands, `MatchesDependency` examines the returned value and holds for the dependency `foo`,
and the search in all-matches mode with providers returns nothing. -/
theorem C1_search_misses_rejected_provides_entry (E : Externals) (d : Dependency)
    (err : String) (hparse : E.ParseDependency "foo (<> 1)" = (d, some err))
    (hname : d.Pkg = "foo")
    (hrel : d.Relation = VersionEqual ∨ d.Relation = VersionDontCare) :
    (listBar E).indexed = true ∧ (listBar E).packages.map Prod.snd = [pkgBar] ∧
    (listBar E).packagesIndex = [pkgBar] ∧
    (listBar E).providesIndex = [("foo (<> 1)", [pkgBar])] ∧
    pkgBar.MatchesDependency E depFoo = true ∧
    (listBar E).Search E depFoo true true = Except.ok [] := by
  have hprov : pkgBar.ProvidedPackages E = ["foo (<> 1)"] := by
    simp [Package.ProvidedPackages, pkgBar, hparse]
  have hm : pkgBar.MatchesDependency E depFoo = true := by
    have hr : ¬ (d.Relation ≠ VersionEqual ∧ d.Relation ≠ VersionDontCare) := by
      rcases hrel with h | h <;> simp [h]
    simp [Package.MatchesDependency, Package.providesDependency, providesDependencyLoop, pkgBar,
      depFoo, hparse, hname, hr, versionSatisfiesDependency]
  have hidx : (listBar E).providesIndex = [("foo (<> 1)", [pkgBar])] := by
    simp [listBar, PackageList.PrepareIndex, PackageList.Add, NewPackageList,
      NewPackageListWithDuplicates, addProvides, hprov, mapSet, mapGetD, mapDelete,
      PackageList.keyFunc]
  have hvec : (listBar E).packagesIndex = [pkgBar] := rfl
  have hind : (listBar E).indexed = true := rfl
  refine ⟨hind, rfl, hvec, hidx, hm, ?_⟩
  unfold PackageList.Search
  rw [hidx, hvec, hind]
  simp [sortSearch, sortSearchLoop, atIndex, strLt, searchNameRun, depFoo, pkgBar, List.lookup]

theorem C1_search_misses_rejected_provides_entry_witness :
    debExternals.ParseDependency "foo (<> 1)" =
      (readFooRejected, some "relation unknown <> in dependency foo (<> 1)") ∧
    pkgBar.MatchesDependency debExternals depFoo = true ∧
    (listBar debExternals).Search debExternals depFoo true true = Except.ok [] :=
  ⟨by decide,
    (C1_search_misses_rejected_provides_entry debExternals readFooRejected
      "relation unknown <> in dependency foo (<> 1)" (by decide) rfl (Or.inr rfl)).2.2.2.2⟩

/-- C8, evaluated for every parser and comparator: on an indexed empty list, `Add(pkgApp)`
followed by `Remove` of a package with the same key and another files hash empties the map
and leaves `pkgApp` in the sorted vector. -/
theorem C8_remove_leaves_stale_vector_entry (E : Externals) :
    (runOps E (NewPackageList.PrepareIndex E)
      [Op.Add pkgApp, Op.Remove pkgAppOther]).packages = [] ∧
    (runOps E (NewPackageList.PrepareIndex E)
      [Op.Add pkgApp, Op.Remove pkgAppOther]).Len = 0 ∧
    (runOps E (NewPackageList.PrepareIndex E)
      [Op.Add pkgApp, Op.Remove pkgAppOther]).packagesIndex = [pkgApp] := by
  refine ⟨?_, ?_, ?_⟩ <;> with_unfolding_all rfl

/-- C9, evaluated for every parser that reads the entry `mail-agent` as the name
`mail-agent`: on an indexed empty list, `Add(pkgMailer)` followed by `Remove` of a package
with the same key and another files hash empties the map and leaves `pkgMailer` under
`mail-agent` in the provides index. -/
theorem C9_remove_leaves_stale_provider (E : Externals)
    (hparse : (E.ParseDependency "mail-agent").1.Pkg = "mail-agent") :
    (runOps E (NewPackageList.PrepareIndex E)
      [Op.Add pkgMailer, Op.Remove pkgMailerOther]).packages = [] ∧
    (runOps E (NewPackageList.PrepareIndex E)
      [Op.Add pkgMailer, Op.Remove pkgMailerOther]).providesIndex =
        [("mail-agent", [pkgMailer])] := by
  have hp : pkgMailer.ProvidedPackages E = ["mail-agent"] := by
    simp only [Package.ProvidedPackages, pkgMailer, List.map_cons, List.map_nil]
    split
    · rfl
    · next providedDep heq =>
      rw [heq] at hparse
      exact congrArg (fun n => [n]) hparse
  have hp2 : pkgMailerOther.ProvidedPackages E = ["mail-agent"] := hp
  refine ⟨by with_unfolding_all rfl, ?_⟩
  have h : (runOps E (NewPackageList.PrepareIndex E)
      [Op.Add pkgMailer, Op.Remove pkgMailerOther]).providesIndex =
      removeProvides E (addProvides E [] pkgMailer) pkgMailerOther := by
    with_unfolding_all rfl
  rw [h]
  unfold addProvides removeProvides
  rw [hp, hp2]
  simp [mapSet, mapGetD, List.lookup, swapRemove, Package.Equals, pkgMailer, pkgMailerOther]

theorem C9_remove_leaves_stale_provider_witness :
    (debExternals.ParseDependency "mail-agent").1.Pkg = "mail-agent" ∧
    (runOps debExternals (NewPackageList.PrepareIndex debExternals)
      [Op.Add pkgMailer, Op.Remove pkgMailerOther]).packages = [] ∧
    (runOps debExternals (NewPackageList.PrepareIndex debExternals)
      [Op.Add pkgMailer, Op.Remove pkgMailerOther]).providesIndex =
        [("mail-agent", [pkgMailer])] :=
  ⟨by decide, C9_remove_leaves_stale_provider debExternals (by decide)⟩

/-! ## Contents of a list under `Append`, `PrepareIndex` and `Add` -/

theorem mapSet_absent {α : Type} (m : List (String × α)) (k : String) (v : α)
    (h : m.lookup k = none) : mapSet m k v = m ++ [(k, v)] := by
  unfold mapSet
  rw [h]

theorem lookup_some_mem {α : Type} (m : List (String × α)) (k : String) (v : α)
    (h : m.lookup k = some v) : (k, v) ∈ m := by
  induction m with
  | nil => simp at h
  | cons e rest ih =>
    obtain ⟨k1, v1⟩ := e
    rw [lookup_cons_ite] at h
    by_cases hk : k = k1
    · rw [if_pos hk] at h
      cases h
      subst hk
      exact List.mem_cons_self _ _
    · rw [if_neg hk] at h
      exact List.mem_cons_of_mem _ (ih h)

theorem mapGetD_mapSet {α : Type} (m : List (String × List α)) (k n : String) (v : List α) :
    mapGetD (mapSet m k v) n = if n = k then v else mapGetD m n := by
  unfold mapGetD
  rw [lookup_mapSet]
  split_ifs <;> rfl

theorem appendLoop_lookup (P : String → Package → Prop) :
    ∀ (pl m : List (String × Package)), (∀ e ∈ pl, P e.1 e.2) →
      (∀ k p, m.lookup k = some p → P k p) →
      ∀ k p, (appendLoop m pl).1.lookup k = some p → P k p := by
  intro pl
  induction pl with
  | nil => intro m _ hm k p h; exact hm k p h
  | cons e rest ih =>
    intro m hpl hm k p h
    obtain ⟨k1, p1⟩ := e
    simp only [appendLoop] at h
    have hrest : ∀ e ∈ rest, P e.1 e.2 := fun e he => hpl e (List.mem_cons_of_mem _ he)
    cases hlk : m.lookup k1 with
    | some existing =>
      rw [hlk] at h
      simp only at h
      split at h
      · exact hm k p h
      · exact ih m hrest hm k p h
    | none =>
      rw [hlk] at h
      simp only at h
      refine ih (mapSet m k1 p1) hrest ?_ k p h
      intro k2 p2 h2
      rw [lookup_mapSet] at h2
      split_ifs at h2 with hk
      · have hfirst := hpl (k1, p1) (List.mem_cons_self _ _)
        cases h2
        rw [hk]
        exact hfirst
      · exact hm k2 p2 h2

theorem appendLoop_values :
    ∀ (pl m : List (String × Package)) (x : Package),
      x ∈ (appendLoop m pl).1.map Prod.snd → x ∈ m.map Prod.snd ∨ x ∈ pl.map Prod.snd := by
  intro pl
  induction pl with
  | nil => intro m x h; exact Or.inl h
  | cons e rest ih =>
    intro m x h
    obtain ⟨k1, p1⟩ := e
    simp only [appendLoop] at h
    cases hlk : m.lookup k1 with
    | some existing =>
      rw [hlk] at h
      simp only at h
      split at h
      · exact Or.inl h
      · rcases ih m x h with h1 | h1
        · exact Or.inl h1
        · exact Or.inr (by simp [h1])
    | none =>
      rw [hlk] at h
      simp only at h
      rcases ih _ x h with h1 | h1
      · rw [mapSet_absent m k1 p1 hlk] at h1
        simp only [List.map_append, List.map_cons, List.map_nil, List.mem_append,
          List.mem_singleton] at h1
        rcases h1 with h2 | h2
        · exact Or.inl h2
        · exact Or.inr (by simp [h2])
      · exact Or.inr (by simp [h1])

theorem Append_indexed (l pl : PackageList) : (l.Append pl).1.indexed = l.indexed := by
  unfold PackageList.Append
  split <;> rfl

theorem Append_duplicatesAllowed (l pl : PackageList) :
    (l.Append pl).1.duplicatesAllowed = l.duplicatesAllowed := by
  unfold PackageList.Append
  split <;> rfl

theorem Append_lookup (P : String → Package → Prop) (l pl : PackageList)
    (hpl : ∀ e ∈ pl.packages, P e.1 e.2) (hl : ∀ k p, l.packages.lookup k = some p → P k p) :
    ∀ k p, (l.Append pl).1.packages.lookup k = some p → P k p := by
  unfold PackageList.Append
  split
  · exact hl
  · exact appendLoop_lookup P pl.packages l.packages hpl hl

theorem Append_values (l pl : PackageList) (x : Package)
    (h : x ∈ (l.Append pl).1.packages.map Prod.snd) :
    x ∈ l.packages.map Prod.snd ∨ x ∈ pl.packages.map Prod.snd := by
  unfold PackageList.Append at h
  split at h
  · exact Or.inl h
  · exact appendLoop_values pl.packages l.packages x h

theorem addProvides_mem (p x : Package) (n : String) :
    ∀ (names : List String) (idx : List (String × List Package)),
      x ∈ mapGetD (names.foldl
        (fun m provides => mapSet m provides (mapGetD m provides ++ [p])) idx) n →
      x ∈ mapGetD idx n ∨ x = p := by
  intro names
  induction names with
  | nil => intro idx h; exact Or.inl h
  | cons name rest ih =>
    intro idx h
    rw [List.foldl_cons] at h
    rcases ih _ h with h1 | h1
    · rw [mapGetD_mapSet] at h1
      split_ifs at h1 with hn
      · rcases List.mem_append.1 h1 with h2 | h2
        · subst hn; exact Or.inl h2
        · exact Or.inr (List.mem_singleton.1 h2)
      · exact Or.inl h1
    · exact Or.inr h1

theorem addProvides_sub (E : Externals) (idx : List (String × List Package)) (p x : Package)
    (n : String) (h : x ∈ mapGetD (addProvides E idx p) n) : x ∈ mapGetD idx n ∨ x = p :=
  addProvides_mem p x n _ idx h

theorem foldl_addProvides_sub (E : Externals) (x : Package) (n : String) :
    ∀ (vals : List Package) (idx : List (String × List Package)),
      x ∈ mapGetD (vals.foldl (addProvides E) idx) n → x ∈ mapGetD idx n ∨ x ∈ vals := by
  intro vals
  induction vals with
  | nil => intro idx h; exact Or.inl h
  | cons v rest ih =>
    intro idx h
    rw [List.foldl_cons] at h
    rcases ih _ h with h1 | h1
    · rcases addProvides_sub E idx v x n h1 with h2 | h2
      · exact Or.inl h2
      · exact Or.inr (by simp [h2])
    · exact Or.inr (List.mem_cons_of_mem _ h1)

theorem PrepareIndex_packages (E : Externals) (l : PackageList) :
    (l.PrepareIndex E).packages = l.packages := by
  unfold PackageList.PrepareIndex
  split <;> rfl

theorem PrepareIndex_duplicatesAllowed (E : Externals) (l : PackageList) :
    (l.PrepareIndex E).duplicatesAllowed = l.duplicatesAllowed := by
  unfold PackageList.PrepareIndex
  split <;> rfl

theorem PrepareIndex_indexed (E : Externals) (l : PackageList) :
    (l.PrepareIndex E).indexed = true := by
  unfold PackageList.PrepareIndex
  split
  · assumption
  · rfl

theorem PrepareIndex_of_indexed (E : Externals) (l : PackageList) (h : l.indexed = true) :
    l.PrepareIndex E = l := by
  unfold PackageList.PrepareIndex
  rw [if_pos h]

theorem PrepareIndex_index_mem (E : Externals) (l : PackageList) (h : l.indexed = false)
    (p : Package) : p ∈ (l.PrepareIndex E).packagesIndex ↔ p ∈ l.packages.map Prod.snd := by
  unfold PackageList.PrepareIndex
  simp only [h, Bool.false_eq_true, if_false]
  exact (sortPackages_perm E _).mem_iff

theorem PrepareIndex_provides_sub (E : Externals) (l : PackageList) (h : l.indexed = false)
    (n : String) (x : Package) (hx : x ∈ mapGetD (l.PrepareIndex E).providesIndex n) :
    x ∈ l.packages.map Prod.snd := by
  unfold PackageList.PrepareIndex at hx
  simp only [h, Bool.false_eq_true, if_false] at hx
  rcases foldl_addProvides_sub E x n _ _ hx with h1 | h1
  · simp [mapGetD] at h1
  · exact h1

/-- What `Add` does to an indexed list: flags kept, every package of the vector and of the
provides index is an old one or `p`, and the old packages are kept. -/
theorem Add_indexed (E : Externals) (l : PackageList) (p : Package) :
    (l.Add E p).1.indexed = l.indexed := by
  cases hlk : l.packages.lookup (l.keyFunc p) with
  | some existing => rw [Add_present E l p existing hlk]
  | none =>
    cases hi : l.indexed
    · rw [Add_absent_unindexed E l p hlk hi]
      exact hi
    · rw [Add_absent_indexed E l p hlk hi]
      exact hi

theorem Add_packagesIndex_sub (E : Externals) (l : PackageList) (p x : Package)
    (h : x ∈ (l.Add E p).1.packagesIndex) : x ∈ l.packagesIndex ∨ x = p := by
  cases hlk : l.packages.lookup (l.keyFunc p) with
  | some existing =>
    rw [Add_present E l p existing hlk] at h
    exact Or.inl h
  | none =>
    cases hi : l.indexed
    · rw [Add_absent_unindexed E l p hlk hi] at h
      exact Or.inl h
    · rw [Add_absent_indexed E l p hlk hi] at h
      simp only [List.mem_append, List.mem_cons] at h
      rcases h with h1 | h1 | h1
      · exact Or.inl (List.mem_of_mem_take h1)
      · exact Or.inr h1
      · exact Or.inl (List.mem_of_mem_drop h1)

theorem Add_providesIndex_sub (E : Externals) (l : PackageList) (p x : Package) (n : String)
    (h : x ∈ mapGetD (l.Add E p).1.providesIndex n) :
    x ∈ mapGetD l.providesIndex n ∨ x = p := by
  cases hlk : l.packages.lookup (l.keyFunc p) with
  | some existing =>
    rw [Add_present E l p existing hlk] at h
    exact Or.inl h
  | none =>
    cases hi : l.indexed
    · rw [Add_absent_unindexed E l p hlk hi] at h
      exact Or.inl h
    · rw [Add_absent_indexed E l p hlk hi] at h
      exact addProvides_sub E _ p x n h

theorem Add_values_mono (E : Externals) (l : PackageList) (p x : Package)
    (h : x ∈ l.packages.map Prod.snd) : x ∈ (l.Add E p).1.packages.map Prod.snd := by
  rw [Add_packages]
  split
  · rename_i hlk
    rw [mapSet_absent _ _ _ hlk]
    simp only [List.map_append, List.mem_append]
    exact Or.inl h
  · exact h

theorem Add_values_sub (E : Externals) (l : PackageList) (p x : Package)
    (h : x ∈ (l.Add E p).1.packages.map Prod.snd) : x ∈ l.packages.map Prod.snd ∨ x = p := by
  rw [Add_packages] at h
  split at h
  · rename_i hlk
    rw [mapSet_absent _ _ _ hlk] at h
    simpa using h
  · exact Or.inl h

theorem Add_values_new (E : Externals) (l : PackageList) (p : Package)
    (h : l.Has p = false) : p ∈ (l.Add E p).1.packages.map Prod.snd := by
  have hlk : l.packages.lookup (l.keyFunc p) = none := by
    simpa [PackageList.Has] using h
  rw [Add_packages, if_pos hlk, mapSet_absent _ _ _ hlk]
  simp

theorem Add_packagesIndex_new (E : Externals) (l : PackageList) (p x : Package)
    (hi : l.indexed = true) (h : l.Has p = false) :
    x ∈ (l.Add E p).1.packagesIndex ↔ (x ∈ l.packagesIndex ∨ x = p) := by
  have hlk : l.packages.lookup (l.keyFunc p) = none := by
    simpa [PackageList.Has] using h
  rw [Add_absent_indexed E l p hlk hi]
  simp only [List.mem_append, List.mem_cons]
  constructor
  · rintro (h1 | h1 | h1)
    · exact Or.inl (List.mem_of_mem_take h1)
    · exact Or.inr h1
    · exact Or.inl (List.mem_of_mem_drop h1)
  · rintro (h1 | h1)
    · have h2 := h1
      rw [← List.take_append_drop (sortSearch l.packagesIndex.length
        (atIndex l.packagesIndex (lessPackages E p))) l.packagesIndex] at h2
      rcases List.mem_append.1 h2 with h3 | h3
      · exact Or.inl h3
      · exact Or.inr (Or.inr h3)
    · exact Or.inr (Or.inl h1)

theorem Add_lookup_new (E : Externals) (l : PackageList) (p : Package) (k : String)
    (h : l.Has p = false) :
    (l.Add E p).1.packages.lookup k = if k = l.keyFunc p then some p else l.packages.lookup k := by
  have hlk : l.packages.lookup (l.keyFunc p) = none := by
    simpa [PackageList.Has] using h
  rw [Add_packages, if_pos hlk, lookup_mapSet]

theorem mem_dedupLoop (E : Externals) (D : Dependency → Prop) (hH : HashInjectiveOn E D)
    (x : Dependency) :
    ∀ (s : List Dependency) (found : List String), (∀ y ∈ s, D y) →
      (x ∈ dedupLoop E s found ↔ (x ∈ s ∧ E.Hash x ∉ found)) := by
  intro s
  induction s with
  | nil => intro found _; simp [dedupLoop]
  | cons y rest ih =>
    intro found hD
    have hDrest : ∀ z ∈ rest, D z := fun z hz => hD z (List.mem_cons_of_mem _ hz)
    simp only [dedupLoop, List.mem_cons]
    by_cases hy : found.contains (E.Hash y) = true
    · rw [if_pos hy, ih found hDrest]
      have hy2 : E.Hash y ∈ found := by simpa using hy
      constructor
      · rintro ⟨h1, h2⟩
        exact ⟨Or.inr h1, h2⟩
      · rintro ⟨h1 | h1, h2⟩
        · subst h1
          exact absurd hy2 h2
        · exact ⟨h1, h2⟩
    · rw [if_neg hy]
      have hy2 : E.Hash y ∉ found := by simpa using hy
      simp only [List.mem_cons, ih _ hDrest, not_or]
      constructor
      · rintro (h1 | ⟨h1, h2, h3⟩)
        · subst h1
          exact ⟨Or.inl rfl, hy2⟩
        · exact ⟨Or.inr h1, h3⟩
      · rintro ⟨h1 | h1, h2⟩
        · exact Or.inl h1
        · by_cases hxy : E.Hash x = E.Hash y
          · exact Or.inl (hH x y (hDrest x h1) (hD y (List.mem_cons_self _ _)) hxy)
          · exact Or.inr ⟨h1, hxy, h2⟩

theorem mem_depSliceDeduplicate (E : Externals) (D : Dependency → Prop)
    (hH : HashInjectiveOn E D) (s : List Dependency) (hD : ∀ y ∈ s, D y) (x : Dependency) :
    x ∈ depSliceDeduplicate E s ↔ x ∈ s := by
  unfold depSliceDeduplicate
  split
  · rfl
  · split
    · rename_i a b
      split
      · rename_i hab
        subst hab
        simp
      · rfl
    · rw [mem_dedupLoop E D hH x s [] hD]
      simp

theorem cachedSatisfied_spec (E : Externals) (D : Dependency → Prop)
    (hH : HashInjectiveOn E D)
    (ds : PackageList) (hds : ds.indexed = true) (dep : Dependency) (hdep : D dep)
    (cache cache2 : List (String × Bool)) (sat : Bool)
    (h : cachedSatisfied E ds dep cache = Except.ok (cache2, sat))
    (hc : CacheSound E ds D cache) :
    CacheSound E ds D cache2 ∧ (sat = true → SatisfiedIn E ds dep) := by
  unfold cachedSatisfied at h
  cases hlk : cache.lookup (E.Hash dep) with
  | some satisfied =>
    rw [hlk] at h
    simp only [Except.ok.injEq, Prod.mk.injEq] at h
    obtain ⟨rfl, rfl⟩ := h
    exact ⟨hc, fun hs => hc dep hdep (by rw [hlk, hs])⟩
  | none =>
    rw [hlk, Search_indexed E ds dep false true hds] at h
    simp only [Except.ok.injEq, Prod.mk.injEq] at h
    obtain ⟨rfl, rfl⟩ := h
    have hsat : (!(searchIndexed E ds dep false true).isEmpty) = true → SatisfiedIn E ds dep := by
      intro hne
      cases hr : searchIndexed E ds dep false true with
      | nil => rw [hr] at hne; simp at hne
      | cons x rest =>
        have hx : x ∈ searchIndexed E ds dep false true := by rw [hr]; exact List.mem_cons_self _ _
        obtain ⟨hm, hmem⟩ := searchIndexed_sound E ds dep false true x hx
        exact ⟨x, hmem, hm⟩
    refine ⟨?_, hsat⟩
    intro d hd hlook
    rw [lookup_mapSet] at hlook
    split_ifs at hlook with hh
    · have hdd : d = dep := hH d dep hd hdep hh
      subst hdd
      exact hsat (by simpa using hlook)
    · exact hc d hd hlook

theorem verifyVariants_spec (E : Externals) (D : Dependency → Prop)
    (hH : HashInjectiveOn E D) (options : Nat)
    (hopt : options &&& DepFollowAllVariants = 0) (arch : String)
    (ds : PackageList) (hds : ds.indexed = true) :
    ∀ (vs : List Dependency) (cache : List (String × Bool)) (vm : List Dependency)
      (cache2 : List (String × Bool)) (vm2 : List Dependency),
      (∀ v ∈ vs, D (forArchitecture arch v)) →
      verifyVariants E options arch ds vs cache vm = Except.ok (cache2, vm2) →
      CacheSound E ds D cache →
      CacheSound E ds D cache2 ∧
        (∀ d ∈ vm2, d ∈ vm ∨ d ∈ vs.map (forArchitecture arch)) ∧
        ((∃ v ∈ vs, SatisfiedIn E ds (forArchitecture arch v)) ∨
          vm2 = vm ++ vs.map (forArchitecture arch)) := by
  intro vs
  induction vs with
  | nil =>
    intro cache vm cache2 vm2 _ h hc
    simp only [verifyVariants, Except.ok.injEq, Prod.mk.injEq] at h
    obtain ⟨rfl, rfl⟩ := h
    exact ⟨hc, fun d hd => Or.inl hd, Or.inr (by simp)⟩
  | cons dep rest ih =>
    intro cache vm cache2 vm2 hD h hc
    simp only [verifyVariants] at h
    cases hcs : cachedSatisfied E ds (forArchitecture arch dep) cache with
    | error f => rw [hcs] at h; simp at h
    | ok r =>
      obtain ⟨cache1, sat⟩ := r
      rw [hcs] at h
      simp only at h
      obtain ⟨hc1, hsat⟩ := cachedSatisfied_spec E D hH ds hds _
        (hD dep (List.mem_cons_self _ _)) cache cache1 sat hcs hc
      cases sat with
      | true =>
        simp only [hopt, and_self, if_true, Except.ok.injEq, Prod.mk.injEq] at h
        obtain ⟨rfl, rfl⟩ := h
        exact ⟨hc1, fun d hd => absurd hd (List.not_mem_nil _),
          Or.inl ⟨dep, List.mem_cons_self _ _, hsat rfl⟩⟩
      | false =>
        simp only [Bool.false_eq_true, false_and, if_false, Bool.not_false, if_true] at h
        obtain ⟨hc2, hfrom, hres⟩ := ih cache1 _ cache2 vm2
          (fun v hv => hD v (List.mem_cons_of_mem _ hv)) h hc1
        refine ⟨hc2, ?_, ?_⟩
        · intro d hd
          rcases hfrom d hd with h1 | h1
          · rcases List.mem_append.1 h1 with h2 | h2
            · exact Or.inl h2
            · rw [List.mem_singleton] at h2
              exact Or.inr (by simp [h2])
          · exact Or.inr (by
              rw [List.map_cons]
              exact List.mem_cons_of_mem _ h1)
        · rcases hres with ⟨v, hv, hs⟩ | hres
          · exact Or.inl ⟨v, List.mem_cons_of_mem _ hv, hs⟩
          · exact Or.inr (by simp [hres])

theorem LineSettled_mono (E : Externals) (ds : PackageList) (arch line : String)
    (m1 m2 : List Dependency) (hsub : ∀ d ∈ m1, d ∈ m2) (h : LineSettled E ds arch line m1) :
    LineSettled E ds arch line m2 := by
  obtain ⟨variants, hp, hr⟩ := h
  refine ⟨variants, hp, ?_⟩
  rcases hr with hr | hr
  · exact Or.inl hr
  · exact Or.inr fun v hv => hsub _ (hr v hv)

theorem verifyLines_spec (E : Externals) (D : Dependency → Prop)
    (hH : HashInjectiveOn E D) (options : Nat)
    (hopt : options &&& DepFollowAllVariants = 0) (arch : String)
    (ds : PackageList) (hds : ds.indexed = true) (p : Package) :
    ∀ (lines : List String) (cache : List (String × Bool)) (missing : List Dependency)
      (cache2 : List (String × Bool)) (missing2 : List Dependency),
      (∀ line ∈ lines, LineIn E D arch line) →
      verifyLines E options arch ds p lines cache missing = Except.ok (cache2, missing2) →
      CacheSound E ds D cache →
      CacheSound E ds D cache2 ∧ (∀ d ∈ missing, d ∈ missing2) ∧
        (∀ d ∈ missing2, d ∈ missing ∨ D d) ∧
        ∀ line ∈ lines, LineSettled E ds arch line missing2 := by
  intro lines
  induction lines with
  | nil =>
    intro cache missing cache2 missing2 _ h hc
    simp only [verifyLines, Except.ok.injEq, Prod.mk.injEq] at h
    obtain ⟨rfl, rfl⟩ := h
    exact ⟨hc, fun d hd => hd, fun d hd => Or.inl hd,
      fun line hl => absurd hl (List.not_mem_nil _)⟩
  | cons line rest ih =>
    intro cache missing cache2 missing2 hD h hc
    simp only [verifyLines] at h
    cases hp : E.ParseDependencyVariants line with
    | error err => rw [hp] at h; simp at h
    | ok variants =>
      rw [hp] at h
      simp only at h
      have hDline := hD line (List.mem_cons_self _ _) variants hp
      have hDv : ∀ y ∈ variants, D y := fun y hy => (hDline y hy).1
      have hmemd := mem_depSliceDeduplicate E D hH variants hDv
      cases hv : verifyVariants E options arch ds (depSliceDeduplicate E variants) cache [] with
      | error f => rw [hv] at h; simp at h
      | ok r =>
        obtain ⟨cache1, vm⟩ := r
        rw [hv] at h
        simp only at h
        obtain ⟨hc1, hfrom, hres⟩ := verifyVariants_spec E D hH options hopt arch ds hds _
          cache [] cache1 vm (fun v hv1 => (hDline v ((hmemd v).1 hv1)).2) hv hc
        obtain ⟨hc2, hmono, hfrom2, hrest⟩ := ih cache1 (missing ++ vm) cache2 missing2
          (fun l2 hl2 => hD l2 (List.mem_cons_of_mem _ hl2)) h hc1
        refine ⟨hc2, fun d hd => hmono d (List.mem_append_left _ hd), ?_, ?_⟩
        · intro d hd
          rcases hfrom2 d hd with h1 | h1
          · rcases List.mem_append.1 h1 with h2 | h2
            · exact Or.inl h2
            · rcases hfrom d h2 with h3 | h3
              · exact absurd h3 (List.not_mem_nil _)
              · obtain ⟨v, hv1, rfl⟩ := List.mem_map.1 h3
                exact Or.inr (hDline v ((hmemd v).1 hv1)).2
          · exact Or.inr h1
        · intro line2 hl2
          rcases List.mem_cons.1 hl2 with rfl | hl2
          · refine ⟨variants, hp, ?_⟩
            rcases hres with ⟨v, hv1, hs⟩ | hres
            · exact Or.inl ⟨v, (hmemd v).1 hv1, hs⟩
            · right
              intro v hv1
              apply hmono
              apply List.mem_append_right
              rw [hres]
              simp only [List.nil_append, List.mem_map]
              exact ⟨v, (hmemd v).2 hv1, rfl⟩
          · exact hrest line2 hl2

theorem verifyPackages_spec (E : Externals) (D : Dependency → Prop)
    (hH : HashInjectiveOn E D) (options : Nat)
    (hopt : options &&& DepFollowAllVariants = 0) (arch : String)
    (ds : PackageList) (hds : ds.indexed = true) :
    ∀ (pkgs : List Package) (cache : List (String × Bool)) (missing : List Dependency)
      (cache2 : List (String × Bool)) (missing2 : List Dependency),
      (∀ p ∈ pkgs, ∀ line ∈ p.GetDependencies options, LineIn E D arch line) →
      verifyPackages E options arch ds pkgs cache missing = Except.ok (cache2, missing2) →
      CacheSound E ds D cache →
      CacheSound E ds D cache2 ∧ (∀ d ∈ missing, d ∈ missing2) ∧
        (∀ d ∈ missing2, d ∈ missing ∨ D d) ∧
        ∀ p ∈ pkgs, p.MatchesArchitecture arch = true →
          ∀ line ∈ p.GetDependencies options, LineSettled E ds arch line missing2 := by
  intro pkgs
  induction pkgs with
  | nil =>
    intro cache missing cache2 missing2 _ h hc
    simp only [verifyPackages, Except.ok.injEq, Prod.mk.injEq] at h
    obtain ⟨rfl, rfl⟩ := h
    exact ⟨hc, fun d hd => hd, fun d hd => Or.inl hd,
      fun p hp => absurd hp (List.not_mem_nil _)⟩
  | cons p rest ih =>
    intro cache missing cache2 missing2 hD h hc
    have hDrest : ∀ q ∈ rest, ∀ line ∈ q.GetDependencies options, LineIn E D arch line :=
      fun q hq => hD q (List.mem_cons_of_mem _ hq)
    simp only [verifyPackages] at h
    cases hm : p.MatchesArchitecture arch with
    | false =>
      simp only [hm, Bool.not_false, if_true] at h
      obtain ⟨hc2, hmono, hfrom, hrest⟩ := ih cache missing cache2 missing2 hDrest h hc
      refine ⟨hc2, hmono, hfrom, ?_⟩
      intro q hq hqm
      rcases List.mem_cons.1 hq with rfl | hq
      · rw [hm] at hqm; exact absurd hqm (by simp)
      · exact hrest q hq hqm
    | true =>
      simp only [hm, Bool.not_true, Bool.false_eq_true, if_false] at h
      cases hv : verifyLines E options arch ds p (p.GetDependencies options) cache missing with
      | error f => rw [hv] at h; simp at h
      | ok r =>
        obtain ⟨cache1, missing1⟩ := r
        rw [hv] at h
        simp only at h
        obtain ⟨hc1, hmono1, hfrom1, hlines⟩ := verifyLines_spec E D hH options hopt arch ds
          hds p _ cache missing cache1 missing1 (hD p (List.mem_cons_self _ _)) hv hc
        obtain ⟨hc2, hmono2, hfrom2, hrest⟩ := ih cache1 missing1 cache2 missing2 hDrest h hc1
        refine ⟨hc2, fun d hd => hmono2 d (hmono1 d hd), ?_, ?_⟩
        · intro d hd
          rcases hfrom2 d hd with h1 | h1
          · exact hfrom1 d h1
          · exact Or.inr h1
        · intro q hq hqm
          rcases List.mem_cons.1 hq with rfl | hq
          · intro line hl
            exact LineSettled_mono E ds arch line missing1 missing2 hmono2 (hlines line hl)
          · exact hrest q hq hqm

theorem verifyArchitectures_spec (E : Externals) (D : Dependency → Prop)
    (hH : HashInjectiveOn E D)
    (options : Nat) (hopt : options &&& DepFollowAllVariants = 0)
    (ds : PackageList) (hds : ds.indexed = true) (index : List Package) :
    ∀ (archs : List String) (missing missing2 : List Dependency),
      (∀ a ∈ archs, ∀ p ∈ index, ∀ line ∈ p.GetDependencies options, LineIn E D a line) →
      verifyArchitectures E options ds index archs missing = Except.ok missing2 →
      (∀ d ∈ missing, d ∈ missing2) ∧ (∀ d ∈ missing2, d ∈ missing ∨ D d) ∧
        ∀ a ∈ archs, ∀ p ∈ index, p.MatchesArchitecture a = true →
          ∀ line ∈ p.GetDependencies options, LineSettled E ds a line missing2 := by
  intro archs
  induction archs with
  | nil =>
    intro missing missing2 _ h
    simp only [verifyArchitectures, Except.ok.injEq] at h
    subst h
    exact ⟨fun d hd => hd, fun d hd => Or.inl hd, fun a ha => absurd ha (List.not_mem_nil _)⟩
  | cons arch rest ih =>
    intro missing missing2 hD h
    simp only [verifyArchitectures] at h
    cases hv : verifyPackages E options arch ds index [] missing with
    | error f => rw [hv] at h; simp at h
    | ok r =>
      obtain ⟨cache1, missing1⟩ := r
      rw [hv] at h
      simp only at h
      have hc0 : CacheSound E ds D [] := by
        intro d _ hd
        simp at hd
      obtain ⟨-, hmono1, hfrom1, hpk⟩ := verifyPackages_spec E D hH options hopt arch ds hds
        index [] missing cache1 missing1 (hD arch (List.mem_cons_self _ _)) hv hc0
      obtain ⟨hmono2, hfrom2, hrest⟩ := ih missing1 missing2
        (fun a ha => hD a (List.mem_cons_of_mem _ ha)) h
      refine ⟨fun d hd => hmono2 d (hmono1 d hd), ?_, ?_⟩
      · intro d hd
        rcases hfrom2 d hd with h1 | h1
        · exact hfrom1 d h1
        · exact Or.inr h1
      · intro a ha p hp hpm line hl
        rcases List.mem_cons.1 ha with rfl | ha
        · exact LineSettled_mono E ds a line missing1 missing2 hmono2 (hpk p hp hpm line hl)
        · exact hrest a ha p hp hpm line hl

/-- VerifyDependencies on an indexed list, without `DepFollowAllVariants` and with a hash that
tells the dependencies at hand apart: when it succeeds, every dependency line of every
package of the sorted vector that matches one of the architectures is settled, for that
architecture, by the sources or by the returned missing dependencies. -/
theorem VerifyDependencies_spec (E : Externals) (D : Dependency → Prop)
    (hH : HashInjectiveOn E D)
    (options : Nat) (hopt : options &&& DepFollowAllVariants = 0)
    (l ds : PackageList) (hl : l.indexed = true) (hds : ds.indexed = true)
    (archs : List String)
    (hD : ∀ a ∈ archs, ∀ p ∈ l.packagesIndex, ∀ line ∈ p.GetDependencies options,
      LineIn E D a line)
    (l2 : PackageList) (missing : List Dependency)
    (h : l.VerifyDependencies E options archs ds = (l2, Except.ok missing)) :
    l2 = l ∧ ∀ a ∈ archs, ∀ p ∈ l.packagesIndex, p.MatchesArchitecture a = true →
      ∀ line ∈ p.GetDependencies options, LineSettled E ds a line missing := by
  unfold PackageList.VerifyDependencies at h
  rw [PrepareIndex_of_indexed E l hl] at h
  simp only at h
  split at h
  · simp at h
  · cases hv : verifyArchitectures E options ds l.packagesIndex archs [] with
    | error f => rw [hv] at h; simp at h
    | ok missing1 =>
      rw [hv] at h
      simp only [Prod.mk.injEq, Except.ok.injEq] at h
      obtain ⟨rfl, rfl⟩ := h
      obtain ⟨-, hfrom, hall⟩ := verifyArchitectures_spec E D hH options hopt ds hds
        l.packagesIndex archs [] missing1 hD hv
      have hDm : ∀ y ∈ missing1, D y := by
        intro y hy
        rcases hfrom y hy with h1 | h1
        · exact absurd h1 (List.not_mem_nil _)
        · exact h1
      refine ⟨rfl, ?_⟩
      intro a ha p hp hpm line hline
      refine LineSettled_mono E ds a line missing1 _ ?_ (hall a ha p hp hpm line hline)
      intro d hd
      exact (mem_depSliceDeduplicate E D hH missing1 hDm d).2 hd

theorem keyFunc_short (l : PackageList) (h : l.duplicatesAllowed = false) (p : Package) :
    l.keyFunc p = packageShortKey p := by
  unfold PackageList.keyFunc
  rw [h]
  simp

theorem FilterInv_add (E : Externals) (l : PackageList) (S : List Package) (st : FilterState)
    (hinv : FilterInv l S st) (p : Package) (hp : p ∈ l.packages.map Prod.snd)
    (hkey : l.packages.lookup (packageShortKey p) = some p)
    (hhas : st.result.Has p = false) (n : Nat) :
    FilterInv l S
      { result := (st.result.Add E p).1
        dependencySource := (st.dependencySource.Add E p).1
        added := n } where
  r_indexed := by rw [Add_indexed]; exact hinv.r_indexed
  r_short := by rw [Add_duplicatesAllowed]; exact hinv.r_short
  r_entries := by
    intro k q hq
    simp only at hq
    rw [Add_lookup_new E _ p k hhas] at hq
    split_ifs at hq with hk
    · cases hq
      rw [hk, keyFunc_short _ hinv.r_short]
      exact hkey
    · exact hinv.r_entries k q hq
  r_sub := by
    intro q hq
    rcases Add_values_sub E _ p q hq with h | h
    · exact hinv.r_sub q h
    · rw [h]; exact hp
  r_index := by
    intro q
    simp only
    rw [Add_packagesIndex_new E _ p q hinv.r_indexed hhas]
    constructor
    · rintro (h | h)
      · exact Add_values_mono E _ p q ((hinv.r_index q).1 h)
      · rw [h]; exact Add_values_new E _ p hhas
    · intro h
      rcases Add_values_sub E _ p q h with h1 | h1
      · exact Or.inl ((hinv.r_index q).2 h1)
      · exact Or.inr h1
  r_provides := by
    intro n x hx
    rcases Add_providesIndex_sub E _ p x n hx with h | h
    · exact Add_values_mono E _ p x (hinv.r_provides n x h)
    · rw [h]; exact Add_values_new E _ p hhas
  d_indexed := by rw [Add_indexed]; exact hinv.d_indexed
  d_index := by
    intro x hx
    rcases Add_packagesIndex_sub E _ p x hx with h | h
    · rcases hinv.d_index x h with h1 | h1
      · exact Or.inl h1
      · exact Or.inr (Add_values_mono E _ p x h1)
    · rw [h]; exact Or.inr (Add_values_new E _ p hhas)
  d_provides := by
    intro n x hx
    rcases Add_providesIndex_sub E _ p x n hx with h | h
    · rcases hinv.d_provides n x h with h1 | h1
      · exact Or.inl h1
      · exact Or.inr (Add_values_mono E _ p x h1)
    · rw [h]; exact Or.inr (Add_values_new E _ p hhas)

theorem FilterInv_added (l : PackageList) (S : List Package) (st : FilterState)
    (hinv : FilterInv l S st) (n : Nat) : FilterInv l S { st with added := n } :=
  ⟨hinv.r_indexed, hinv.r_short, hinv.r_entries, hinv.r_sub, hinv.r_index, hinv.r_provides,
    hinv.d_indexed, hinv.d_index, hinv.d_provides⟩

theorem injectLoop_spec (E : Externals) (l : PackageList) (S : List Package) (options : Nat) :
    ∀ (found : List Package) (st : FilterState), FilterInv l S st →
      (∀ p ∈ found, p ∈ l.packages.map Prod.snd ∧
        l.packages.lookup (packageShortKey p) = some p) →
      FilterInv l S (injectLoop E options found st) ∧
        st.added ≤ (injectLoop E options found st).added ∧
        ((injectLoop E options found st).added = st.added →
          injectLoop E options found st = st ∧ ∀ p ∈ found, st.result.Has p = true) := by
  intro found
  induction found with
  | nil =>
    intro st hinv _
    rw [show injectLoop E options [] st = st from rfl]
    exact ⟨hinv, Nat.le_refl _, fun _ => ⟨rfl, fun p hp => absurd hp (List.not_mem_nil _)⟩⟩
  | cons p rest ih =>
    intro st hinv hfound
    have hrest : ∀ q ∈ rest, q ∈ l.packages.map Prod.snd ∧
        l.packages.lookup (packageShortKey q) = some q :=
      fun q hq => hfound q (List.mem_cons_of_mem _ hq)
    simp only [injectLoop]
    cases hhas : st.result.Has p with
    | true =>
      simp only [if_true]
      obtain ⟨h1, h2, h3⟩ := ih st hinv hrest
      refine ⟨h1, h2, fun heq => ⟨(h3 heq).1, ?_⟩⟩
      intro q hq
      rcases List.mem_cons.1 hq with rfl | hq
      · exact hhas
      · exact (h3 heq).2 q hq
    | false =>
      simp only [Bool.false_eq_true, if_false]
      have hp := hfound p (List.mem_cons_self _ _)
      have hinv2 := FilterInv_add E l S st hinv p hp.1 hp.2 hhas (st.added + 1)
      split
      · exact ⟨hinv2, Nat.le_succ _, fun heq => absurd heq (by simp)⟩
      · obtain ⟨h1, h2, -⟩ := ih _ hinv2 hrest
        simp only at h2
        refine ⟨h1, by omega, fun heq => ?_⟩
        omega

/-- One pass of the dependency loop of `Filter`, without `DepFollowAllVariants`, on an indexed
list `l`: the state keeps its invariant, the count of additions does not go down, and when it
has not gone up the state is unchanged and every missing dependency is satisfied by a package
that `Search` finds in the result, or every package that `Search` finds for it in `l` has its
key in the result. -/
theorem satisfyLoop_spec (E : Externals) (l : PackageList) (S : List Package) (options : Nat)
    (hopt : options &&& DepFollowAllVariants = 0) (hl : l.indexed = true)
    (hfound : ∀ dep, ∀ p ∈ searchIndexed E l dep true true,
      p ∈ l.packages.map Prod.snd ∧ l.packages.lookup (packageShortKey p) = some p) :
    ∀ (missing : List Dependency) (st st2 : FilterState), FilterInv l S st →
      satisfyLoop E l options missing st = Except.ok st2 →
      FilterInv l S st2 ∧ st.added ≤ st2.added ∧
        (st2.added = st.added → st2 = st ∧ ∀ dep ∈ missing,
          (searchIndexed E st.result dep false true ≠ [] ∨
            ∀ p ∈ searchIndexed E l dep true true, st.result.Has p = true)) := by
  intro missing
  induction missing with
  | nil =>
    intro st st2 hinv h
    simp only [satisfyLoop, Except.ok.injEq] at h
    subst h
    exact ⟨hinv, Nat.le_refl _, fun _ => ⟨rfl, fun d hd => absurd hd (List.not_mem_nil _)⟩⟩
  | cons dep rest ih =>
    intro st st2 hinv h
    simp only [satisfyLoop, hopt, if_true, Search_indexed E st.result dep false true
      hinv.r_indexed, Search_indexed E l dep true true hl] at h
    cases hr : (searchIndexed E st.result dep false true).isEmpty with
    | false =>
      simp only [hr, Bool.not_false] at h
      obtain ⟨h1, h2, h3⟩ := ih st st2 hinv h
      refine ⟨h1, h2, fun heq => ⟨(h3 heq).1, ?_⟩⟩
      intro d hd
      rcases List.mem_cons.1 hd with rfl | hd
      · left
        intro hnil
        rw [hnil] at hr
        simp at hr
      · exact (h3 heq).2 d hd
    | true =>
      simp only [hr, Bool.not_true] at h
      obtain ⟨i1, i2, i3⟩ := injectLoop_spec E l S options (searchIndexed E l dep true true)
        st hinv (hfound dep)
      obtain ⟨h1, h2, h3⟩ := ih _ st2 i1 h
      refine ⟨h1, by omega, fun heq => ?_⟩
      have heq1 : (injectLoop E options (searchIndexed E l dep true true) st).added =
          st.added := by omega
      obtain ⟨hst, hhas⟩ := i3 heq1
      rw [hst] at h3
      obtain ⟨hst2, hall⟩ := h3 heq
      refine ⟨hst2, ?_⟩
      intro d hd
      rcases List.mem_cons.1 hd with rfl | hd
      · exact Or.inr hhas
      · exact hall d hd

theorem LineIn_occurring (E : Externals) (pkgs : List Package) (options : Nat)
    (archs : List String) (p : Package) (hp : p ∈ pkgs) (a : String) (ha : a ∈ archs)
    (line : String) (hline : line ∈ p.GetDependencies options) :
    LineIn E (fun d => d ∈ occurringDependencies E pkgs options archs) a line := by
  intro variants hparse v hv
  unfold occurringDependencies
  simp only [List.mem_flatMap]
  constructor
  · refine ⟨p, hp, line, hline, ?_⟩
    rw [hparse]
    exact List.mem_append_left _ hv
  · refine ⟨p, hp, line, hline, ?_⟩
    rw [hparse]
    apply List.mem_append_right
    rw [List.mem_flatMap]
    exact ⟨a, ha, List.mem_map.2 ⟨v, hv, rfl⟩⟩

theorem Has_mem_of_entries (l R : PackageList) (hkeyed : ShortKeyed l)
    (hshort : R.duplicatesAllowed = false)
    (hentries : ∀ k p, R.packages.lookup k = some p → l.packages.lookup k = some p)
    (x : Package) (hx : x ∈ l.packages.map Prod.snd) (hhas : R.Has x = true) :
    x ∈ R.packages.map Prod.snd := by
  unfold PackageList.Has at hhas
  rw [keyFunc_short R hshort] at hhas
  cases hlk : R.packages.lookup (packageShortKey x) with
  | none => rw [hlk] at hhas; simp at hhas
  | some y =>
    have h1 := hentries _ _ hlk
    rw [hkeyed x hx] at h1
    cases h1
    exact List.mem_map.2 ⟨(packageShortKey x, x), lookup_some_mem _ _ _ hlk, rfl⟩

/-- A pass of the dependency loop that adds nothing leaves a dependency-closed result. -/
theorem pass_closed (E : Externals) (l : PackageList) (options : FilterOptions)
    (st : FilterState) (missing : List Dependency)
    (hl : IndexConsistent E l) (hacc : AcceptedProvides E l) (hkeyed : ShortKeyed l)
    (hinv : FilterInv l (sourcePackages options) st)
    (hver : ∀ a ∈ options.Architectures, ∀ p ∈ st.result.packagesIndex,
      p.MatchesArchitecture a = true → ∀ line ∈ p.GetDependencies options.DependencyOptions,
        LineSettled E st.dependencySource a line missing)
    (hpass : ∀ dep ∈ missing, searchIndexed E st.result dep false true ≠ [] ∨
      ∀ p ∈ searchIndexed E l dep true true, st.result.Has p = true) :
    DependencyClosed E l options st.result := by
  intro p hp a ha hpm line hline variants hparse hex
  obtain ⟨variants2, hparse2, hsettled⟩ :=
    hver a ha p ((hinv.r_index p).2 hp) hpm line hline
  rw [hparse] at hparse2
  cases hparse2
  rcases hsettled with ⟨v, hv, x, hx, hm⟩ | hall
  · refine ⟨v, hv, x, ?_, hm⟩
    rcases hx with hx | hx
    · exact hinv.d_index x hx
    · exact hinv.d_provides _ x hx
  · obtain ⟨v, hv, x, hx, hm⟩ := hex
    refine ⟨v, hv, ?_⟩
    rcases hpass _ (hall v hv) with hne | hhas
    · cases hr : searchIndexed E st.result (forArchitecture a v) false true with
      | nil => exact absurd hr hne
      | cons y rest =>
        have hy : y ∈ searchIndexed E st.result (forArchitecture a v) false true := by
          rw [hr]; exact List.mem_cons_self _ _
        obtain ⟨hym, hymem⟩ := searchIndexed_sound E st.result _ false true y hy
        refine ⟨y, Or.inr ?_, hym⟩
        rcases hymem with h | h
        · exact (hinv.r_index y).1 h
        · exact hinv.r_provides _ y h
    · have hxs : x ∈ searchIndexed E l (forArchitecture a v) true true :=
        (searchIndexed_all_iff E l _ hl hacc x).2 ⟨hx, hm⟩
      exact ⟨x, Or.inr (Has_mem_of_entries l st.result hkeyed hinv.r_short hinv.r_entries x hx
        (hhas x hxs)), hm⟩

/-- The dependency loop of `Filter`: a result it returns is dependency-closed. -/
theorem filterLoop_closed (E : Externals) (l : PackageList) (options : FilterOptions)
    (hH : HashInjectiveOn E (fun d => d ∈ occurringDependencies E (l.packages.map Prod.snd)
      options.DependencyOptions options.Architectures))
    (hopt : options.DependencyOptions &&& DepFollowAllVariants = 0)
    (hl : IndexConsistent E l) (hacc : AcceptedProvides E l) (hkeyed : ShortKeyed l) :
    ∀ (fuel : Nat) (st : FilterState) (R : PackageList),
      FilterInv l (sourcePackages options) st →
      (st.added = 0 → DependencyClosed E l options st.result) →
      filterLoop E l options fuel st = some (Except.ok R) →
      DependencyClosed E l options R := by
  have hfound : ∀ dep, ∀ p ∈ searchIndexed E l dep true true,
      p ∈ l.packages.map Prod.snd ∧ l.packages.lookup (packageShortKey p) = some p := by
    intro dep p hp
    have h1 := ((searchIndexed_all_iff E l dep hl hacc p).1 hp).1
    exact ⟨h1, hkeyed p h1⟩
  intro fuel
  induction fuel with
  | zero =>
    intro st R _ hzero h
    simp only [filterLoop] at h
    split at h
    · simp at h
    · rename_i hadd
      simp only [Option.some.injEq, Except.ok.injEq] at h
      subst h
      exact hzero (by omega)
  | succ fuel ih =>
    intro st R hinv hzero h
    simp only [filterLoop] at h
    split at h
    · cases hv : st.result.VerifyDependencies E options.DependencyOptions options.Architectures
          st.dependencySource with
      | mk l2 res =>
        rw [hv] at h
        cases res with
        | error f => simp at h
        | ok missing =>
          simp only at h
          have hD : ∀ a ∈ options.Architectures, ∀ p ∈ st.result.packagesIndex,
              ∀ line ∈ p.GetDependencies options.DependencyOptions,
              LineIn E (fun d => d ∈ occurringDependencies E (l.packages.map Prod.snd)
                options.DependencyOptions options.Architectures) a line := by
            intro a ha p hp line hline
            exact LineIn_occurring E _ _ _ p (hinv.r_sub p ((hinv.r_index p).1 hp)) a ha
              line hline
          obtain ⟨hl2, hver⟩ := VerifyDependencies_spec E _ hH options.DependencyOptions hopt
            st.result st.dependencySource hinv.r_indexed hinv.d_indexed options.Architectures
            hD l2 missing hv
          subst hl2
          cases hs : satisfyLoop E l options.DependencyOptions missing
              { st with result := st.result, added := 0 } with
          | error f => rw [hs] at h; simp at h
          | ok st2 =>
            rw [hs] at h
            simp only at h
            have hinv0 : FilterInv l (sourcePackages options)
                { st with result := st.result, added := 0 } := FilterInv_added l _ st hinv 0
            obtain ⟨hinv2, -, hsame⟩ := satisfyLoop_spec E l (sourcePackages options)
              options.DependencyOptions hopt hl.indexed hfound missing _ st2 hinv0 hs
            refine ih st2 R hinv2 ?_ h
            intro hz
            obtain ⟨hst, hpass⟩ := hsame hz
            rw [hst]
            exact pass_closed E l options _ missing hl hacc hkeyed hinv0 hver hpass
    · simp only [Option.some.injEq, Except.ok.injEq] at h
      subst h
      exact hzero (by omega)

theorem PartOf_Append (l r pl : PackageList) (hr : PartOf l r)
    (hpl : ∀ e ∈ pl.packages, l.packages.lookup e.1 = some e.2) :
    PartOf l (r.Append pl).1 where
  unindexed := by rw [Append_indexed]; exact hr.unindexed
  short := by rw [Append_duplicatesAllowed]; exact hr.short
  entries := Append_lookup (fun k p => l.packages.lookup k = some p) r pl hpl hr.entries
  sub := by
    intro p hp
    rcases Append_values r pl p hp with h | h
    · exact hr.sub p h
    · obtain ⟨e, he, rfl⟩ := List.mem_map.1 h
      exact List.mem_map.2 ⟨(e.1, e.2), lookup_some_mem _ _ _ (hpl e he), rfl⟩

theorem PartOf_foldl (l : PackageList) {α : Type} (f : α → PackageList) :
    ∀ (xs : List α) (r : PackageList), PartOf l r →
      (∀ x ∈ xs, ∀ e ∈ (f x).packages, l.packages.lookup e.1 = some e.2) →
      PartOf l (xs.foldl (fun r x => (r.Append (f x)).1) r) := by
  intro xs
  induction xs with
  | nil => intro r hr _; exact hr
  | cons x rest ih =>
    intro r hr hxs
    rw [List.foldl_cons]
    exact ih _ (PartOf_Append l r (f x) hr (hxs x (List.mem_cons_self _ _)))
      (fun y hy => hxs y (List.mem_cons_of_mem _ hy))

theorem PartOf_new (l : PackageList) : PartOf l NewPackageList where
  unindexed := rfl
  short := rfl
  entries := by intro k p h; simp [NewPackageList, NewPackageListWithDuplicates] at h
  sub := by intro p h; simp [NewPackageList, NewPackageListWithDuplicates] at h

/-- The state in which `Filter` enters its dependency loop satisfies the invariant of the
loop. -/
theorem FilterInv_initial (E : Externals) (l : PackageList) (options : FilterOptions)
    (r : PackageList) (hr : PartOf l r) (n : Nat) :
    FilterInv l (sourcePackages options)
      { result := r.PrepareIndex E
        dependencySource :=
          (((match options.Source with
            | some source => (NewPackageList.Append source).1
            | none => NewPackageList).Append (r.PrepareIndex E)).1).PrepareIndex E
        added := n } where
  r_indexed := PrepareIndex_indexed E r
  r_short := by rw [PrepareIndex_duplicatesAllowed]; exact hr.short
  r_entries := by
    intro k p h
    simp only [PrepareIndex_packages] at h
    exact hr.entries k p h
  r_sub := by
    intro p h
    simp only [PrepareIndex_packages] at h
    exact hr.sub p h
  r_index := by
    intro p
    simp only [PrepareIndex_packages]
    exact PrepareIndex_index_mem E r hr.unindexed p
  r_provides := by
    intro n x hx
    simp only [PrepareIndex_packages]
    exact PrepareIndex_provides_sub E r hr.unindexed n x hx
  d_indexed := PrepareIndex_indexed E _
  d_index := by
    intro x hx
    simp only at hx
    have hun : ((match options.Source with
        | some source => (NewPackageList.Append source).1
        | none => NewPackageList).Append (r.PrepareIndex E)).1.indexed = false := by
      rw [Append_indexed]
      cases options.Source with
      | none => rfl
      | some source => simp only; rw [Append_indexed]; rfl
    rw [PrepareIndex_index_mem E _ hun] at hx
    rcases Append_values _ _ x hx with h | h
    · left
      unfold sourcePackages
      cases hs : options.Source with
      | none => rw [hs] at h; simp [NewPackageList, NewPackageListWithDuplicates] at h
      | some source =>
        rw [hs] at h
        simp only at h ⊢
        rcases Append_values _ _ x h with h1 | h1
        · simp [NewPackageList, NewPackageListWithDuplicates] at h1
        · exact h1
    · exact Or.inr h
  d_provides := by
    intro n x hx
    simp only at hx
    have hun : ((match options.Source with
        | some source => (NewPackageList.Append source).1
        | none => NewPackageList).Append (r.PrepareIndex E)).1.indexed = false := by
      rw [Append_indexed]
      cases options.Source with
      | none => rfl
      | some source => simp only; rw [Append_indexed]; rfl
    have hx2 := PrepareIndex_provides_sub E _ hun n x hx
    rcases Append_values _ _ x hx2 with h | h
    · left
      unfold sourcePackages
      cases hs : options.Source with
      | none => rw [hs] at h; simp [NewPackageList, NewPackageListWithDuplicates] at h
      | some source =>
        rw [hs] at h
        simp only at h ⊢
        rcases Append_values _ _ x h with h1 | h1
        · simp [NewPackageList, NewPackageListWithDuplicates] at h1
        · exact h1
    · exact Or.inr h

/-- C10, for a list without duplicates: let `l` be an indexed list whose index agrees with
its contents, whose packages are stored under their short keys and whose `Provides` entries
the parser accepts; let the queries (and the source queries, when `WithSources` is set)
return entries of `l`, and let the hash tell apart the dependencies that occur in the
dependency lines of `l`. Then every result `R` that `Filter` returns with `WithDependencies`
set and `DepFollowAllVariants` not set is dependency-closed relative to `l`: for every
package of `R` matching one of the architectures and every dependency line of it selected by
the options, if a package of `l` satisfies a variant of the line for the architecture, then
a package of the external source or of `R` satisfies a variant of the line for it. -/
theorem C10_filter_dependency_closed (E : Externals)
    (DependencyQuery : Dependency → PackageQuery) (l : PackageList)
    (options : FilterOptions) (fuel : Nat) (R : PackageList)
    (hl : IndexConsistent E l) (hkeyed : ShortKeyed l) (hacc : AcceptedProvides E l)
    (hq : ∀ query ∈ options.Queries, QueryWithin l query)
    (hdq : options.WithSources = true → ∀ dep, QueryWithin l (DependencyQuery dep))
    (hH : HashInjectiveOn E (fun d => d ∈ occurringDependencies E (l.packages.map Prod.snd)
      options.DependencyOptions options.Architectures))
    (hdeps : options.WithDependencies = true)
    (hvar : options.DependencyOptions &&& DepFollowAllVariants = 0)
    (hR : l.Filter E DependencyQuery options fuel = some (Except.ok R)) :
    DependencyClosed E l options R := by
  unfold PackageList.Filter at hR
  simp only [hl.indexed, Bool.not_true, Bool.false_eq_true, if_false, hdeps, if_true] at hR
  have h0 : PartOf l (options.Queries.foldl (fun r query => (r.Append (query l)).1)
      NewPackageList) :=
    @PartOf_foldl l PackageQuery (fun query => query l) options.Queries NewPackageList
      (PartOf_new l) hq
  have key : ∀ r, PartOf l r →
      filterLoop E l options fuel
        { result := r.PrepareIndex E
          dependencySource :=
            (((match options.Source with
              | some source => (NewPackageList.Append source).1
              | none => NewPackageList).Append (r.PrepareIndex E)).1).PrepareIndex E
          added := r.Len } = some (Except.ok R) →
      DependencyClosed E l options R := by
    intro r hr hloop
    refine filterLoop_closed E l options hH hvar hl hacc hkeyed fuel _ R
      (FilterInv_initial E l options r hr r.Len) ?_ hloop
    intro hz
    simp only [PackageList.Len, List.length_eq_zero] at hz
    intro p hp
    simp only [PrepareIndex_packages, hz, List.map_nil, List.not_mem_nil] at hp
  cases hws : options.WithSources with
  | false =>
    simp only [hws, Bool.false_eq_true, if_false] at hR
    exact key _ h0 hR
  | true =>
    simp only [hws, if_true] at hR
    cases hsq : sourceQueriesLoop (options.Queries.foldl
        (fun r query => (r.Append (query l)).1) NewPackageList).packages [] with
    | error f => rw [hsq] at hR; simp at hR
    | ok sourceQueries =>
      rw [hsq] at hR
      simp only at hR
      exact key _ (@PartOf_foldl l Dependency (fun dep => DependencyQuery dep l) sourceQueries
        _ h0 (fun dep _ => hdq hws dep)) hR

theorem addProvides_mem_iff (p x : Package) (n : String) :
    ∀ (names : List String) (idx : List (String × List Package)),
      x ∈ mapGetD (names.foldl
        (fun m provides => mapSet m provides (mapGetD m provides ++ [p])) idx) n ↔
      (x ∈ mapGetD idx n ∨ (x = p ∧ n ∈ names)) := by
  intro names
  induction names with
  | nil => intro idx; simp
  | cons name rest ih =>
    intro idx
    rw [List.foldl_cons, ih, mapGetD_mapSet]
    by_cases hn : n = name
    · subst hn
      simp only [if_true, List.mem_append, List.mem_singleton, List.mem_cons, true_or, and_true]
      tauto
    · simp only [hn, if_false, List.mem_cons, false_or]

theorem foldl_addProvides_iff (E : Externals) (x : Package) (n : String) :
    ∀ (vals : List Package) (idx : List (String × List Package)),
      x ∈ mapGetD (vals.foldl (addProvides E) idx) n ↔
        (x ∈ mapGetD idx n ∨ (x ∈ vals ∧ n ∈ x.ProvidedPackages E)) := by
  intro vals
  induction vals with
  | nil => intro idx; simp
  | cons v rest ih =>
    intro idx
    rw [List.foldl_cons, ih]
    unfold addProvides
    rw [addProvides_mem_iff]
    simp only [List.mem_cons]
    constructor
    · rintro ((h | ⟨rfl, h⟩) | ⟨h1, h2⟩)
      · exact Or.inl h
      · exact Or.inr ⟨Or.inl rfl, h⟩
      · exact Or.inr ⟨Or.inr h1, h2⟩
    · rintro (h | ⟨rfl | h1, h2⟩)
      · exact Or.inl (Or.inl h)
      · exact Or.inl (Or.inr ⟨rfl, h2⟩)
      · exact Or.inr ⟨h1, h2⟩

/-- PrepareIndex builds an index that agrees with the contents of the list. -/
theorem PrepareIndex_consistent (E : Externals) (hE : IsTotalPreorder E.CompareVersions)
    (l : PackageList) (h : l.indexed = false) : IndexConsistent E (l.PrepareIndex E) where
  indexed := PrepareIndex_indexed E l
  sorted := PrepareIndex_sorted E hE l h
  index_mem := by
    intro p
    rw [PrepareIndex_packages]
    exact PrepareIndex_index_mem E l h p
  provides_mem := by
    intro n p
    rw [PrepareIndex_packages]
    unfold PackageList.PrepareIndex
    simp only [h, Bool.false_eq_true, if_false]
    rw [foldl_addProvides_iff]
    simp [mapGetD]

theorem C10_filter_dependency_closed_witness :
    IndexConsistent plainExternals listAppLib ∧ ShortKeyed listAppLib ∧
    AcceptedProvides plainExternals listAppLib ∧
    (∀ query ∈ optionsAppDeps.Queries, QueryWithin listAppLib query) ∧
    optionsAppDeps.WithDependencies = true ∧
    optionsAppDeps.DependencyOptions &&& DepFollowAllVariants = 0 ∧
    listAppLib.Filter plainExternals DependencyQuery optionsAppDeps 3 =
      some (Except.ok resultAppLib) ∧
    resultAppLib.packages.map Prod.snd = [pkgAppTwo, pkgLibThree] ∧
    DependencyClosed plainExternals listAppLib optionsAppDeps resultAppLib :=
  have hl : IndexConsistent plainExternals listAppLib :=
    PrepareIndex_consistent plainExternals (compareByKey_isTotalPreorder _) _ rfl
  have hkeyed : ShortKeyed listAppLib := by unfold ShortKeyed; decide
  have hacc : AcceptedProvides plainExternals listAppLib := by unfold AcceptedProvides; decide
  have hq : ∀ query ∈ optionsAppDeps.Queries, QueryWithin listAppLib query := by
    intro query hquery
    have : query = queryNamedApp := by simpa [optionsAppDeps] using hquery
    subst this
    unfold QueryWithin
    decide
  have hH : HashInjectiveOn plainExternals (fun d => d ∈ occurringDependencies plainExternals
      (listAppLib.packages.map Prod.snd) optionsAppDeps.DependencyOptions
      optionsAppDeps.Architectures) := by
    have hall : ∀ d1 ∈ occurringDependencies plainExternals
        (listAppLib.packages.map Prod.snd) optionsAppDeps.DependencyOptions
        optionsAppDeps.Architectures, ∀ d2 ∈ occurringDependencies plainExternals
        (listAppLib.packages.map Prod.snd) optionsAppDeps.DependencyOptions
        optionsAppDeps.Architectures,
        plainExternals.Hash d1 = plainExternals.Hash d2 → d1 = d2 := by decide
    exact fun d1 d2 h1 h2 => hall d1 h1 d2 h2
  ⟨hl, hkeyed, hacc, hq, rfl, by decide, by decide, by decide,
    C10_filter_dependency_closed plainExternals DependencyQuery listAppLib optionsAppDeps 3
      resultAppLib hl hkeyed hacc hq (fun h => absurd h (by decide)) hH rfl (by decide)
      (by decide)⟩

/-- C10 as worded, refuted on a list with duplicates: the list holds two packages
`prov 1 i386` that differ in their files hash, of which only the second provides `foo`, and
`tool`, which depends on `foo`. `Filter` with the dependency queries `tool` and `prov` returns
`tool` and the first `prov`: the second has the short key of the first, so `result.Has` holds
for it and it is not added. A package of the list satisfies `foo` for `i386` and no package
of the result does. -/
theorem C10_not_closed_with_duplicates :
    listDuplicates.indexed = true ∧
    listDuplicates.Filter debExternals DependencyQuery optionsToolProv 3 =
      some (Except.ok resultToolProv) ∧
    resultToolProv.packages.map Prod.snd = [pkgTool, pkgProvPlain] ∧
    ¬ DependencyClosed debExternals listDuplicates optionsToolProv resultToolProv := by
  refine ⟨by decide, by decide, by decide, ?_⟩
  intro h
  have hvals : resultToolProv.packages.map Prod.snd = [pkgTool, pkgProvPlain] := by decide
  obtain ⟨v, hv, x, hx, hm⟩ := h pkgTool (by decide) "i386" (by decide) (by decide) "foo"
    (by decide) [{ Pkg := "foo" }] (by decide)
    ⟨{ Pkg := "foo" }, by decide, pkgProvFoo, by decide, by decide⟩
  have hv2 : v = { Pkg := "foo" } := by simpa using hv
  subst hv2
  rw [hvals] at hx
  have hx2 : x = pkgTool ∨ x = pkgProvPlain := by
    rcases hx with hx | hx
    · exact absurd hx (by simp [sourcePackages, optionsToolProv])
    · simpa using hx
  rcases hx2 with rfl | rfl
  · exact absurd hm (by decide)
  · exact absurd hm (by decide)

/-! ## Packages: equality, architectures, versions, keys -/

/-- C19: `p.Equals(q)` holds exactly when `p` and `q` agree on `Name`, `Version`,
`Architecture`, `SourceArchitecture`, `Source`, `IsSource` and `FilesHash`; `Equals` is
reflexive, symmetric and transitive, and it is the same for every package that agrees with
`p` on these seven fields, whatever its `Provides`, `IsUdeb`, `IsInstaller`, `V06Plus` and
dependency fields. -/
theorem C19_equals_iff_fields (p q : Package) :
    (p.Equals q = true ↔
      (p.Name = q.Name ∧ p.Version = q.Version ∧ p.Architecture = q.Architecture ∧
        p.SourceArchitecture = q.SourceArchitecture ∧ p.Source = q.Source ∧
        p.IsSource = q.IsSource ∧ p.FilesHash = q.FilesHash)) ∧
    p.Equals p = true ∧
    (p.Equals q = true → q.Equals p = true) ∧
    (∀ r : Package, p.Equals q = true → q.Equals r = true → p.Equals r = true) ∧
    (∀ p2 : Package, p2.Name = p.Name → p2.Version = p.Version →
      p2.Architecture = p.Architecture → p2.SourceArchitecture = p.SourceArchitecture →
      p2.Source = p.Source → p2.IsSource = p.IsSource → p2.FilesHash = p.FilesHash →
      p2.Equals q = p.Equals q ∧ q.Equals p2 = q.Equals p) := by
  refine ⟨?_, ?_, ?_, ?_, ?_⟩
  · simp only [Package.Equals, decide_eq_true_eq]
    tauto
  · simp [Package.Equals]
  · simp only [Package.Equals, decide_eq_true_eq]
    rintro ⟨h1, h2, h3, h4, h5, h6, h7⟩
    exact ⟨h1.symm, h2.symm, h3.symm, h4.symm, h5.symm, h6.symm, h7.symm⟩
  · intro r
    simp only [Package.Equals, decide_eq_true_eq]
    rintro ⟨h1, h2, h3, h4, h5, h6, h7⟩ ⟨g1, g2, g3, g4, g5, g6, g7⟩
    exact ⟨h1.trans g1, h2.trans g2, h3.trans g3, h4.trans g4, h5.trans g5, h6.trans g6,
      h7.trans g7⟩
  · intro p2 h1 h2 h3 h4 h5 h6 h7
    simp only [Package.Equals, h1, h2, h3, h4, h5, h6, h7, and_self]

/-- C20: `p.MatchesArchitecture(a)` holds exactly when `p.Architecture = a`, or
`p.Architecture` is `all` and `a` is not `source`; a package of architecture `all` matches
every architecture but `source`, and a package of architecture `source` matches `source`
only. -/
theorem C20_matches_architecture (p : Package) (a : String) :
    (p.MatchesArchitecture a = true ↔
      (p.Architecture = a ∨ (p.Architecture = "all" ∧ a ≠ "source"))) ∧
    (p.Architecture = "all" → (p.MatchesArchitecture a = true ↔ a ≠ "source")) ∧
    (p.Architecture = "source" → (p.MatchesArchitecture a = true ↔ a = "source")) := by
  have hiff : p.MatchesArchitecture a = true ↔
      (p.Architecture = a ∨ (p.Architecture = "all" ∧ a ≠ "source")) := by
    unfold Package.MatchesArchitecture ArchitectureAll ArchitectureSource
    split_ifs with h
    · simp [h]
    · simp only [decide_eq_true_eq]
      tauto
  refine ⟨hiff, ?_, ?_⟩
  · intro hall
    rw [hiff, hall]
    constructor
    · rintro (h | h)
      · rw [← h]; decide
      · exact h.2
    · exact fun h => Or.inr ⟨rfl, h⟩
  · intro hsrc
    rw [hiff, hsrc]
    constructor
    · rintro (h | h)
      · exact h.symm
      · exact absurd h.1 (by decide)
    · exact fun h => Or.inl h.symm

theorem versionSatisfies_mono (E : Externals) (hE : IsTotalPreorder E.CompareVersions)
    (v v2 : String) (D : Dependency)
    (hrel : D.Relation = VersionGreaterOrEqual ∨ D.Relation = VersionGreater)
    (hge : 0 ≤ E.CompareVersions v2 v)
    (h : versionSatisfiesDependency E v D = true) :
    versionSatisfiesDependency E v2 D = true := by
  have h1 : E.CompareVersions v v2 ≤ 0 := by
    have := hE.antisymm v v2
    omega
  rcases hrel with hr | hr
  · simp only [versionSatisfiesDependency, hr, ge_iff_le, decide_eq_true_eq] at h ⊢
    have h2 : E.CompareVersions D.Version v ≤ 0 := by
      have := hE.antisymm D.Version v
      omega
    have h3 := hE.trans D.Version v v2 h2 h1
    have := hE.antisymm D.Version v2
    omega
  · simp only [versionSatisfiesDependency, hr, gt_iff_lt, decide_eq_true_eq] at h ⊢
    by_contra hcon
    have h2 : E.CompareVersions v2 D.Version ≤ 0 := by omega
    have h3 := hE.trans v v2 D.Version h1 h2
    omega

/-- C14: for a package `P`, a version `v2` with `CompareVersions(v2, P.Version) ≥ 0` and a
dependency `D` whose relation is `>=` or `>>`: when `P` matches `D`, so does the package that
differs from `P` only in having the version `v2`, given that `CompareVersions` is a total
preorder. -/
theorem C14_matches_monotone_in_version (E : Externals)
    (hE : IsTotalPreorder E.CompareVersions) (P : Package) (v2 : String) (D : Dependency)
    (hrel : D.Relation = VersionGreaterOrEqual ∨ D.Relation = VersionGreater)
    (hge : 0 ≤ E.CompareVersions v2 P.Version)
    (h : P.MatchesDependency E D = true) :
    (P.withVersion v2).MatchesDependency E D = true := by
  rw [MatchesDependency_iff] at h ⊢
  obtain ⟨harch, hcase⟩ := h
  refine ⟨harch, ?_⟩
  rcases hcase with ⟨s, hs, hrelS, hpkg, hsat⟩ | ⟨hname, hsat⟩
  · refine Or.inl ⟨s, hs, hrelS, hpkg, ?_⟩
    by_cases hv : (E.ParseDependency s).1.Version = ""
    · simp only [hv, if_true] at hsat ⊢
      exact versionSatisfies_mono E hE P.Version v2 D hrel hge hsat
    · simp only [hv, if_false] at hsat ⊢
      exact hsat
  · exact Or.inr ⟨hname, versionSatisfies_mono E hE P.Version v2 D hrel hge hsat⟩

theorem C14_matches_monotone_in_version_witness :
    IsTotalPreorder plainExternals.CompareVersions ∧
    0 ≤ plainExternals.CompareVersions "3" "2" ∧
    ({ Name := "lib", Version := "2", Architecture := "i386" } : Package).MatchesDependency
      plainExternals { Pkg := "lib", Relation := VersionGreater, Version := "1" } = true ∧
    (Package.withVersion { Name := "lib", Version := "2", Architecture := "i386" }
      "3").MatchesDependency plainExternals
        { Pkg := "lib", Relation := VersionGreater, Version := "1" } = true :=
  ⟨compareByKey_isTotalPreorder _, by decide, by decide,
    C14_matches_monotone_in_version plainExternals (compareByKey_isTotalPreorder _)
      { Name := "lib", Version := "2", Architecture := "i386" } "3"
      { Pkg := "lib", Relation := VersionGreater, Version := "1" } (Or.inr rfl) (by decide)
      (by decide)⟩

theorem digitChar_hex : ∀ d, d < 16 →
    isLowerHexDigit (Nat.digitChar d) = true ∧ hexDigitValue (Nat.digitChar d) = d := by
  decide

theorem foldl_hex (ys : List Char) : ∀ a : Nat,
    ys.foldl (fun n c => 16 * n + hexDigitValue c) a =
      a * 16 ^ ys.length + ys.foldl (fun n c => 16 * n + hexDigitValue c) 0 := by
  induction ys with
  | nil => intro a; simp
  | cons y ys ih =>
    intro a
    rw [List.foldl_cons, List.foldl_cons, ih, ih (16 * 0 + hexDigitValue y), List.length_cons]
    ring

theorem hexValue_append (xs ys : List Char) :
    hexValue (xs ++ ys) = hexValue xs * 16 ^ ys.length + hexValue ys := by
  unfold hexValue
  rw [List.foldl_append, foldl_hex]

theorem hexValue_cons (c : Char) (cs : List Char) :
    hexValue (c :: cs) = hexDigitValue c * 16 ^ cs.length + hexValue cs := by
  have h := hexValue_append [c] cs
  simpa [hexValue] using h

theorem hexValue_lt (cs : List Char) (h : ∀ c ∈ cs, hexDigitValue c < 16) :
    hexValue cs < 16 ^ cs.length := by
  induction cs with
  | nil => simp [hexValue]
  | cons c cs ih =>
    rw [hexValue_cons, List.length_cons, pow_succ]
    have h1 := h c (List.mem_cons_self _ _)
    have h2 := ih fun x hx => h x (List.mem_cons_of_mem _ hx)
    nlinarith

theorem hexDigitValue_lt (c : Char) (h : isLowerHexDigit c = true) : hexDigitValue c < 16 := by
  unfold isLowerHexDigit at h
  unfold hexDigitValue
  simp only [Bool.or_eq_true, Bool.and_eq_true, decide_eq_true_eq] at h
  have h0 : '0'.toNat = 48 := rfl
  have h9 : '9'.toNat = 57 := rfl
  have ha : 'a'.toNat = 97 := rfl
  have hf : 'f'.toNat = 102 := rfl
  rw [h0, h9, ha, hf] at h
  rw [h0, h9, ha]
  split_ifs <;> omega

theorem toDigitsCore_hex : ∀ (fuel n : Nat) (ds : List Char), n < fuel →
    (∀ c ∈ ds, isLowerHexDigit c = true) →
    (∀ c ∈ Nat.toDigitsCore 16 fuel n ds, isLowerHexDigit c = true) ∧
    hexValue (Nat.toDigitsCore 16 fuel n ds) = n * 16 ^ ds.length + hexValue ds := by
  intro fuel
  induction fuel with
  | zero => intro n ds h; omega
  | succ fuel ih =>
    intro n ds hn hds
    have hd := digitChar_hex (n % 16) (Nat.mod_lt _ (by norm_num))
    have hcons : ∀ c ∈ Nat.digitChar (n % 16) :: ds, isLowerHexDigit c = true := by
      intro c hc
      rcases List.mem_cons.1 hc with h | h
      · rw [h]; exact hd.1
      · exact hds c h
    simp only [Nat.toDigitsCore]
    split_ifs with h0
    · refine ⟨hcons, ?_⟩
      rw [hexValue_cons, hd.2]
      have : n = n % 16 := by
        have := Nat.div_add_mod n 16
        omega
      rw [← this]
    · have hlt : n / 16 < fuel := by
        have : n / 16 < n := Nat.div_lt_self (by omega) (by norm_num)
        omega
      obtain ⟨h1, h2⟩ := ih (n / 16) _ hlt hcons
      refine ⟨h1, ?_⟩
      rw [h2, hexValue_cons, hd.2, List.length_cons, pow_succ]
      have e : n * 16 ^ ds.length = (16 * (n / 16) + n % 16) * 16 ^ ds.length := by
        rw [Nat.div_add_mod]
      rw [e]
      ring

theorem toDigits_hex (n : Nat) :
    (∀ c ∈ Nat.toDigits 16 n, isLowerHexDigit c = true) ∧ hexValue (Nat.toDigits 16 n) = n := by
  have h := toDigitsCore_hex (n + 1) n [] (by omega) (by simp)
  simpa [Nat.toDigits, hexValue] using h

theorem hex08_data (n : Nat) :
    (hex08 n).data =
      List.replicate (8 - (Nat.toDigits 16 n).length) '0' ++ Nat.toDigits 16 n := rfl

theorem hexValue_replicate_zero (k : Nat) : hexValue (List.replicate k '0') = 0 := by
  induction k with
  | zero => rfl
  | succ k ih =>
    rw [List.replicate_succ, hexValue_cons, ih]
    simp [hexDigitValue]

theorem hex08_digits (n : Nat) : ∀ c ∈ (hex08 n).data, isLowerHexDigit c = true := by
  intro c hc
  rw [hex08_data, List.mem_append] at hc
  rcases hc with h | h
  · rw [List.eq_of_mem_replicate h]; decide
  · exact (toDigits_hex n).1 c h

theorem hex08_value (n : Nat) : hexValue (hex08 n).data = n := by
  rw [hex08_data, hexValue_append, hexValue_replicate_zero, (toDigits_hex n).2]
  simp

theorem hex08_length_ge (n : Nat) : 8 ≤ (hex08 n).data.length := by
  rw [hex08_data, List.length_append, List.length_replicate]
  omega

theorem toDigits_length_le (n e : Nat) (he : 0 < e) (h : n < 16 ^ e) :
    (Nat.toDigits 16 n).length ≤ e :=
  Nat.toDigitsCore_length 16 (by norm_num) (n + 1) n e h he

theorem hex08_length_le (n e : Nat) (he : 8 ≤ e) (h : n < 16 ^ e) :
    (hex08 n).data.length ≤ e := by
  have := toDigits_length_le n e (by omega) h
  rw [hex08_data, List.length_append, List.length_replicate]
  omega

theorem hex08_length_gt (n : Nat) (h : 16 ^ 8 ≤ n) : 8 < (hex08 n).data.length := by
  by_contra hcon
  have hlen : (hex08 n).data.length ≤ 8 := by omega
  have hlt := hexValue_lt (hex08 n).data fun c hc => hexDigitValue_lt c (hex08_digits n c hc)
  rw [hex08_value] at hlt
  have : 16 ^ (hex08 n).data.length ≤ 16 ^ 8 := Nat.pow_le_pow_right (by norm_num) hlen
  omega

theorem hex08_injective {m n : Nat} (h : hex08 m = hex08 n) : m = n := by
  rw [← hex08_value m, ← hex08_value n, h]

theorem data_append3 (a b c : String) : (a ++ b ++ c).data = a.data ++ b.data ++ c.data := by
  simp [String.data_append]

theorem Key_eq (p : Package) (pfx : String) (h : p.V06Plus = true) :
    p.Key pfx = p.ShortKey pfx ++ " " ++ hex08 p.FilesHash := by
  simp [Package.Key, Package.ShortKey, h]

/-- C16, with the width of the hash as `%08x` writes it: for every package of format 0.6 or
later and every prefix, `Key(prefix)` is the prefix followed by `P`, the architecture, a
space, the name, a space, the version, a space, and `FilesHash` in lower-case hexadecimal
digits, padded with zeros to eight digits: exactly eight when `FilesHash` is below `2^32`,
more than eight otherwise, and at most sixteen for a 64-bit value. `ShortKey(prefix)` is the
same string without the final space and the hash digits. -/
theorem C16_key_format (p : Package) (pfx : String) (h06 : p.V06Plus = true) :
    p.ShortKey pfx = pfx ++ "P" ++ p.Architecture ++ " " ++ p.Name ++ " " ++ p.Version ∧
    p.Key pfx = pfx ++ "P" ++ p.Architecture ++ " " ++ p.Name ++ " " ++ p.Version ++ " " ++
      hex08 p.FilesHash ∧
    p.Key pfx = p.ShortKey pfx ++ " " ++ hex08 p.FilesHash ∧
    (∀ c ∈ (hex08 p.FilesHash).data, isLowerHexDigit c = true) ∧
    hexValue (hex08 p.FilesHash).data = p.FilesHash ∧
    (p.FilesHash < 2 ^ 32 → (hex08 p.FilesHash).length = 8) ∧
    (2 ^ 32 ≤ p.FilesHash → 8 < (hex08 p.FilesHash).length) ∧
    (p.FilesHash < 2 ^ 64 → (hex08 p.FilesHash).length ≤ 16) := by
  refine ⟨rfl, ?_, Key_eq p pfx h06, hex08_digits _, hex08_value _, ?_, ?_, ?_⟩
  · simp [Package.Key, h06]
  · intro h
    have h1 := hex08_length_le p.FilesHash 8 (le_refl _) (by norm_num at h ⊢; exact h)
    have h2 := hex08_length_ge p.FilesHash
    exact le_antisymm h1 h2
  · intro h
    exact hex08_length_gt p.FilesHash (by norm_num at h ⊢; exact h)
  · intro h
    exact hex08_length_le p.FilesHash 16 (by norm_num) (by norm_num at h ⊢; exact h)

theorem C16_key_format_witness :
    pkgAppKeyed.V06Plus = true ∧
    pkgAppKeyed.Key "" = "Pi386 app 1.1~bp1 00000abc" ∧
    pkgAppKeyed.ShortKey "" = "Pi386 app 1.1~bp1" ∧
    (hex08 pkgAppKeyed.FilesHash).length = 8 :=
  ⟨rfl, by decide, by decide,
    (C16_key_format pkgAppKeyed "" rfl).2.2.2.2.2.1 (by decide)⟩

/-- C16 as worded, refuted: the key of a package of format 0.6 whose files hash is `2^32`
ends in the nine digits `100000000`, so it is not the short key followed by a space and
eight characters. -/
theorem C16_key_hash_of_nine_digits :
    pkgWideHash.V06Plus = true ∧ pkgWideHash.Key "" = "Pi386 app 1 100000000" ∧
    ¬ ∃ digits : List Char, digits.length = 8 ∧
      pkgWideHash.Key "" = pkgWideHash.ShortKey "" ++ " " ++ String.mk digits := by
  refine ⟨rfl, by decide, ?_⟩
  rintro ⟨digits, hlen, heq⟩
  have hkey : pkgWideHash.Key "" = pkgWideHash.ShortKey "" ++ " " ++ "100000000" := by decide
  rw [hkey] at heq
  have h := congrArg String.data heq
  rw [data_append3, data_append3] at h
  have h2 := List.append_cancel_left h
  have h3 := congrArg List.length h2
  rw [hlen] at h3
  exact absurd h3 (by decide)

theorem split_at_separator {c : Char} : ∀ (xs ys r1 r2 : List Char), c ∉ xs → c ∉ ys →
    xs ++ c :: r1 = ys ++ c :: r2 → xs = ys ∧ r1 = r2 := by
  intro xs
  induction xs with
  | nil =>
    intro ys r1 r2 _ hy h
    cases ys with
    | nil => exact ⟨rfl, (List.cons.inj h).2⟩
    | cons y ys =>
      have := (List.cons.inj h).1
      exact absurd (this ▸ List.mem_cons_self _ _) hy
  | cons x xs ih =>
    intro ys r1 r2 hx hy h
    cases ys with
    | nil =>
      have := (List.cons.inj h).1
      exact absurd (this ▸ List.mem_cons_self _ _) hx
    | cons y ys =>
      obtain ⟨h1, h2⟩ := List.cons.inj h
      obtain ⟨h3, h4⟩ := ih ys r1 r2 (fun hm => hx (List.mem_cons_of_mem _ hm))
        (fun hm => hy (List.mem_cons_of_mem _ hm)) h2
      exact ⟨by rw [h1, h3], h4⟩

theorem split_at_last_separator {c : Char} (xs ys r1 r2 : List Char) (h1 : c ∉ r1)
    (h2 : c ∉ r2) (h : xs ++ c :: r1 = ys ++ c :: r2) : xs = ys ∧ r1 = r2 := by
  have hr := congrArg List.reverse h
  simp only [List.reverse_append, List.reverse_cons, List.append_assoc, List.singleton_append]
    at hr
  obtain ⟨h3, h4⟩ := split_at_separator r1.reverse r2.reverse xs.reverse ys.reverse
    (by simpa using h1) (by simpa using h2) hr
  exact ⟨List.reverse_injective h4, List.reverse_injective h3⟩

theorem hex08_no_space (n : Nat) : ' ' ∉ (hex08 n).data := fun h =>
  absurd (hex08_digits n ' ' h) (by decide)

theorem ShortKey_data (p : Package) (pfx : String) :
    (p.ShortKey pfx).data =
      pfx.data ++ 'P' :: (p.Architecture.data ++ ' ' :: (p.Name.data ++ ' ' :: p.Version.data)) := by
  simp [Package.ShortKey, String.data_append]

theorem ShortKey_eq_iff (p q : Package) (pfx : String)
    (hpa : ' ' ∉ p.Architecture.data) (hpn : ' ' ∉ p.Name.data)
    (hqa : ' ' ∉ q.Architecture.data) (hqn : ' ' ∉ q.Name.data) :
    p.ShortKey pfx = q.ShortKey pfx ↔
      (p.Architecture = q.Architecture ∧ p.Name = q.Name ∧ p.Version = q.Version) := by
  constructor
  · intro h
    have hd := congrArg String.data h
    rw [ShortKey_data, ShortKey_data] at hd
    have h1 := List.cons.inj (List.append_cancel_left hd)
    obtain ⟨ha, h2⟩ := split_at_separator _ _ _ _ hpa hqa h1.2
    obtain ⟨hn, hv⟩ := split_at_separator _ _ _ _ hpn hqn h2
    exact ⟨String.ext ha, String.ext hn, String.ext hv⟩
  · rintro ⟨ha, hn, hv⟩
    simp [Package.ShortKey, ha, hn, hv]

/-- C17: for packages `p` and `q` of format 0.6 or later whose `Architecture` and `Name`
contain no space and every prefix, `Key(p) = Key(q)` exactly when `p` and `q` agree on
`Architecture`, `Name`, `Version` and `FilesHash`, and `ShortKey(p) = ShortKey(q)` exactly
when they agree on `Architecture`, `Name` and `Version` (with or without spaces in
`Version`). -/
theorem C17_keys_identify_packages (p q : Package) (pfx : String)
    (hp06 : p.V06Plus = true) (hq06 : q.V06Plus = true)
    (hpa : ' ' ∉ p.Architecture.data) (hpn : ' ' ∉ p.Name.data)
    (hqa : ' ' ∉ q.Architecture.data) (hqn : ' ' ∉ q.Name.data) :
    (p.Key pfx = q.Key pfx ↔
      (p.Architecture = q.Architecture ∧ p.Name = q.Name ∧ p.Version = q.Version ∧
        p.FilesHash = q.FilesHash)) ∧
    (p.ShortKey pfx = q.ShortKey pfx ↔
      (p.Architecture = q.Architecture ∧ p.Name = q.Name ∧ p.Version = q.Version)) := by
  refine ⟨?_, ShortKey_eq_iff p q pfx hpa hpn hqa hqn⟩
  rw [Key_eq p pfx hp06, Key_eq q pfx hq06]
  constructor
  · intro h
    have hd := congrArg String.data h
    rw [data_append3, data_append3] at hd
    have hsp : (" " : String).data = [' '] := rfl
    rw [hsp, List.append_assoc, List.append_assoc, List.singleton_append,
      List.singleton_append] at hd
    obtain ⟨hs, hh⟩ := split_at_last_separator _ _ _ _ (hex08_no_space _) (hex08_no_space _) hd
    obtain ⟨ha, hn, hv⟩ := (ShortKey_eq_iff p q pfx hpa hpn hqa hqn).1 (String.ext hs)
    exact ⟨ha, hn, hv, hex08_injective (String.ext hh)⟩
  · rintro ⟨ha, hn, hv, hh⟩
    rw [(ShortKey_eq_iff p q pfx hpa hpn hqa hqn).2 ⟨ha, hn, hv⟩, hh]

theorem C17_keys_identify_packages_witness :
    pkgAppKeyed.V06Plus = true ∧ pkgAppKeyedOther.V06Plus = true ∧
    pkgAppKeyed.Key "" ≠ pkgAppKeyedOther.Key "" ∧
    pkgAppKeyed.ShortKey "" = pkgAppKeyedOther.ShortKey "" :=
  ⟨rfl, rfl,
    fun h => absurd ((C17_keys_identify_packages pkgAppKeyed pkgAppKeyedOther "" rfl rfl
      (by decide) (by decide) (by decide) (by decide)).1.1 h).2.2.2 (by decide),
    (C17_keys_identify_packages pkgAppKeyed pkgAppKeyedOther "" rfl rfl
      (by decide) (by decide) (by decide) (by decide)).2.2 ⟨rfl, rfl, rfl⟩⟩

/-- C18, evaluated: for the package `lib 1.0 i386`, whose `Source` is empty, the source name
is `lib`; it passes the length test, starts with `lib`, and the slice `source[:4]` of its
three bytes is a run-time panic. For every package, `PoolDirectory` ends in a panic exactly
when the source name is `lib`; it returns the error exactly when the source name has fewer
than two bytes, and a path in every other case. -/
theorem C18_pool_directory_panics_on_lib (filepathJoin : List Nat → List Nat → List Nat) :
    pkgLib.PoolDirectory filepathJoin = Except.error
      (Failure.panic "runtime error: slice bounds out of range [:4] with length 3") ∧
    (∀ p : Package, (∃ msg, p.PoolDirectory filepathJoin = Except.error (Failure.panic msg)) ↔
      goBytes (poolSource p) = goBytes "lib") ∧
    (∀ p : Package, (∃ msg, p.PoolDirectory filepathJoin = Except.error (Failure.error msg)) ↔
      (goBytes (poolSource p)).length < 2) ∧
    (∀ p : Package, 2 ≤ (goBytes (poolSource p)).length →
      goBytes (poolSource p) ≠ goBytes "lib" →
      p.PoolDirectory filepathJoin = Except.ok (filepathJoin
        ((goBytes (poolSource p)).take (if goBytes "lib" <+: goBytes (poolSource p) then 4 else 1))
        (goBytes (poolSource p)))) := by
  have hlib : goBytes "lib" = [108, 105, 98] := by decide
  have hshort : ∀ bs : List Nat, [108, 105, 98] <+: bs → ¬ 4 ≤ bs.length →
      bs = [108, 105, 98] := by
    rintro bs ⟨t, rfl⟩ hlen
    cases t with
    | nil => rfl
    | cons x t => simp at hlen
  refine ⟨by with_unfolding_all rfl, ?_, ?_, ?_⟩
  · intro p
    unfold Package.PoolDirectory
    rw [hlib]
    dsimp only
    constructor
    · rintro ⟨msg, h⟩
      split_ifs at h with h1 h2 h3
      · simp at h
      · exact hshort _ h2 h3
    · intro h
      rw [h]
      exact ⟨_, rfl⟩
  · intro p
    unfold Package.PoolDirectory
    dsimp only
    constructor
    · rintro ⟨msg, h⟩
      split_ifs at h with h1 h2 h3
      · exact h1
      · simp at h
    · intro h
      rw [if_pos h]
      exact ⟨_, rfl⟩
  · intro p hlen hne
    unfold Package.PoolDirectory
    rw [hlib] at hne ⊢
    dsimp only
    rw [if_neg (by omega)]
    split_ifs with h2 h3
    · rfl
    · exact absurd (hshort _ h2 h3) hne
    · rfl

theorem MatchesDependency_dontCare (E : Externals) (p : Package) (dep : Dependency)
    (hrel : dep.Relation = VersionDontCare) (hname : p.Name = dep.Pkg) :
    p.MatchesDependency E dep = true ↔ archFits dep p := by
  rw [MatchesDependency_iff]
  constructor
  · exact fun h => h.1
  · intro h
    refine ⟨h, Or.inr ⟨hname.symm, ?_⟩⟩
    simp [versionSatisfiesDependency, hrel]

theorem searchNameRun_first (E : Externals) (dep : Dependency) :
    ∀ (ys acc : List Package),
      (∃ x ∈ ys.takeWhile (fun p => decide (p.Name = dep.Pkg)),
        x.MatchesDependency E dep = true) →
      ∃ pre p post, ys = pre ++ p :: post ∧
        (∀ y ∈ pre, y.MatchesDependency E dep = false) ∧
        p.Name = dep.Pkg ∧ p.MatchesDependency E dep = true ∧
        searchNameRun E dep false ys acc = (acc ++ [p], true) := by
  intro ys
  induction ys with
  | nil => intro acc h; simp at h
  | cons y ys ih =>
    intro acc h
    by_cases hn : y.Name = dep.Pkg
    · by_cases hm : y.MatchesDependency E dep = true
      · refine ⟨[], y, ys, rfl, by simp, hn, hm, ?_⟩
        simp [searchNameRun, hn, hm]
      · have hm2 : y.MatchesDependency E dep = false := by simpa using hm
        obtain ⟨x, hx, hxm⟩ := h
        rw [List.takeWhile_cons, if_pos (by simpa using hn)] at hx
        rcases List.mem_cons.1 hx with hxy | hx2
        · rw [hxy] at hxm
          exact absurd hxm hm
        · obtain ⟨pre, p, post, heq, hpre, hpn, hpm, hrun⟩ := ih acc ⟨x, hx2, hxm⟩
          refine ⟨y :: pre, p, post, by rw [heq]; rfl, ?_, hpn, hpm, ?_⟩
          · intro z hz
            rcases List.mem_cons.1 hz with h1 | h1
            · rw [h1]; exact hm2
            · exact hpre z h1
          · simp only [searchNameRun, hn, hm2, if_true]
            simpa using hrun
    · obtain ⟨x, hx, -⟩ := h
      rw [List.takeWhile_cons, if_neg (by simpa using hn)] at hx
      simp at hx

/-- C15: on an indexed list with a consistent index, for a dependency `dep` with relation
`DontCare` and either value of `searchProvided`: when the list holds a package named
`dep.Pkg` that fits the architecture of `dep`, `Search(dep, false, searchProvided)` returns
exactly one package; it is a package of the list named `dep.Pkg` that fits the architecture,
and its version is not below (per `CompareVersions`, a total preorder) the version of any
package of the list named `dep.Pkg` that fits the architecture. -/
theorem C15_search_returns_highest_version (E : Externals)
    (hE : IsTotalPreorder E.CompareVersions) (l : PackageList) (hc : IndexConsistent E l)
    (dep : Dependency) (hrel : dep.Relation = VersionDontCare) (searchProvided : Bool)
    (hex : ∃ x ∈ l.packages.map Prod.snd, x.Name = dep.Pkg ∧ archFits dep x) :
    ∃ p, l.Search E dep false searchProvided = Except.ok [p] ∧
      p ∈ l.packages.map Prod.snd ∧ p.Name = dep.Pkg ∧ archFits dep p ∧
      ∀ q ∈ l.packages.map Prod.snd, q.Name = dep.Pkg → archFits dep q →
        0 ≤ E.CompareVersions p.Version q.Version := by
  obtain ⟨x, hx, hxn, hxa⟩ := hex
  have hxi : x ∈ l.packagesIndex := (hc.index_mem x).2 hx
  have hxrun := mem_name_run E l.packagesIndex dep.Pkg hc.sorted x hxi hxn
  obtain ⟨pre, p, post, heq, hpre, hpn, hpm, hrun⟩ :=
    searchNameRun_first E dep _ [] ⟨x, hxrun, (MatchesDependency_dontCare E x dep hrel hxn).2 hxa⟩
  have hpi : p ∈ l.packagesIndex := by
    apply List.mem_of_mem_drop
    rw [heq]
    simp
  refine ⟨p, ?_, (hc.index_mem p).1 hpi, hpn,
    (MatchesDependency_dontCare E p dep hrel hpn).1 hpm, ?_⟩
  · rw [Search_indexed E l dep false searchProvided hc.indexed]
    simp only [searchIndexed, hrun, if_true, List.nil_append]
  · intro q hq hqn hqa
    have hqm := (MatchesDependency_dontCare E q dep hrel hqn).2 hqa
    have hqrun := mem_name_run E l.packagesIndex dep.Pkg hc.sorted q ((hc.index_mem q).2 hq) hqn
    have hqd := List.takeWhile_subset _ hqrun
    rw [heq] at hqd
    rcases List.mem_append.1 hqd with h | h
    · rw [hpre q h] at hqm
      exact absurd hqm (by simp)
    · rcases List.mem_cons.1 h with h | h
      · rw [h, hE.refl]
      · have hs : (pre ++ p :: post).Pairwise (notAfter E) := by
          rw [← heq]
          exact List.Pairwise.sublist (List.drop_sublist _ _) hc.sorted
        have hpq : notAfter E p q :=
          List.rel_of_pairwise_cons (List.pairwise_append.1 hs).2.1 h
        unfold notAfter lessPackages at hpq
        rw [if_pos (hqn.trans hpn.symm)] at hpq
        have hanti := hE.antisymm p.Version q.Version
        rcases hE.range q.Version p.Version with h1 | h1 | h1
        · omega
        · omega
        · rw [h1] at hpq
          simp at hpq

theorem C15_search_returns_highest_version_witness :
    IsTotalPreorder plainExternals.CompareVersions ∧
    IndexConsistent plainExternals (listPlain.PrepareIndex plainExternals) ∧
    (listPlain.PrepareIndex plainExternals).Search plainExternals { Pkg := "app" } false true =
      Except.ok [{ Name := "app", Version := "3", Architecture := "i386" }] ∧
    ∃ p, (listPlain.PrepareIndex plainExternals).Search plainExternals { Pkg := "app" } false
        true = Except.ok [p] ∧
      p ∈ (listPlain.PrepareIndex plainExternals).packages.map Prod.snd ∧ p.Name = "app" ∧
      archFits { Pkg := "app" } p ∧
      ∀ q ∈ (listPlain.PrepareIndex plainExternals).packages.map Prod.snd, q.Name = "app" →
        archFits { Pkg := "app" } q → 0 ≤ plainExternals.CompareVersions p.Version q.Version :=
  ⟨compareByKey_isTotalPreorder _,
    PrepareIndex_consistent plainExternals (compareByKey_isTotalPreorder _) listPlain rfl,
    by decide,
    C15_search_returns_highest_version plainExternals (compareByKey_isTotalPreorder _)
      (listPlain.PrepareIndex plainExternals)
      (PrepareIndex_consistent plainExternals (compareByKey_isTotalPreorder _) listPlain rfl)
      { Pkg := "app" } rfl true
      ⟨{ Name := "app", Version := "1", Architecture := "i386" }, by decide, rfl, Or.inl rfl⟩⟩

/-! ## `VerifyDependencies`: what is reported, line by line -/

theorem cachedSatisfied_exact (E : Externals) (D : Dependency → Prop)
    (hH : HashInjectiveOn E D) (sources : PackageList) (dep : Dependency) (hdep : D dep)
    (cache cache2 : List (String × Bool)) (sat : Bool)
    (h : cachedSatisfied E sources dep cache = Except.ok (cache2, sat))
    (hc : CacheExact E sources D cache) :
    CacheExact E sources D cache2 ∧ sat = satisfiedInSources E sources dep := by
  unfold cachedSatisfied at h
  cases hlk : cache.lookup (E.Hash dep) with
  | some satisfied =>
    rw [hlk] at h
    simp only [Except.ok.injEq, Prod.mk.injEq] at h
    obtain ⟨rfl, rfl⟩ := h
    exact ⟨hc, hc dep hdep _ hlk⟩
  | none =>
    rw [hlk] at h
    cases hs : sources.Search E dep false true with
    | error f => rw [hs] at h; simp at h
    | ok found =>
      rw [hs] at h
      simp only [Except.ok.injEq, Prod.mk.injEq] at h
      obtain ⟨rfl, rfl⟩ := h
      have hsat : (!found.isEmpty) = satisfiedInSources E sources dep := by
        simp [satisfiedInSources, hs]
      refine ⟨?_, hsat⟩
      intro d hd b hlook
      rw [lookup_mapSet] at hlook
      split_ifs at hlook with hh
      · have hdd : d = dep := hH d dep hd hdep hh
        subst hdd
        rw [← hsat]
        exact (Option.some.inj hlook).symm
      · exact hc d hd b hlook

theorem verifyVariants_exact (E : Externals) (D : Dependency → Prop)
    (hH : HashInjectiveOn E D) (options : Nat) (arch : String) (sources : PackageList) :
    ∀ (vs : List Dependency) (cache : List (String × Bool)) (vm : List Dependency)
      (cache2 : List (String × Bool)) (vm2 : List Dependency),
      (∀ v ∈ vs, D (forArchitecture arch v)) →
      verifyVariants E options arch sources vs cache vm = Except.ok (cache2, vm2) →
      CacheExact E sources D cache →
      CacheExact E sources D cache2 ∧
        vm2 = if options &&& DepFollowAllVariants = 0 then
          if (vs.map (forArchitecture arch)).any (satisfiedInSources E sources) then []
          else vm ++ vs.map (forArchitecture arch)
        else vm ++ (vs.map (forArchitecture arch)).filter
          fun d => !satisfiedInSources E sources d := by
  intro vs
  induction vs with
  | nil =>
    intro cache vm cache2 vm2 _ h hc
    simp only [verifyVariants, Except.ok.injEq, Prod.mk.injEq] at h
    obtain ⟨rfl, rfl⟩ := h
    refine ⟨hc, ?_⟩
    simp
  | cons v vs ih =>
    intro cache vm cache2 vm2 hD h hc
    simp only [verifyVariants] at h
    cases hcs : cachedSatisfied E sources (forArchitecture arch v) cache with
    | error f => rw [hcs] at h; simp at h
    | ok r =>
      obtain ⟨cache1, sat⟩ := r
      rw [hcs] at h
      simp only at h
      obtain ⟨hc1, hsat⟩ := cachedSatisfied_exact E D hH sources _
        (hD v (List.mem_cons_self _ _)) cache cache1 sat hcs hc
      have hD2 : ∀ w ∈ vs, D (forArchitecture arch w) :=
        fun w hw => hD w (List.mem_cons_of_mem _ hw)
      by_cases hopt : options &&& DepFollowAllVariants = 0
      · cases hsv : sat with
        | true =>
          rw [hsv] at h hsat
          simp only [hopt, and_self, if_true, Except.ok.injEq, Prod.mk.injEq] at h
          obtain ⟨rfl, rfl⟩ := h
          refine ⟨hc1, ?_⟩
          simp [hopt, ← hsat]
        | false =>
          rw [hsv] at h hsat
          simp only [Bool.false_eq_true, false_and, if_false, Bool.not_false, if_true] at h
          obtain ⟨hc2, hvm⟩ := ih cache1 _ cache2 vm2 hD2 h hc1
          refine ⟨hc2, ?_⟩
          rw [hvm]
          simp only [hopt, if_true, List.map_cons, List.any_cons, ← hsat, Bool.false_or]
          split_ifs <;> simp
      · have hnot : ¬ (sat = true ∧ options &&& DepFollowAllVariants = 0) := fun hh => hopt hh.2
        simp only [hnot, if_false] at h
        obtain ⟨hc2, hvm⟩ := ih cache1 _ cache2 vm2 hD2 h hc1
        refine ⟨hc2, ?_⟩
        rw [hvm]
        simp only [hopt, if_false, List.map_cons, List.filter_cons, ← hsat]
        cases sat <;> simp

theorem verifyLines_exact (E : Externals) (D : Dependency → Prop)
    (hH : HashInjectiveOn E D) (options : Nat) (arch : String) (sources : PackageList)
    (p : Package) :
    ∀ (lines : List String) (cache : List (String × Bool)) (missing : List Dependency)
      (cache2 : List (String × Bool)) (missing2 : List Dependency),
      (∀ line ∈ lines, LineIn E D arch line) →
      verifyLines E options arch sources p lines cache missing = Except.ok (cache2, missing2) →
      CacheExact E sources D cache →
      CacheExact E sources D cache2 ∧
        missing2 = missing ++ lines.flatMap (reportOfLine E options sources arch) := by
  intro lines
  induction lines with
  | nil =>
    intro cache missing cache2 missing2 _ h hc
    simp only [verifyLines, Except.ok.injEq, Prod.mk.injEq] at h
    obtain ⟨rfl, rfl⟩ := h
    exact ⟨hc, by simp⟩
  | cons line lines ih =>
    intro cache missing cache2 missing2 hD h hc
    simp only [verifyLines] at h
    cases hp : E.ParseDependencyVariants line with
    | error err => rw [hp] at h; simp at h
    | ok variants =>
      rw [hp] at h
      simp only at h
      cases hv : verifyVariants E options arch sources (depSliceDeduplicate E variants) cache []
        with
      | error f => rw [hv] at h; simp at h
      | ok r =>
        obtain ⟨cache1, vm⟩ := r
        rw [hv] at h
        simp only at h
        have hin := hD line (List.mem_cons_self _ _) variants hp
        have hDv : ∀ v ∈ depSliceDeduplicate E variants, D (forArchitecture arch v) := by
          intro v hv2
          have := (mem_depSliceDeduplicate E D hH variants (fun y hy => (hin y hy).1) v).1 hv2
          exact (hin v this).2
        obtain ⟨hc1, hvm⟩ := verifyVariants_exact E D hH options arch sources _ cache [] cache1
          vm hDv hv hc
        obtain ⟨hc2, hm⟩ := ih cache1 _ cache2 missing2
          (fun l2 hl2 => hD l2 (List.mem_cons_of_mem _ hl2)) h hc1
        refine ⟨hc2, ?_⟩
        have hrep : reportOfLine E options sources arch line = vm := by
          rw [hvm]
          simp only [reportOfLine, hp, lineReport, List.nil_append]
        rw [hm, List.flatMap_cons, hrep, List.append_assoc]

theorem verifyPackages_exact (E : Externals) (D : Dependency → Prop)
    (hH : HashInjectiveOn E D) (options : Nat) (arch : String) (sources : PackageList) :
    ∀ (pkgs : List Package) (cache : List (String × Bool)) (missing : List Dependency)
      (cache2 : List (String × Bool)) (missing2 : List Dependency),
      (∀ p ∈ pkgs, ∀ line ∈ p.GetDependencies options, LineIn E D arch line) →
      verifyPackages E options arch sources pkgs cache missing = Except.ok (cache2, missing2) →
      CacheExact E sources D cache →
      CacheExact E sources D cache2 ∧
        missing2 = missing ++ (pkgs.filter fun p => p.MatchesArchitecture arch).flatMap
          fun p => (p.GetDependencies options).flatMap (reportOfLine E options sources arch) := by
  intro pkgs
  induction pkgs with
  | nil =>
    intro cache missing cache2 missing2 _ h hc
    simp only [verifyPackages, Except.ok.injEq, Prod.mk.injEq] at h
    obtain ⟨rfl, rfl⟩ := h
    exact ⟨hc, by simp⟩
  | cons p pkgs ih =>
    intro cache missing cache2 missing2 hD h hc
    have hD2 : ∀ q ∈ pkgs, ∀ line ∈ q.GetDependencies options, LineIn E D arch line :=
      fun q hq => hD q (List.mem_cons_of_mem _ hq)
    simp only [verifyPackages] at h
    cases hm : p.MatchesArchitecture arch with
    | false =>
      rw [hm] at h
      simp only [Bool.not_false, if_true] at h
      obtain ⟨hc2, hres⟩ := ih cache missing cache2 missing2 hD2 h hc
      refine ⟨hc2, ?_⟩
      rw [hres, List.filter_cons, hm]
      simp
    | true =>
      rw [hm] at h
      simp only [Bool.not_true, Bool.false_eq_true, if_false] at h
      cases hl : verifyLines E options arch sources p (p.GetDependencies options) cache missing
        with
      | error f => rw [hl] at h; simp at h
      | ok r =>
        obtain ⟨cache1, missing1⟩ := r
        rw [hl] at h
        simp only at h
        obtain ⟨hc1, hm1⟩ := verifyLines_exact E D hH options arch sources p _ cache missing
          cache1 missing1 (hD p (List.mem_cons_self _ _)) hl hc
        obtain ⟨hc2, hres⟩ := ih cache1 missing1 cache2 missing2 hD2 h hc1
        refine ⟨hc2, ?_⟩
        rw [hres, hm1, List.filter_cons, hm]
        simp

theorem CacheExact_nil (E : Externals) (sources : PackageList) (D : Dependency → Prop) :
    CacheExact E sources D [] := by
  intro d _ b h
  simp at h

theorem verifyArchitectures_exact (E : Externals) (D : Dependency → Prop)
    (hH : HashInjectiveOn E D) (options : Nat) (sources : PackageList)
    (index : List Package) :
    ∀ (archs : List String) (missing missing2 : List Dependency),
      (∀ a ∈ archs, ∀ p ∈ index, ∀ line ∈ p.GetDependencies options, LineIn E D a line) →
      verifyArchitectures E options sources index archs missing = Except.ok missing2 →
      missing2 = missing ++ reportOfPackages E options sources index archs := by
  intro archs
  induction archs with
  | nil =>
    intro missing missing2 _ h
    simp only [verifyArchitectures, Except.ok.injEq] at h
    rw [← h]
    simp [reportOfPackages]
  | cons a archs ih =>
    intro missing missing2 hD h
    simp only [verifyArchitectures] at h
    cases hp : verifyPackages E options a sources index [] missing with
    | error f => rw [hp] at h; simp at h
    | ok r =>
      obtain ⟨cache1, missing1⟩ := r
      rw [hp] at h
      simp only at h
      obtain ⟨-, hm1⟩ := verifyPackages_exact E D hH options a sources index [] missing cache1
        missing1 (hD a (List.mem_cons_self _ _)) hp (CacheExact_nil E sources D)
      have hres := ih missing1 missing2 (fun b hb => hD b (List.mem_cons_of_mem _ hb)) h
      rw [hres, hm1]
      simp [reportOfPackages]

theorem VerifyDependencies_exact (E : Externals) (l sources : PackageList) (options : Nat)
    (archs : List String)
    (hH : HashInjectiveOn E (fun d => d ∈ occurringDependencies E
      (l.PrepareIndex E).packagesIndex options archs))
    (l2 : PackageList) (missing : List Dependency)
    (h : l.VerifyDependencies E options archs sources = (l2, Except.ok missing)) :
    missing = depSliceDeduplicate E
      (reportOfPackages E options sources (l.PrepareIndex E).packagesIndex archs) := by
  unfold PackageList.VerifyDependencies at h
  simp only at h
  split_ifs at h with h0
  · simp at h
  · cases hv : verifyArchitectures E options sources (l.PrepareIndex E).packagesIndex archs []
      with
    | error f => rw [hv] at h; simp at h
    | ok m =>
      rw [hv] at h
      simp only [Prod.mk.injEq, Except.ok.injEq] at h
      have hm := verifyArchitectures_exact E _ hH options sources _ archs [] m
        (fun a ha p hp line hline =>
          LineIn_occurring E _ options archs p hp a ha line hline) hv
      rw [← h.2, hm, List.nil_append]

theorem mem_lineReport (E : Externals) (options : Nat) (sources : PackageList) (arch : String)
    (variants : List Dependency) (d : Dependency) :
    d ∈ lineReport E options sources arch variants ↔
      (d ∈ variants.map (forArchitecture arch) ∧
        if options &&& DepFollowAllVariants = 0 then
          ∀ v ∈ variants, satisfiedInSources E sources (forArchitecture arch v) = false
        else satisfiedInSources E sources d = false) := by
  unfold lineReport
  by_cases hopt : options &&& DepFollowAllVariants = 0
  · simp only [hopt, if_true]
    by_cases hany : (variants.map (forArchitecture arch)).any (satisfiedInSources E sources) = true
    · rw [if_pos hany]
      simp only [List.not_mem_nil, false_iff, not_and]
      intro _ hall
      obtain ⟨e, he, hsat⟩ := List.any_eq_true.1 hany
      obtain ⟨v, hv, rfl⟩ := List.mem_map.1 he
      rw [hall v hv] at hsat
      exact absurd hsat (by simp)
    · rw [if_neg hany]
      refine ⟨fun h => ⟨h, ?_⟩, fun h => h.1⟩
      intro v hv
      cases hs : satisfiedInSources E sources (forArchitecture arch v) with
      | false => rfl
      | true =>
        exact absurd (List.any_eq_true.2 ⟨_, List.mem_map_of_mem _ hv, hs⟩) hany
  · simp only [hopt, if_false, List.mem_filter, Bool.not_eq_true', Bool.not_eq_eq_eq_not,
      Bool.not_true]

theorem mem_reportOfPackages (E : Externals) (options : Nat) (sources : PackageList)
    (index : List Package) (archs : List String) (d : Dependency) :
    d ∈ reportOfPackages E options sources index archs ↔
      ∃ arch ∈ archs, ∃ p ∈ index, p.MatchesArchitecture arch = true ∧
        ∃ line ∈ p.GetDependencies options, d ∈ reportOfLine E options sources arch line := by
  simp only [reportOfPackages, List.mem_flatMap, List.mem_filter]
  constructor
  · rintro ⟨arch, ha, p, ⟨hp, hm⟩, line, hl, hd⟩
    exact ⟨arch, ha, p, hp, hm, line, hl, hd⟩
  · rintro ⟨arch, ha, p, hp, hm, line, hl, hd⟩
    exact ⟨arch, ha, p, ⟨hp, hm⟩, line, hl, hd⟩

theorem mem_reportOfLine (E : Externals) (D : Dependency → Prop) (hH : HashInjectiveOn E D)
    (options : Nat) (sources : PackageList) (arch line : String) (hin : LineIn E D arch line)
    (d : Dependency) :
    d ∈ reportOfLine E options sources arch line ↔
      ∃ variants, E.ParseDependencyVariants line = Except.ok variants ∧
        d ∈ lineReport E options sources arch variants := by
  unfold reportOfLine
  cases hp : E.ParseDependencyVariants line with
  | error err => simp
  | ok variants =>
    have hmem : ∀ x, x ∈ depSliceDeduplicate E variants ↔ x ∈ variants :=
      mem_depSliceDeduplicate E D hH variants (fun y hy => (hin variants hp y hy).1)
    simp only [Except.ok.injEq, exists_eq_left', mem_lineReport, List.mem_map, hmem]

theorem reportOfLine_occurring (E : Externals) (D : Dependency → Prop)
    (hH : HashInjectiveOn E D) (options : Nat) (sources : PackageList) (arch line : String)
    (hin : LineIn E D arch line) (d : Dependency)
    (hd : d ∈ reportOfLine E options sources arch line) : D d := by
  obtain ⟨variants, hp, hm⟩ := (mem_reportOfLine E D hH options sources arch line hin d).1 hd
  obtain ⟨v, hv, rfl⟩ := List.mem_map.1 ((mem_lineReport E options sources arch variants d).1 hm).1
  exact (hin variants hp v hv).2

theorem reportOfPackages_occurring (E : Externals) (options : Nat) (sources : PackageList)
    (index : List Package) (archs : List String)
    (hH : HashInjectiveOn E (fun d => d ∈ occurringDependencies E index options archs))
    (d : Dependency) (hd : d ∈ reportOfPackages E options sources index archs) :
    d ∈ occurringDependencies E index options archs := by
  obtain ⟨arch, ha, p, hp, -, line, hl, hdl⟩ :=
    (mem_reportOfPackages E options sources index archs d).1 hd
  exact reportOfLine_occurring E _ hH options sources arch line
    (LineIn_occurring E index options archs p hp arch ha line hl) d hdl

theorem dedupLoop_pairwise (E : Externals) : ∀ (s : List Dependency) (found : List String),
    (dedupLoop E s found).Pairwise (fun a b => E.Hash a ≠ E.Hash b) ∧
      ∀ x ∈ dedupLoop E s found, E.Hash x ∉ found := by
  intro s
  induction s with
  | nil => intro found; simp [dedupLoop]
  | cons x rest ih =>
    intro found
    simp only [dedupLoop]
    split_ifs with hc
    · exact ih found
    · obtain ⟨h1, h2⟩ := ih (E.Hash x :: found)
      refine ⟨List.pairwise_cons.2 ⟨?_, h1⟩, ?_⟩
      · intro y hy heq
        exact h2 y hy (by rw [heq]; exact List.mem_cons_self _ _)
      · intro y hy
        rcases List.mem_cons.1 hy with h | h
        · rw [h]
          simpa using hc
        · exact fun hm => h2 y h (List.mem_cons_of_mem _ hm)

theorem depSliceDeduplicate_pairwise (E : Externals) (D : Dependency → Prop)
    (hH : HashInjectiveOn E D) (s : List Dependency) (hD : ∀ y ∈ s, D y) :
    (depSliceDeduplicate E s).Pairwise (fun a b => E.Hash a ≠ E.Hash b) := by
  unfold depSliceDeduplicate
  split_ifs with hlen
  · match s, hlen with
    | [], _ => exact List.Pairwise.nil
    | [a], _ => exact List.pairwise_singleton _ _
    | _ :: _ :: _, h => exact absurd h (by simp)
  · split
    · next a b =>
      split_ifs with hab
      · exact List.pairwise_singleton _ _
      · refine List.pairwise_cons.2 ⟨?_, List.pairwise_singleton _ _⟩
        intro y hy heq
        rw [List.mem_singleton] at hy
        subst hy
        exact hab (hH a y (hD a (by simp)) (hD y (by simp)) heq)
    · exact (dedupLoop_pairwise E s []).1

/-- C12 (amended): when `VerifyDependencies` succeeds, a dependency is reported as missing
exactly when it is a variant (with the architecture filled in) of a dependency line of a package
examined for an architecture and, without `DepFollowAllVariants`, no variant of that line is
satisfied in `sources` for the architecture (the line then reports all its variants), or,
with `DepFollowAllVariants`, the variant itself is not satisfied (whatever the other
variants of the line). Satisfied means that `sources.Search(dep, false, true)` is not nil;
the dependency hash tells the dependencies of the examined lines apart. -/
theorem C12_verify_reports_by_line (E : Externals) (l sources : PackageList) (options : Nat)
    (archs : List String)
    (hH : HashInjectiveOn E (fun d => d ∈ occurringDependencies E
      (l.PrepareIndex E).packagesIndex options archs))
    (l2 : PackageList) (missing : List Dependency)
    (h : l.VerifyDependencies E options archs sources = (l2, Except.ok missing))
    (d : Dependency) :
    d ∈ missing ↔
      ∃ arch ∈ archs, ∃ p ∈ (l.PrepareIndex E).packagesIndex,
        p.MatchesArchitecture arch = true ∧
        ∃ line ∈ p.GetDependencies options, ∃ variants,
          E.ParseDependencyVariants line = Except.ok variants ∧
          d ∈ variants.map (forArchitecture arch) ∧
          if options &&& DepFollowAllVariants = 0 then
            ∀ v ∈ variants, satisfiedInSources E sources (forArchitecture arch v) = false
          else satisfiedInSources E sources d = false := by
  rw [VerifyDependencies_exact E l sources options archs hH l2 missing h,
    mem_depSliceDeduplicate E _ hH _
      (reportOfPackages_occurring E options sources _ archs hH),
    mem_reportOfPackages]
  constructor
  · rintro ⟨arch, ha, p, hp, hm, line, hl, hd⟩
    obtain ⟨variants, hparse, hrep⟩ := (mem_reportOfLine E _ hH options sources arch line
      (LineIn_occurring E _ options archs p hp arch ha line hl) d).1 hd
    exact ⟨arch, ha, p, hp, hm, line, hl, variants, hparse,
      (mem_lineReport E options sources arch variants d).1 hrep⟩
  · rintro ⟨arch, ha, p, hp, hm, line, hl, variants, hparse, hrep⟩
    exact ⟨arch, ha, p, hp, hm, line, hl,
      (mem_reportOfLine E _ hH options sources arch line
        (LineIn_occurring E _ options archs p hp arch ha line hl) d).2
        ⟨variants, hparse, (mem_lineReport E options sources arch variants d).2 hrep⟩⟩

/-- When `VerifyDependencies` succeeds and the hash tells the dependencies of the examined
lines apart, no two elements of the returned list have the same dependency hash (a list of
two is compared by value, a longer one by hash). -/
theorem missing_distinct_hashes_of_injective (E : Externals) (l sources : PackageList)
    (options : Nat) (archs : List String)
    (hH : HashInjectiveOn E (fun d => d ∈ occurringDependencies E
      (l.PrepareIndex E).packagesIndex options archs))
    (l2 : PackageList) (missing : List Dependency)
    (h : l.VerifyDependencies E options archs sources = (l2, Except.ok missing)) :
    missing.Pairwise (fun a b => E.Hash a ≠ E.Hash b) := by
  rw [VerifyDependencies_exact E l sources options archs hH l2 missing h]
  exact depSliceDeduplicate_pairwise E _ hH _
    (reportOfPackages_occurring E options sources _ archs hH)

theorem hashInjective_listNeedy (options : Nat) (hopt : options = 0 ∨ options = 8) :
    HashInjectiveOn debExternals (fun d => d ∈ occurringDependencies debExternals
      (listNeedy.PrepareIndex debExternals).packagesIndex options ["i386", "amd64"]) := by
  have hall : ∀ o ∈ [0, 8], ∀ d1 ∈ occurringDependencies debExternals
      (listNeedy.PrepareIndex debExternals).packagesIndex o ["i386", "amd64"],
      ∀ d2 ∈ occurringDependencies debExternals
        (listNeedy.PrepareIndex debExternals).packagesIndex o ["i386", "amd64"],
      debExternals.Hash d1 = debExternals.Hash d2 → d1 = d2 := by decide
  intro d1 d2 h1 h2
  rcases hopt with h | h <;> subst h
  · exact hall 0 (by decide) d1 h1 d2 h2
  · exact hall 8 (by decide) d1 h1 d2 h2

theorem C12_verify_reports_by_line_witness :
    listNeedy.VerifyDependencies debExternals 0 ["i386", "amd64"] sourcesBeta =
      (listNeedy.PrepareIndex debExternals, Except.ok [depGamma]) ∧
    listNeedy.VerifyDependencies debExternals 8 ["i386", "amd64"] sourcesBeta =
      (listNeedy.PrepareIndex debExternals, Except.ok [depAlpha, depGamma]) ∧
    (depAlpha ∈ [depAlpha, depGamma] ↔
      ∃ arch ∈ ["i386", "amd64"], ∃ p ∈ (listNeedy.PrepareIndex debExternals).packagesIndex,
        p.MatchesArchitecture arch = true ∧
        ∃ line ∈ p.GetDependencies 8, ∃ variants,
          debExternals.ParseDependencyVariants line = Except.ok variants ∧
          depAlpha ∈ variants.map (forArchitecture arch) ∧
          if 8 &&& DepFollowAllVariants = 0 then
            ∀ v ∈ variants,
              satisfiedInSources debExternals sourcesBeta (forArchitecture arch v) = false
          else satisfiedInSources debExternals sourcesBeta depAlpha = false) :=
  ⟨by decide, by decide,
    C12_verify_reports_by_line debExternals listNeedy sourcesBeta 8 ["i386", "amd64"]
      (hashInjective_listNeedy 8 (Or.inr rfl)) (listNeedy.PrepareIndex debExternals)
      [depAlpha, depGamma] (by decide) depAlpha⟩

theorem missing_distinct_hashes_of_injective_example :
    listNeedy.VerifyDependencies debExternals 8 ["i386", "amd64"] sourcesBeta =
      (listNeedy.PrepareIndex debExternals, Except.ok [depAlpha, depGamma]) ∧
    [depAlpha, depGamma].Pairwise
      (fun a b => debExternals.Hash a ≠ debExternals.Hash b) :=
  ⟨by decide,
    missing_distinct_hashes_of_injective debExternals listNeedy sourcesBeta 8 ["i386", "amd64"]
      (hashInjective_listNeedy 8 (Or.inr rfl)) (listNeedy.PrepareIndex debExternals)
      [depAlpha, depGamma] (by decide)⟩

/-! ## `Filter` with source packages -/

theorem Equals_self (p : Package) : p.Equals p = true := by
  simp [Package.Equals]

theorem appendLoop_complete (lm : List (String × Package)) :
    ∀ (pl m : List (String × Package)), (∀ e ∈ pl, lm.lookup e.1 = some e.2) →
      (∀ k p, m.lookup k = some p → lm.lookup k = some p) →
      (∀ k p, m.lookup k = some p → (appendLoop m pl).1.lookup k = some p) ∧
        ∀ e ∈ pl, (appendLoop m pl).1.lookup e.1 = some e.2 := by
  intro pl
  induction pl with
  | nil => intro m _ _; exact ⟨fun k p h => h, by simp⟩
  | cons e rest ih =>
    intro m hpl hm
    obtain ⟨k1, p1⟩ := e
    have hrest : ∀ e ∈ rest, lm.lookup e.1 = some e.2 :=
      fun e he => hpl e (List.mem_cons_of_mem _ he)
    have hfirst : lm.lookup k1 = some p1 := hpl (k1, p1) (List.mem_cons_self _ _)
    simp only [appendLoop]
    cases hlk : m.lookup k1 with
    | some existing =>
      have hex : existing = p1 := by
        have := hm k1 existing hlk
        rw [hfirst] at this
        exact (Option.some.inj this).symm
      subst hex
      simp only [Equals_self, Bool.not_true, Bool.false_eq_true, if_false]
      obtain ⟨h1, h2⟩ := ih m hrest hm
      refine ⟨h1, ?_⟩
      intro e he
      rcases List.mem_cons.1 he with h | h
      · rw [h]; exact h1 k1 existing hlk
      · exact h2 e h
    | none =>
      simp only
      have hm2 : ∀ k p, (mapSet m k1 p1).lookup k = some p → lm.lookup k = some p := by
        intro k p h
        rw [lookup_mapSet] at h
        split_ifs at h with hk
        · rw [hk, ← Option.some.inj h]; exact hfirst
        · exact hm k p h
      obtain ⟨h1, h2⟩ := ih (mapSet m k1 p1) hrest hm2
      refine ⟨?_, ?_⟩
      · intro k p h
        apply h1
        rw [lookup_mapSet]
        split_ifs with hk
        · rw [hk, hlk] at h; exact absurd h (by simp)
        · exact h
      · intro e he
        rcases List.mem_cons.1 he with h | h
        · rw [h]
          apply h1
          rw [lookup_mapSet, if_pos rfl]
        · exact h2 e h

theorem Append_complete (l r pl : PackageList) (hr : PartOf l r)
    (hpl : ∀ e ∈ pl.packages, l.packages.lookup e.1 = some e.2) :
    (∀ k p, r.packages.lookup k = some p → (r.Append pl).1.packages.lookup k = some p) ∧
      ∀ e ∈ pl.packages, (r.Append pl).1.packages.lookup e.1 = some e.2 := by
  unfold PackageList.Append
  rw [hr.unindexed]
  simp only [Bool.false_eq_true, if_false]
  exact appendLoop_complete l.packages pl.packages r.packages hpl hr.entries

theorem foldl_Append_complete (l : PackageList) {α : Type} (f : α → PackageList) :
    ∀ (xs : List α) (r : PackageList), PartOf l r →
      (∀ x ∈ xs, ∀ e ∈ (f x).packages, l.packages.lookup e.1 = some e.2) →
      (∀ k p, r.packages.lookup k = some p →
        (xs.foldl (fun r x => (r.Append (f x)).1) r).packages.lookup k = some p) ∧
      ∀ x ∈ xs, ∀ e ∈ (f x).packages,
        (xs.foldl (fun r x => (r.Append (f x)).1) r).packages.lookup e.1 = some e.2 := by
  intro xs
  induction xs with
  | nil => intro r _ _; exact ⟨fun k p h => h, by simp⟩
  | cons x rest ih =>
    intro r hr hxs
    rw [List.foldl_cons]
    have hx := hxs x (List.mem_cons_self _ _)
    obtain ⟨h1, h2⟩ := Append_complete l r (f x) hr hx
    obtain ⟨h3, h4⟩ := ih _ (PartOf_Append l r (f x) hr hx)
      (fun y hy => hxs y (List.mem_cons_of_mem _ hy))
    refine ⟨fun k p h => h3 k p (h1 k p h), ?_⟩
    intro y hy e he
    rcases List.mem_cons.1 hy with h | h
    · subst h
      exact h3 _ _ (h2 e he)
    · exact h4 y h e he

theorem sourceQueriesLoop_mem :
    ∀ (entries : List (String × Package)) (acc qs : List Dependency),
      sourceQueriesLoop entries acc = Except.ok qs →
      (∀ d ∈ acc, d ∈ qs) ∧
      ∀ e ∈ entries, e.2.Source ≠ "" → ∀ name version,
        SourceRegexFindStringSubmatch e.2.Source = some (name, version) →
        name ≠ e.2.Name → sourceDependency e.2 name version ∈ qs := by
  intro entries
  induction entries with
  | nil =>
    intro acc qs h
    simp only [sourceQueriesLoop, Except.ok.injEq] at h
    subst h
    exact ⟨fun d hd => hd, by simp⟩
  | cons e rest ih =>
    intro acc qs h
    obtain ⟨k, pkg⟩ := e
    simp only [sourceQueriesLoop] at h
    by_cases hs : pkg.Source = ""
    · rw [if_pos hs] at h
      obtain ⟨h1, h2⟩ := ih acc qs h
      refine ⟨h1, ?_⟩
      intro e he hsrc
      rcases List.mem_cons.1 he with h3 | h3
      · rw [h3] at hsrc; exact absurd hs hsrc
      · exact h2 e h3 hsrc
    · rw [if_neg hs] at h
      cases hm : SourceRegexFindStringSubmatch pkg.Source with
      | none => rw [hm] at h; simp at h
      | some r =>
        obtain ⟨sourceName, version⟩ := r
        rw [hm] at h
        simp only at h
        by_cases hn : sourceName = pkg.Name
        · rw [if_pos hn] at h
          obtain ⟨h1, h2⟩ := ih acc qs h
          refine ⟨h1, ?_⟩
          intro e he hsrc name ver hmatch hne
          rcases List.mem_cons.1 he with h3 | h3
          · rw [h3] at hmatch hne
            simp only at hmatch hne
            rw [hm] at hmatch
            simp only [Option.some.injEq, Prod.mk.injEq] at hmatch
            exact absurd (hmatch.1 ▸ hn) hne
          · exact h2 e h3 hsrc name ver hmatch hne
        · rw [if_neg hn] at h
          obtain ⟨h1, h2⟩ := ih _ qs h
          refine ⟨fun d hd => h1 d (List.mem_append_left _ hd), ?_⟩
          intro e he hsrc name ver hmatch hne
          rcases List.mem_cons.1 he with h3 | h3
          · rw [h3] at hmatch ⊢
            simp only at hmatch ⊢
            rw [hm] at hmatch
            simp only [Option.some.injEq, Prod.mk.injEq] at hmatch
            obtain ⟨rfl, rfl⟩ := hmatch
            exact h1 _ (List.mem_append_right _ (List.mem_singleton.2 rfl))
          · exact h2 e h3 hsrc name ver hmatch hne

theorem injectLoop_values_mono (E : Externals) (options : Nat) (x : Package) :
    ∀ (found : List Package) (st : FilterState),
      x ∈ st.result.packages.map Prod.snd →
      x ∈ (injectLoop E options found st).result.packages.map Prod.snd := by
  intro found
  induction found with
  | nil => intro st h; exact h
  | cons p rest ih =>
    intro st h
    simp only [injectLoop]
    split_ifs
    · exact ih st h
    · exact Add_values_mono E st.result p x h
    · exact ih _ (Add_values_mono E st.result p x h)

theorem satisfyLoop_values_mono (E : Externals) (l : PackageList) (options : Nat)
    (x : Package) :
    ∀ (missing : List Dependency) (st st2 : FilterState),
      satisfyLoop E l options missing st = Except.ok st2 →
      x ∈ st.result.packages.map Prod.snd → x ∈ st2.result.packages.map Prod.snd := by
  intro missing
  induction missing with
  | nil =>
    intro st st2 h hx
    simp only [satisfyLoop, Except.ok.injEq] at h
    rw [← h]; exact hx
  | cons dep rest ih =>
    intro st st2 h hx
    simp only [satisfyLoop] at h
    split at h
    · simp at h
    · exact ih st st2 h hx
    · split at h
      · simp at h
      · exact ih _ st2 h (injectLoop_values_mono E options x _ st hx)

theorem VerifyDependencies_fst (E : Externals) (l : PackageList) (options : Nat)
    (archs : List String) (sources : PackageList) :
    (l.VerifyDependencies E options archs sources).1 = l.PrepareIndex E := by
  unfold PackageList.VerifyDependencies
  simp only
  split_ifs
  · rfl
  · split <;> rfl

theorem filterLoop_values_mono (E : Externals) (l : PackageList) (options : FilterOptions)
    (x : Package) :
    ∀ (fuel : Nat) (st : FilterState) (R : PackageList),
      filterLoop E l options fuel st = some (Except.ok R) →
      x ∈ st.result.packages.map Prod.snd → x ∈ R.packages.map Prod.snd := by
  intro fuel
  induction fuel with
  | zero =>
    intro st R h hx
    simp only [filterLoop] at h
    split_ifs at h
    simp only [Option.some.injEq, Except.ok.injEq] at h
    rw [← h]; exact hx
  | succ fuel ih =>
    intro st R h hx
    simp only [filterLoop] at h
    split_ifs at h with hadd
    · have hfst := VerifyDependencies_fst E st.result options.DependencyOptions
        options.Architectures st.dependencySource
      cases hv : st.result.VerifyDependencies E options.DependencyOptions options.Architectures
        st.dependencySource with
      | mk result res =>
        rw [hv] at h hfst
        simp only at hfst
        cases res with
        | error f => simp at h
        | ok missing =>
          simp only at h
          cases hs : satisfyLoop E l options.DependencyOptions missing
            { st with result := result, added := 0 } with
          | error f => rw [hs] at h; simp at h
          | ok st2 =>
            rw [hs] at h
            simp only at h
            refine ih st2 R h (satisfyLoop_values_mono E l _ x missing _ st2 hs ?_)
            simp only
            rw [hfst, PrepareIndex_packages]
            exact hx
    · simp only [Option.some.injEq, Except.ok.injEq] at h
      rw [← h]; exact hx

theorem mem_searchIndexed_of_name (E : Externals) (l : PackageList) (dep : Dependency)
    (hs : SortedIndex E l.packagesIndex) (x : Package) (hx : x ∈ l.packagesIndex)
    (hn : x.Name = dep.Pkg) (hm : x.MatchesDependency E dep = true) :
    x ∈ searchIndexed E l dep true true := by
  have hrun := mem_name_run E l.packagesIndex dep.Pkg hs x hx hn
  unfold searchIndexed
  simp only [searchNameRun_all, List.nil_append, Bool.false_eq_true, if_false, if_true,
    searchProviders_all]
  exact List.mem_append_left _ (List.mem_filter.2 ⟨hrun, hm⟩)

theorem sourceDependency_matches (E : Externals) (b s : Package) (name version : String)
    (harch : s.Architecture = "source") (hname : s.Name = name)
    (hver : E.CompareVersions s.Version (if version ≠ "" then version else b.Version) = 0) :
    s.MatchesDependency E (sourceDependency b name version) = true := by
  rw [MatchesDependency_iff]
  refine ⟨Or.inr ?_, Or.inr ⟨hname.symm, ?_⟩⟩
  · simp [sourceDependency, Package.MatchesArchitecture, ArchitectureSource, harch]
  · simp only [versionSatisfiesDependency, sourceDependency, decide_eq_true_eq]
    exact hver

/-- For a binary package whose source is named otherwise: on an indexed list `l` with a
consistent index, for a `Filter` call with `WithSources` that returns `R`, whose queries
return entries of `l` and whose dependency queries for source packages return every package
that `Search` finds: for every package `b` of the query result with a `Source` field that
names a source other than `b.Name`, every source package of `l` (architecture `source`) of
that name whose version is the one given in parentheses in the field, or the version of `b`
when none is given, is in `R` (`CompareVersions` puts every version equal to itself). -/
theorem Filter_pulls_source_packages (E : Externals)
    (hrefl : ∀ v, E.CompareVersions v v = 0)
    (DependencyQuery : Dependency → PackageQuery) (l : PackageList)
    (options : FilterOptions) (fuel : Nat) (R : PackageList)
    (hl : IndexConsistent E l)
    (hq : ∀ query ∈ options.Queries, QueryWithin l query)
    (hdq : ∀ dep ∈ sourceQueriesOf l options, QueryWithin l (DependencyQuery dep) ∧
      ∀ p ∈ searchIndexed E l dep true true,
        p ∈ (DependencyQuery dep l).packages.map Prod.snd)
    (hws : options.WithSources = true)
    (hR : l.Filter E DependencyQuery options fuel = some (Except.ok R)) :
    ∀ b ∈ (queryResult l options).packages.map Prod.snd, b.Source ≠ "" →
      ∀ name version, SourceRegexFindStringSubmatch b.Source = some (name, version) →
      name ≠ b.Name →
      ∀ s ∈ l.packages.map Prod.snd, s.Architecture = "source" → s.Name = name →
        s.Version = (if version ≠ "" then version else b.Version) →
        s ∈ R.packages.map Prod.snd := by
  intro b hb hsrc name version hmatch hne s hs harch hname hver
  have hpart0 : PartOf l (queryResult l options) :=
    @PartOf_foldl l PackageQuery (fun query => query l) options.Queries NewPackageList
      (PartOf_new l) (fun query hquery => hq query hquery)
  cases hsq : sourceQueriesLoop (queryResult l options).packages [] with
  | error f =>
    have hsq2 := hsq
    unfold queryResult at hsq2
    simp [PackageList.Filter, hl.indexed, hws, hsq2] at hR
  | ok qs =>
    have hsq2 := hsq
    unfold queryResult at hsq2
    simp only [PackageList.Filter, hl.indexed, hws, hsq2, Bool.not_true, Bool.false_eq_true,
      if_false, if_true] at hR
    have hqs : sourceQueriesOf l options = qs := by simp [sourceQueriesOf, hsq]
    rw [hqs] at hdq
    obtain ⟨e, he, heb⟩ := List.mem_map.1 hb
    have hdep : sourceDependency b name version ∈ qs := by
      have := (sourceQueriesLoop_mem _ [] qs hsq).2 e he (by rw [heb]; exact hsrc) name version
        (by rw [heb]; exact hmatch) (by rw [heb]; exact hne)
      rw [heb] at this
      exact this
    have hsm : s.MatchesDependency E (sourceDependency b name version) = true :=
      sourceDependency_matches E b s name version harch hname (by rw [← hver]; exact hrefl _)
    have hfound : s ∈ searchIndexed E l (sourceDependency b name version) true true :=
      mem_searchIndexed_of_name E l _ hl.sorted s ((hl.index_mem s).2 hs) hname hsm
    obtain ⟨e2, he2, hes⟩ := List.mem_map.1 ((hdq _ hdep).2 s hfound)
    have hcomp := (@foldl_Append_complete l Dependency (fun dep => DependencyQuery dep l) qs
      (queryResult l options) hpart0 (fun dep hd => (hdq dep hd).1)).2 _ hdep e2 he2
    have hin : s ∈ (qs.foldl (fun r dep => (r.Append (DependencyQuery dep l)).1)
        (queryResult l options)).packages.map Prod.snd := by
      rw [← hes]
      exact List.mem_map_of_mem _ (lookup_some_mem _ _ _ hcomp)
    unfold queryResult at hin
    split_ifs at hR with hdeps
    · refine filterLoop_values_mono E l options s fuel _ R hR ?_
      simp only
      rw [PrepareIndex_packages]
      exact hin
    · simp only [Option.some.injEq, Except.ok.injEq] at hR
      rw [← hR]
      exact hin

theorem Filter_pulls_source_packages_example :
    IndexConsistent plainExternals listLibc ∧
    (∀ query ∈ optionsLibcSources.Queries, QueryWithin listLibc query) ∧
    sourceQueriesOf listLibc optionsLibcSources =
      [{ Pkg := "glibc", Version := "1.0", Relation := VersionEqual,
         Architecture := "source" }] ∧
    listLibc.Filter plainExternals DependencyQuery optionsLibcSources 1 =
      some (Except.ok resultLibc) ∧
    resultLibc.packages.map Prod.snd = [pkgLibc1, pkgGlibc] ∧
    SourceRegexFindStringSubmatch pkgLibc1.Source = some ("glibc", "") ∧
    pkgGlibc ∈ resultLibc.packages.map Prod.snd :=
  have hl : IndexConsistent plainExternals listLibc :=
    PrepareIndex_consistent plainExternals (compareByKey_isTotalPreorder _) _ rfl
  have hq : ∀ query ∈ optionsLibcSources.Queries, QueryWithin listLibc query := by
    intro query hquery
    have : query = DependencyQuery { Pkg := "libc1" } := by
      simpa [optionsLibcSources] using hquery
    subst this
    unfold QueryWithin
    decide
  have hdq : ∀ dep ∈ sourceQueriesOf listLibc optionsLibcSources,
      QueryWithin listLibc (DependencyQuery dep) ∧
      ∀ p ∈ searchIndexed plainExternals listLibc dep true true,
        p ∈ (DependencyQuery dep listLibc).packages.map Prod.snd := by
    unfold QueryWithin
    decide
  ⟨hl, hq, by decide, by decide, by decide, by decide,
    Filter_pulls_source_packages plainExternals
      (compareByKey_isTotalPreorder _).refl DependencyQuery listLibc optionsLibcSources 1
      resultLibc hl hq hdq rfl (by decide) pkgLibc1 (by decide) (by decide) "glibc" ""
      (by decide) (by decide) pkgGlibc (by decide) rfl rfl rfl⟩

/-- C11 fails on the code: the list holds `lib 1.0 i386`, whose `Source` field is
`lib (0.9)`, and the source package `lib 0.9`. `Filter` with `WithSources` and the query for
`lib 1.0 i386` by key returns the binary package alone: the source is named like the binary
package, so no query for it is made, and the query of the call did not return it. -/
theorem C11_source_of_same_name_not_pulled :
    listLibSources.indexed = true ∧ optionsLibByKey.WithSources = true ∧
    listLibSources.Filter debExternals DependencyQuery optionsLibByKey 1 =
      some (Except.ok resultLibByKey) ∧
    resultLibByKey.packages.map Prod.snd = [pkgLibBinary] ∧
    pkgLibBinary ∈ (queryResult listLibSources optionsLibByKey).packages.map Prod.snd ∧
    SourceRegexFindStringSubmatch pkgLibBinary.Source = some ("lib", "0.9") ∧
    pkgLibSource ∈ listLibSources.packages.map Prod.snd ∧
    pkgLibSource.Architecture = "source" ∧ pkgLibSource.Name = "lib" ∧
    pkgLibSource.Version = "0.9" ∧
    pkgLibSource ∉ resultLibByKey.packages.map Prod.snd := by
  decide

/-! ## Rejected `Provides` entries and invalid `Source` fields -/

/-- C21, evaluated: the entry `s` of `P.Provides` is rejected by the parser, which returns
with its error a value `d` of the name `D.Pkg` whose relation is `=` or none and whose
version (the version of `P` when `d` has none) satisfies `D`. `providesDependency` records
the error and examines `d` all the same: it answers true, and `MatchesDependency` holds when
the architecture fits. -/
theorem C21_rejected_entry_provides (E : Externals) (P : Package) (D : Dependency)
    (s : String) (d : Dependency) (err : String) (hs : s ∈ P.Provides)
    (hparse : E.ParseDependency s = (d, some err)) (hname : d.Pkg = D.Pkg)
    (hrel : d.Relation = VersionEqual ∨ d.Relation = VersionDontCare)
    (hver : versionSatisfiesDependency E (if d.Version = "" then P.Version else d.Version) D
      = true)
    (harch : D.Architecture = "" ∨ P.MatchesArchitecture D.Architecture = true) :
    (P.providesDependency E D).1 = true ∧ P.MatchesDependency E D = true := by
  have hentry : providesEntry E P D s := by
    unfold providesEntry
    rw [hparse]
    exact ⟨hrel, hname, hver⟩
  exact ⟨(providesDependency_iff E P D).2 ⟨s, hs, hentry⟩,
    (MatchesDependency_iff E P D).2 ⟨harch, Or.inl ⟨s, hs, hentry⟩⟩⟩

theorem C21_rejected_entry_provides_witness :
    debExternals.ParseDependency "foo (<> 1)" =
      (readFooRejected, some "relation unknown <> in dependency foo (<> 1)") ∧
    (pkgBar.providesDependency debExternals depFoo).1 = true ∧
    pkgBar.MatchesDependency debExternals depFoo = true :=
  ⟨by decide,
    C21_rejected_entry_provides debExternals pkgBar depFoo "foo (<> 1)" readFooRejected
      "relation unknown <> in dependency foo (<> 1)" (by decide) (by decide) rfl (Or.inr rfl)
      (by decide) (Or.inl rfl)⟩

theorem not_invalidSource_of_dependencyFailure (f : Failure) (h : IsDependencyFailure f) :
    ¬ IsInvalidSource f := by
  rintro ⟨src, hsrc⟩
  rcases h with ⟨msg, hm⟩ | ⟨msg, hm⟩ | hm
  · rw [hm] at hsrc; cases hsrc
  · rw [hm] at hsrc
    injection hsrc with h1
    have h2 := congrArg String.data h1
    simp [String.data_append] at h2
  · rw [hm] at hsrc
    injection hsrc with h1
    have h2 := congrArg String.data h1
    simp [String.data_append] at h2

theorem Search_failure (E : Externals) (l : PackageList) (dep : Dependency) (a b : Bool)
    (f : Failure) (h : l.Search E dep a b = Except.error f) : IsDependencyFailure f := by
  cases hi : l.indexed with
  | true =>
    rw [Search_indexed E l dep a b hi] at h
    cases h
  | false =>
    simp only [PackageList.Search, hi, Bool.not_false, if_true] at h
    exact Or.inl ⟨_, (Except.error.inj h).symm⟩

theorem cachedSatisfied_failure (E : Externals) (sources : PackageList) (dep : Dependency)
    (cache : List (String × Bool)) (f : Failure)
    (h : cachedSatisfied E sources dep cache = Except.error f) : IsDependencyFailure f := by
  unfold cachedSatisfied at h
  split at h
  · cases h
  · split at h
    · next f2 hs =>
      rw [← Except.error.inj h]
      exact Search_failure E sources dep false true f2 hs
    · cases h

theorem verifyVariants_failure (E : Externals) (options : Nat) (arch : String)
    (sources : PackageList) :
    ∀ (vs : List Dependency) (cache : List (String × Bool)) (vm : List Dependency)
      (f : Failure),
      verifyVariants E options arch sources vs cache vm = Except.error f →
      IsDependencyFailure f := by
  intro vs
  induction vs with
  | nil => intro cache vm f h; simp [verifyVariants] at h
  | cons v vs ih =>
    intro cache vm f h
    simp only [verifyVariants] at h
    split at h
    · next f2 hc =>
      rw [← Except.error.inj h]
      exact cachedSatisfied_failure E sources _ cache f2 hc
    · split_ifs at h <;> exact ih _ _ f h

theorem verifyLines_failure (E : Externals) (options : Nat) (arch : String)
    (sources : PackageList) (p : Package) :
    ∀ (lines : List String) (cache : List (String × Bool)) (missing : List Dependency)
      (f : Failure),
      verifyLines E options arch sources p lines cache missing = Except.error f →
      IsDependencyFailure f := by
  intro lines
  induction lines with
  | nil => intro cache missing f h; simp [verifyLines] at h
  | cons line lines ih =>
    intro cache missing f h
    simp only [verifyLines] at h
    split at h
    · rw [← Except.error.inj h]
      exact Or.inr (Or.inl ⟨_, by rw [String.append_assoc, String.append_assoc]⟩)
    · split at h
      · next f2 hv =>
        rw [← Except.error.inj h]
        exact verifyVariants_failure E options arch sources _ _ _ f2 hv
      · exact ih _ _ f h

theorem verifyPackages_failure (E : Externals) (options : Nat) (arch : String)
    (sources : PackageList) :
    ∀ (pkgs : List Package) (cache : List (String × Bool)) (missing : List Dependency)
      (f : Failure),
      verifyPackages E options arch sources pkgs cache missing = Except.error f →
      IsDependencyFailure f := by
  intro pkgs
  induction pkgs with
  | nil => intro cache missing f h; simp [verifyPackages] at h
  | cons p pkgs ih =>
    intro cache missing f h
    simp only [verifyPackages] at h
    split_ifs at h
    · exact ih _ _ f h
    · split at h
      · next f2 hv =>
        rw [← Except.error.inj h]
        exact verifyLines_failure E options arch sources p _ _ _ f2 hv
      · exact ih _ _ f h

theorem verifyArchitectures_failure (E : Externals) (options : Nat) (sources : PackageList)
    (index : List Package) :
    ∀ (archs : List String) (missing : List Dependency) (f : Failure),
      verifyArchitectures E options sources index archs missing = Except.error f →
      IsDependencyFailure f := by
  intro archs
  induction archs with
  | nil => intro missing f h; simp [verifyArchitectures] at h
  | cons a archs ih =>
    intro missing f h
    simp only [verifyArchitectures] at h
    split at h
    · next f2 hv =>
      rw [← Except.error.inj h]
      exact verifyPackages_failure E options a sources index _ _ f2 hv
    · exact ih _ f h

theorem VerifyDependencies_failure (E : Externals) (l sources : PackageList) (options : Nat)
    (archs : List String) (l2 : PackageList) (f : Failure)
    (h : l.VerifyDependencies E options archs sources = (l2, Except.error f)) :
    IsDependencyFailure f := by
  unfold PackageList.VerifyDependencies at h
  simp only at h
  split_ifs at h
  · simp only [Prod.mk.injEq, Except.error.injEq] at h
    exact Or.inr (Or.inr h.2.symm)
  · split at h
    · next f2 hv =>
      simp only [Prod.mk.injEq, Except.error.injEq] at h
      rw [← h.2]
      exact verifyArchitectures_failure E options sources _ archs [] f2 hv
    · simp at h

theorem satisfyLoop_failure (E : Externals) (l : PackageList) (options : Nat) :
    ∀ (missing : List Dependency) (st : FilterState) (f : Failure),
      satisfyLoop E l options missing st = Except.error f → IsDependencyFailure f := by
  intro missing
  induction missing with
  | nil => intro st f h; simp [satisfyLoop] at h
  | cons dep rest ih =>
    intro st f h
    simp only [satisfyLoop] at h
    split at h
    · next f2 hskip =>
      rw [← Except.error.inj h]
      split_ifs at hskip
      · split at hskip
        · next f3 hs =>
          rw [← Except.error.inj hskip]
          exact Search_failure E st.result dep false true f3 hs
        · cases hskip
    · exact ih st f h
    · split at h
      · next f2 hs =>
        rw [← Except.error.inj h]
        exact Search_failure E l dep true true f2 hs
      · exact ih _ f h

theorem filterLoop_failure (E : Externals) (l : PackageList) (options : FilterOptions) :
    ∀ (fuel : Nat) (st : FilterState) (f : Failure),
      filterLoop E l options fuel st = some (Except.error f) → IsDependencyFailure f := by
  intro fuel
  induction fuel with
  | zero =>
    intro st f h
    simp only [filterLoop] at h
    split_ifs at h
    cases h
  | succ fuel ih =>
    intro st f h
    simp only [filterLoop] at h
    split_ifs at h
    · split at h
      · next l2 f2 hv =>
        simp only [Option.some.injEq, Except.error.injEq] at h
        rw [← h]
        exact VerifyDependencies_failure E _ _ _ _ l2 f2 hv
      · split at h
        · next f2 hs =>
          simp only [Option.some.injEq, Except.error.injEq] at h
          rw [← h]
          exact satisfyLoop_failure E l _ _ _ f2 hs
        · exact ih _ f h
    · cases h

theorem takeWhile_append_stop {α : Type} (p : α → Bool) (xs : List α) (y : α) (ys : List α)
    (h : ∀ x ∈ xs, p x = true) (hy : p y = false) :
    (xs ++ y :: ys).takeWhile p = xs ∧ (xs ++ y :: ys).dropWhile p = y :: ys := by
  induction xs with
  | nil => simp [List.takeWhile_cons, List.dropWhile_cons, hy]
  | cons x xs ih =>
    have hx := h x (List.mem_cons_self _ _)
    obtain ⟨h1, h2⟩ := ih fun z hz => h z (List.mem_cons_of_mem _ hz)
    simp [List.takeWhile_cons, List.dropWhile_cons, hx, h1, h2]

theorem takeWhile_all {α : Type} (p : α → Bool) (xs : List α) (h : ∀ x ∈ xs, p x = true) :
    xs.takeWhile p = xs ∧ xs.dropWhile p = [] := by
  induction xs with
  | nil => simp
  | cons x xs ih =>
    have hx := h x (List.mem_cons_self _ _)
    obtain ⟨h1, h2⟩ := ih fun z hz => h z (List.mem_cons_of_mem _ hz)
    simp [List.takeWhile_cons, List.dropWhile_cons, hx, h1, h2]

theorem regexSpace_not_nameChar (x : Char) (h : isRegexSpace x = true) :
    isSourceNameChar x = false := by
  simp only [isRegexSpace, Bool.or_eq_true, decide_eq_true_eq] at h
  rcases h with (((h | h) | h) | h) | h <;> subst h <;> decide

theorem SourceRegex_matches_iff (s : String) :
    SourceRegexFindStringSubmatch s ≠ none ↔ StrictSourcePattern s := by
  unfold SourceRegexFindStringSubmatch StrictSourcePattern
  constructor
  · intro h
    cases hd : s.data with
    | nil => rw [hd] at h; simp at h
    | cons c cs =>
      rw [hd] at h
      simp only at h
      have hsplit := List.takeWhile_append_dropWhile isSourceNameChar cs
      have hname : ∀ x ∈ cs.takeWhile isSourceNameChar, isSourceNameChar x = true :=
        fun x hx => List.mem_takeWhile_imp hx
      by_cases h1 : isSourceNameStart c = true
      swap
      · simp [h1] at h
      by_cases h2 : cs.takeWhile isSourceNameChar = []
      · simp [h1, h2] at h
      by_cases h3 : cs.dropWhile isSourceNameChar = []
      · refine ⟨c, cs.takeWhile isSourceNameChar, h1, h2, hname, Or.inl ?_⟩
        rw [h3, List.append_nil] at hsplit
        rw [hsplit]
      by_cases h4 : (cs.dropWhile isSourceNameChar).takeWhile isRegexSpace = []
      · simp [h1, h2, h3, h4] at h
      have hsplit2 := List.takeWhile_append_dropWhile isRegexSpace
        (cs.dropWhile isSourceNameChar)
      simp only [h1, Bool.not_true, Bool.false_eq_true, if_false, h2, h3, h4] at h
      split at h
      · next body hrest =>
        by_cases h5 : body.takeWhile (fun x => decide (x ≠ ')')) ≠ [] ∧
            body.dropWhile (fun x => decide (x ≠ ')')) = [')']
        · have hsplit3 := List.takeWhile_append_dropWhile (fun x => decide (x ≠ ')')) body
          refine ⟨c, cs.takeWhile isSourceNameChar, h1, h2, hname, Or.inr
            ⟨(cs.dropWhile isSourceNameChar).takeWhile isRegexSpace,
              body.takeWhile (fun x => decide (x ≠ ')')), h4,
              fun x hx => List.mem_takeWhile_imp hx, h5.1, ?_, ?_⟩⟩
          · intro hmem
            have := List.mem_takeWhile_imp hmem
            simp at this
          · have hbody : body = body.takeWhile (fun x => decide (x ≠ ')')) ++ [')'] := by
              rw [h5.2] at hsplit3
              exact hsplit3.symm
            have hdw : cs.dropWhile isSourceNameChar =
                (cs.dropWhile isSourceNameChar).takeWhile isRegexSpace ++ '(' :: body := by
              rw [← hrest]
              exact hsplit2.symm
            conv_lhs => rw [← hsplit, hdw, hbody]
            simp only [List.append_assoc, List.cons_append]
        · rw [if_neg h5] at h
          exact absurd rfl h
      · exact absurd rfl h
  · rintro ⟨c, name, hc, hne, hname, hcase⟩
    rcases hcase with hd | ⟨blanks, version, hb, hblanks, hv, hver, hd⟩
    · rw [hd]
      obtain ⟨h1, h2⟩ := takeWhile_all isSourceNameChar name hname
      simp [hc, h1, h2, hne]
    · rw [hd]
      obtain ⟨b0, brest, rfl⟩ := List.exists_cons_of_ne_nil hb
      have hb0 : isSourceNameChar b0 = false :=
        regexSpace_not_nameChar b0 (hblanks b0 (List.mem_cons_self _ _))
      have e1 : name ++ (b0 :: brest) ++ '(' :: version ++ [')'] =
          name ++ b0 :: (brest ++ '(' :: version ++ [')']) := by simp
      obtain ⟨h1, h2⟩ := takeWhile_append_stop isSourceNameChar name b0
        (brest ++ '(' :: version ++ [')']) hname hb0
      have e2 : b0 :: (brest ++ '(' :: version ++ [')']) =
          (b0 :: brest) ++ '(' :: (version ++ [')']) := by simp
      obtain ⟨h3, h4⟩ := takeWhile_append_stop isRegexSpace (b0 :: brest) '('
        (version ++ [')']) hblanks (by decide)
      obtain ⟨h5, h6⟩ := takeWhile_append_stop (fun x => decide (x ≠ ')')) version ')' []
        (fun x hx => by
          have : x ≠ ')' := fun hh => hver (hh ▸ hx)
          simpa using this) (by simp)
      have e3 : c :: name ++ (b0 :: brest) ++ '(' :: version ++ [')'] =
          c :: (name ++ b0 :: (brest ++ '(' :: version ++ [')'])) := by simp
      rw [e3]
      simp only [hc, Bool.not_true, Bool.false_eq_true, if_false, h1, h2, hne]
      rw [if_neg (by simp), e2, h3, h4, if_neg (by simp)]
      simp only [h5, h6]
      simp [hv]

theorem sourceQueriesLoop_error_iff :
    ∀ (entries : List (String × Package)) (acc : List Dependency),
      (∃ f, sourceQueriesLoop entries acc = Except.error f) ↔
        ∃ e ∈ entries, e.2.Source ≠ "" ∧ SourceRegexFindStringSubmatch e.2.Source = none := by
  intro entries
  induction entries with
  | nil => intro acc; simp [sourceQueriesLoop]
  | cons e rest ih =>
    intro acc
    obtain ⟨k, pkg⟩ := e
    simp only [sourceQueriesLoop, List.mem_cons, exists_eq_or_imp]
    by_cases hsrc : pkg.Source = ""
    · simp only [hsrc, if_true, ne_eq, not_true_eq_false, false_and, false_or]
      exact ih acc
    · simp only [hsrc, if_false, ne_eq, not_false_eq_true, true_and]
      cases hm : SourceRegexFindStringSubmatch pkg.Source with
      | none => simp
      | some r =>
        obtain ⟨sourceName, version⟩ := r
        simp only [reduceCtorEq, false_or]
        split_ifs <;> exact ih _

theorem sourceQueriesLoop_failure :
    ∀ (entries : List (String × Package)) (acc : List Dependency) (f : Failure),
      sourceQueriesLoop entries acc = Except.error f → IsInvalidSource f := by
  intro entries
  induction entries with
  | nil => intro acc f h; simp [sourceQueriesLoop] at h
  | cons e rest ih =>
    intro acc f h
    obtain ⟨k, pkg⟩ := e
    simp only [sourceQueriesLoop] at h
    split_ifs at h
    · exact ih acc f h
    · split at h
      · exact ⟨pkg.Source, (Except.error.inj h).symm⟩
      · split_ifs at h <;> exact ih _ f h

/-- On an indexed list, `Filter` with `WithSources` fails with the error
`invalid Source field` if and only if some package in the result of the queries has a
non-empty `Source` field outside the strict source pattern. -/
theorem Filter_invalid_source_iff (E : Externals)
    (DependencyQuery : Dependency → PackageQuery) (l : PackageList) (options : FilterOptions)
    (fuel : Nat) (hl : l.indexed = true) (hws : options.WithSources = true) :
    (∃ src, l.Filter E DependencyQuery options fuel =
        some (Except.error (Failure.error ("invalid Source field: " ++ src)))) ↔
      ∃ p ∈ (queryResult l options).packages.map Prod.snd,
        p.Source ≠ "" ∧ ¬ StrictSourcePattern p.Source := by
  have hpat : (∃ p ∈ (queryResult l options).packages.map Prod.snd,
      p.Source ≠ "" ∧ ¬ StrictSourcePattern p.Source) ↔
      ∃ f, sourceQueriesLoop (queryResult l options).packages [] = Except.error f := by
    rw [sourceQueriesLoop_error_iff]
    constructor
    · rintro ⟨p, hp, hsrc, hpat⟩
      obtain ⟨e, he, rfl⟩ := List.mem_map.1 hp
      refine ⟨e, he, hsrc, ?_⟩
      by_contra hne
      exact hpat ((SourceRegex_matches_iff _).1 hne)
    · rintro ⟨e, he, hsrc, hnone⟩
      exact ⟨e.2, List.mem_map.2 ⟨e, he, rfl⟩, hsrc,
        fun hpat => (SourceRegex_matches_iff _).2 hpat hnone⟩
  rw [hpat]
  cases hsq : sourceQueriesLoop (queryResult l options).packages [] with
  | error f =>
    have hsq2 := hsq
    unfold queryResult at hsq2
    obtain ⟨src, hf⟩ := sourceQueriesLoop_failure _ _ f hsq
    have hF : l.Filter E DependencyQuery options fuel = some (Except.error f) := by
      simp [PackageList.Filter, hl, hws, hsq2]
    constructor
    · intro _; exact ⟨f, rfl⟩
    · intro _; exact ⟨src, by rw [hF, hf]⟩
  | ok qs =>
    have hsq2 := hsq
    unfold queryResult at hsq2
    constructor
    · rintro ⟨src, hF⟩
      exfalso
      simp only [PackageList.Filter, hl, hws, hsq2, Bool.not_true, Bool.false_eq_true,
        if_false, if_true] at hF
      split_ifs at hF
      · exact not_invalidSource_of_dependencyFailure _
          (filterLoop_failure E l options fuel _ _ hF) ⟨src, rfl⟩
      · cases hF
    · rintro ⟨f, hf⟩
      cases hf

theorem Filter_invalid_source_iff_example :
    listBadSource.indexed = true ∧ optionsBadSource.WithSources = true ∧
    listBadSource.Filter debExternals DependencyQuery optionsBadSource 1 =
      some (Except.error (Failure.error "invalid Source field: Tool")) ∧
    ((∃ src, listBadSource.Filter debExternals DependencyQuery optionsBadSource 1 =
        some (Except.error (Failure.error ("invalid Source field: " ++ src)))) ↔
      ∃ p ∈ (queryResult listBadSource optionsBadSource).packages.map Prod.snd,
        p.Source ≠ "" ∧ ¬ StrictSourcePattern p.Source) :=
  ⟨by decide, rfl, by decide,
    Filter_invalid_source_iff debExternals DependencyQuery listBadSource
      optionsBadSource 1 (by decide) rfl⟩

/-! ## Index files: paths, uploads, renames and links by hash -/

theorem filepathJoin_cons (e : String) (rest : List String) (he : e ≠ "") :
    filepathJoin (e :: rest) = filepathClean (String.intercalate "/" (e :: rest)) := by
  simp [filepathJoin, List.dropWhile_cons, he]

theorem intercalate_three (a b c : String) :
    String.intercalate "/" [a, b, c] = a ++ "/" ++ b ++ "/" ++ c := by
  simp [String.intercalate, String.intercalate.go]

theorem intercalate_four (a b c d : String) :
    String.intercalate "/" [a, b, c, d] = a ++ "/" ++ b ++ "/" ++ c ++ "/" ++ d := by
  simp [String.intercalate, String.intercalate.go]

theorem intercalate_five (a b c d e : String) :
    String.intercalate "/" [a, b, c, d, e] =
      a ++ "/" ++ b ++ "/" ++ c ++ "/" ++ d ++ "/" ++ e := by
  simp [String.intercalate, String.intercalate.go]

theorem string_ext_data (a b : String) (h : a.data = b.data) : a = b := by
  cases a; cases b; simp_all

/-- C23, refuted as worded: with the empty component, `PackageIndex` on a fresh set yields
`source/Sources` for the architecture `source`, where the path written out is
`/source/Sources`; and with the component `main/` it yields `main/binary-i386/Packages`,
where the path written out is `main//binary-i386/Packages`. `filepath.Join` drops empty
elements and cleans the path. -/
theorem C23_join_cleans_component :
    (freshFiles.PackageIndex "" "source" false false "squeeze").1.relativePath =
      "source/Sources" ∧
    packageIndexPath "" "source" false false "squeeze" = "/source/Sources" ∧
    (freshFiles.PackageIndex "main/" "i386" false false "squeeze").1.relativePath =
      "main/binary-i386/Packages" ∧
    packageIndexPath "main/" "i386" false false "squeeze" = "main//binary-i386/Packages" := by
  decide

/-- C23, amended: on a fresh set of index files, for every non-empty component and every
architecture, udeb flag, installer flag and distribution for which the path written out
with slashes is clean (`filepath.Clean` leaves it as it is), `PackageIndex` yields the index
file with that relative path. -/
theorem C23_package_index_path (files : indexFiles) (component arch : String)
    (udeb installer : Bool) (distribution : String) (hfresh : files.indexes = [])
    (hcomponent : component ≠ "")
    (hclean : filepathClean (packageIndexPath component arch udeb installer distribution) =
      packageIndexPath component arch udeb installer distribution) :
    (files.PackageIndex component arch udeb installer distribution).1.relativePath =
      packageIndexPath component arch udeb installer distribution := by
  unfold indexFiles.PackageIndex
  simp only [hfresh, List.lookup_nil]
  rw [← hclean]
  unfold packageIndexPath ArchitectureSource
  by_cases ha : arch = "source"
  · simp only [ha, if_true]
    rw [filepathJoin_cons _ _ hcomponent, intercalate_three]
    congr 1
    apply string_ext_data
    simp [String.data_append]
  · simp only [ha, if_false]
    by_cases hu : udeb = true
    · simp only [hu, if_true]
      rw [filepathJoin_cons _ _ hcomponent, intercalate_four]
      congr 1
      apply string_ext_data
      simp [String.data_append]
    · simp only [hu, if_false, Bool.false_eq_true]
      by_cases hi : installer = true
      · simp only [hi, if_true]
        by_cases hd : distribution = DistributionFocal
        · simp only [hd, if_true]
          rw [filepathJoin_cons _ _ hcomponent, intercalate_five]
          congr 1
          apply string_ext_data
          simp [String.data_append]
        · simp only [hd, if_false]
          rw [filepathJoin_cons _ _ hcomponent, intercalate_five]
          congr 1
          apply string_ext_data
          simp [String.data_append]
      · simp only [hi, if_false, Bool.false_eq_true]
        rw [filepathJoin_cons _ _ hcomponent, intercalate_three]
        congr 1
        apply string_ext_data
        simp [String.data_append]

theorem C23_package_index_path_witness :
    freshFiles.indexes = [] ∧
    packageIndexPath "main" "i386" false false "squeeze" = "main/binary-i386/Packages" ∧
    (freshFiles.PackageIndex "main" "i386" false false "squeeze").1.relativePath =
      packageIndexPath "main" "i386" false false "squeeze" :=
  ⟨rfl, by decide,
    C23_package_index_path freshFiles "main" "i386" false false "squeeze" rfl (by decide)
      (by decide)⟩

theorem removeOldLink_noPut {σ : Type} (S : PublishedStorage σ) (old : String) (st : σ) :
    (removeOldLink S old st).calls.filter isPutFile = [] := by
  unfold removeOldLink
  dsimp only
  split_ifs <;> simp [isPutFile]

theorem backupLink_noPut {σ : Type} (S : PublishedStorage σ) (a b : String) (st : σ) :
    (backupLink S a b st).calls.filter isPutFile = [] := by
  unfold backupLink
  dsimp only
  split_ifs <;> simp [isPutFile, removeOldLink_noPut]

theorem packageIndexByHash_noPut {σ : Type} (S : PublishedStorage σ) (files : indexFiles)
    (file : indexFile) (ext hash sum : String) (st : σ) :
    (packageIndexByHash S files file ext hash sum st).calls.filter isPutFile = [] := by
  unfold packageIndexByHash
  dsimp only
  split
  · simp [isPutFile]
  · split_ifs
    · simp [isPutFile]
    · split
      · simp [isPutFile]
      · simp [isPutFile, backupLink_noPut]

theorem byHashLoop_noPut {σ : Type} (S : PublishedStorage σ) (files : indexFiles)
    (file : indexFile) (ext : String) (sums : List (String × String)) :
    ∀ (order : List String) (st : σ),
      (byHashLoop S files file ext sums order st).calls.filter isPutFile = [] := by
  intro order
  induction order with
  | nil => intro st; simp [byHashLoop]
  | cons hash rest ih =>
    intro st
    simp only [byHashLoop]
    split
    · exact ih st
    · split
      · exact packageIndexByHash_noPut S files file ext hash _ st
      · simp [packageIndexByHash_noPut, ih]

theorem mkDirByHash_noPut {σ : Type} (S : PublishedStorage σ) (filedir : String) :
    ∀ (hashes : List String) (st : σ),
      (mkDirByHash S filedir hashes st).calls.filter isPutFile = [] := by
  intro hashes
  induction hashes with
  | nil => intro st; simp [mkDirByHash]
  | cons hash rest ih =>
    intro st
    simp only [mkDirByHash]
    split
    · simp [isPutFile]
    · simp [isPutFile, ih]

theorem uploadVariant_ok {σ : Type} (S : PublishedStorage σ)
    (hashOrder : String → List String) (files : indexFiles) (file : indexFile) (ext : String)
    (renameMap : List (String × String)) (st : σ) :
    (uploadVariant S hashOrder files file ext renameMap st).value.1 = none →
    (uploadVariant S hashOrder files file ext renameMap st).calls.filter isPutFile =
        [variantUpload files file ext] ∧
      (uploadVariant S hashOrder files file ext renameMap st).value.2 =
        if files.suffix ≠ "" then
          mapSet renameMap (suffixedName files file ext) (finalName files file ext)
        else renameMap := by
  unfold uploadVariant
  dsimp only
  split
  · simp
  · split_ifs with hbh hs
    · split
      · simp
      · intro _
        simp [isPutFile, byHashLoop_noPut, variantUpload, suffixedName, finalName]
    · split
      · simp
      · intro _
        simp [isPutFile, byHashLoop_noPut, variantUpload, suffixedName, finalName]
    · simp [isPutFile, variantUpload, suffixedName, finalName]
    · simp [isPutFile, variantUpload, suffixedName, finalName]

/-- The successful upload loop: the uploads are those of the variants, in order, and the
rename map gains their entries when there is a suffix. -/
theorem uploadLoop_ok {σ : Type} (S : PublishedStorage σ) (hashOrder : String → List String)
    (files : indexFiles) (file : indexFile) :
    ∀ (exts : List String) (renameMap : List (String × String)) (st : σ),
      (uploadLoop S hashOrder files file exts renameMap st).value.1 = none →
      (uploadLoop S hashOrder files file exts renameMap st).calls.filter isPutFile =
          exts.map (variantUpload files file) ∧
        (uploadLoop S hashOrder files file exts renameMap st).value.2 =
          if files.suffix ≠ "" then
            exts.foldl (fun m ext =>
              mapSet m (suffixedName files file ext) (finalName files file ext)) renameMap
          else renameMap := by
  intro exts
  induction exts with
  | nil => intro renameMap st _; simp [uploadLoop]
  | cons ext rest ih =>
    intro renameMap st
    simp only [uploadLoop]
    have hv := uploadVariant_ok S hashOrder files file ext renameMap st
    cases hr : (uploadVariant S hashOrder files file ext renameMap st).value.1 with
    | some f => simp
    | none =>
      obtain ⟨h1, h2⟩ := hv hr
      intro h
      obtain ⟨h3, h4⟩ := ih _ _ h
      refine ⟨?_, ?_⟩
      · rw [List.filter_append, h1, h3]
        rfl
      · rw [h4, h2]
        by_cases hs : files.suffix = ""
        · simp [hs]
        · simp [hs]

theorem mapSetAll_append {α : Type} (m : List (String × α)) (a b : List (String × α)) :
    mapSetAll m (a ++ b) = mapSetAll (mapSetAll m a) b := by
  simp [mapSetAll, List.foldl_append]

theorem uploadLoop_ok_entries {σ : Type} (S : PublishedStorage σ)
    (hashOrder : String → List String) (files : indexFiles) (file : indexFile)
    (exts : List String) (renameMap : List (String × String)) (st : σ)
    (h : (uploadLoop S hashOrder files file exts renameMap st).value.1 = none) :
    (uploadLoop S hashOrder files file exts renameMap st).value.2 =
      if files.suffix ≠ "" then mapSetAll renameMap (variantEntries files file exts)
      else renameMap := by
  rw [(uploadLoop_ok S hashOrder files file exts renameMap st h).2]
  simp [mapSetAll, variantEntries, List.foldl_map]

theorem signDetached_ok {σ : Type} (S : PublishedStorage σ) (signer : Signer)
    (files : indexFiles) (file : indexFile) (renameMap : List (String × String)) (st : σ) :
    (signDetached S signer files file renameMap st).value.1 = none →
    (signDetached S signer files file renameMap st).calls =
        (if file.detachedSign then
          [StorageCall.PutFile (suffixedName files file ".gpg") (file.tempFilename ++ ".gpg")]
        else []) ∧
      (signDetached S signer files file renameMap st).value.2 =
        if files.suffix ≠ "" then
          mapSetAll renameMap (if file.detachedSign then
            [(suffixedName files file ".gpg", finalName files file ".gpg")] else [])
        else renameMap := by
  unfold signDetached
  dsimp only
  split_ifs with hd hs
  · split
    · simp
    · split
      · simp
      · intro _
        simp [suffixedName, finalName, mapSetAll]
  · split
    · simp
    · split
      · simp
      · intro _
        simp [suffixedName, finalName, mapSetAll]
  · intro _
    simp [mapSetAll]
  · intro _
    simp

theorem signClear_ok {σ : Type} (S : PublishedStorage σ) (signer : Signer)
    (files : indexFiles) (file : indexFile) (renameMap : List (String × String)) (st : σ) :
    (signClear S signer files file renameMap st).value.1 = none →
    (signClear S signer files file renameMap st).calls =
        (if file.clearSign then
          [StorageCall.PutFile (suffixedClearName files file) (clearSignedFile file)]
        else []) ∧
      (signClear S signer files file renameMap st).value.2 =
        if files.suffix ≠ "" then
          mapSetAll renameMap (if file.clearSign then
            [(suffixedClearName files file, finalClearName files file)] else [])
        else renameMap := by
  unfold signClear
  dsimp only
  split_ifs with hd hs
  · split
    · simp
    · split
      · simp
      · intro _
        simp [suffixedClearName, finalClearName, clearSignedFile, mapSetAll]
  · split
    · simp
    · split
      · simp
      · intro _
        simp [suffixedClearName, finalClearName, clearSignedFile, mapSetAll]
  · intro _
    simp [mapSetAll]
  · intro _
    simp

theorem signFiles_ok {σ : Type} (S : PublishedStorage σ) (signer : Option Signer)
    (files : indexFiles) (file : indexFile) (renameMap : List (String × String)) (st : σ) :
    (signFiles S signer files file renameMap st).value.1 = none →
    (signFiles S signer files file renameMap st).calls = signatureUploads signer files file ∧
      (signFiles S signer files file renameMap st).value.2 =
        if files.suffix ≠ "" then mapSetAll renameMap (signatureEntries signer files file)
        else renameMap := by
  cases signer with
  | none => intro _; simp [signFiles, signatureUploads, signatureEntries, mapSetAll]
  | some sg =>
    simp only [signFiles]
    have hd := signDetached_ok S sg files file renameMap st
    cases hr : (signDetached S sg files file renameMap st).value.1 with
    | some f => simp
    | none =>
      obtain ⟨h1, h2⟩ := hd hr
      dsimp only
      intro h
      obtain ⟨h3, h4⟩ := signClear_ok S sg files file _ _ h
      refine ⟨?_, ?_⟩
      · simp only [h1, h3, signatureUploads, Option.isSome_some, if_true]
      · rw [h4, h2]
        simp only [signatureEntries, Option.isSome_some, if_true]
        by_cases hs : files.suffix = ""
        · simp [hs]
        · simp [hs, mapSetAll_append]

/-- The entries that a successful `Finalize` assigns in the rename map: those of the
variants, then those of the signatures. -/
theorem publishFile_ok {σ : Type} (S : PublishedStorage σ) (hashOrder : String → List String)
    (signer : Option Signer) (files : indexFiles) (file : indexFile) (exts : List String)
    (st : σ) :
    (publishFile S hashOrder signer files file exts st).value.1 = none →
    (publishFile S hashOrder signer files file exts st).calls.filter isPutFile =
        exts.map (variantUpload files file) ++ signatureUploads signer files file ∧
      (publishFile S hashOrder signer files file exts st).value.2 =
        if files.suffix ≠ "" then
          mapSetAll files.renameMap
            (variantEntries files file exts ++ signatureEntries signer files file)
        else files.renameMap := by
  unfold publishFile
  dsimp only
  split
  · simp
  · split
    · simp
    · next hmk =>
      have hu := uploadLoop_ok S hashOrder files file exts files.renameMap
      have hue := uploadLoop_ok_entries S hashOrder files file exts files.renameMap
      split
      · next f hf => simp [hf]
      · next hup =>
        have hsg := signFiles_ok S signer files file
        intro h
        obtain ⟨h1, h2⟩ := hsg _ _ h
        have h3 := (hu _ hup).1
        have h4 := hue _ hup
        refine ⟨?_, ?_⟩
        · rw [List.filter_cons_of_neg (by simp [isPutFile]), List.filter_append,
            List.filter_append, h3, h1]
          have hput : ∀ c ∈ signatureUploads signer files file, isPutFile c = true := by
            intro c hc
            unfold signatureUploads at hc
            split_ifs at hc <;> simp at hc <;> (try rcases hc with rfl | rfl) <;> rfl
          rw [List.filter_eq_self.2 hput]
          have hno : List.filter isPutFile (if file.acquireByHash = true then
              mkDirByHash S (filepathDir (filepathJoin [files.basePath, file.relativePath]))
                ["MD5Sum", "SHA1", "SHA256", "SHA512"]
                (S.call (StorageCall.MkDir
                  (filepathDir (filepathJoin [files.basePath, file.relativePath]))) st).2
            else ⟨none, (S.call (StorageCall.MkDir
                  (filepathDir (filepathJoin [files.basePath, file.relativePath]))) st).2,
                []⟩).calls = [] := by
            split_ifs
            · exact mkDirByHash_noPut _ _ _ _
            · rfl
          rw [hno]
          rfl
        · rw [h2, h4]
          by_cases hs : files.suffix = ""
          · simp [hs]
          · simp [hs, mapSetAll_append]

theorem finalizeFile_relativePath (L : LocalFiles) (files : indexFiles) (file : indexFile) :
    (finalizeFile L files file).relativePath = file.relativePath := by
  unfold finalizeFile indexFile.BufWriter
  split_ifs
  · dsimp only
    split <;> rfl
  · rfl

theorem finalizeFile_flags (L : LocalFiles) (files : indexFiles) (file : indexFile) :
    (finalizeFile L files file).discardable = file.discardable ∧
    (finalizeFile L files file).compressable = file.compressable ∧
    (finalizeFile L files file).onlyGzip = file.onlyGzip ∧
    (finalizeFile L files file).clearSign = file.clearSign ∧
    (finalizeFile L files file).detachedSign = file.detachedSign ∧
    (finalizeFile L files file).acquireByHash = file.acquireByHash := by
  unfold finalizeFile indexFile.BufWriter
  split_ifs
  · dsimp only
    split <;> simp
  · simp

theorem finalizeExts_eq (files : indexFiles) (file : indexFile) :
    finalizeExts files file = (uploadedVariants files file, recordedVariants files file) := by
  unfold finalizeExts uploadedVariants recordedVariants uploadedVariants
  cases file.compressable <;> cases file.onlyGzip <;> cases files.skipBz2 <;> rfl

theorem uploadedVariants_finalizeFile (L : LocalFiles) (files : indexFiles)
    (file : indexFile) :
    uploadedVariants files (finalizeFile L files file) = uploadedVariants files file := by
  obtain ⟨_, h2, h3, _⟩ := finalizeFile_flags L files file
  simp [uploadedVariants, h2, h3]

theorem recordedVariants_finalizeFile (L : LocalFiles) (files : indexFiles)
    (file : indexFile) :
    recordedVariants files (finalizeFile L files file) = recordedVariants files file := by
  obtain ⟨_, h2, h3, _⟩ := finalizeFile_flags L files file
  simp [recordedVariants, uploadedVariants, h2, h3]

theorem suffixedName_finalizeFile (L : LocalFiles) (files : indexFiles) (file : indexFile)
    (ext : String) :
    suffixedName files (finalizeFile L files file) ext = suffixedName files file ext := by
  simp [suffixedName, finalizeFile_relativePath]

theorem finalName_finalizeFile (L : LocalFiles) (files : indexFiles) (file : indexFile)
    (ext : String) :
    finalName files (finalizeFile L files file) ext = finalName files file ext := by
  simp [finalName, finalizeFile_relativePath]

theorem checksumLoop_ok (L : LocalFiles) (file : indexFile) :
    ∀ (exts : List String) (gen : List (String × ChecksumInfo)),
      (checksumLoop L file exts gen).1 = none →
      (∀ ext ∈ exts, L.ChecksumsForFile (file.tempFilename ++ ext) =
          Except.ok (sumsOf L (file.tempFilename ++ ext))) ∧
        (checksumLoop L file exts gen).2 = mapSetAll gen (checksumEntries L file exts) := by
  intro exts
  induction exts with
  | nil => intro gen _; simp [checksumLoop, mapSetAll, checksumEntries]
  | cons ext rest ih =>
    intro gen
    simp only [checksumLoop]
    cases hc : L.ChecksumsForFile (file.tempFilename ++ ext) with
    | error err => simp
    | ok info =>
      dsimp only
      intro h
      obtain ⟨h1, h2⟩ := ih _ h
      have hs : sumsOf L (file.tempFilename ++ ext) = info := by simp [sumsOf, hc]
      refine ⟨?_, ?_⟩
      · intro e he
        simp only [List.mem_cons] at he
        rcases he with rfl | he
        · rw [hs, hc]
        · exact h1 e he
      · rw [h2]
        simp [mapSetAll, checksumEntries, hs]

theorem Finalize_skipped {σ : Type} (S : PublishedStorage σ) (L : LocalFiles)
    (hashOrder : String → List String) (signer : Option Signer) (files : indexFiles)
    (file : indexFile) (st : σ) (h : isSkipped file = true) :
    (file.Finalize S L hashOrder signer files st).err = none ∧
    (file.Finalize S L hashOrder signer files st).file = file ∧
    (file.Finalize S L hashOrder signer files st).files = files ∧
    (file.Finalize S L hashOrder signer files st).state = st ∧
    (file.Finalize S L hashOrder signer files st).calls = [] := by
  have h2 : file.w = false ∧ file.discardable = true := by
    simp only [isSkipped, Bool.and_eq_true, Bool.not_eq_true'] at h
    exact ⟨h.2, h.1⟩
  simp [indexFile.Finalize, h2]

theorem Finalize_not_skipped {σ : Type} (S : PublishedStorage σ) (L : LocalFiles)
    (hashOrder : String → List String) (signer : Option Signer) (files : indexFiles)
    (file : indexFile) (st : σ) (h : isSkipped file = false) :
    file.Finalize S L hashOrder signer files st =
      finalizeWritten S L hashOrder signer files (finalizeFile L files file) st := by
  have h2 : ¬ (file.w = false ∧ file.discardable = true) := by
    rintro ⟨h3, h4⟩
    simp [isSkipped, h3, h4] at h
  simp only [indexFile.Finalize, h2, if_false, finalizeFile]

/-- The calls of the part of `Finalize` from `Flush` on are those of its part from `MkDir`
on, when it gets there. -/
theorem finalizeWritten_calls {σ : Type} (S : PublishedStorage σ) (L : LocalFiles)
    (hashOrder : String → List String) (signer : Option Signer) (files : indexFiles)
    (file : indexFile) (st : σ) :
    (finalizeWritten S L hashOrder signer files file st).calls = [] ∨
    (finalizeWritten S L hashOrder signer files file st).calls =
      (publishFile S hashOrder signer
        { files with generatedFiles :=
            (checksumLoop L file (recordedVariants files file) files.generatedFiles).2 }
        file (uploadedVariants files file) st).calls := by
  unfold finalizeWritten
  by_cases hw : file.w = false
  · simp [hw]
  · simp only [hw, if_false]
    cases hfl : L.Flush file.tempFilename with
    | some err => exact Or.inl rfl
    | none =>
      dsimp only
      cases hcomp : (if file.compressable = true then
          L.CompressFile file.tempFilename (file.onlyGzip || files.skipBz2) else none) with
      | some err => exact Or.inl rfl
      | none =>
        dsimp only
        rw [finalizeExts_eq]
        dsimp only
        cases hsum : (checksumLoop L file (recordedVariants files file)
            files.generatedFiles).1 with
        | some err => exact Or.inl rfl
        | none => exact Or.inr rfl

/-- The successful part of `Finalize` from `Flush` on: the checksum loop succeeds, the part
from `MkDir` on succeeds, and the outcome is theirs. -/
theorem finalizeWritten_ok {σ : Type} (S : PublishedStorage σ) (L : LocalFiles)
    (hashOrder : String → List String) (signer : Option Signer) (files : indexFiles)
    (file : indexFile) (st : σ) :
    (finalizeWritten S L hashOrder signer files file st).err = none →
    (checksumLoop L file (recordedVariants files file) files.generatedFiles).1 = none ∧
    (publishFile S hashOrder signer
        { files with generatedFiles :=
            (checksumLoop L file (recordedVariants files file) files.generatedFiles).2 }
        file (uploadedVariants files file) st).value.1 = none ∧
    (finalizeWritten S L hashOrder signer files file st).file = file ∧
    (finalizeWritten S L hashOrder signer files file st).files.generatedFiles =
      (checksumLoop L file (recordedVariants files file) files.generatedFiles).2 ∧
    (finalizeWritten S L hashOrder signer files file st).files.renameMap =
      (publishFile S hashOrder signer
        { files with generatedFiles :=
            (checksumLoop L file (recordedVariants files file) files.generatedFiles).2 }
        file (uploadedVariants files file) st).value.2 ∧
    (finalizeWritten S L hashOrder signer files file st).calls =
      (publishFile S hashOrder signer
        { files with generatedFiles :=
            (checksumLoop L file (recordedVariants files file) files.generatedFiles).2 }
        file (uploadedVariants files file) st).calls := by
  unfold finalizeWritten
  by_cases hw : file.w = false
  · simp [hw]
  · simp only [hw, if_false]
    cases hfl : L.Flush file.tempFilename with
    | some err => simp
    | none =>
      dsimp only
      cases hcomp : (if file.compressable = true then
          L.CompressFile file.tempFilename (file.onlyGzip || files.skipBz2) else none) with
      | some err => simp
      | none =>
        dsimp only
        rw [finalizeExts_eq]
        dsimp only
        cases hsum : (checksumLoop L file (recordedVariants files file)
            files.generatedFiles).1 with
        | some err => simp
        | none =>
          dsimp only
          intro h
          exact ⟨rfl, h, rfl, rfl, rfl, rfl⟩

theorem putTargets_append (a b : List StorageCall) :
    putTargets (a ++ b) = putTargets a ++ putTargets b := by
  simp [putTargets, List.filterMap_append]

theorem putTargets_filter (calls : List StorageCall) :
    putTargets (calls.filter isPutFile) = putTargets calls := by
  induction calls with
  | nil => rfl
  | cons c rest ih =>
    cases c <;> simp_all [putTargets, isPutFile, List.filter_cons, List.filterMap_cons]

theorem putTargets_variants (files : indexFiles) (file file2 : indexFile)
    (exts : List String) (h : file2.relativePath = file.relativePath) :
    putTargets (exts.map (variantUpload files file2)) =
      (variantEntries files file exts).map Prod.fst := by
  induction exts with
  | nil => rfl
  | cons ext rest ih =>
    simp only [List.map_cons, variantEntries] at ih ⊢
    rw [← ih]
    simp [putTargets, variantUpload, suffixedName, h]

theorem putTargets_signatures (signer : Option Signer) (files : indexFiles)
    (file file2 : indexFile) (h : file2.relativePath = file.relativePath)
    (hd : file2.detachedSign = file.detachedSign) (hc : file2.clearSign = file.clearSign) :
    putTargets (signatureUploads signer files file2) =
      (signatureEntries signer files file).map Prod.fst := by
  unfold signatureUploads signatureEntries
  rw [hd, hc]
  cases signer <;> cases file.detachedSign <;> cases file.clearSign <;>
    simp [putTargets, suffixedName, suffixedClearName, h]

theorem string_append_empty (s : String) : s ++ "" = s := by
  apply string_ext_data
  simp [String.data_append]

theorem entries_fst_eq_snd (signer : Option Signer) (files : indexFiles) (file : indexFile)
    (exts : List String) (hs : files.suffix = "") :
    (variantEntries files file exts ++ signatureEntries signer files file).map Prod.fst =
      (variantEntries files file exts ++ signatureEntries signer files file).map Prod.snd := by
  have h1 : ∀ ext, suffixedName files file ext = finalName files file ext := by
    intro ext
    simp [suffixedName, finalName, hs, string_append_empty]
  have h2 : suffixedClearName files file = finalClearName files file := by
    simp [suffixedClearName, finalClearName, hs, string_append_empty]
  unfold variantEntries signatureEntries
  cases signer <;> cases file.detachedSign <;> cases file.clearSign <;>
    simp [h1, h2, Function.comp_def]

/-- The successful `Finalize` of a file that is not skipped, in full: its uploads, the
rename map and the checksums it leaves. -/
theorem Finalize_ok {σ : Type} (S : PublishedStorage σ) (L : LocalFiles)
    (hashOrder : String → List String) (signer : Option Signer) (files : indexFiles)
    (file : indexFile) (st : σ) (hns : isSkipped file = false)
    (hok : (file.Finalize S L hashOrder signer files st).err = none) :
    (file.Finalize S L hashOrder signer files st).calls.filter isPutFile =
      (uploadedVariants files file).map (variantUpload files (finalizeFile L files file)) ++
        signatureUploads signer files (finalizeFile L files file) ∧
    (file.Finalize S L hashOrder signer files st).files.renameMap =
      (if files.suffix ≠ "" then
        mapSetAll files.renameMap
          (variantEntries files file (uploadedVariants files file) ++
            signatureEntries signer files file)
      else files.renameMap) ∧
    (file.Finalize S L hashOrder signer files st).files.generatedFiles =
      mapSetAll files.generatedFiles
        (checksumEntries L (finalizeFile L files file) (recordedVariants files file)) ∧
    (∀ ext ∈ recordedVariants files file,
      L.ChecksumsForFile ((finalizeFile L files file).tempFilename ++ ext) =
        Except.ok (sumsOf L ((finalizeFile L files file).tempFilename ++ ext))) ∧
    (file.Finalize S L hashOrder signer files st).file = finalizeFile L files file := by
  rw [Finalize_not_skipped S L hashOrder signer files file st hns] at hok ⊢
  obtain ⟨h1, h2, h3, h4, h5, h6⟩ :=
    finalizeWritten_ok S L hashOrder signer files (finalizeFile L files file) st hok
  rw [recordedVariants_finalizeFile] at h1 h2 h4 h5 h6
  rw [uploadedVariants_finalizeFile] at h2 h5 h6
  obtain ⟨h7, h8⟩ := checksumLoop_ok L (finalizeFile L files file) _ _ h1
  obtain ⟨h9, h10⟩ := publishFile_ok S hashOrder signer _ _ _ st h2
  refine ⟨?_, ?_, ?_, h7, h3⟩
  · rw [h6, h9]
    rfl
  · obtain ⟨_, _, _, hf4, hf5, _⟩ := finalizeFile_flags L files file
    rw [h5, h10]
    simp only [variantEntries, signatureEntries, suffixedName, finalName, suffixedClearName,
      finalClearName, finalizeFile_relativePath, hf4, hf5]
  · rw [h4, h8]

/-- C24: a successful `Finalize` of an index file that is discardable and was never written
to makes no call on the storage and leaves the set of index files, with its checksums and
renames, as it was; of any other index file it uploads exactly the variants named, in
order, and after them the signatures. -/
theorem C24_finalize_uploads_variants {σ : Type} (S : PublishedStorage σ) (L : LocalFiles)
    (hashOrder : String → List String) (signer : Option Signer) (files : indexFiles)
    (file : indexFile) (st : σ)
    (hok : (file.Finalize S L hashOrder signer files st).err = none) :
    (isSkipped file = true →
      (file.Finalize S L hashOrder signer files st).calls = [] ∧
      (file.Finalize S L hashOrder signer files st).files = files) ∧
    (isSkipped file = false →
      (file.Finalize S L hashOrder signer files st).calls.filter isPutFile =
        (uploadedVariants files file).map (variantUpload files (finalizeFile L files file)) ++
          signatureUploads signer files (finalizeFile L files file)) := by
  refine ⟨fun h => ?_, fun h => ?_⟩
  · obtain ⟨_, _, h3, _, h5⟩ := Finalize_skipped S L hashOrder signer files file st h
    exact ⟨h5, h3⟩
  · exact (Finalize_ok S L hashOrder signer files file st h hok).1

theorem C24_finalize_uploads_variants_witness :
    (packagesFile.Finalize localStorage (localFilesOf "a") literalOrder none freshFiles
      []).err = none ∧
    (packagesFile.Finalize localStorage (localFilesOf "a") literalOrder none freshFiles
      []).calls.filter isPutFile =
      [StorageCall.PutFile "dists/squeeze/main/binary-i386/Packages.tmp"
          "/tmp/aptly/main_binary-i386_Packages",
        StorageCall.PutFile "dists/squeeze/main/binary-i386/Packages.tmp.gz"
          "/tmp/aptly/main_binary-i386_Packages.gz",
        StorageCall.PutFile "dists/squeeze/main/binary-i386/Packages.tmp.bz2"
          "/tmp/aptly/main_binary-i386_Packages.bz2"] ∧
    ((isSkipped packagesFile = true →
      (packagesFile.Finalize localStorage (localFilesOf "a") literalOrder none freshFiles
        []).calls = [] ∧
      (packagesFile.Finalize localStorage (localFilesOf "a") literalOrder none freshFiles
        []).files = freshFiles) ∧
    (isSkipped packagesFile = false →
      (packagesFile.Finalize localStorage (localFilesOf "a") literalOrder none freshFiles
        []).calls.filter isPutFile =
        (uploadedVariants freshFiles packagesFile).map
            (variantUpload freshFiles (finalizeFile (localFilesOf "a") freshFiles
              packagesFile)) ++
          signatureUploads none freshFiles
            (finalizeFile (localFilesOf "a") freshFiles packagesFile))) :=
  ⟨by decide, by decide,
    C24_finalize_uploads_variants localStorage (localFilesOf "a") literalOrder none
      freshFiles packagesFile [] (by decide)⟩

/-- The uploads of a successful `Finalize` and the rename map it leaves. -/
theorem Finalize_renames {σ : Type} (S : PublishedStorage σ) (L : LocalFiles)
    (hashOrder : String → List String) (signer : Option Signer) (files : indexFiles)
    (file : indexFile) (st : σ)
    (hok : (file.Finalize S L hashOrder signer files st).err = none) :
    (files.suffix ≠ "" →
      (file.Finalize S L hashOrder signer files st).files.renameMap =
        mapSetAll files.renameMap (renameEntries signer files file) ∧
      putTargets (file.Finalize S L hashOrder signer files st).calls =
        (renameEntries signer files file).map Prod.fst) ∧
    (files.suffix = "" →
      (file.Finalize S L hashOrder signer files st).files.renameMap = files.renameMap ∧
      putTargets (file.Finalize S L hashOrder signer files st).calls =
        (renameEntries signer files file).map Prod.snd) := by
  cases hsk : isSkipped file with
  | true =>
    obtain ⟨_, _, h3, _, h5⟩ := Finalize_skipped S L hashOrder signer files file st hsk
    simp [h3, h5, renameEntries, hsk, mapSetAll, putTargets]
  | false =>
    obtain ⟨h1, h2, _, _, _⟩ := Finalize_ok S L hashOrder signer files file st hsk hok
    obtain ⟨_, _, _, h4, h5, _⟩ := finalizeFile_flags L files file
    have ht : putTargets (file.Finalize S L hashOrder signer files st).calls =
        (variantEntries files file (uploadedVariants files file) ++
          signatureEntries signer files file).map Prod.fst := by
      rw [← putTargets_filter, h1, putTargets_append,
        putTargets_variants files file _ _ (finalizeFile_relativePath L files file),
        putTargets_signatures signer files file _ (finalizeFile_relativePath L files file)
          h5 h4, List.map_append]
    have hre : renameEntries signer files file =
        variantEntries files file (uploadedVariants files file) ++
          signatureEntries signer files file := by
      simp [renameEntries, hsk]
    rw [hre]
    refine ⟨fun hs => ?_, fun hs => ?_⟩
    · rw [h2, if_pos hs]
      exact ⟨rfl, ht⟩
    · rw [h2, if_neg (by simpa using hs), ht]
      exact ⟨rfl, entries_fst_eq_snd signer files file _ hs⟩

/-- C25: after a successful `Finalize` of an index file the uploads and the rename map
agree. With a non-empty suffix the rename map is the one before with one entry assigned
per object uploaded, from the suffixed name to the final name: the uploaded variants, then
the detached signature and the clear-signed file when there is a signer and the file asks
for them; the uploads go to the suffixed names of these entries, in order. With an empty
suffix the rename map is as before and the uploads go to the final names. -/
theorem C25_finalize_records_renames {σ : Type} (S : PublishedStorage σ) (L : LocalFiles)
    (hashOrder : String → List String) (signer : Option Signer) (files : indexFiles)
    (file : indexFile) (st : σ)
    (hok : (file.Finalize S L hashOrder signer files st).err = none) :
    (files.suffix ≠ "" →
      (file.Finalize S L hashOrder signer files st).files.renameMap =
        mapSetAll files.renameMap (renameEntries signer files file) ∧
      putTargets (file.Finalize S L hashOrder signer files st).calls =
        (renameEntries signer files file).map Prod.fst) ∧
    (files.suffix = "" →
      (file.Finalize S L hashOrder signer files st).files.renameMap = files.renameMap ∧
      putTargets (file.Finalize S L hashOrder signer files st).calls =
        (renameEntries signer files file).map Prod.snd) :=
  Finalize_renames S L hashOrder signer files file st hok

theorem C25_finalize_records_renames_witness :
    (freshFiles.ReleaseFile.Finalize localStorage (localFilesOf "a") literalOrder
      (some acceptingSigner) freshFiles []).err = none ∧
    (freshFiles.ReleaseFile.Finalize localStorage (localFilesOf "a") literalOrder
      (some acceptingSigner) freshFiles []).files.renameMap =
      [("dists/squeeze/Release.tmp", "dists/squeeze/Release"),
        ("dists/squeeze/Release.tmp.gpg", "dists/squeeze/Release.gpg"),
        ("dists/squeeze/InRelease.tmp", "dists/squeeze/InRelease")] ∧
    ((freshFiles.suffix ≠ "" →
      (freshFiles.ReleaseFile.Finalize localStorage (localFilesOf "a") literalOrder
        (some acceptingSigner) freshFiles []).files.renameMap =
        mapSetAll freshFiles.renameMap
          (renameEntries (some acceptingSigner) freshFiles freshFiles.ReleaseFile) ∧
      putTargets (freshFiles.ReleaseFile.Finalize localStorage (localFilesOf "a")
        literalOrder (some acceptingSigner) freshFiles []).calls =
        (renameEntries (some acceptingSigner) freshFiles freshFiles.ReleaseFile).map
          Prod.fst) ∧
    (freshFiles.suffix = "" →
      (freshFiles.ReleaseFile.Finalize localStorage (localFilesOf "a") literalOrder
        (some acceptingSigner) freshFiles []).files.renameMap = freshFiles.renameMap ∧
      putTargets (freshFiles.ReleaseFile.Finalize localStorage (localFilesOf "a")
        literalOrder (some acceptingSigner) freshFiles []).calls =
        (renameEntries (some acceptingSigner) freshFiles freshFiles.ReleaseFile).map
          Prod.snd)) :=
  ⟨by decide, by decide,
    C25_finalize_records_renames localStorage (localFilesOf "a") literalOrder
      (some acceptingSigner) freshFiles freshFiles.ReleaseFile [] (by decide)⟩

theorem storageA_published : publishRelease "a" [] = storageA := by decide

theorem storageAB_published : publishRelease "b" storageA = storageAB := by decide

theorem packageIndexByHash_existing {σ : Type} (S : PublishedStorage σ) (files : indexFiles)
    (file : indexFile) (ext hash sum : String) (st : σ)
    (herr : (S.call (StorageCall.FileExists (sumFilePath files file hash sum)) st).1.err =
      none)
    (hfound : (S.call (StorageCall.FileExists (sumFilePath files file hash sum)) st).1.found =
      true) :
    packageIndexByHash S files file ext hash sum st =
      ⟨none, (S.call (StorageCall.FileExists (sumFilePath files file hash sum)) st).2,
        [StorageCall.FileExists (sumFilePath files file hash sum)]⟩ := by
  unfold packageIndexByHash
  unfold sumFilePath byHashDir at herr hfound
  simp only [herr, hfound, if_true]
  rfl

/-- C30, on the code: when the storage answers that the digest file `by-hash/<hash>/<sum>`
exists, `packageIndexByHash` returns without error after that one question. It makes no
other call: the link `by-hash/<hash>/<indexFileName>` is left as it is, whatever it points
to. -/
theorem C30_existing_digest_leaves_link {σ : Type} (S : PublishedStorage σ)
    (files : indexFiles) (file : indexFile) (ext hash sum : String) (st : σ)
    (herr : (S.call (StorageCall.FileExists (sumFilePath files file hash sum)) st).1.err =
      none)
    (hfound : (S.call (StorageCall.FileExists (sumFilePath files file hash sum)) st).1.found =
      true) :
    (packageIndexByHash S files file ext hash sum st).value = none ∧
    (packageIndexByHash S files file ext hash sum st).calls =
      [StorageCall.FileExists (sumFilePath files file hash sum)] ∧
    (packageIndexByHash S files file ext hash sum st).state =
      (S.call (StorageCall.FileExists (sumFilePath files file hash sum)) st).2 := by
  rw [packageIndexByHash_existing S files file ext hash sum st herr hfound]
  exact ⟨rfl, rfl, rfl⟩

theorem C30_existing_digest_leaves_link_witness :
    publishRelease "a" [] = storageA ∧ publishRelease "b" storageA = storageAB ∧
    (finalizeRelease "a" storageAB).err = none ∧
    ((finalizeRelease "a" storageAB).files.generatedFiles.lookup
        "main/binary-i386/Release").map (fun sums => sums.SHA256) = some "sha256-a" ∧
    (publishRelease "a" storageAB).lookup "dists/squeeze/main/binary-i386/Release" =
      some (StoredEntry.file "/tmp/a/main_binary-i386_Release") ∧
    (publishRelease "a" storageAB).lookup
        "dists/squeeze/main/binary-i386/by-hash/SHA256/Release" =
      some (StoredEntry.link "dists/squeeze/main/binary-i386/by-hash/SHA256/sha256-b") ∧
    (publishRelease "a" storageAB).lookup
        "dists/squeeze/main/binary-i386/by-hash/SHA256/Release.old" =
      some (StoredEntry.link "dists/squeeze/main/binary-i386/by-hash/SHA256/sha256-a") ∧
    ((packageIndexByHash localStorage (byHashFiles "/tmp/a") releaseByHashFile "" "SHA256"
        "sha256-a" storageAB).value = none ∧
      (packageIndexByHash localStorage (byHashFiles "/tmp/a") releaseByHashFile "" "SHA256"
        "sha256-a" storageAB).calls =
        [StorageCall.FileExists (sumFilePath (byHashFiles "/tmp/a") releaseByHashFile
          "SHA256" "sha256-a")] ∧
      (packageIndexByHash localStorage (byHashFiles "/tmp/a") releaseByHashFile "" "SHA256"
        "sha256-a" storageAB).state =
        (localStorage.call (StorageCall.FileExists (sumFilePath (byHashFiles "/tmp/a")
          releaseByHashFile "SHA256" "sha256-a")) storageAB).2) :=
  ⟨storageA_published, storageAB_published, by decide, by decide, by decide, by decide,
    by decide,
    C30_existing_digest_leaves_link localStorage (byHashFiles "/tmp/a") releaseByHashFile ""
      "SHA256" "sha256-a" storageAB (by decide) (by decide)⟩

theorem removeOldLink_calls {σ : Type} (S : PublishedStorage σ) (old : String) (st : σ) :
    (removeOldLink S old st).calls =
      [StorageCall.ReadLink old] ++
        (if (S.call (StorageCall.ReadLink old) st).1.err = none then
          [StorageCall.Remove (S.call (StorageCall.ReadLink old) st).1.target]
        else []) ++ [StorageCall.Remove old] := by
  unfold removeOldLink
  dsimp only
  split_ifs <;> rfl

/-- C29, amended: when `packageIndexByHash` rotates the links of an index (the digest file
does not exist yet, its hard link succeeds, and the storage answers that the index link
exists), its calls are, in this order: the question for the digest file, the hard link of
the new digest file, the questions for the index link and the old index link, the removals,
the renaming of the index link to the old index link, and the new symlink from the index
link to the digest file. The removals are made only when the old index link exists: the old
link is read, the file it points to is removed only when reading succeeded, and the old
link is removed. -/
theorem C29_rotation_order {σ : Type} (S : PublishedStorage σ) (files : indexFiles)
    (file : indexFile) (ext hash sum : String) (st : σ)
    (hnew : (replyAfter S [] (StorageCall.FileExists (sumFilePath files file hash sum))
      st).err = none ∧
      (replyAfter S [] (StorageCall.FileExists (sumFilePath files file hash sum))
        st).found = false)
    (hlink : (replyAfter S ((rotationStart files file ext hash sum).take 1)
      (StorageCall.HardLink (hardLinkSource files file ext) (sumFilePath files file hash sum))
      st).err = none)
    (hindex : (replyAfter S ((rotationStart files file ext hash sum).take 2)
      (StorageCall.FileExists (indexLinkPath files file ext hash)) st).found = true) :
    (packageIndexByHash S files file ext hash sum st).calls =
      rotationStart files file ext hash sum ++
        rotationRemovals S files file ext hash sum st ++
        [StorageCall.RenameFile (indexLinkPath files file ext hash)
            (oldIndexLinkPath files file ext hash),
          StorageCall.SymLink (sumFilePath files file hash sum)
            (indexLinkPath files file ext hash)] := by
  obtain ⟨hnew1, hnew2⟩ := hnew
  simp only [replyAfter, stateAfter, rotationStart, List.take, List.foldl, sumFilePath,
    byHashDir, hardLinkSource, indexLinkPath, indexFileName] at hnew1 hnew2 hlink hindex
  unfold packageIndexByHash backupLink
  simp only [hnew1, hnew2, hlink, hindex, if_true, Bool.false_eq_true, if_false]
  simp only [rotationRemovals, replyAfter, stateAfter, rotationStart, List.take, List.foldl,
    sumFilePath, byHashDir, hardLinkSource, indexLinkPath, oldIndexLinkPath, indexFileName]
  split_ifs <;> simp [removeOldLink_calls, *]

theorem C29_rotation_order_witness :
    (packageIndexByHash localStorage (byHashFiles "/tmp/c") releaseByHashFile "" "SHA256"
      "sha256-c" storageWithC).calls =
      [StorageCall.FileExists
          "dists/squeeze/main/binary-i386/by-hash/SHA256/sha256-c",
        StorageCall.HardLink "dists/squeeze/main/binary-i386/Release.tmp"
          "dists/squeeze/main/binary-i386/by-hash/SHA256/sha256-c",
        StorageCall.FileExists "dists/squeeze/main/binary-i386/by-hash/SHA256/Release",
        StorageCall.FileExists "dists/squeeze/main/binary-i386/by-hash/SHA256/Release.old",
        StorageCall.ReadLink "dists/squeeze/main/binary-i386/by-hash/SHA256/Release.old",
        StorageCall.Remove
          "dists/squeeze/main/binary-i386/by-hash/SHA256/sha256-a",
        StorageCall.Remove "dists/squeeze/main/binary-i386/by-hash/SHA256/Release.old",
        StorageCall.RenameFile "dists/squeeze/main/binary-i386/by-hash/SHA256/Release"
          "dists/squeeze/main/binary-i386/by-hash/SHA256/Release.old",
        StorageCall.SymLink
          "dists/squeeze/main/binary-i386/by-hash/SHA256/sha256-c"
          "dists/squeeze/main/binary-i386/by-hash/SHA256/Release"] ∧
    (packageIndexByHash localStorage (byHashFiles "/tmp/c") releaseByHashFile "" "SHA256"
      "sha256-c" storageWithC).calls =
      rotationStart (byHashFiles "/tmp/c") releaseByHashFile "" "SHA256"
          "sha256-c" ++
        rotationRemovals localStorage (byHashFiles "/tmp/c") releaseByHashFile "" "SHA256"
          "sha256-c" storageWithC ++
        [StorageCall.RenameFile
            (indexLinkPath (byHashFiles "/tmp/c") releaseByHashFile "" "SHA256")
            (oldIndexLinkPath (byHashFiles "/tmp/c") releaseByHashFile "" "SHA256"),
          StorageCall.SymLink
            (sumFilePath (byHashFiles "/tmp/c") releaseByHashFile "SHA256"
              "sha256-c")
            (indexLinkPath (byHashFiles "/tmp/c") releaseByHashFile "" "SHA256")] :=
  ⟨by decide,
    C29_rotation_order localStorage (byHashFiles "/tmp/c") releaseByHashFile "" "SHA256"
      "sha256-c" storageWithC (by decide) (by decide) (by decide)⟩

/-- C29, refuted as worded: on the local storage the old index link of `SHA256` exists, as
a regular file. `packageIndexByHash` rotates the links for the content `c`: it reads the old
link, which fails, removes the old link, renames the index link and makes the new symlink.
No file is removed before the old link, although the old link exists. -/
theorem C29_unreadable_old_link :
    (localStorage.call
      (StorageCall.FileExists "dists/squeeze/main/binary-i386/by-hash/SHA256/Release.old")
      storageOldFile).1.found = true ∧
    (packageIndexByHash localStorage (byHashFiles "/tmp/c") releaseByHashFile "" "SHA256"
      "sha256-c" storageOldFile).value = none ∧
    (packageIndexByHash localStorage (byHashFiles "/tmp/c") releaseByHashFile "" "SHA256"
      "sha256-c" storageOldFile).calls =
      [StorageCall.FileExists
          "dists/squeeze/main/binary-i386/by-hash/SHA256/sha256-c",
        StorageCall.HardLink "dists/squeeze/main/binary-i386/Release.tmp"
          "dists/squeeze/main/binary-i386/by-hash/SHA256/sha256-c",
        StorageCall.FileExists "dists/squeeze/main/binary-i386/by-hash/SHA256/Release",
        StorageCall.FileExists "dists/squeeze/main/binary-i386/by-hash/SHA256/Release.old",
        StorageCall.ReadLink "dists/squeeze/main/binary-i386/by-hash/SHA256/Release.old",
        StorageCall.Remove "dists/squeeze/main/binary-i386/by-hash/SHA256/Release.old",
        StorageCall.RenameFile "dists/squeeze/main/binary-i386/by-hash/SHA256/Release"
          "dists/squeeze/main/binary-i386/by-hash/SHA256/Release.old",
        StorageCall.SymLink
          "dists/squeeze/main/binary-i386/by-hash/SHA256/sha256-c"
          "dists/squeeze/main/binary-i386/by-hash/SHA256/Release"] := by
  decide

/-- C26, refuted as worded: the set of index files has the suffix `.tmp` and links by hash.
On the storage that holds the publication of the content `a`, `Finalize` for the content
`b` renames the published link `by-hash/SHA256/Release`, which is no key of the rename
map; and on the storage that holds the publications of `a` and `b`, `Finalize` for the
content `c` removes the published digest file of `a`. -/
theorem C26_by_hash_changes_published_paths :
    publishRelease "a" [] = storageA ∧ publishRelease "b" storageA = storageAB ∧
    (byHashFiles "/tmp/b").suffix ≠ "" ∧
    (finalizeRelease "b" storageA).err = none ∧
    storageA.lookup "dists/squeeze/main/binary-i386/by-hash/SHA256/Release" =
      some (StoredEntry.link "dists/squeeze/main/binary-i386/by-hash/SHA256/sha256-a") ∧
    StorageCall.RenameFile "dists/squeeze/main/binary-i386/by-hash/SHA256/Release"
        "dists/squeeze/main/binary-i386/by-hash/SHA256/Release.old" ∈
      (finalizeRelease "b" storageA).calls ∧
    (finalizeRelease "b" storageA).files.renameMap.lookup
      "dists/squeeze/main/binary-i386/by-hash/SHA256/Release" = none ∧
    storageAB.lookup "dists/squeeze/main/binary-i386/by-hash/SHA256/sha256-a" =
      some (StoredEntry.file "/tmp/a/main_binary-i386_Release") ∧
    StorageCall.Remove "dists/squeeze/main/binary-i386/by-hash/SHA256/sha256-a" ∈
      (finalizeRelease "c" storageAB).calls :=
  ⟨storageA_published, storageAB_published, by decide, by decide, by decide, by decide,
    by decide, by decide, by decide⟩

theorem uploadVariant_calls_plain {σ : Type} (S : PublishedStorage σ)
    (hashOrder : String → List String) (files : indexFiles) (file : indexFile) (ext : String)
    (renameMap : List (String × String)) (st : σ) (hbh : file.acquireByHash = false) :
    (uploadVariant S hashOrder files file ext renameMap st).calls =
      [variantUpload files file ext] := by
  unfold uploadVariant
  dsimp only
  split
  · rfl
  · simp [hbh, variantUpload, suffixedName]

theorem uploadLoop_calls_plain {σ : Type} (S : PublishedStorage σ)
    (hashOrder : String → List String) (files : indexFiles) (file : indexFile)
    (hbh : file.acquireByHash = false) :
    ∀ (exts : List String) (renameMap : List (String × String)) (st : σ),
      ∀ c ∈ (uploadLoop S hashOrder files file exts renameMap st).calls,
        c ∈ exts.map (variantUpload files file) := by
  intro exts
  induction exts with
  | nil => intro renameMap st c hc; simp [uploadLoop] at hc
  | cons ext rest ih =>
    intro renameMap st c
    simp only [uploadLoop]
    have hv := uploadVariant_calls_plain S hashOrder files file ext renameMap st hbh
    split
    · intro hc
      rw [hv] at hc
      simp only [List.mem_singleton] at hc
      simp [hc]
    · intro hc
      rw [hv] at hc
      simp only [List.singleton_append, List.mem_cons] at hc
      rcases hc with rfl | hc
      · simp
      · exact List.mem_cons_of_mem _ (ih _ _ c hc)

theorem signDetached_calls {σ : Type} (S : PublishedStorage σ) (signer : Signer)
    (files : indexFiles) (file : indexFile) (renameMap : List (String × String)) (st : σ) :
    ∀ c ∈ (signDetached S signer files file renameMap st).calls,
      c ∈ signatureUploads (some signer) files file := by
  intro c
  by_cases hd : file.detachedSign = true
  · simp only [signDetached, signatureUploads, hd, if_true, Option.isSome_some]
    split
    · simp
    · split <;>
        (intro hc; exact List.mem_append_left _ (by simpa [suffixedName] using hc))
  · simp [signDetached, hd]

theorem signClear_calls {σ : Type} (S : PublishedStorage σ) (signer : Signer)
    (files : indexFiles) (file : indexFile) (renameMap : List (String × String)) (st : σ) :
    ∀ c ∈ (signClear S signer files file renameMap st).calls,
      c ∈ signatureUploads (some signer) files file := by
  intro c
  by_cases hd : file.clearSign = true
  · simp only [signClear, signatureUploads, hd, if_true, Option.isSome_some]
    split
    · simp
    · split <;>
        (intro hc
         exact List.mem_append_right _
           (by simpa [suffixedClearName, clearSignedFile] using hc))
  · simp [signClear, hd]

theorem signFiles_calls {σ : Type} (S : PublishedStorage σ) (signer : Option Signer)
    (files : indexFiles) (file : indexFile) (renameMap : List (String × String)) (st : σ) :
    ∀ c ∈ (signFiles S signer files file renameMap st).calls,
      c ∈ signatureUploads signer files file := by
  cases signer with
  | none => simp [signFiles]
  | some sg =>
    simp only [signFiles]
    intro c
    split
    · exact signDetached_calls S sg files file renameMap st c
    · intro hc
      simp only [List.mem_append] at hc
      rcases hc with hc | hc
      · exact signDetached_calls S sg files file renameMap st c hc
      · exact signClear_calls S sg files file _ _ c hc

/-- Without links by hash, the calls of the part of `Finalize` from `MkDir` on are the
creation of the directory, uploads of variants and uploads of signatures. -/
theorem publishFile_calls_plain {σ : Type} (S : PublishedStorage σ)
    (hashOrder : String → List String) (signer : Option Signer) (files : indexFiles)
    (file : indexFile) (exts : List String) (st : σ) (hbh : file.acquireByHash = false) :
    ∀ c ∈ (publishFile S hashOrder signer files file exts st).calls,
      isMkDir c = true ∨ c ∈ exts.map (variantUpload files file) ∨
        c ∈ signatureUploads signer files file := by
  unfold publishFile
  simp only [hbh, Bool.false_eq_true, if_false]
  intro c
  split
  · intro hc
    simp only [List.mem_singleton] at hc
    exact Or.inl (by rw [hc]; rfl)
  · split
    · intro hc
      simp only [List.nil_append, List.mem_cons] at hc
      rcases hc with rfl | hc
      · exact Or.inl rfl
      · exact Or.inr (Or.inl (uploadLoop_calls_plain S hashOrder files file hbh _ _ _ c hc))
    · intro hc
      simp only [List.nil_append, List.mem_cons, List.mem_append] at hc
      rcases hc with rfl | hc | hc
      · exact Or.inl rfl
      · exact Or.inr (Or.inl (uploadLoop_calls_plain S hashOrder files file hbh _ _ _ c hc))
      · exact Or.inr (Or.inr (signFiles_calls S signer files file _ _ c hc))

theorem lookup_mapSetAll_isSome {α : Type} (entries : List (String × α)) :
    ∀ (m : List (String × α)) (k : String),
      (m.lookup k).isSome = true ∨ k ∈ entries.map Prod.fst →
      ((mapSetAll m entries).lookup k).isSome = true := by
  induction entries with
  | nil =>
    intro m k h
    simpa [mapSetAll] using h
  | cons e rest ih =>
    intro m k h
    have : mapSetAll m (e :: rest) = mapSetAll (mapSet m e.1 e.2) rest := rfl
    rw [this]
    apply ih
    simp only [List.map_cons, List.mem_cons] at h
    rw [lookup_mapSet]
    by_cases hk : k = e.1
    · left; simp [hk]
    · rcases h with h | h | h
      · left; simpa [hk] using h
      · exact absurd h hk
      · right; exact h

theorem mem_suffixedNames_variant (files : indexFiles) (file : indexFile) (ext : String)
    (h : ext ∈ uploadedVariants files file) :
    suffixedName files file ext ∈ suffixedNames files file := by
  unfold suffixedNames
  exact List.mem_append_left _ (List.mem_map.2 ⟨ext, h, rfl⟩)

theorem signatureUploads_targets (signer : Option Signer) (files : indexFiles)
    (file : indexFile) :
    ∀ c ∈ signatureUploads signer files file,
      ∃ p src, c = StorageCall.PutFile p src ∧
        (p = suffixedName files file ".gpg" ∨ p = suffixedClearName files file) := by
  intro c hc
  unfold signatureUploads at hc
  split_ifs at hc <;> simp at hc
  · rcases hc with rfl | rfl
    · exact ⟨_, _, rfl, Or.inl rfl⟩
    · exact ⟨_, _, rfl, Or.inr rfl⟩
  · subst hc; exact ⟨_, _, rfl, Or.inl rfl⟩
  · subst hc; exact ⟨_, _, rfl, Or.inr rfl⟩

/-- Without links by hash, every call of `Finalize`, whatever its outcome, is the creation
of a directory or an upload to a suffixed name of the index file. -/
theorem Finalize_calls_plain {σ : Type} (S : PublishedStorage σ) (L : LocalFiles)
    (hashOrder : String → List String) (signer : Option Signer) (files : indexFiles)
    (file : indexFile) (st : σ) (hbh : file.acquireByHash = false) :
    ∀ c ∈ (file.Finalize S L hashOrder signer files st).calls,
      (∃ p, c = StorageCall.MkDir p) ∨
        ∃ p src, c = StorageCall.PutFile p src ∧ p ∈ suffixedNames files file := by
  intro c hc
  cases hsk : isSkipped file with
  | true =>
    rw [(Finalize_skipped S L hashOrder signer files file st hsk).2.2.2.2] at hc
    simp at hc
  | false =>
    rw [Finalize_not_skipped S L hashOrder signer files file st hsk] at hc
    rcases finalizeWritten_calls S L hashOrder signer files (finalizeFile L files file) st
      with h | h
    · rw [h] at hc
      simp at hc
    · rw [h, uploadedVariants_finalizeFile] at hc
      have hbh2 : (finalizeFile L files file).acquireByHash = false := by
        rw [(finalizeFile_flags L files file).2.2.2.2.2, hbh]
      obtain ⟨_, _, _, hf4, hf5, _⟩ := finalizeFile_flags L files file
      rcases publishFile_calls_plain S hashOrder signer _ _ _ st hbh2 c hc with h1 | h1 | h1
      · left
        cases c <;> simp [isMkDir] at h1
        exact ⟨_, rfl⟩
      · right
        obtain ⟨ext, hext, rfl⟩ := List.mem_map.1 h1
        refine ⟨_, _, rfl, ?_⟩
        have := mem_suffixedNames_variant files file ext hext
        simpa [suffixedName, finalizeFile_relativePath] using this
      · right
        obtain ⟨p, src, rfl, hp⟩ := signatureUploads_targets signer _ _ c h1
        refine ⟨p, src, rfl, ?_⟩
        unfold suffixedNames
        apply List.mem_append_right
        rcases hp with rfl | rfl
        · simp [suffixedName, finalizeFile_relativePath]
        · simp [suffixedClearName, finalizeFile_relativePath]

/-- After a successful `Finalize` with a non-empty suffix, every name uploaded to is a key
of the rename map, and so is every key that was there before. -/
theorem Finalize_targets_renamed {σ : Type} (S : PublishedStorage σ) (L : LocalFiles)
    (hashOrder : String → List String) (signer : Option Signer) (files : indexFiles)
    (file : indexFile) (st : σ)
    (hok : (file.Finalize S L hashOrder signer files st).err = none)
    (hs : files.suffix ≠ "") (p : String)
    (hp : (files.renameMap.lookup p).isSome = true ∨
      p ∈ putTargets (file.Finalize S L hashOrder signer files st).calls) :
    ((file.Finalize S L hashOrder signer files st).files.renameMap.lookup p).isSome = true := by
  obtain ⟨h1, h2⟩ := (Finalize_renames S L hashOrder signer files file st hok).1 hs
  rw [h1]
  apply lookup_mapSetAll_isSome
  rw [← h2]
  exact hp

theorem finalizeWritten_frame {σ : Type} (S : PublishedStorage σ) (L : LocalFiles)
    (hashOrder : String → List String) (signer : Option Signer) (files : indexFiles)
    (file : indexFile) (st : σ) :
    (finalizeWritten S L hashOrder signer files file st).files.basePath = files.basePath ∧
    (finalizeWritten S L hashOrder signer files file st).files.suffix = files.suffix ∧
    (finalizeWritten S L hashOrder signer files file st).files.skipBz2 = files.skipBz2 ∧
    (finalizeWritten S L hashOrder signer files file st).files.indexes = files.indexes ∧
    (finalizeWritten S L hashOrder signer files file st).file = file := by
  unfold finalizeWritten
  by_cases hw : file.w = false
  · simp [hw]
  · simp only [hw, if_false]
    cases hfl : L.Flush file.tempFilename with
    | some err => simp
    | none =>
      dsimp only
      cases hcomp : (if file.compressable = true then
          L.CompressFile file.tempFilename (file.onlyGzip || files.skipBz2) else none) with
      | some err => simp
      | none =>
        dsimp only
        cases hsum : (checksumLoop L file (finalizeExts files file).2
            files.generatedFiles).1 with
        | some err => simp
        | none => simp

/-- What `Finalize` leaves as it is, whatever its outcome: the base path, the suffix,
`skipBz2` and the index files of the set, and the relative path and the flags of the index
file. -/
theorem Finalize_frame {σ : Type} (S : PublishedStorage σ) (L : LocalFiles)
    (hashOrder : String → List String) (signer : Option Signer) (files : indexFiles)
    (file : indexFile) (st : σ) :
    (file.Finalize S L hashOrder signer files st).files.basePath = files.basePath ∧
    (file.Finalize S L hashOrder signer files st).files.suffix = files.suffix ∧
    (file.Finalize S L hashOrder signer files st).files.skipBz2 = files.skipBz2 ∧
    (file.Finalize S L hashOrder signer files st).files.indexes = files.indexes ∧
    (file.Finalize S L hashOrder signer files st).file.relativePath = file.relativePath ∧
    (file.Finalize S L hashOrder signer files st).file.compressable = file.compressable ∧
    (file.Finalize S L hashOrder signer files st).file.onlyGzip = file.onlyGzip ∧
    (file.Finalize S L hashOrder signer files st).file.acquireByHash = file.acquireByHash := by
  cases hsk : isSkipped file with
  | true =>
    obtain ⟨_, h2, h3, _, _⟩ := Finalize_skipped S L hashOrder signer files file st hsk
    rw [h2, h3]
    simp
  | false =>
    rw [Finalize_not_skipped S L hashOrder signer files file st hsk]
    obtain ⟨h1, h2, h3, h4, h5⟩ :=
      finalizeWritten_frame S L hashOrder signer files (finalizeFile L files file) st
    obtain ⟨_, f2, f3, _, _, f6⟩ := finalizeFile_flags L files file
    rw [h5]
    exact ⟨h1, h2, h3, h4, finalizeFile_relativePath L files file, f2, f3, f6⟩

theorem suffixedNames_congr (files files2 : indexFiles) (file file2 : indexFile)
    (h1 : files2.basePath = files.basePath) (h2 : files2.suffix = files.suffix)
    (h3 : files2.skipBz2 = files.skipBz2) (h4 : file2.relativePath = file.relativePath)
    (h5 : file2.compressable = file.compressable) (h6 : file2.onlyGzip = file.onlyGzip) :
    suffixedNames files2 file2 = suffixedNames files file := by
  simp [suffixedNames, uploadedVariants, suffixedName, suffixedClearName, h1, h2, h3, h4, h5,
    h6]

/-- Without links by hash, every call of the loop of `FinalizeAll`, whatever its outcome, is
the creation of a directory or an upload to a suffixed name of an index file of the set. -/
theorem finalizeAllLoop_calls_plain {σ : Type} (S : PublishedStorage σ) (L : LocalFiles)
    (hashOrder : String → String → List String) (signer : Option Signer)
    (files0 : indexFiles) :
    ∀ (order : List String) (files : indexFiles) (st : σ),
      files.basePath = files0.basePath → files.suffix = files0.suffix →
      files.skipBz2 = files0.skipBz2 →
      (∀ k f, files.indexes.lookup k = some f → f.acquireByHash = false ∧
        ∃ e ∈ files0.indexes, suffixedNames files f = suffixedNames files0 e.2) →
      ∀ c ∈ (finalizeAllLoop S L hashOrder signer order files st).calls,
        (∃ p, c = StorageCall.MkDir p) ∨
          ∃ p src, c = StorageCall.PutFile p src ∧
            ∃ e ∈ files0.indexes, p ∈ suffixedNames files0 e.2 := by
  intro order
  induction order with
  | nil => intro files st _ _ _ _ c hc; simp [finalizeAllLoop] at hc
  | cons key rest ih =>
    intro files st hb hs hz hinv c
    simp only [finalizeAllLoop]
    cases hl : files.indexes.lookup key with
    | none => exact ih files st hb hs hz hinv c
    | some file =>
      dsimp only
      obtain ⟨hbh, e, he, hnames⟩ := hinv key file hl
      obtain ⟨g1, g2, g3, g4, g5, g6, g7, g8⟩ :=
        Finalize_frame S L (hashOrder key) signer files file st
      have hhere : ∀ c ∈ (file.Finalize S L (hashOrder key) signer files st).calls,
          (∃ p, c = StorageCall.MkDir p) ∨
            ∃ p src, c = StorageCall.PutFile p src ∧
              ∃ e ∈ files0.indexes, p ∈ suffixedNames files0 e.2 := by
        intro c hc
        rcases Finalize_calls_plain S L (hashOrder key) signer files file st hbh c hc
          with h | ⟨p, src, rfl, hp⟩
        · exact Or.inl h
        · exact Or.inr ⟨p, src, rfl, e, he, hnames ▸ hp⟩
      split
      · exact hhere c
      · intro hc
        simp only [List.mem_append] at hc
        rcases hc with hc | hc
        · exact hhere c hc
        · refine ih _ _ (by simpa using g1.trans hb) (by simpa using g2.trans hs)
            (by simpa using g3.trans hz) ?_ c hc
          intro k f hk
          simp only [lookup_mapSet, g4] at hk
          split_ifs at hk with hkk
          · have hf : f = (file.Finalize S L (hashOrder key) signer files st).file :=
              (Option.some.inj hk).symm
            refine ⟨by rw [hf, g8, hbh], e, he, ?_⟩
            rw [← hnames, hf]
            exact suffixedNames_congr files _ file _ g1 g2 g3 g5 g6 g7
          · obtain ⟨hbh2, e2, he2, hn2⟩ := hinv k f hk
            refine ⟨hbh2, e2, he2, ?_⟩
            rw [← hn2]
            exact suffixedNames_congr files _ f f g1 g2 g3 rfl rfl rfl

/-- After a successful loop of `FinalizeAll` with a non-empty suffix, every name uploaded to
is a key of the rename map, and so is every key that was there before. -/
theorem finalizeAllLoop_targets_renamed {σ : Type} (S : PublishedStorage σ) (L : LocalFiles)
    (hashOrder : String → String → List String) (signer : Option Signer) :
    ∀ (order : List String) (files : indexFiles) (st : σ),
      files.suffix ≠ "" →
      (finalizeAllLoop S L hashOrder signer order files st).value.1 = none →
      ∀ p, ((files.renameMap.lookup p).isSome = true ∨
          p ∈ putTargets (finalizeAllLoop S L hashOrder signer order files st).calls) →
        ((finalizeAllLoop S L hashOrder signer order files st).value.2.renameMap.lookup
          p).isSome = true := by
  intro order
  induction order with
  | nil =>
    intro files st _ _ p hp
    simpa [finalizeAllLoop, putTargets] using hp
  | cons key rest ih =>
    intro files st hs
    simp only [finalizeAllLoop]
    cases hl : files.indexes.lookup key with
    | none => exact ih files st hs
    | some file =>
      dsimp only
      cases herr : (file.Finalize S L (hashOrder key) signer files st).err with
      | some f => simp
      | none =>
        dsimp only
        intro hok p hp
        obtain ⟨_, g2, _⟩ := Finalize_frame S L (hashOrder key) signer files file st
        refine ih _ _ (by simpa [g2] using hs) hok p ?_
        rw [putTargets_append] at hp
        simp only [List.mem_append] at hp
        rcases hp with hp | hp | hp
        · exact Or.inl (Finalize_targets_renamed S L (hashOrder key) signer files file st herr
            hs p (Or.inl hp))
        · exact Or.inl (Finalize_targets_renamed S L (hashOrder key) signer files file st herr
            hs p (Or.inr hp))
        · exact Or.inr hp

/-- C26, amended: in a set of index files with a non-empty suffix, `Finalize` of an index
file without links by hash makes, whatever its outcome, no call on the storage but the
creation of directories and uploads to suffixed names of the index file, and when it
succeeds each name uploaded to is a key of the rename map; the same holds of `FinalizeAll`
when no index file of the set has links by hash. -/
theorem C26_finalize_without_by_hash {σ : Type} (S : PublishedStorage σ) (L : LocalFiles)
    (signer : Option Signer) (files : indexFiles) (st : σ) (hs : files.suffix ≠ "") :
    (∀ (hashOrder : String → List String) (file : indexFile),
      file.acquireByHash = false →
      (∀ c ∈ (file.Finalize S L hashOrder signer files st).calls,
        (∃ p, c = StorageCall.MkDir p) ∨
          ∃ p src, c = StorageCall.PutFile p src ∧ p ∈ suffixedNames files file) ∧
      ((file.Finalize S L hashOrder signer files st).err = none →
        ∀ p ∈ putTargets (file.Finalize S L hashOrder signer files st).calls,
          ((file.Finalize S L hashOrder signer files st).files.renameMap.lookup p).isSome =
            true)) ∧
    (∀ (order : List String) (hashOrder : String → String → List String),
      (∀ e ∈ files.indexes, e.2.acquireByHash = false) →
      (∀ c ∈ (files.FinalizeAll S L order hashOrder signer st).calls,
        (∃ p, c = StorageCall.MkDir p) ∨
          ∃ p src, c = StorageCall.PutFile p src ∧
            ∃ e ∈ files.indexes, p ∈ suffixedNames files e.2) ∧
      ((files.FinalizeAll S L order hashOrder signer st).value.1 = none →
        ∀ p ∈ putTargets (files.FinalizeAll S L order hashOrder signer st).calls,
          ((files.FinalizeAll S L order hashOrder signer st).value.2.renameMap.lookup
            p).isSome = true)) := by
  refine ⟨fun hashOrder file hbh => ⟨?_, fun hok p hp => ?_⟩,
    fun order hashOrder hall => ⟨?_, ?_⟩⟩
  · exact Finalize_calls_plain S L hashOrder signer files file st hbh
  · exact Finalize_targets_renamed S L hashOrder signer files file st hok hs p (Or.inr hp)
  · have hloop := finalizeAllLoop_calls_plain S L hashOrder signer files order files st rfl
      rfl rfl (fun k f hk => ⟨hall (k, f) (lookup_some_mem _ k f hk),
        (k, f), lookup_some_mem _ k f hk, rfl⟩)
    intro c hc
    apply hloop c
    unfold indexFiles.FinalizeAll at hc
    dsimp only at hc
    split at hc <;> exact hc
  · have hloop := finalizeAllLoop_targets_renamed S L hashOrder signer order files st hs
    unfold indexFiles.FinalizeAll
    dsimp only
    split
    · simp
    · next hnone =>
      intro _ p hp
      exact hloop hnone p (Or.inr hp)

theorem C26_finalize_without_by_hash_witness :
    freshFiles.suffix ≠ "" ∧ packagesFile.acquireByHash = false ∧
    (packagesFile.Finalize localStorage (localFilesOf "a") literalOrder none freshFiles
      []).calls =
      [StorageCall.MkDir "dists/squeeze/main/binary-i386",
        StorageCall.PutFile "dists/squeeze/main/binary-i386/Packages.tmp"
          "/tmp/aptly/main_binary-i386_Packages",
        StorageCall.PutFile "dists/squeeze/main/binary-i386/Packages.tmp.gz"
          "/tmp/aptly/main_binary-i386_Packages.gz",
        StorageCall.PutFile "dists/squeeze/main/binary-i386/Packages.tmp.bz2"
          "/tmp/aptly/main_binary-i386_Packages.bz2"] ∧
    ((∀ c ∈ (packagesFile.Finalize localStorage (localFilesOf "a") literalOrder none
        freshFiles []).calls,
      (∃ p, c = StorageCall.MkDir p) ∨
        ∃ p src, c = StorageCall.PutFile p src ∧ p ∈ suffixedNames freshFiles packagesFile) ∧
    ((packagesFile.Finalize localStorage (localFilesOf "a") literalOrder none freshFiles
        []).err = none →
      ∀ p ∈ putTargets (packagesFile.Finalize localStorage (localFilesOf "a") literalOrder
          none freshFiles []).calls,
        ((packagesFile.Finalize localStorage (localFilesOf "a") literalOrder none freshFiles
          []).files.renameMap.lookup p).isSome = true)) :=
  ⟨by decide, rfl, by decide,
    (C26_finalize_without_by_hash localStorage (localFilesOf "a") none freshFiles []
      (by decide)).1 literalOrder packagesFile rfl⟩

theorem renameLoop_ok {σ : Type} (S : PublishedStorage σ)
    (renameMap : List (String × String)) :
    ∀ (order : List String) (st : σ), (renameLoop S renameMap order st).value = none →
      (renameLoop S renameMap order st).calls =
        order.filterMap fun k => (renameMap.lookup k).map (StorageCall.RenameFile k) := by
  intro order
  induction order with
  | nil => intro st _; rfl
  | cons k rest ih =>
    intro st
    simp only [renameLoop]
    cases hl : renameMap.lookup k with
    | none =>
      intro h
      rw [List.filterMap_cons_none (by simp [hl])]
      exact ih st h
    | some v =>
      dsimp only
      split
      · simp
      · intro h
        rw [List.filterMap_cons_some (by simp [hl]; rfl)]
        rw [ih _ h]

theorem lookup_of_mem_nodup {α : Type} (m : List (String × α)) (k : String) (v : α)
    (hn : (m.map Prod.fst).Nodup) (h : (k, v) ∈ m) : m.lookup k = some v := by
  induction m with
  | nil => simp at h
  | cons e rest ih =>
    obtain ⟨k1, v1⟩ := e
    rw [lookup_cons_ite]
    simp only [List.map_cons, List.nodup_cons] at hn
    simp only [List.mem_cons, Prod.mk.injEq] at h
    rcases h with ⟨rfl, rfl⟩ | h
    · simp
    · have hne : k ≠ k1 := by
        rintro rfl
        exact hn.1 (List.mem_map.2 ⟨(k, v), h, rfl⟩)
      rw [if_neg hne]
      exact ih hn.2 h

theorem filterMap_eq_map_of_forall {α β : Type} (l : List α) (g : α → Option β) (f : α → β)
    (h : ∀ a ∈ l, g a = some (f a)) : l.filterMap g = l.map f := by
  induction l with
  | nil => rfl
  | cons a rest ih =>
    rw [List.filterMap_cons_some (h a (List.mem_cons_self _ _)), List.map_cons,
      ih fun b hb => h b (List.mem_cons_of_mem _ hb)]

/-- C27, amended: when the keys of the rename map are ranged over in the order `order`, a
permutation of them, a successful `RenameFiles` issues the rename of each key visited, in
that order, and nothing else: its calls are a permutation of the renames of the entries of
the map, each issued once. The order is the one in which the map is ranged over; nothing
puts the entries of the top-level files last. -/
theorem C27_rename_files_in_map_order {σ : Type} (S : PublishedStorage σ)
    (files : indexFiles) (order : List String) (st : σ)
    (hkeys : (files.renameMap.map Prod.fst).Nodup)
    (horder : order.Perm (files.renameMap.map Prod.fst))
    (hok : (files.RenameFiles S order st).value = none) :
    (files.RenameFiles S order st).calls =
      order.map (fun k => StorageCall.RenameFile k ((files.renameMap.lookup k).getD "")) ∧
    ((files.RenameFiles S order st).calls).Perm
      (files.renameMap.map fun e => StorageCall.RenameFile e.1 e.2) := by
  have hcalls := renameLoop_ok S files.renameMap order st hok
  have hmap : (files.renameMap.map Prod.fst).filterMap
      (fun k => (files.renameMap.lookup k).map (StorageCall.RenameFile k)) =
      files.renameMap.map fun e => StorageCall.RenameFile e.1 e.2 := by
    rw [List.filterMap_map]
    apply filterMap_eq_map_of_forall
    intro e he
    simp [lookup_of_mem_nodup files.renameMap e.1 e.2 hkeys he]
  refine ⟨?_, ?_⟩
  · unfold indexFiles.RenameFiles
    rw [hcalls]
    apply filterMap_eq_map_of_forall
    intro k hk
    obtain ⟨e, he, rfl⟩ := List.mem_map.1 (horder.subset hk)
    simp [lookup_of_mem_nodup files.renameMap e.1 e.2 hkeys he]
  · unfold indexFiles.RenameFiles
    rw [hcalls, ← hmap]
    exact horder.filterMap _

theorem C27_rename_files_in_map_order_witness :
    releaseFinalized.files.renameMap =
      [("dists/squeeze/main/binary-i386/Release.tmp", "dists/squeeze/main/binary-i386/Release"),
        ("dists/squeeze/Release.tmp", "dists/squeeze/Release"),
        ("dists/squeeze/Release.tmp.gpg", "dists/squeeze/Release.gpg"),
        ("dists/squeeze/InRelease.tmp", "dists/squeeze/InRelease")] ∧
    ((releaseFinalized.files.RenameFiles localStorage
        (releaseFinalized.files.renameMap.map Prod.fst) releaseFinalized.state).calls =
      (releaseFinalized.files.renameMap.map Prod.fst).map (fun k =>
        StorageCall.RenameFile k ((releaseFinalized.files.renameMap.lookup k).getD "")) ∧
    ((releaseFinalized.files.RenameFiles localStorage
        (releaseFinalized.files.renameMap.map Prod.fst) releaseFinalized.state).calls).Perm
      (releaseFinalized.files.renameMap.map fun e => StorageCall.RenameFile e.1 e.2)) :=
  ⟨by decide,
    C27_rename_files_in_map_order localStorage releaseFinalized.files
      (releaseFinalized.files.renameMap.map Prod.fst) releaseFinalized.state (by decide)
      (List.Perm.refl _) (by decide)⟩

/-- C27, refuted as worded: the rename map holds the entries of the top-level `Release`,
`InRelease` and `Release.gpg` and the entry of the `Release` file of `main` for `i386`.
Ranged over in an order that starts with the top-level `Release`, `RenameFiles` renames it
first, before the index file of the component. -/
theorem C27_release_renamed_first :
    releaseFinalized.err = none ∧
    releaseFirstOrder.Perm (releaseFinalized.files.renameMap.map Prod.fst) ∧
    (releaseFinalized.files.RenameFiles localStorage releaseFirstOrder
      releaseFinalized.state).value = none ∧
    (releaseFinalized.files.RenameFiles localStorage releaseFirstOrder
      releaseFinalized.state).calls =
      [StorageCall.RenameFile "dists/squeeze/Release.tmp" "dists/squeeze/Release",
        StorageCall.RenameFile "dists/squeeze/main/binary-i386/Release.tmp"
          "dists/squeeze/main/binary-i386/Release",
        StorageCall.RenameFile "dists/squeeze/InRelease.tmp" "dists/squeeze/InRelease",
        StorageCall.RenameFile "dists/squeeze/Release.tmp.gpg" "dists/squeeze/Release.gpg"] := by
  decide

theorem lookup_mapSetAll_not_mem {α : Type} (entries : List (String × α)) :
    ∀ (m : List (String × α)) (k : String), k ∉ entries.map Prod.fst →
      (mapSetAll m entries).lookup k = m.lookup k := by
  induction entries with
  | nil => intro m k _; rfl
  | cons e rest ih =>
    intro m k hk
    have : mapSetAll m (e :: rest) = mapSetAll (mapSet m e.1 e.2) rest := rfl
    simp only [List.map_cons, List.mem_cons, not_or] at hk
    rw [this, ih _ _ hk.2, lookup_mapSet, if_neg hk.1]

theorem lookup_mapSetAll_mem {α : Type} (entries : List (String × α)) :
    (entries.map Prod.fst).Nodup → ∀ (m : List (String × α)) (k : String) (v : α),
      (k, v) ∈ entries → (mapSetAll m entries).lookup k = some v := by
  induction entries with
  | nil => intro _ m k v h; simp at h
  | cons e rest ih =>
    intro hn m k v h
    have : mapSetAll m (e :: rest) = mapSetAll (mapSet m e.1 e.2) rest := rfl
    simp only [List.map_cons, List.nodup_cons] at hn
    simp only [List.mem_cons] at h
    rw [this]
    rcases h with h | h
    · subst h
      rw [lookup_mapSetAll_not_mem _ _ _ hn.1, lookup_mapSet, if_pos rfl]
    · exact ih hn.2 _ k v h

theorem string_append_cancel (a b c : String) (h : a ++ b = a ++ c) : b = c := by
  apply string_ext_data
  have := congrArg String.data h
  simpa [String.data_append] using this

theorem checksumEntries_nodup (L : LocalFiles) (file : indexFile) (exts : List String)
    (h : exts.Nodup) : ((checksumEntries L file exts).map Prod.fst).Nodup := by
  unfold checksumEntries
  rw [List.map_map]
  exact h.map fun a b hab => string_append_cancel file.relativePath a b hab

theorem recordedVariants_nodup (files : indexFiles) (file : indexFile) :
    (recordedVariants files file).Nodup := by
  unfold recordedVariants uploadedVariants
  cases file.compressable <;> cases file.onlyGzip <;> cases files.skipBz2 <;> decide

theorem recordedVariants_cases (files : indexFiles) (file : indexFile) (ext : String)
    (h : ext ∈ recordedVariants files file) :
    (file.compressable = true ∧ file.onlyGzip = true ∧ ext = "") ∨
      ext ∈ uploadedVariants files file := by
  unfold recordedVariants at h
  split_ifs at h with hg
  · simp only [List.mem_cons, List.mem_singleton, List.not_mem_nil, or_false] at h
    rcases h with rfl | rfl
    · exact Or.inl ⟨hg.1, hg.2, rfl⟩
    · right
      simp [uploadedVariants, hg.1, hg.2]
  · exact Or.inr h

/-- C28, amended: a successful `Finalize` of a skipped index file records nothing. Of any
other index file it records, for each variant whose checksums it takes, the relative path of
the variant with the checksums of its local file `tempFilename+ext`; each of these variants
was uploaded by `Finalize`, from that local file, but for the plain file of a gzip-only
index file, which is recorded and not uploaded. -/
theorem C28_recorded_checksums {σ : Type} (S : PublishedStorage σ) (L : LocalFiles)
    (hashOrder : String → List String) (signer : Option Signer) (files : indexFiles)
    (file : indexFile) (st : σ)
    (hok : (file.Finalize S L hashOrder signer files st).err = none) :
    (isSkipped file = true →
      (file.Finalize S L hashOrder signer files st).files.generatedFiles =
        files.generatedFiles) ∧
    (isSkipped file = false →
      (file.Finalize S L hashOrder signer files st).files.generatedFiles =
        mapSetAll files.generatedFiles
          (checksumEntries L (finalizeFile L files file) (recordedVariants files file)) ∧
      ∀ ext ∈ recordedVariants files file,
        L.ChecksumsForFile ((finalizeFile L files file).tempFilename ++ ext) =
          Except.ok (sumsOf L ((finalizeFile L files file).tempFilename ++ ext)) ∧
        (file.Finalize S L hashOrder signer files st).files.generatedFiles.lookup
            (file.relativePath ++ ext) =
          some (sumsOf L ((finalizeFile L files file).tempFilename ++ ext)) ∧
        ((file.compressable = true ∧ file.onlyGzip = true ∧ ext = "") ∨
          variantUpload files (finalizeFile L files file) ext ∈
            (file.Finalize S L hashOrder signer files st).calls)) := by
  refine ⟨fun hsk => ?_, fun hsk => ?_⟩
  · rw [(Finalize_skipped S L hashOrder signer files file st hsk).2.2.1]
  · obtain ⟨h1, _, h3, h4, _⟩ := Finalize_ok S L hashOrder signer files file st hsk hok
    refine ⟨h3, fun ext hext => ⟨h4 ext hext, ?_, ?_⟩⟩
    · rw [h3]
      apply lookup_mapSetAll_mem _
        (checksumEntries_nodup L _ _ (recordedVariants_nodup files file))
      unfold checksumEntries
      rw [finalizeFile_relativePath]
      exact List.mem_map.2 ⟨ext, hext, rfl⟩
    · rcases recordedVariants_cases files file ext hext with h | h
      · exact Or.inl h
      · right
        have hmem : variantUpload files (finalizeFile L files file) ext ∈
            (file.Finalize S L hashOrder signer files st).calls.filter isPutFile := by
          rw [h1]
          exact List.mem_append_left _ (List.mem_map.2 ⟨ext, h, rfl⟩)
        exact (List.mem_filter.1 hmem).1

theorem C28_recorded_checksums_witness :
    (packagesFile.Finalize localStorage (localFilesOf "a") literalOrder none freshFiles
      []).err = none ∧
    isSkipped packagesFile = false ∧
    (packagesFile.Finalize localStorage (localFilesOf "a") literalOrder none freshFiles
      []).files.generatedFiles.map Prod.fst =
      ["main/binary-i386/Packages", "main/binary-i386/Packages.gz",
        "main/binary-i386/Packages.bz2"] ∧
    ((packagesFile.Finalize localStorage (localFilesOf "a") literalOrder none freshFiles
        []).files.generatedFiles =
      mapSetAll freshFiles.generatedFiles
        (checksumEntries (localFilesOf "a")
          (finalizeFile (localFilesOf "a") freshFiles packagesFile)
          (recordedVariants freshFiles packagesFile)) ∧
    ∀ ext ∈ recordedVariants freshFiles packagesFile,
      (localFilesOf "a").ChecksumsForFile
          ((finalizeFile (localFilesOf "a") freshFiles packagesFile).tempFilename ++ ext) =
        Except.ok (sumsOf (localFilesOf "a")
          ((finalizeFile (localFilesOf "a") freshFiles packagesFile).tempFilename ++ ext)) ∧
      (packagesFile.Finalize localStorage (localFilesOf "a") literalOrder none freshFiles
          []).files.generatedFiles.lookup (packagesFile.relativePath ++ ext) =
        some (sumsOf (localFilesOf "a")
          ((finalizeFile (localFilesOf "a") freshFiles packagesFile).tempFilename ++ ext)) ∧
      ((packagesFile.compressable = true ∧ packagesFile.onlyGzip = true ∧ ext = "") ∨
        variantUpload freshFiles (finalizeFile (localFilesOf "a") freshFiles packagesFile)
            ext ∈
          (packagesFile.Finalize localStorage (localFilesOf "a") literalOrder none freshFiles
            []).calls)) :=
  ⟨by decide, by decide, by decide,
    (C28_recorded_checksums localStorage (localFilesOf "a") literalOrder none freshFiles
      packagesFile [] (by decide)).2 (by decide)⟩

/-- C28, refuted as worded: the contents index of `main` for `i386` is gzip-only. Its
successful `Finalize` records the checksums of the plain path `main/Contents-i386` and of
`main/Contents-i386.gz`, and uploads the `.gz` file alone; after `RenameFiles` the storage
holds `Contents-i386.gz` under the base path and no `Contents-i386`. -/
theorem C28_gzip_only_plain_path_recorded :
    contentsFinalized.err = none ∧
    contentsFinalized.files.generatedFiles.map Prod.fst =
      ["main/Contents-i386", "main/Contents-i386.gz"] ∧
    contentsFinalized.calls.filter isPutFile =
      [StorageCall.PutFile "dists/squeeze/main/Contents-i386.tmp.gz"
        "/tmp/aptly/main_Contents-i386.gz"] ∧
    (contentsFinalized.files.RenameFiles localStorage
      (contentsFinalized.files.renameMap.map Prod.fst) contentsFinalized.state).value = none ∧
    (contentsFinalized.files.RenameFiles localStorage
      (contentsFinalized.files.renameMap.map Prod.fst) contentsFinalized.state).state =
      [("dists/squeeze/main/Contents-i386.gz",
        StoredEntry.file "/tmp/aptly/main_Contents-i386.gz")] ∧
    (contentsFinalized.files.RenameFiles localStorage
      (contentsFinalized.files.renameMap.map Prod.fst)
      contentsFinalized.state).state.lookup "dists/squeeze/main/Contents-i386" = none := by
  decide

/-! ## Keys of lists and index files, fatal errors and source fields -/

theorem mem_mapSet {α : Type} (m : List (String × α)) (k : String) (v : α)
    (e : String × α) (h : e ∈ mapSet m k v) : e ∈ m ∨ e = (k, v) := by
  unfold mapSet at h
  split at h
  · obtain ⟨x, hx, hxe⟩ := List.mem_map.1 h
    split_ifs at hxe
    · exact Or.inr hxe.symm
    · exact Or.inl (hxe ▸ hx)
  · rcases List.mem_append.1 h with h1 | h1
    · exact Or.inl h1
    · exact Or.inr (List.mem_singleton.1 h1)

theorem mem_mapDelete {α : Type} (m : List (String × α)) (k : String)
    (e : String × α) (h : e ∈ mapDelete m k) : e ∈ m := by
  unfold mapDelete at h
  exact List.mem_of_mem_filter h

theorem appendLoop_mem (P : String × Package → Prop) :
    ∀ (pl m : List (String × Package)), (∀ e ∈ pl, P e) → (∀ e ∈ m, P e) →
      ∀ e ∈ (appendLoop m pl).1, P e := by
  intro pl
  induction pl with
  | nil => intro m _ hm; simpa [appendLoop] using hm
  | cons x rest ih =>
    intro m hpl hm
    obtain ⟨k, p⟩ := x
    simp only [appendLoop]
    split
    · split_ifs
      · exact hm
      · exact ih m (fun e he => hpl e (List.mem_cons_of_mem _ he)) hm
    · refine ih _ (fun e he => hpl e (List.mem_cons_of_mem _ he)) ?_
      intro e he
      rcases mem_mapSet _ _ _ _ he with h1 | h1
      · exact hm e h1
      · rw [h1]; exact hpl (k, p) (List.mem_cons_self _ _)

/-- A new list stores every entry under its own key, and `Add`, `Remove` and `Append` keep it
so, `Append` for an argument list of the same mode (with or without duplicates) whose
entries are stored under their own keys. -/
theorem OwnKeyed_preserved (E : Externals) (l pl : PackageList) (p : Package)
    (duplicates : Bool) (capacity : Nat) (hl : OwnKeyed l) (hpl : OwnKeyed pl)
    (hmode : pl.duplicatesAllowed = l.duplicatesAllowed) :
    OwnKeyed (NewPackageListWithDuplicates duplicates capacity) ∧
      OwnKeyed (l.Add E p).1 ∧ OwnKeyed (l.Remove E p) ∧ OwnKeyed (l.Append pl).1 := by
  refine ⟨?_, ?_, ?_, ?_⟩
  · intro e he
    simp [NewPackageListWithDuplicates] at he
  · intro e he
    rw [keyFunc_congr (Add_duplicatesAllowed E l p)]
    rw [Add_packages] at he
    split at he
    · rcases mem_mapSet _ _ _ _ he with h1 | h1
      · exact hl e h1
      · rw [h1]
    · exact hl e he
  · intro e he
    rw [keyFunc_congr (Remove_duplicatesAllowed E l p)]
    rw [Remove_packages] at he
    exact hl e (mem_mapDelete _ _ _ he)
  · intro e he
    rw [keyFunc_congr (Append_duplicatesAllowed l pl)]
    unfold PackageList.Append at he
    split at he
    · exact hl e he
    · refine appendLoop_mem (fun e => e.1 = l.keyFunc e.2) pl.packages l.packages ?_ hl e he
      intro x hx
      rw [hpl x hx]
      exact keyFunc_congr hmode x.2

/-- The list of the package `app`, the package `lib` and the list of `app` itself as the
argument of `Append`. -/
theorem OwnKeyed_preserved_example :
    OwnKeyed listApp ∧
      (OwnKeyed (NewPackageListWithDuplicates false 0) ∧
        OwnKeyed (listApp.Add debExternals pkgLib).1 ∧
        OwnKeyed (listApp.Remove debExternals pkgLib) ∧ OwnKeyed (listApp.Append listApp).1) :=
  ⟨by decide, OwnKeyed_preserved debExternals listApp listApp pkgLib false 0
    (by decide) (by decide) rfl⟩

/-- C38 fails on the code: `Append` stores the entries under the keys they have in the other
list. Appending a list with duplicates, whose entries are under full keys, to a new list
without duplicates succeeds and stores the package under its full key, which is not the
short key the list assigns to it: `Has` does not find the package in the list that holds
it, and `Add` of the same package enters it a second time. -/
theorem C38_append_keeps_foreign_key :
    OwnKeyed NewPackageList ∧ OwnKeyed listAppFullKey ∧
      (NewPackageList.Append listAppFullKey).2 = none ∧
      ¬ OwnKeyed (NewPackageList.Append listAppFullKey).1 ∧
      (NewPackageList.Append listAppFullKey).1.packages.map Prod.snd = [pkgAppKeyed] ∧
      (NewPackageList.Append listAppFullKey).1.Has pkgAppKeyed = false ∧
      ((NewPackageList.Append listAppFullKey).1.Add debExternals pkgAppKeyed).2 = none ∧
      ((NewPackageList.Append listAppFullKey).1.Add debExternals pkgAppKeyed).1.packages =
        [("Pi386 app 1.1~bp1 00000abc", pkgAppKeyed), ("Pi386 app 1.1~bp1", pkgAppKeyed)] := by
  decide

/-- C32: for every error, `Fatal` panics with a `FatalError` whose message is the text of
the error and whose return code is 2 exactly when the error is the flag error or the command
error of the command line, and 1 exactly when it is neither. -/
theorem C32_fatal_return_code {ε : Type} [DecidableEq ε] (Error : ε → String)
    (ErrFlagError ErrCommandError err : ε) :
    ∃ fatal : FatalError, Fatal Error ErrFlagError ErrCommandError err = Except.error fatal ∧
      fatal.Message = Error err ∧
      (fatal.ReturnCode = 2 ↔ (err = ErrFlagError ∨ err = ErrCommandError)) ∧
      (fatal.ReturnCode = 1 ↔ ¬ (err = ErrFlagError ∨ err = ErrCommandError)) := by
  refine ⟨_, rfl, rfl, ?_, ?_⟩
  · by_cases h : err = ErrFlagError ∨ err = ErrCommandError <;> simp [h]
  · by_cases h : err = ErrFlagError ∨ err = ErrCommandError <;> simp [h]

/-- C39 fails on the code: the key of `PackageIndex` joins component and architecture with
`-`, so after the request for component `main` and architecture `kfreebsd-amd64` the request
for component `main-kfreebsd` and architecture `amd64` finds that key, returns the file of
the first pair and enters no file of its own, whereas on a fresh set it gets its own
file. -/
theorem C39_package_index_key_collision :
    (filesKfreebsd.PackageIndex "main-kfreebsd" "amd64" false false "squeeze").1 =
        (freshFiles.PackageIndex "main" "kfreebsd-amd64" false false "squeeze").1 ∧
      (filesKfreebsd.PackageIndex "main-kfreebsd" "amd64" false false "squeeze").2 =
        filesKfreebsd ∧
      (filesKfreebsd.PackageIndex "main-kfreebsd" "amd64" false false "squeeze").1.relativePath =
        "main/binary-kfreebsd-amd64/Packages" ∧
      (freshFiles.PackageIndex "main-kfreebsd" "amd64" false false
        "squeeze").1.relativePath = "main-kfreebsd/binary-amd64/Packages" ∧
      filesKfreebsd.indexes.map Prod.fst = ["pi-main-kfreebsd-amd64-false-false"] := by
  decide

/-- C40 fails on the code: for the binary package with `Source: foo ( 1.0 )` the pattern
matches with the groups `foo` and ` 1.0 `, blanks included, and `Filter` queries the source
package `foo` in version ` 1.0 `, whereas `GetField` trims the text between the
parentheses and gives the source version `1.0`. -/
theorem C40_source_version_not_trimmed :
    pkgBlankSourceVersion.IsSource = false ∧
      SourceRegexFindStringSubmatch pkgBlankSourceVersion.Source = some ("foo", " 1.0 ") ∧
      sourceQueriesLoop [("Pi386 libfoo1 1.0-1", pkgBlankSourceVersion)] [] =
        Except.ok [{ Pkg := "foo", Version := " 1.0 ", Relation := VersionEqual,
                     Architecture := ArchitectureSource }] ∧
      pkgBlankSourceVersion.GetFieldSource = "foo" ∧
      pkgBlankSourceVersion.GetFieldSourceVersion = "1.0" := by
  decide

/-- C35, on the storage modelled from the contract: when the target of `LinkFromPool`
exists, the call succeeds and leaves the storage as it is if the target equals the pool file
under the verification method; if they differ and `force` is off it fails with `file already
exists and is different` and leaves the storage, and so the bytes of the target, as it is; if
they differ and `force` is on it succeeds and the target then holds the bytes of the pool
file. -/
theorem C35_link_from_pool_existing_target (verifyMethod : VerificationMethod)
    (storage pool : List (String × List Nat)) (publishPrefix publishRelDir fileName : String)
    (sourcePoolPath : String) (force : Bool) (existing poolFile : List Nat)
    (hpool : pool.lookup sourcePoolPath = some poolFile)
    (htarget : storage.lookup (filepathJoin [publishPrefix, publishRelDir, fileName]) =
      some existing) :
    (verifiedEqual verifyMethod existing poolFile = true →
        LinkFromPool verifyMethod storage publishPrefix publishRelDir fileName pool
          sourcePoolPath force = (storage, none)) ∧
      (verifiedEqual verifyMethod existing poolFile = false → force = false →
        ∃ msg, LinkFromPool verifyMethod storage publishPrefix publishRelDir fileName pool
            sourcePoolPath force = (storage, some msg) ∧
          endsWith msg "file already exists and is different") ∧
      (verifiedEqual verifyMethod existing poolFile = false → force = true →
        (LinkFromPool verifyMethod storage publishPrefix publishRelDir fileName pool
            sourcePoolPath force).2 = none ∧
          (LinkFromPool verifyMethod storage publishPrefix publishRelDir fileName pool
            sourcePoolPath force).1.lookup
              (filepathJoin [publishPrefix, publishRelDir, fileName]) = some poolFile ∧
          ∀ path, path ≠ filepathJoin [publishPrefix, publishRelDir, fileName] →
            (LinkFromPool verifyMethod storage publishPrefix publishRelDir fileName pool
              sourcePoolPath force).1.lookup path = storage.lookup path) := by
  refine ⟨?_, ?_, ?_⟩
  · intro h
    simp only [LinkFromPool, hpool, htarget, h, if_true]
  · intro h hf
    refine ⟨"error linking file to " ++ filepathJoin [publishPrefix, publishRelDir, fileName] ++
      ": file already exists and is different", ?_, ?_⟩
    · simp only [LinkFromPool, hpool, htarget, h, hf, Bool.not_false, if_true]
      rfl
    · refine ⟨("error linking file to " ++
        filepathJoin [publishPrefix, publishRelDir, fileName]).data ++ [':', ' '], ?_⟩
      simp only [String.data_append, List.append_assoc]
      rfl
  · intro h hf
    simp only [LinkFromPool, hpool, htarget, h, hf, Bool.not_true]
    refine ⟨rfl, ?_, ?_⟩
    · simp [lookup_mapSet]
    · intro path hp
      simp [lookup_mapSet, hp]

/-- Witness of C35: the conflict of the test of `LinkFromPool`, the target holding
`Contents` and the pool file `Spam`, without `force` and with it. -/
theorem C35_link_from_pool_existing_target_witness :
    (poolMars.lookup "e9/dc/mars-invaders_1.03.deb" = some bytesSpam ∧
      storageMars.lookup (filepathJoin ["", "pool/main/m/mars-invaders",
        "mars-invaders_1.03.deb"]) = some bytesContents ∧
      verifiedEqual VerificationMethod.VerificationMethodChecksum bytesContents bytesSpam =
        false) ∧
      (∃ msg, LinkFromPool VerificationMethod.VerificationMethodChecksum storageMars ""
          "pool/main/m/mars-invaders" "mars-invaders_1.03.deb" poolMars
          "e9/dc/mars-invaders_1.03.deb" false = (storageMars, some msg) ∧
        endsWith msg "file already exists and is different") :=
  ⟨by decide, (C35_link_from_pool_existing_target
    VerificationMethod.VerificationMethodChecksum storageMars poolMars ""
    "pool/main/m/mars-invaders" "mars-invaders_1.03.deb" "e9/dc/mars-invaders_1.03.deb" false
    bytesContents bytesSpam (by decide) (by decide)).2.1 (by decide) rfl⟩

theorem storageContentsX_published :
    publishContents "amd64" "x" (publishContents "i386" "x" []) = storageContentsX := by
  decide

theorem storageContentsXQ_published :
    publishContents "i386" "q" storageContentsX = storageContentsXQ := by
  decide

theorem storageContentsXQ_republished :
    publishContents "amd64" "x" storageContentsXQ = storageContentsXQ := by
  decide

/-- C31 fails on the code: the contents indexes of `i386` and `amd64` share the directory
`main/by-hash`. Both are published with the content `x`, then `i386` with the content `q`
and `amd64` again with `x`. In the next publication `Finalize` of `amd64`, still with the
content `x`, succeeds and finds its digest file; `Finalize` of `i386` with the content `r`
succeeds as well, and its rotation removes `by-hash/SHA256/sha256-x.gz`, the file its old
link points to: the digest file of the current `Contents-amd64.gz` is gone. -/
theorem C31_rotation_removes_current_digest :
    publishContents "amd64" "x" (publishContents "i386" "x" []) = storageContentsX ∧
    publishContents "i386" "q" storageContentsX = storageContentsXQ ∧
    publishContents "amd64" "x" storageContentsXQ = storageContentsXQ ∧
    (finalizeContents "amd64" "x" storageContentsXQ).err = none ∧
    ((finalizeContents "amd64" "x" storageContentsXQ).files.generatedFiles.lookup
        "main/Contents-amd64.gz").map (fun sums => sums.SHA256) = some "sha256-x.gz" ∧
    storageContentsXQ.lookup "dists/squeeze/main/by-hash/SHA256/sha256-x.gz" =
      some (StoredEntry.file "/tmp/x/main_Contents-i386.gz") ∧
    (finalizeContents "i386" "r" storageContentsXQ).err = none ∧
    StorageCall.Remove "dists/squeeze/main/by-hash/SHA256/sha256-x.gz" ∈
      (finalizeContents "i386" "r" storageContentsXQ).calls ∧
    (finalizeContents "i386" "r" storageContentsXQ).state.lookup
      "dists/squeeze/main/by-hash/SHA256/sha256-x.gz" = none ∧
    (publishContents "i386" "r" storageContentsXQ).lookup
      "dists/squeeze/main/by-hash/SHA256/sha256-x.gz" = none ∧
    (publishContents "i386" "r" storageContentsXQ).lookup
      "dists/squeeze/main/Contents-amd64.gz" =
      some (StoredEntry.file "/tmp/x/main_Contents-amd64.gz") :=
  ⟨storageContentsX_published, storageContentsXQ_published, storageContentsXQ_republished,
    by decide, by decide, by decide, by decide, by decide, by decide, by decide, by decide⟩

/-- C37 as stated fails: the two lists hold the same packages, added in different orders,
and `Filter` for `webmail` with its dependencies returns `webmail` with `mailer` on the one
and `webmail` with `exim4` on the other: of the providers of `mail-agent` it takes the first
of the provides index, which keeps the order of the additions. -/
theorem C37_result_depends_on_insertion_order :
    listMailerFirst.packages.Perm listEximFirst.packages ∧
      listMailerFirst.indexed = true ∧ listEximFirst.indexed = true ∧
      filteredPackages listMailerFirst optionsWebmailDeps 3 = [pkgWebmail, pkgMailer] ∧
      filteredPackages listEximFirst optionsWebmailDeps 3 = [pkgWebmail, pkgExim] ∧
      pkgMailer ∉ filteredPackages listEximFirst optionsWebmailDeps 3 := by
  decide

theorem appendLoop_mono :
    ∀ (pl m : List (String × Package)) (e : String × Package), e ∈ m →
      e ∈ (appendLoop m pl).1 := by
  intro pl
  induction pl with
  | nil => intro m e he; simpa [appendLoop] using he
  | cons x rest ih =>
    intro m e he
    obtain ⟨k, p⟩ := x
    simp only [appendLoop]
    split
    · split_ifs
      · exact he
      · exact ih m e he
    · next hnone =>
      apply ih
      rw [mapSet_absent _ _ _ hnone]
      exact List.mem_append_left _ he

theorem Append_entries_iff (l r pl : PackageList) (hr : PartOf l r)
    (hpl : ∀ e ∈ pl.packages, l.packages.lookup e.1 = some e.2) (e : String × Package) :
    e ∈ (r.Append pl).1.packages ↔ e ∈ r.packages ∨ e ∈ pl.packages := by
  have hc := Append_complete l r pl hr hpl
  unfold PackageList.Append at hc ⊢
  rw [hr.unindexed] at hc ⊢
  simp only [Bool.false_eq_true, if_false] at hc ⊢
  constructor
  · intro he
    exact appendLoop_mem (fun e => e ∈ r.packages ∨ e ∈ pl.packages) pl.packages r.packages
      (fun x hx => Or.inr hx) (fun x hx => Or.inl hx) e he
  · rintro (he | he)
    · exact appendLoop_mono _ _ e he
    · exact lookup_some_mem _ _ _ (hc.2 e he)

theorem foldl_Append_entries_iff (l : PackageList) {α : Type} (f : α → PackageList) :
    ∀ (xs : List α) (r : PackageList), PartOf l r →
      (∀ x ∈ xs, ∀ e ∈ (f x).packages, l.packages.lookup e.1 = some e.2) →
      ∀ e, e ∈ (xs.foldl (fun r x => (r.Append (f x)).1) r).packages ↔
        e ∈ r.packages ∨ ∃ x ∈ xs, e ∈ (f x).packages := by
  intro xs
  induction xs with
  | nil => intro r _ _ e; simp
  | cons x rest ih =>
    intro r hr hxs e
    rw [List.foldl_cons]
    have hx := hxs x (List.mem_cons_self _ _)
    rw [ih _ (PartOf_Append l r (f x) hr hx) (fun y hy => hxs y (List.mem_cons_of_mem _ hy)),
      Append_entries_iff l r (f x) hr hx]
    simp only [List.mem_cons, exists_eq_or_imp]
    tauto

theorem sourceQueriesLoop_mem_only :
    ∀ (entries : List (String × Package)) (acc qs : List Dependency),
      sourceQueriesLoop entries acc = Except.ok qs →
      ∀ d ∈ qs, d ∈ acc ∨ ∃ e ∈ entries, e.2.Source ≠ "" ∧ ∃ name version,
        SourceRegexFindStringSubmatch e.2.Source = some (name, version) ∧
        name ≠ e.2.Name ∧ d = sourceDependency e.2 name version := by
  intro entries
  induction entries with
  | nil =>
    intro acc qs h d hd
    simp only [sourceQueriesLoop, Except.ok.injEq] at h
    subst h
    exact Or.inl hd
  | cons e rest ih =>
    intro acc qs h d hd
    obtain ⟨k, pkg⟩ := e
    simp only [sourceQueriesLoop] at h
    have hlift : (d ∈ acc ∨ ∃ e ∈ rest, e.2.Source ≠ "" ∧ ∃ name version,
        SourceRegexFindStringSubmatch e.2.Source = some (name, version) ∧
        name ≠ e.2.Name ∧ d = sourceDependency e.2 name version) →
        d ∈ acc ∨ ∃ e ∈ (k, pkg) :: rest, e.2.Source ≠ "" ∧ ∃ name version,
        SourceRegexFindStringSubmatch e.2.Source = some (name, version) ∧
        name ≠ e.2.Name ∧ d = sourceDependency e.2 name version := by
      rintro (h1 | ⟨e, he, h2⟩)
      · exact Or.inl h1
      · exact Or.inr ⟨e, List.mem_cons_of_mem _ he, h2⟩
    split_ifs at h with hsrc
    · exact hlift (ih acc qs h d hd)
    · split at h
      · cases h
      · next sourceName version hmatch =>
        by_cases hname : sourceName = pkg.Name
        · rw [if_pos hname] at h
          exact hlift (ih acc qs h d hd)
        · rw [if_neg hname] at h
          rcases ih _ qs h d hd with h1 | h1
          · rcases List.mem_append.1 h1 with h2 | h2
            · exact Or.inl h2
            · refine Or.inr ⟨(k, pkg), List.mem_cons_self _ _, hsrc, sourceName, version,
                hmatch, hname, ?_⟩
              rw [List.mem_singleton.1 h2]
              rfl
          · exact hlift (Or.inr h1)

theorem sourceQueries_congr (entries1 entries2 : List (String × Package))
    (h : ∀ e, e ∈ entries1 ↔ e ∈ entries2) (qs1 qs2 : List Dependency)
    (h1 : sourceQueriesLoop entries1 [] = Except.ok qs1)
    (h2 : sourceQueriesLoop entries2 [] = Except.ok qs2) (d : Dependency) :
    d ∈ qs1 ↔ d ∈ qs2 := by
  constructor
  · intro hd
    rcases sourceQueriesLoop_mem_only entries1 [] qs1 h1 d hd with h3 | ⟨e, he, hs, n, v, hm, hn, hdd⟩
    · simp at h3
    · rw [hdd]
      exact (sourceQueriesLoop_mem entries2 [] qs2 h2).2 e ((h e).1 he) hs n v hm hn
  · intro hd
    rcases sourceQueriesLoop_mem_only entries2 [] qs2 h2 d hd with h3 | ⟨e, he, hs, n, v, hm, hn, hdd⟩
    · simp at h3
    · rw [hdd]
      exact (sourceQueriesLoop_mem entries1 [] qs1 h1).2 e ((h e).2 he) hs n v hm hn

theorem Filter_without_dependencies (E : Externals)
    (DependencyQuery : Dependency → PackageQuery) (l : PackageList) (options : FilterOptions)
    (fuel : Nat) (hl : l.indexed = true) (hdeps : options.WithDependencies = false) :
    l.Filter E DependencyQuery options fuel =
      if options.WithSources then
        match sourceQueriesLoop (queryResult l options).packages [] with
        | Except.error f => some (Except.error f)
        | Except.ok qs => some (Except.ok (qs.foldl
            (fun r dep => (r.Append (DependencyQuery dep l)).1) (queryResult l options)))
      else some (Except.ok (queryResult l options)) := by
  unfold PackageList.Filter queryResult
  simp only [hl, hdeps, Bool.not_true, Bool.false_eq_true, if_false]
  by_cases hws : options.WithSources = true
  · simp only [hws, if_true]
    cases sourceQueriesLoop (List.foldl (fun r query => (r.Append (query l)).1)
      NewPackageList options.Queries).packages [] <;> rfl
  · simp only [hws, if_false, Bool.false_eq_true]

/-- C37 (amended): without `WithDependencies`, `Filter` returns the same entries on two
indexed lists, whatever the order of their packages, when every query of the options, and
every dependency query for a source package, returns entries of the list it is run on and
returns the same entries on both lists: either both calls return a list, and the two lists
hold the same entries, or both fail (on an invalid `Source` field). -/
theorem C37_filter_without_dependencies (E : Externals)
    (DependencyQuery : Dependency → PackageQuery) (l1 l2 : PackageList)
    (options : FilterOptions) (fuel1 fuel2 : Nat)
    (hl1 : l1.indexed = true) (hl2 : l2.indexed = true)
    (hdeps : options.WithDependencies = false)
    (hq1 : ∀ query ∈ options.Queries, QueryWithin l1 query)
    (hq2 : ∀ query ∈ options.Queries, QueryWithin l2 query)
    (hqsame : ∀ query ∈ options.Queries, ∀ e,
      e ∈ (query l1).packages ↔ e ∈ (query l2).packages)
    (hd1 : ∀ dep ∈ sourceQueriesOf l1 options, QueryWithin l1 (DependencyQuery dep))
    (hd2 : ∀ dep ∈ sourceQueriesOf l2 options, QueryWithin l2 (DependencyQuery dep))
    (hdsame : ∀ dep ∈ sourceQueriesOf l1 options, ∀ e,
      e ∈ (DependencyQuery dep l1).packages ↔ e ∈ (DependencyQuery dep l2).packages) :
    (∃ R1 R2, l1.Filter E DependencyQuery options fuel1 = some (Except.ok R1) ∧
        l2.Filter E DependencyQuery options fuel2 = some (Except.ok R2) ∧
        ∀ e, e ∈ R1.packages ↔ e ∈ R2.packages) ∨
      ∃ f1 f2, l1.Filter E DependencyQuery options fuel1 = some (Except.error f1) ∧
        l2.Filter E DependencyQuery options fuel2 = some (Except.error f2) := by
  rw [Filter_without_dependencies E DependencyQuery l1 options fuel1 hl1 hdeps,
    Filter_without_dependencies E DependencyQuery l2 options fuel2 hl2 hdeps]
  have hp1 : PartOf l1 (queryResult l1 options) :=
    @PartOf_foldl l1 PackageQuery (fun query => query l1) options.Queries NewPackageList
      (PartOf_new l1) (fun query hquery => hq1 query hquery)
  have hp2 : PartOf l2 (queryResult l2 options) :=
    @PartOf_foldl l2 PackageQuery (fun query => query l2) options.Queries NewPackageList
      (PartOf_new l2) (fun query hquery => hq2 query hquery)
  have hnew : ∀ e : String × Package, e ∉ NewPackageList.packages := by
    intro e he
    simp [NewPackageList, NewPackageListWithDuplicates] at he
  have hr : ∀ e, e ∈ (queryResult l1 options).packages ↔
      e ∈ (queryResult l2 options).packages := by
    intro e
    unfold queryResult
    rw [@foldl_Append_entries_iff l1 PackageQuery (fun query => query l1) options.Queries
        NewPackageList (PartOf_new l1) (fun query hquery => hq1 query hquery) e,
      @foldl_Append_entries_iff l2 PackageQuery (fun query => query l2) options.Queries
        NewPackageList (PartOf_new l2) (fun query hquery => hq2 query hquery) e]
    constructor
    · rintro (h | ⟨q, hq, he⟩)
      · exact absurd h (hnew e)
      · exact Or.inr ⟨q, hq, (hqsame q hq e).1 he⟩
    · rintro (h | ⟨q, hq, he⟩)
      · exact absurd h (hnew e)
      · exact Or.inr ⟨q, hq, (hqsame q hq e).2 he⟩
  by_cases hws : options.WithSources = true
  · simp only [hws, if_true]
    cases hsq1 : sourceQueriesLoop (queryResult l1 options).packages [] with
    | error f1 =>
      cases hsq2 : sourceQueriesLoop (queryResult l2 options).packages [] with
      | error f2 => exact Or.inr ⟨f1, f2, rfl, rfl⟩
      | ok qs2 =>
        exfalso
        obtain ⟨e, he, hsrc, hnone⟩ := (sourceQueriesLoop_error_iff _ []).1 ⟨f1, hsq1⟩
        obtain ⟨f2, hf2⟩ := (sourceQueriesLoop_error_iff _ []).2
          ⟨e, (hr e).1 he, hsrc, hnone⟩
        rw [hsq2] at hf2
        cases hf2
    | ok qs1 =>
      cases hsq2 : sourceQueriesLoop (queryResult l2 options).packages [] with
      | error f2 =>
        exfalso
        obtain ⟨e, he, hsrc, hnone⟩ := (sourceQueriesLoop_error_iff _ []).1 ⟨f2, hsq2⟩
        obtain ⟨f1, hf1⟩ := (sourceQueriesLoop_error_iff _ []).2
          ⟨e, (hr e).2 he, hsrc, hnone⟩
        rw [hsq1] at hf1
        cases hf1
      | ok qs2 =>
        refine Or.inl ⟨_, _, rfl, rfl, ?_⟩
        have hqs1 : sourceQueriesOf l1 options = qs1 := by simp [sourceQueriesOf, hsq1]
        have hqs2 : sourceQueriesOf l2 options = qs2 := by simp [sourceQueriesOf, hsq2]
        rw [hqs1] at hd1 hdsame
        rw [hqs2] at hd2
        have hqs := sourceQueries_congr _ _ hr qs1 qs2 hsq1 hsq2
        intro e
        rw [@foldl_Append_entries_iff l1 Dependency (fun dep => DependencyQuery dep l1) qs1
            (queryResult l1 options) hp1 (fun dep hdep => hd1 dep hdep) e,
          @foldl_Append_entries_iff l2 Dependency (fun dep => DependencyQuery dep l2) qs2
            (queryResult l2 options) hp2 (fun dep hdep => hd2 dep hdep) e]
        constructor
        · rintro (h | ⟨d, hd, he⟩)
          · exact Or.inl ((hr e).1 h)
          · exact Or.inr ⟨d, (hqs d).1 hd, (hdsame d hd e).1 he⟩
        · rintro (h | ⟨d, hd, he⟩)
          · exact Or.inl ((hr e).2 h)
          · exact Or.inr ⟨d, (hqs d).2 hd, (hdsame d ((hqs d).2 hd) e).2 he⟩
  · simp only [hws, if_false, Bool.false_eq_true]
    exact Or.inl ⟨_, _, rfl, rfl, hr⟩

/-- Witness of C37: the two lists that hold `webmail`, `mailer` and `exim4` in different
orders, and the query for `mail-agent` with source packages. -/
theorem C37_filter_without_dependencies_witness :
    (listMailerFirst.indexed = true ∧ listEximFirst.indexed = true ∧
      listMailerFirst.packages ≠ listEximFirst.packages ∧
      optionsMailAgentSources.WithDependencies = false ∧
      sourceQueriesOf listMailerFirst optionsMailAgentSources =
        [{ Pkg := "postfix", Version := "1.3", Relation := VersionEqual,
           Architecture := "source" }]) ∧
      ((∃ R1 R2, listMailerFirst.Filter debExternals DependencyQuery optionsMailAgentSources 0 =
            some (Except.ok R1) ∧
          listEximFirst.Filter debExternals DependencyQuery optionsMailAgentSources 0 =
            some (Except.ok R2) ∧
          ∀ e, e ∈ R1.packages ↔ e ∈ R2.packages) ∨
        ∃ f1 f2, listMailerFirst.Filter debExternals DependencyQuery optionsMailAgentSources 0 =
            some (Except.error f1) ∧
          listEximFirst.Filter debExternals DependencyQuery optionsMailAgentSources 0 =
            some (Except.error f2)) :=
  have hq1 : ∀ query ∈ optionsMailAgentSources.Queries, QueryWithin listMailerFirst query := by
    intro query hquery
    have : query = DependencyQuery { Pkg := "mail-agent" } := by
      simpa [optionsMailAgentSources] using hquery
    subst this
    unfold QueryWithin
    decide
  have hq2 : ∀ query ∈ optionsMailAgentSources.Queries, QueryWithin listEximFirst query := by
    intro query hquery
    have : query = DependencyQuery { Pkg := "mail-agent" } := by
      simpa [optionsMailAgentSources] using hquery
    subst this
    unfold QueryWithin
    decide
  have hqsame : ∀ query ∈ optionsMailAgentSources.Queries, ∀ e,
      e ∈ (query listMailerFirst).packages ↔ e ∈ (query listEximFirst).packages := by
    intro query hquery e
    have : query = DependencyQuery { Pkg := "mail-agent" } := by
      simpa [optionsMailAgentSources] using hquery
    subst this
    exact List.Perm.mem_iff (by decide)
  have hs1 : sourceQueriesOf listMailerFirst optionsMailAgentSources =
      [{ Pkg := "postfix", Version := "1.3", Relation := VersionEqual,
         Architecture := "source" }] := by decide
  have hd1 : ∀ dep ∈ sourceQueriesOf listMailerFirst optionsMailAgentSources,
      QueryWithin listMailerFirst (DependencyQuery dep) := by
    unfold QueryWithin
    decide
  have hd2 : ∀ dep ∈ sourceQueriesOf listEximFirst optionsMailAgentSources,
      QueryWithin listEximFirst (DependencyQuery dep) := by
    unfold QueryWithin
    decide
  have hdsame : ∀ dep ∈ sourceQueriesOf listMailerFirst optionsMailAgentSources, ∀ e,
      e ∈ (DependencyQuery dep listMailerFirst).packages ↔
        e ∈ (DependencyQuery dep listEximFirst).packages := by
    intro dep hdep e
    rw [hs1] at hdep
    rw [List.mem_singleton.1 hdep]
    exact List.Perm.mem_iff (by decide)
  ⟨⟨by decide, by decide, by decide, rfl, hs1⟩,
    C37_filter_without_dependencies debExternals DependencyQuery listMailerFirst listEximFirst
      optionsMailAgentSources 0 0 (by decide) (by decide) rfl hq1 hq2 hqsame hd1 hd2 hdsame⟩

/-- C36 fails on the code: the list holds one package, `top`, and its sorted vector still
holds `mid` and `leaf`, which `Remove` took from the map only. `Filter` for `top` with
its dependencies does not return within two passes of the dependency loop, the number of
packages plus one: the first pass adds `mid` and the second `leaf`, neither of them a
package of the list, and the third pass ends the loop. -/
theorem C36_stale_vector_adds_passes :
    listStale.indexed = true ∧ listStale.Len = 1 ∧
      listStale.packages.map Prod.snd = [pkgTop] ∧
      listStale.packagesIndex = [pkgLeaf, pkgMid, pkgTop] ∧
      listStale.Filter debExternals DependencyQuery optionsTopDeps 2 = none ∧
      filteredPackages listStale optionsTopDeps 3 = [pkgTop, pkgMid, pkgLeaf] := by
  decide

theorem countP_lt_of_mem {α : Type} (p q : α → Bool) :
    ∀ (xs : List α), (∀ x ∈ xs, p x = true → q x = true) →
      (∃ x ∈ xs, q x = true ∧ p x = false) → xs.countP p + 1 ≤ xs.countP q := by
  intro xs
  induction xs with
  | nil => intro _ h; simp at h
  | cons y ys ih =>
    intro hmono hex
    have hys : ∀ x ∈ ys, p x = true → q x = true :=
      fun x hx => hmono x (List.mem_cons_of_mem _ hx)
    obtain ⟨x, hx, hq, hp⟩ := hex
    rcases List.mem_cons.1 hx with h | h
    · subst h
      rw [List.countP_cons_of_pos _ _ hq, List.countP_cons_of_neg _ _ (by simp [hp])]
      exact Nat.succ_le_succ (List.countP_mono_left hys)
    · have := ih hys ⟨x, h, hq, hp⟩
      by_cases hpy : p y = true
      · rw [List.countP_cons_of_pos _ _ hpy,
          List.countP_cons_of_pos _ _ (hmono y (List.mem_cons_self _ _) hpy)]
        omega
      · rw [List.countP_cons_of_neg _ _ hpy]
        by_cases hqy : q y = true
        · rw [List.countP_cons_of_pos _ _ hqy]; omega
        · rw [List.countP_cons_of_neg _ _ hqy]; exact this

theorem Add_pending (E : Externals) (l result : PackageList) (p : Package)
    (hshort : result.duplicatesAllowed = false) (hhas : result.Has p = false)
    (hp : p ∈ l.packages.map Prod.snd) :
    pendingKeys l (result.Add E p).1 + 1 ≤ pendingKeys l result := by
  have hkey := keyFunc_short result hshort p
  have hnone : result.packages.lookup (packageShortKey p) = none := by
    unfold PackageList.Has at hhas
    rw [hkey] at hhas
    cases h : result.packages.lookup (packageShortKey p) with
    | none => rfl
    | some x => rw [h] at hhas; simp at hhas
  have hpk : (result.Add E p).1.packages = mapSet result.packages (packageShortKey p) p := by
    rw [Add_packages, hkey, hnone]
    simp
  unfold pendingKeys
  rw [hpk]
  apply countP_lt_of_mem
  · intro e _ he
    rw [lookup_mapSet] at he
    split_ifs at he with hk
    · simp at he
    · exact he
  · obtain ⟨e, he, hep⟩ := List.mem_map.1 hp
    refine ⟨e, he, ?_, ?_⟩
    · rw [hep, hnone]; rfl
    · rw [hep, lookup_mapSet, if_pos rfl]; rfl

theorem injectLoop_pending (E : Externals) (l : PackageList) (options : Nat) :
    ∀ (found : List Package) (st : FilterState), st.result.duplicatesAllowed = false →
      (∀ p ∈ found, p ∈ l.packages.map Prod.snd) →
      (injectLoop E options found st).result.duplicatesAllowed = false ∧
        pendingKeys l (injectLoop E options found st).result +
            (injectLoop E options found st).added ≤
          pendingKeys l st.result + st.added := by
  intro found
  induction found with
  | nil => intro st hs _; exact ⟨hs, Nat.le_refl _⟩
  | cons p rest ih =>
    intro st hs hfound
    have hrest : ∀ q ∈ rest, q ∈ l.packages.map Prod.snd :=
      fun q hq => hfound q (List.mem_cons_of_mem _ hq)
    simp only [injectLoop]
    by_cases hhas : st.result.Has p = true
    · simp only [hhas, if_true]
      exact ih st hs hrest
    · simp only [hhas, Bool.false_eq_true, if_false]
      have hadd := Add_pending E l st.result p hs (by simpa using hhas)
        (hfound p (List.mem_cons_self _ _))
      have hs2 : (st.result.Add E p).1.duplicatesAllowed = false := by
        rw [Add_duplicatesAllowed]; exact hs
      split_ifs
      · exact ⟨hs2, by simp only; omega⟩
      · obtain ⟨h1, h2⟩ := ih
          { result := (st.result.Add E p).1
            dependencySource := (st.dependencySource.Add E p).1
            added := st.added + 1 } hs2 hrest
        exact ⟨h1, by simp only at h2; omega⟩

theorem satisfyLoop_pending (E : Externals) (l : PackageList) (options : Nat)
    (hl : IndexConsistent E l) :
    ∀ (missing : List Dependency) (st st2 : FilterState),
      st.result.duplicatesAllowed = false →
      satisfyLoop E l options missing st = Except.ok st2 →
      st2.result.duplicatesAllowed = false ∧
        pendingKeys l st2.result + st2.added ≤ pendingKeys l st.result + st.added := by
  intro missing
  induction missing with
  | nil =>
    intro st st2 hs h
    simp only [satisfyLoop, Except.ok.injEq] at h
    subst h
    exact ⟨hs, Nat.le_refl _⟩
  | cons dep rest ih =>
    intro st st2 hs h
    simp only [satisfyLoop] at h
    split at h
    · cases h
    · exact ih st st2 hs h
    · rw [Search_indexed E l dep true true hl.indexed] at h
      simp only at h
      have hfound : ∀ p ∈ searchIndexed E l dep true true, p ∈ l.packages.map Prod.snd := by
        intro p hp
        rcases (searchIndexed_sound E l dep true true p hp).2 with h1 | h1
        · exact (hl.index_mem p).1 h1
        · exact ((hl.provides_mem _ p).1 h1).1
      obtain ⟨h1, h2⟩ := injectLoop_pending E l options _ st hs hfound
      obtain ⟨h3, h4⟩ := ih _ st2 h1 h
      exact ⟨h3, by omega⟩

theorem filterLoop_returns (E : Externals) (l : PackageList) (options : FilterOptions)
    (hl : IndexConsistent E l) :
    ∀ (fuel : Nat) (st : FilterState), st.result.duplicatesAllowed = false →
      (st.added = 0 ∨ pendingKeys l st.result + 1 ≤ fuel) →
      ∃ r, filterLoop E l options fuel st = some r := by
  intro fuel
  induction fuel with
  | zero =>
    intro st _ h
    have h0 : st.added = 0 := by omega
    simp [filterLoop, h0]
  | succ fuel ih =>
    intro st hs h
    simp only [filterLoop]
    by_cases hadded : st.added > 0
    · simp only [hadded, if_true]
      have hfst := VerifyDependencies_fst E st.result options.DependencyOptions
        options.Architectures st.dependencySource
      cases hv : st.result.VerifyDependencies E options.DependencyOptions
          options.Architectures st.dependencySource with
      | mk result outcome =>
        rw [hv] at hfst
        simp only at hfst
        cases outcome with
        | error f => exact ⟨_, rfl⟩
        | ok missing =>
          simp only
          cases hsat : satisfyLoop E l options.DependencyOptions missing
              { st with result := result, added := 0 } with
          | error f => exact ⟨_, rfl⟩
          | ok st2 =>
            simp only
            have hs1 : result.duplicatesAllowed = false := by
              rw [hfst, PrepareIndex_duplicatesAllowed]; exact hs
            obtain ⟨h1, h2⟩ := satisfyLoop_pending E l options.DependencyOptions hl missing
              { st with result := result, added := 0 } st2 hs1 hsat
            have hpend : pendingKeys l result = pendingKeys l st.result := by
              unfold pendingKeys
              rw [hfst, PrepareIndex_packages]
            simp only at h2
            apply ih st2 h1
            by_cases h0 : st2.added = 0
            · exact Or.inl h0
            · right; omega
    · simp only [hadded, if_false]
      exact ⟨_, rfl⟩

/-- On a list whose sorted vector and provides index agree with its contents, `Filter`
returns within as many passes of the dependency loop as the list has packages, plus one. -/
theorem Filter_returns (E : Externals) (DependencyQuery : Dependency → PackageQuery)
    (l : PackageList) (options : FilterOptions) (fuel : Nat) (hl : IndexConsistent E l)
    (hfuel : l.Len + 1 ≤ fuel) :
    ∃ r, l.Filter E DependencyQuery options fuel = some r := by
  unfold PackageList.Filter
  simp only [hl.indexed, Bool.not_true, Bool.false_eq_true, if_false]
  have hq : ∀ (qs : List PackageQuery) (r : PackageList), r.duplicatesAllowed = false →
      (qs.foldl (fun r query => (r.Append (query l)).1) r).duplicatesAllowed = false := by
    intro qs
    induction qs with
    | nil => intro r hr; exact hr
    | cons q rest ih =>
      intro r hr
      rw [List.foldl_cons]
      exact ih _ (by rw [Append_duplicatesAllowed]; exact hr)
  have hd : ∀ (qs : List Dependency) (r : PackageList), r.duplicatesAllowed = false →
      (qs.foldl (fun r dep => (r.Append (DependencyQuery dep l)).1) r).duplicatesAllowed =
        false := by
    intro qs
    induction qs with
    | nil => intro r hr; exact hr
    | cons q rest ih =>
      intro r hr
      rw [List.foldl_cons]
      exact ih _ (by rw [Append_duplicatesAllowed]; exact hr)
  have hpend : ∀ r : PackageList, pendingKeys l r + 1 ≤ fuel := by
    intro r
    have : pendingKeys l r ≤ l.Len := List.countP_le_length _
    omega
  have hloop : ∀ result : PackageList, result.duplicatesAllowed = false →
      ∃ r, (if options.WithDependencies = true then
        filterLoop E l options fuel
          { result := result.PrepareIndex E
            dependencySource :=
              ((match options.Source with
                | some source => (NewPackageList.Append source).1
                | none => NewPackageList).Append (result.PrepareIndex E)).1.PrepareIndex E
            added := result.Len }
        else some (Except.ok result)) = some r := by
    intro result hres
    split_ifs
    · exact filterLoop_returns E l options hl fuel _
        (by simp only; rw [PrepareIndex_duplicatesAllowed]; exact hres) (Or.inr (hpend _))
    · exact ⟨_, rfl⟩
  by_cases hws : options.WithSources = true
  · simp only [hws, if_true]
    cases sourceQueriesLoop (List.foldl (fun r query => (r.Append (query l)).1)
        NewPackageList options.Queries).packages [] with
    | error f => exact ⟨_, rfl⟩
    | ok qs => exact hloop _ (hd qs _ (hq _ _ rfl))
  · simp only [hws, Bool.false_eq_true, if_false]
    exact hloop _ (hq _ _ rfl)

theorem IsSignPreorder.comap {α β : Type} {cmp : α → α → Int} (h : IsSignPreorder cmp)
    (f : β → α) : IsSignPreorder fun x y => cmp (f x) (f y) where
  range x y := h.range (f x) (f y)
  refl x := h.refl (f x)
  antisymm x y := h.antisymm (f x) (f y)
  trans x y z := h.trans (f x) (f y) (f z)

theorem IsSignPreorder.zero_of_zero {α : Type} {cmp : α → α → Int} (h : IsSignPreorder cmp)
    (a b c : α) (hab : cmp a b ≤ 0) (hbc : cmp b c ≤ 0) (hac : cmp a c = 0) :
    cmp a b = 0 ∧ cmp b c = 0 := by
  have hca : cmp c a ≤ 0 := by rw [h.antisymm c a, hac]; simp
  have hcb : cmp c b ≤ 0 := h.trans c a b hca hab
  have hba : cmp b a ≤ 0 := h.trans b c a hbc hca
  have h1 := h.antisymm a b
  have h2 := h.antisymm b c
  constructor <;> omega

theorem lex_trans_step {α : Type} {cmp : α → α → Int} (h : IsSignPreorder cmp) (a b c : α)
    (x y z : Int) (hxyz : x ≤ 0 → y ≤ 0 → z ≤ 0)
    (h1 : (if cmp a b ≠ 0 then cmp a b else x) ≤ 0)
    (h2 : (if cmp b c ≠ 0 then cmp b c else y) ≤ 0) :
    (if cmp a c ≠ 0 then cmp a c else z) ≤ 0 := by
  have hab : cmp a b ≤ 0 := by
    by_cases h0 : cmp a b = 0
    · omega
    · rw [if_pos h0] at h1; exact h1
  have hbc : cmp b c ≤ 0 := by
    by_cases h0 : cmp b c = 0
    · omega
    · rw [if_pos h0] at h2; exact h2
  have hac := h.trans a b c hab hbc
  by_cases h0 : cmp a c = 0
  · obtain ⟨e1, e2⟩ := h.zero_of_zero a b c hab hbc h0
    simp only [e1, e2, ne_eq, not_true_eq_false, if_false] at h1 h2
    simp only [h0, ne_eq, not_true_eq_false, if_false]
    exact hxyz h1 h2
  · rw [if_pos h0]; exact hac

theorem IsSignPreorder.lex {α : Type} {c1 c2 : α → α → Int} (h1 : IsSignPreorder c1)
    (h2 : IsSignPreorder c2) :
    IsSignPreorder fun a b => if c1 a b ≠ 0 then c1 a b else c2 a b where
  range a b := by
    by_cases h0 : c1 a b = 0
    · simp only [h0, ne_eq, not_true_eq_false, if_false]; exact h2.range a b
    · show (if c1 a b ≠ 0 then c1 a b else c2 a b) = -1 ∨ _
      rw [if_pos h0]; exact h1.range a b
  refl a := by simp [h1.refl a, h2.refl a]
  antisymm a b := by
    have e1 := h1.antisymm a b
    have e2 := h2.antisymm a b
    by_cases h0 : c1 a b = 0
    · have h0b : c1 b a = 0 := by omega
      simp only [h0, h0b, ne_eq, not_true_eq_false, if_false]; exact e2
    · have h0b : c1 b a ≠ 0 := by omega
      simp only [h0, h0b, ne_eq, not_false_eq_true, if_true]; exact e1
  trans a b c := lex_trans_step h1 a b c _ _ _ (h2.trans a b c)

theorem compareNat_isSignPreorder : IsSignPreorder compareNat where
  range m n := by unfold compareNat; split_ifs <;> simp
  refl m := by simp [compareNat]
  antisymm m n := by unfold compareNat; split_ifs <;> omega
  trans a b c := by unfold compareNat; split_ifs <;> omega

theorem isAlpha_toNat_lt (c : Char) (h : c.isAlpha = true) : 65 ≤ c.toNat ∧ c.toNat < 256 := by
  simp only [Char.isAlpha, Char.isUpper, Char.isLower, Bool.or_eq_true, Bool.and_eq_true,
    decide_eq_true_eq, ge_iff_le, UInt32.le_def, Fin.le_def] at h
  have : c.toNat = c.val.val.val := rfl
  rw [this]
  rcases h with ⟨h1, h2⟩ | ⟨h1, h2⟩
  · exact ⟨h1, Nat.lt_of_le_of_lt h2 (by decide)⟩
  · exact ⟨Nat.le_trans (by decide) h1, Nat.lt_of_le_of_lt h2 (by decide)⟩

theorem charOrder_tilde : charOrder '~' = -1 := by decide

theorem charOrder_pos (c : Char) (h : c ≠ '~') : 0 < charOrder c := by
  unfold charOrder
  rw [if_neg h]
  split_ifs with ha
  · have := (isAlpha_toNat_lt c ha).1
    omega
  · omega

theorem charOrder_injective (a b : Char) (h : charOrder a = charOrder b) : a = b := by
  by_cases ha : a = '~'
  · by_cases hb : b = '~'
    · rw [ha, hb]
    · have := charOrder_pos b hb
      rw [ha, charOrder_tilde] at h
      omega
  · by_cases hb : b = '~'
    · have := charOrder_pos a ha
      rw [hb, charOrder_tilde] at h
      omega
    · unfold charOrder at h
      rw [if_neg ha, if_neg hb] at h
      have hnat : a.toNat = b.toNat := by
        split_ifs at h with h1 h2 h2
        · omega
        · have := (isAlpha_toNat_lt a h1).2; omega
        · have := (isAlpha_toNat_lt b h2).2; omega
        · omega
      apply Char.ext
      apply UInt32.ext
      exact hnat

theorem compareLexicographic_range : ∀ a b : List Char,
    compareLexicographic a b = -1 ∨ compareLexicographic a b = 0 ∨
      compareLexicographic a b = 1 := by
  intro a
  induction a with
  | nil =>
    intro b
    cases b with
    | nil => simp [compareLexicographic]
    | cons y ys => simp only [compareLexicographic]; split_ifs <;> simp
  | cons x xs ih =>
    intro b
    cases b with
    | nil => simp only [compareLexicographic]; split_ifs <;> simp
    | cons y ys =>
      simp only [compareLexicographic]
      split_ifs
      · exact ih ys
      · simp
      · simp

theorem compareLexicographic_refl : ∀ a : List Char, compareLexicographic a a = 0 := by
  intro a
  induction a with
  | nil => rfl
  | cons x xs ih => simp [compareLexicographic, ih]

theorem compareLexicographic_antisymm : ∀ a b : List Char,
    compareLexicographic a b = - compareLexicographic b a := by
  intro a
  induction a with
  | nil =>
    intro b
    cases b with
    | nil => simp [compareLexicographic]
    | cons y ys => simp only [compareLexicographic]; split_ifs <;> simp
  | cons x xs ih =>
    intro b
    cases b with
    | nil => simp only [compareLexicographic]; split_ifs <;> simp
    | cons y ys =>
      simp only [compareLexicographic]
      by_cases hxy : x = y
      · subst hxy
        simp only [if_true]
        exact ih ys
      · have hyx : ¬ y = x := fun h => hxy h.symm
        have hne : charOrder x ≠ charOrder y := fun h => hxy (charOrder_injective x y h)
        simp only [hxy, hyx, if_false]
        split_ifs <;> omega

theorem compareLexicographic_trans : ∀ a b c : List Char,
    compareLexicographic a b ≤ 0 → compareLexicographic b c ≤ 0 →
      compareLexicographic a c ≤ 0 := by
  intro a
  induction a with
  | nil =>
    intro b c h1 h2
    cases c with
    | nil => simp [compareLexicographic]
    | cons z zs =>
      cases b with
      | nil => exact h2
      | cons y ys =>
        simp only [compareLexicographic] at h1 h2 ⊢
        have hy : y ≠ '~' := by
          intro hy
          rw [if_pos hy] at h1
          omega
        have hz : z ≠ '~' := by
          intro hz
          by_cases hyz : y = z
          · exact hy (hyz.trans hz)
          · rw [if_neg hyz] at h2
            have := charOrder_pos y hy
            rw [hz, charOrder_tilde] at h2
            split_ifs at h2 <;> omega
        rw [if_neg hz]
        omega
  | cons x xs ih =>
    intro b c h1 h2
    cases b with
    | nil =>
      simp only [compareLexicographic] at h1
      have hx : x = '~' := by
        by_contra hx
        rw [if_neg hx] at h1
        omega
      cases c with
      | nil => simp only [compareLexicographic]; rw [if_pos hx]; omega
      | cons z zs =>
        simp only [compareLexicographic] at h2 ⊢
        have hz : z ≠ '~' := by
          intro hz
          rw [if_pos hz] at h2
          omega
        have hxz : ¬ x = z := fun h => hz (h.symm.trans hx)
        rw [if_neg hxz, hx, charOrder_tilde]
        have := charOrder_pos z hz
        split_ifs <;> omega
    | cons y ys =>
      cases c with
      | nil =>
        simp only [compareLexicographic] at h1 h2 ⊢
        have hy : y = '~' := by
          by_contra hy
          rw [if_neg hy] at h2
          omega
        by_cases hxy : x = y
        · rw [if_pos (hxy.trans hy)]; omega
        · rw [if_neg hxy, hy, charOrder_tilde] at h1
          by_cases hx : x = '~'
          · rw [if_pos hx]; omega
          · have := charOrder_pos x hx
            split_ifs at h1 <;> omega
      | cons z zs =>
        simp only [compareLexicographic] at h1 h2 ⊢
        by_cases hxy : x = y
        · subst hxy
          simp only [if_true] at h1
          by_cases hxz : x = z
          · subst hxz
            simp only [if_true] at h2 ⊢
            exact ih ys zs h1 h2
          · simp only [hxz, if_false] at h2 ⊢
            exact h2
        · simp only [hxy, if_false] at h1
          have hlt : charOrder x < charOrder y := by
            by_contra hlt
            rw [if_neg hlt] at h1
            omega
          by_cases hyz : y = z
          · subst hyz
            simp only [hxy, if_false, hlt, if_true]
            omega
          · simp only [hyz, if_false] at h2
            have hlt2 : charOrder y < charOrder z := by
              by_contra hlt2
              rw [if_neg hlt2] at h2
              omega
            have hxz : ¬ x = z := by
              intro h
              rw [h] at hlt
              omega
            simp only [hxz, if_false]
            rw [if_pos (by omega)]
            omega

theorem compareLexicographic_isSignPreorder : IsSignPreorder compareLexicographic where
  range := compareLexicographic_range
  refl := compareLexicographic_refl
  antisymm := compareLexicographic_antisymm
  trans := compareLexicographic_trans

theorem compareRound_isSignPreorder : IsSignPreorder compareRound :=
  IsSignPreorder.lex (compareLexicographic_isSignPreorder.comap headRun)
    (compareNat_isSignPreorder.comap headNumber)

theorem compareVersionPart_nil (fuel : Nat) : compareVersionPart fuel [] [] = 0 := by
  cases fuel with
  | zero => rfl
  | succ f => simp [compareVersionPart, compareLexicographic, digitsValue]

theorem compareVersionPart_succ (fuel : Nat) (a b : List Char) :
    compareVersionPart (fuel + 1) a b =
      if compareRound a b ≠ 0 then compareRound a b
      else compareVersionPart fuel (afterRuns a) (afterRuns b) := by
  simp only [compareVersionPart, compareRound, headRun, headNumber, afterRuns, compareNat]
  by_cases hlex : compareLexicographic (a.takeWhile fun c => !c.isDigit)
      (b.takeWhile fun c => !c.isDigit) = 0
  · simp only [hlex, ne_eq, not_true_eq_false, if_false]
    by_cases h1 : digitsValue ((a.dropWhile fun c => !c.isDigit).takeWhile Char.isDigit) <
        digitsValue ((b.dropWhile fun c => !c.isDigit).takeWhile Char.isDigit)
    · simp [h1]
    · by_cases h2 : digitsValue ((b.dropWhile fun c => !c.isDigit).takeWhile Char.isDigit) <
          digitsValue ((a.dropWhile fun c => !c.isDigit).takeWhile Char.isDigit)
      · simp [h1, h2]
      · simp only [h1, h2, if_false, not_true_eq_false]
        split_ifs with ht
        · rw [ht.1, ht.2, compareVersionPart_nil]
        · rfl
  · simp only [hlex, ne_eq, not_false_eq_true, if_true]

theorem afterRuns_length_le (a : List Char) : (afterRuns a).length ≤ a.length := by
  unfold afterRuns
  exact Nat.le_trans (List.dropWhile_suffix _).length_le (List.dropWhile_suffix _).length_le

theorem afterRuns_length_lt (a : List Char) (h : a ≠ []) :
    (afterRuns a).length < a.length := by
  cases a with
  | nil => exact absurd rfl h
  | cons x xs =>
    unfold afterRuns
    by_cases hx : x.isDigit = true
    · have h1 : (x :: xs).dropWhile (fun c => !c.isDigit) = x :: xs := by
        simp [List.dropWhile_cons, hx]
      rw [h1, List.dropWhile_cons, if_pos hx]
      exact Nat.lt_succ_of_le (List.dropWhile_suffix _).length_le
    · have h1 : (x :: xs).dropWhile (fun c => !c.isDigit) =
          xs.dropWhile (fun c => !c.isDigit) := by
        simp [List.dropWhile_cons, hx]
      rw [h1]
      exact Nat.lt_succ_of_le (Nat.le_trans (List.dropWhile_suffix _).length_le
        (List.dropWhile_suffix _).length_le)

theorem afterRuns_nil : afterRuns [] = [] := rfl

theorem compareVersionPart_stable : ∀ (fuel : Nat) (a b : List Char),
    a.length + b.length + 1 ≤ fuel →
      compareVersionPart (fuel + 1) a b = compareVersionPart fuel a b := by
  intro fuel
  induction fuel with
  | zero => intro a b h; omega
  | succ k ih =>
    intro a b h
    rw [compareVersionPart_succ (k + 1) a b, compareVersionPart_succ k a b]
    by_cases hr : compareRound a b = 0
    · simp only [hr, ne_eq, not_true_eq_false, if_false]
      by_cases hnil : a = [] ∧ b = []
      · rw [hnil.1, hnil.2, afterRuns_nil, compareVersionPart_nil, compareVersionPart_nil]
      · apply ih
        have h1 := afterRuns_length_le a
        have h2 := afterRuns_length_le b
        by_cases ha : a = []
        · have hb : b ≠ [] := fun hb => hnil ⟨ha, hb⟩
          have := afterRuns_length_lt b hb
          omega
        · have := afterRuns_length_lt a ha
          omega
    · simp only [hr, ne_eq, not_false_eq_true, if_true]

theorem compareVersionPart_eq_comparePart (a b : List Char) :
    ∀ fuel, a.length + b.length + 1 ≤ fuel → compareVersionPart fuel a b = comparePart a b := by
  intro fuel h
  induction fuel, h using Nat.le_induction with
  | base => rfl
  | succ n hn ih => rw [compareVersionPart_stable n a b hn, ih]

theorem compareVersionPart_range : ∀ (fuel : Nat) (a b : List Char),
    compareVersionPart fuel a b = -1 ∨ compareVersionPart fuel a b = 0 ∨
      compareVersionPart fuel a b = 1 := by
  intro fuel
  induction fuel with
  | zero => intro a b; simp [compareVersionPart]
  | succ k ih =>
    intro a b
    rw [compareVersionPart_succ]
    by_cases hr : compareRound a b = 0
    · simp only [hr, ne_eq, not_true_eq_false, if_false]
      exact ih _ _
    · rw [if_pos hr]
      exact compareRound_isSignPreorder.range a b

theorem compareVersionPart_refl : ∀ (fuel : Nat) (a : List Char),
    compareVersionPart fuel a a = 0 := by
  intro fuel
  induction fuel with
  | zero => intro a; rfl
  | succ k ih =>
    intro a
    rw [compareVersionPart_succ]
    simp only [compareRound_isSignPreorder.refl a, ne_eq, not_true_eq_false, if_false]
    exact ih _

theorem compareVersionPart_antisymm : ∀ (fuel : Nat) (a b : List Char),
    compareVersionPart fuel a b = - compareVersionPart fuel b a := by
  intro fuel
  induction fuel with
  | zero => intro a b; simp [compareVersionPart]
  | succ k ih =>
    intro a b
    rw [compareVersionPart_succ k a b, compareVersionPart_succ k b a]
    have e := compareRound_isSignPreorder.antisymm a b
    by_cases hr : compareRound a b = 0
    · have hr2 : compareRound b a = 0 := by omega
      simp only [hr, hr2, ne_eq, not_true_eq_false, if_false]
      exact ih _ _
    · have hr2 : compareRound b a ≠ 0 := by omega
      rw [if_pos hr, if_pos hr2]
      exact e

theorem compareVersionPart_trans : ∀ (fuel : Nat) (a b c : List Char),
    a.length + b.length + c.length + 1 ≤ fuel →
    compareVersionPart fuel a b ≤ 0 → compareVersionPart fuel b c ≤ 0 →
      compareVersionPart fuel a c ≤ 0 := by
  intro fuel
  induction fuel with
  | zero => intro a b c h; omega
  | succ k ih =>
    intro a b c h h1 h2
    rw [compareVersionPart_succ] at h1 h2 ⊢
    refine lex_trans_step compareRound_isSignPreorder a b c _ _ _ ?_ h1 h2
    by_cases hnil : a = [] ∧ b = [] ∧ c = []
    · intro _ _
      rw [hnil.1, hnil.2.2, afterRuns_nil, compareVersionPart_nil]
    · apply ih
      have ha := afterRuns_length_le a
      have hb := afterRuns_length_le b
      have hc := afterRuns_length_le c
      by_cases ha0 : a = []
      · by_cases hb0 : b = []
        · have hc0 : c ≠ [] := fun hc0 => hnil ⟨ha0, hb0, hc0⟩
          have := afterRuns_length_lt c hc0
          omega
        · have := afterRuns_length_lt b hb0
          omega
      · have := afterRuns_length_lt a ha0
        omega

theorem comparePart_isSignPreorder : IsSignPreorder comparePart where
  range a b := compareVersionPart_range _ a b
  refl a := compareVersionPart_refl _ a
  antisymm a b := by
    unfold comparePart
    rw [compareVersionPart_antisymm, Nat.add_comm b.length a.length]
  trans a b c := by
    intro h1 h2
    have e1 := compareVersionPart_eq_comparePart a b (a.length + b.length + c.length + 1)
      (by omega)
    have e2 := compareVersionPart_eq_comparePart b c (a.length + b.length + c.length + 1)
      (by omega)
    have e3 := compareVersionPart_eq_comparePart a c (a.length + b.length + c.length + 1)
      (by omega)
    rw [← e1] at h1
    rw [← e2] at h2
    rw [← e3]
    exact compareVersionPart_trans _ a b c (Nat.le_refl _) h1 h2

theorem CompareVersions_eq (a b : String) :
    CompareVersions a b =
      if comparePart (parseVersion a.data).1 (parseVersion b.data).1 ≠ 0 then
        comparePart (parseVersion a.data).1 (parseVersion b.data).1
      else if comparePart (parseVersion a.data).2.1 (parseVersion b.data).2.1 ≠ 0 then
        comparePart (parseVersion a.data).2.1 (parseVersion b.data).2.1
      else comparePart (parseVersion a.data).2.2 (parseVersion b.data).2.2 := by
  unfold CompareVersions comparePart
  rcases parseVersion a.data with ⟨e1, u1, d1⟩
  rcases parseVersion b.data with ⟨e2, u2, d2⟩
  rfl

theorem CompareVersions_isSignPreorder : IsSignPreorder CompareVersions := by
  have h := IsSignPreorder.lex
    (comparePart_isSignPreorder.comap fun v : String => (parseVersion v.data).1)
    (IsSignPreorder.lex
      (comparePart_isSignPreorder.comap fun v : String => (parseVersion v.data).2.1)
      (comparePart_isSignPreorder.comap fun v : String => (parseVersion v.data).2.2))
  have e : CompareVersions = fun a b : String =>
      if comparePart (parseVersion a.data).1 (parseVersion b.data).1 ≠ 0 then
        comparePart (parseVersion a.data).1 (parseVersion b.data).1
      else if comparePart (parseVersion a.data).2.1 (parseVersion b.data).2.1 ≠ 0 then
        comparePart (parseVersion a.data).2.1 (parseVersion b.data).2.1
      else comparePart (parseVersion a.data).2.2 (parseVersion b.data).2.2 := by
    funext a b
    exact CompareVersions_eq a b
  rw [e]
  exact h

theorem splitFirst_some_eq (c : Char) : ∀ (xs a b : List Char),
    splitFirst c xs = some (a, b) → xs = a ++ c :: b := by
  intro xs
  induction xs with
  | nil => intro a b h; simp [splitFirst] at h
  | cons x rest ih =>
    intro a b h
    simp only [splitFirst] at h
    split_ifs at h with hx
    · simp only [Option.some.injEq, Prod.mk.injEq] at h
      rw [← h.1, ← h.2, hx]
      rfl
    · cases hs : splitFirst c rest with
      | none => rw [hs] at h; cases h
      | some p =>
        obtain ⟨a2, b2⟩ := p
        rw [hs] at h
        simp only [Option.some.injEq, Prod.mk.injEq] at h
        rw [← h.1, ← h.2, ih a2 b2 hs]
        rfl

theorem splitFirst_none_of_not_mem (c : Char) : ∀ xs : List Char, c ∉ xs →
    splitFirst c xs = none := by
  intro xs
  induction xs with
  | nil => intro _; rfl
  | cons x rest ih =>
    intro h
    simp only [List.mem_cons, not_or] at h
    simp only [splitFirst]
    rw [if_neg (fun hx => h.1 hx.symm), ih h.2]

theorem splitFirst_append_some (c : Char) (ys : List Char) : ∀ (xs a b : List Char),
    splitFirst c xs = some (a, b) → splitFirst c (xs ++ ys) = some (a, b ++ ys) := by
  intro xs
  induction xs with
  | nil => intro a b h; simp [splitFirst] at h
  | cons x rest ih =>
    intro a b h
    simp only [splitFirst, List.cons_append, List.append_eq] at h ⊢
    split_ifs at h ⊢ with hx
    · simp only [Option.some.injEq, Prod.mk.injEq] at h
      rw [← h.1, ← h.2]
    · cases hs : splitFirst c rest with
      | none => rw [hs] at h; cases h
      | some p =>
        obtain ⟨a2, b2⟩ := p
        rw [hs] at h
        simp only [Option.some.injEq, Prod.mk.injEq] at h
        rw [ih a2 b2 hs, ← h.1, ← h.2]

theorem splitFirst_append_none (c : Char) (ys : List Char) (hys : c ∉ ys) :
    ∀ xs : List Char, splitFirst c xs = none → splitFirst c (xs ++ ys) = none := by
  intro xs
  induction xs with
  | nil => intro _; exact splitFirst_none_of_not_mem c ys hys
  | cons x rest ih =>
    intro h
    simp only [splitFirst, List.cons_append, List.append_eq] at h ⊢
    split_ifs at h ⊢ with hx
    cases hs : splitFirst c rest with
    | none => rw [ih hs]
    | some p => rw [hs] at h; cases h

theorem parseVersion_zero_epoch (v : List Char) (h : ':' ∉ v) :
    (parseVersion v).1 = [] ∧ (parseVersion ('0' :: ':' :: v)).1 = ['0'] ∧
      (parseVersion ('0' :: ':' :: v)).2 = (parseVersion v).2 := by
  unfold parseVersion splitLast
  have hrev : ('0' :: ':' :: v).reverse = v.reverse ++ [':', '0'] := by simp
  rw [hrev]
  cases hs : splitFirst '-' v.reverse with
  | none =>
    rw [splitFirst_append_none '-' [':', '0'] (by decide) _ hs]
    simp only
    rw [splitFirst_none_of_not_mem ':' v h]
    simp [splitFirst]
  | some p =>
    obtain ⟨a, b⟩ := p
    rw [splitFirst_append_some '-' [':', '0'] _ a b hs]
    simp only
    have hv : v = b.reverse ++ '-' :: a.reverse := by
      have := congrArg List.reverse (splitFirst_some_eq '-' _ a b hs)
      simpa using this
    have hb : ':' ∉ b.reverse := by
      intro hmem
      exact h (by rw [hv]; exact List.mem_append_left _ hmem)
    rw [splitFirst_none_of_not_mem ':' _ hb]
    simp [splitFirst]

/-- C33, on the comparison modelled from the specification: `CompareVersions` is a total
preorder: its values are `-1`, `0` and `1`, it is zero on equal versions, it reverses its
sign when the versions are exchanged, and it is transitive. The character `~` sorts before
the end of a part (`1.1~~` before `1.1~bp1` before `1.1`, and `1.0~bp1` before `1.0` before
`1.0a`), and a missing epoch equals the epoch `0`: `0:9` is before `1:0`, and a version
without colon equals the same version with the epoch `0:` before it. -/
theorem C33_compare_versions_total_preorder :
    IsTotalPreorder CompareVersions ∧
      CompareVersions "1.1~~" "1.1~bp1" = -1 ∧ CompareVersions "1.1~bp1" "1.1" = -1 ∧
      CompareVersions "1.0~bp1" "1.0" = -1 ∧ CompareVersions "1.0" "1.0a" = -1 ∧
      CompareVersions "0:9" "1:0" = -1 ∧ CompareVersions "9" "0:9" = 0 ∧
      ∀ v : String, ':' ∉ v.data → CompareVersions v ("0:" ++ v) = 0 := by
  refine ⟨⟨CompareVersions_isSignPreorder.range, CompareVersions_isSignPreorder.refl,
    CompareVersions_isSignPreorder.antisymm, CompareVersions_isSignPreorder.trans⟩,
    by decide, by decide, by decide, by decide, by decide, by decide, ?_⟩
  intro v hv
  rw [CompareVersions_eq]
  have hdata : ("0:" ++ v).data = '0' :: ':' :: v.data := rfl
  obtain ⟨h1, h2, h3⟩ := parseVersion_zero_epoch v.data hv
  rw [hdata, h1, h2, h3]
  have h0 : comparePart [] ['0'] = 0 := by decide
  simp [h0, comparePart_isSignPreorder.refl]

/-- Witness of C33: the version `1.0-1` equals `0:1.0-1`. -/
theorem C33_compare_versions_total_preorder_witness :
    ':' ∉ "1.0-1".data ∧ CompareVersions "1.0-1" ("0:" ++ "1.0-1") = 0 :=
  ⟨by decide, C33_compare_versions_total_preorder.2.2.2.2.2.2.2 "1.0-1" (by decide)⟩

theorem SourceRegex_groups (s name version : String)
    (h : SourceRegexFindStringSubmatch s = some (name, version)) :
    ∃ (c : Char) (nm : List Char), isSourceNameStart c = true ∧
      (∀ x ∈ nm, isSourceNameChar x = true) ∧ name = String.mk (c :: nm) ∧
      ((version = "" ∧ s.data = c :: nm) ∨
        ∃ blanks v : List Char, (∀ x ∈ blanks, isRegexSpace x = true) ∧
          ')' ∉ v ∧ version = String.mk v ∧ v ≠ [] ∧
          s.data = c :: nm ++ blanks ++ '(' :: v ++ [')']) := by
  unfold SourceRegexFindStringSubmatch at h
  cases hd : s.data with
  | nil => rw [hd] at h; simp at h
  | cons c cs =>
    rw [hd] at h
    simp only at h
    have hsplit := List.takeWhile_append_dropWhile isSourceNameChar cs
    have hname : ∀ x ∈ cs.takeWhile isSourceNameChar, isSourceNameChar x = true :=
      fun x hx => List.mem_takeWhile_imp hx
    by_cases h1 : isSourceNameStart c = true
    swap
    · simp [h1] at h
    by_cases h2 : cs.takeWhile isSourceNameChar = []
    · simp [h1, h2] at h
    by_cases h3 : cs.dropWhile isSourceNameChar = []
    · simp only [h1, Bool.not_true, Bool.false_eq_true, if_false, h2, h3, if_true,
        Option.some.injEq, Prod.mk.injEq] at h
      refine ⟨c, cs.takeWhile isSourceNameChar, h1, hname, h.1.symm, Or.inl ⟨h.2.symm, ?_⟩⟩
      rw [h3, List.append_nil] at hsplit
      rw [hsplit]
    by_cases h4 : (cs.dropWhile isSourceNameChar).takeWhile isRegexSpace = []
    · simp [h1, h2, h3, h4] at h
    have hsplit2 := List.takeWhile_append_dropWhile isRegexSpace
      (cs.dropWhile isSourceNameChar)
    simp only [h1, Bool.not_true, Bool.false_eq_true, if_false, h2, h3, h4] at h
    split at h
    · next body hrest =>
      by_cases h5 : body.takeWhile (fun x => decide (x ≠ ')')) ≠ [] ∧
          body.dropWhile (fun x => decide (x ≠ ')')) = [')']
      · rw [if_pos h5] at h
        simp only [Option.some.injEq, Prod.mk.injEq] at h
        have hsplit3 := List.takeWhile_append_dropWhile (fun x => decide (x ≠ ')')) body
        refine ⟨c, cs.takeWhile isSourceNameChar, h1, hname, h.1.symm, Or.inr
          ⟨(cs.dropWhile isSourceNameChar).takeWhile isRegexSpace,
            body.takeWhile (fun x => decide (x ≠ ')')),
            fun x hx => List.mem_takeWhile_imp hx, ?_, h.2.symm, h5.1, ?_⟩⟩
        · intro hmem
          have := List.mem_takeWhile_imp hmem
          simp at this
        · have hbody : body = body.takeWhile (fun x => decide (x ≠ ')')) ++ [')'] := by
            rw [h5.2] at hsplit3
            exact hsplit3.symm
          have hdw : cs.dropWhile isSourceNameChar =
              (cs.dropWhile isSourceNameChar).takeWhile isRegexSpace ++ '(' :: body := by
            rw [← hrest]
            exact hsplit2.symm
          conv_lhs => rw [← hsplit, hdw, hbody]
          simp only [List.append_assoc, List.cons_append]
      · rw [if_neg h5] at h
        cases h
    · cases h

theorem unicodeIsSpace_range (c : Char) (h : unicodeIsSpace c = true) :
    c.toNat ≤ 32 ∨ 133 ≤ c.toNat := by
  simp only [unicodeIsSpace, Bool.or_eq_true, Bool.and_eq_true, decide_eq_true_eq] at h
  omega

theorem isDigit_toNat (c : Char) (h : c.isDigit = true) : 48 ≤ c.toNat ∧ c.toNat ≤ 57 := by
  simp only [Char.isDigit, Bool.and_eq_true, decide_eq_true_eq, ge_iff_le, UInt32.le_def,
    Fin.le_def] at h
  exact h

theorem isLower_toNat (c : Char) (h : c.isLower = true) : 97 ≤ c.toNat ∧ c.toNat ≤ 122 := by
  simp only [Char.isLower, Bool.and_eq_true, decide_eq_true_eq, ge_iff_le, UInt32.le_def,
    Fin.le_def] at h
  exact h

theorem nameChar_toNat (c : Char) (h : isSourceNameChar c = true) :
    43 ≤ c.toNat ∧ c.toNat ≤ 122 := by
  simp only [isSourceNameChar, Bool.or_eq_true, decide_eq_true_eq] at h
  rcases h with (((h | h) | h) | h) | h
  · subst h; decide
  · subst h; decide
  · subst h; decide
  · have := isLower_toNat c h; omega
  · have := isDigit_toNat c h; omega

theorem nameStart_toNat (c : Char) (h : isSourceNameStart c = true) :
    43 ≤ c.toNat ∧ c.toNat ≤ 122 := by
  simp only [isSourceNameStart, Bool.or_eq_true] at h
  rcases h with h | h
  · have := isLower_toNat c h; omega
  · have := isDigit_toNat c h; omega

theorem not_space_of_toNat (c : Char) (h : 43 ≤ c.toNat ∧ c.toNat ≤ 122) :
    unicodeIsSpace c = false ∧ c ≠ '(' := by
  constructor
  · cases hs : unicodeIsSpace c with
    | false => rfl
    | true => have := unicodeIsSpace_range c hs; omega
  · intro hc
    subst hc
    revert h
    decide

theorem regexSpace_unicode (c : Char) (h : isRegexSpace c = true) :
    unicodeIsSpace c = true ∧ c ≠ '(' := by
  simp only [isRegexSpace, Bool.or_eq_true, decide_eq_true_eq] at h
  rcases h with (((h | h) | h) | h) | h <;> subst h <;> decide

theorem stringsTrimSpace_blanks (xs blanks : List Char)
    (hxs : ∀ x ∈ xs, unicodeIsSpace x = false)
    (hb : ∀ x ∈ blanks, unicodeIsSpace x = true) :
    stringsTrimSpace (xs ++ blanks) = xs := by
  unfold stringsTrimSpace
  cases xs with
  | nil =>
    simp only [List.nil_append]
    rw [(takeWhile_all unicodeIsSpace blanks hb).2]
    rfl
  | cons x rest =>
    have hx := hxs x (List.mem_cons_self _ _)
    have h1 : ((x :: rest) ++ blanks).dropWhile unicodeIsSpace = (x :: rest) ++ blanks := by
      simp [List.dropWhile_cons, hx]
    rw [h1, List.reverse_append]
    obtain ⟨y, ys, hy⟩ := List.exists_cons_of_ne_nil
      (show (x :: rest).reverse ≠ [] by simp)
    rw [hy]
    have hymem : y ∈ x :: rest := by
      have : y ∈ (x :: rest).reverse := by rw [hy]; exact List.mem_cons_self _ _
      exact List.mem_reverse.1 this
    rw [(takeWhile_append_stop unicodeIsSpace blanks.reverse y ys
      (fun z hz => hb z (List.mem_reverse.1 hz)) (hxs y hymem)).2, ← hy, List.reverse_reverse]

theorem beforeFirst_none (c : Char) (s : List Char) (h : c ∉ s) : beforeFirst c s = none := by
  unfold beforeFirst
  rw [if_neg h]

theorem beforeFirst_split (c : Char) (xs ys : List Char) (h : c ∉ xs) :
    beforeFirst c (xs ++ c :: ys) = some xs := by
  unfold beforeFirst
  rw [if_pos (by simp)]
  rw [(takeWhile_append_stop (fun x => decide (x ≠ c)) xs c ys
    (fun x hx => by
      have : x ≠ c := fun hh => h (hh ▸ hx)
      simpa using this) (by simp)).1]

theorem betweenParens_none (s : List Char) (h : '(' ∉ s) : betweenParens s = none := by
  unfold betweenParens
  rw [if_neg h]

theorem betweenParens_split (xs v : List Char) (hxs : '(' ∉ xs) :
    betweenParens (xs ++ '(' :: v ++ [')']) = some v := by
  unfold betweenParens
  rw [if_pos (by simp)]
  have e : xs ++ '(' :: v ++ [')'] = xs ++ '(' :: (v ++ [')']) := by simp
  rw [e, (takeWhile_append_stop (fun x => decide (x ≠ '(')) xs '(' (v ++ [')'])
    (fun x hx => by
      have : x ≠ '(' := fun hh => hxs (hh ▸ hx)
      simpa using this) (by simp)).2]
  simp only [List.drop_one, List.tail_cons]
  rw [if_pos (by simp)]
  simp [List.dropWhile_cons]

/-- For a binary package whose `Source` field matches `SourceRegex`, `GetField` gives the
first group of the pattern as `$Source`, and as `$SourceVersion` the second group with the
blanks at its ends trimmed, or the version of the package when the group is empty. -/
theorem GetField_of_source_match (p : Package) (name version : String)
    (hbin : p.IsSource = false)
    (hm : SourceRegexFindStringSubmatch p.Source = some (name, version)) :
    p.GetFieldSource = name ∧
      p.GetFieldSourceVersion =
        if version ≠ "" then String.mk (stringsTrimSpace version.data) else p.Version := by
  obtain ⟨c, nm, hc, hnm, hname, hcase⟩ := SourceRegex_groups p.Source name version hm
  have hc2 := not_space_of_toNat c (nameStart_toNat c hc)
  have hnm2 : ∀ x ∈ c :: nm, unicodeIsSpace x = false ∧ x ≠ '(' := by
    intro x hx
    rcases List.mem_cons.1 hx with h | h
    · rw [h]; exact hc2
    · exact not_space_of_toNat x (nameChar_toNat x (hnm x h))
  have hsrc : p.Source ≠ "" := by
    intro h
    rcases hcase with ⟨_, hd⟩ | ⟨_, _, _, _, _, _, hd⟩ <;> rw [h] at hd <;> cases hd
  unfold Package.GetFieldSource Package.GetFieldSourceVersion
  simp only [hbin, Bool.false_eq_true, if_false, hsrc]
  rcases hcase with ⟨hv, hd⟩ | ⟨blanks, v, hblanks, _, hver, hvne, hd⟩
  · have hno : '(' ∉ p.Source.data := by
      rw [hd]
      intro hmem
      exact (hnm2 _ hmem).2 rfl
    rw [beforeFirst_none _ _ hno, betweenParens_none _ hno, hv, hname, ← hd]
    simp
  · have hno : '(' ∉ c :: nm ++ blanks := by
      intro hmem
      rcases List.mem_append.1 hmem with h | h
      · exact (hnm2 _ h).2 rfl
      · exact (regexSpace_unicode _ (hblanks _ h)).2 rfl
    have e : c :: nm ++ blanks ++ '(' :: v ++ [')'] =
        (c :: nm ++ blanks) ++ '(' :: (v ++ [')']) := by simp
    have hb1 : beforeFirst '(' p.Source.data = some (c :: nm ++ blanks) := by
      rw [hd, e]
      exact beforeFirst_split '(' _ _ hno
    have hb2 : betweenParens p.Source.data = some v := by
      rw [hd]
      exact betweenParens_split _ v hno
    rw [hb1, hb2]
    simp only
    rw [stringsTrimSpace_blanks (c :: nm) blanks (fun x hx => (hnm2 x hx).1)
      (fun x hx => (regexSpace_unicode x (hblanks x hx)).1), hname, hver]
    have hne : String.mk v ≠ "" := by
      intro h
      exact hvne (congrArg String.data h)
    simp [hne]

/-! ## Colliding dependency hashes and conflicting query results -/

/-- C12 as stated fails: the two dependencies of `clash` have the same hash `a:b:3:0:`.
The first is not satisfied in the sources and is cached as such; the second, the only
variant of its line, is satisfied there by `b 0: a`, but it finds the answer of the first
in the cache and is reported as missing. -/
theorem C12_colliding_hash_reports_satisfied :
    listClash.VerifyDependencies debExternals 0 ["i386"] sourcesZeroEpoch =
        (listClash.PrepareIndex debExternals, Except.ok [depThree, depZeroEpoch]) ∧
      pkgClash.MatchesArchitecture "i386" = true ∧
      pkgClash.GetDependencies 0 = ["3:a:b", "b:a (= 0:)"] ∧
      debExternals.ParseDependencyVariants "3:a:b" = Except.ok [depThree] ∧
      debExternals.ParseDependencyVariants "b:a (= 0:)" = Except.ok [depZeroEpoch] ∧
      forArchitecture "i386" depZeroEpoch = depZeroEpoch ∧
      satisfiedInSources debExternals sourcesZeroEpoch depZeroEpoch = true ∧
      satisfiedInSources debExternals sourcesZeroEpoch depThree = false ∧
      debExternals.Hash depThree = "a:b:3:0:" ∧
      debExternals.Hash depZeroEpoch = "a:b:3:0:" := by
  decide

/-- C13 as stated fails: the two dependencies of `clash` differ and have the same hash
`a:b:3:0:`. With empty sources both are collected as missing, and the list of two is
compared by value: both are returned. -/
theorem C13_two_missing_share_hash :
    listClash.VerifyDependencies debExternals 0 ["i386"]
        (NewPackageList.PrepareIndex debExternals) =
        (listClash.PrepareIndex debExternals, Except.ok [depThree, depZeroEpoch]) ∧
      depThree ≠ depZeroEpoch ∧
      debExternals.Hash depThree = debExternals.Hash depZeroEpoch ∧
      ¬ [depThree, depZeroEpoch].Pairwise
        (fun a b => debExternals.Hash a ≠ debExternals.Hash b) := by
  decide

theorem depSliceDeduplicate_pairwise_or_pair (E : Externals) (s : List Dependency) :
    (depSliceDeduplicate E s).Pairwise (fun a b => E.Hash a ≠ E.Hash b) ∨
      ∃ a b, s = [a, b] ∧ depSliceDeduplicate E s = [a, b] ∧ a ≠ b ∧
        E.Hash a = E.Hash b := by
  unfold depSliceDeduplicate
  split_ifs with hlen
  · left
    match s, hlen with
    | [], _ => exact List.Pairwise.nil
    | [a], _ => exact List.pairwise_singleton _ _
    | _ :: _ :: _, h => exact absurd h (by simp)
  · split
    · next a b =>
      by_cases hab : a = b
      · left
        rw [if_pos hab]
        exact List.pairwise_singleton _ _
      · rw [if_neg hab]
        by_cases hh : E.Hash a = E.Hash b
        · exact Or.inr ⟨a, b, rfl, rfl, hab, hh⟩
        · left
          refine List.pairwise_cons.2 ⟨?_, List.pairwise_singleton _ _⟩
          intro y hy
          rw [List.mem_singleton] at hy
          subst hy
          exact hh
    · exact Or.inl (dedupLoop_pairwise E s []).1

/-- C13 (amended): when `VerifyDependencies` succeeds, no two elements of the returned list
have the same dependency hash, unless the returned list consists of exactly two different
dependencies with the same hash (a collected list of two is compared by value, a longer one
by hash). -/
theorem C13_missing_distinct_hashes_or_pair (E : Externals) (l sources : PackageList)
    (options : Nat) (archs : List String) (l2 : PackageList) (missing : List Dependency)
    (h : l.VerifyDependencies E options archs sources = (l2, Except.ok missing)) :
    missing.Pairwise (fun a b => E.Hash a ≠ E.Hash b) ∨
      ∃ a b, missing = [a, b] ∧ a ≠ b ∧ E.Hash a = E.Hash b := by
  unfold PackageList.VerifyDependencies at h
  simp only at h
  split_ifs at h with h0
  · simp at h
  · cases hv : verifyArchitectures E options sources (l.PrepareIndex E).packagesIndex archs []
      with
    | error f => rw [hv] at h; simp at h
    | ok m =>
      rw [hv] at h
      simp only [Prod.mk.injEq, Except.ok.injEq] at h
      rw [← h.2]
      rcases depSliceDeduplicate_pairwise_or_pair E m with hp | ⟨a, b, _, hd, hab, hh⟩
      · exact Or.inl hp
      · exact Or.inr ⟨a, b, hd, hab, hh⟩

/-- Witness of C13: the dependencies of `needy` reported with `DepFollowAllVariants`. -/
theorem C13_missing_distinct_hashes_or_pair_witness :
    listNeedy.VerifyDependencies debExternals 8 ["i386", "amd64"] sourcesBeta =
        (listNeedy.PrepareIndex debExternals, Except.ok [depAlpha, depGamma]) ∧
      ([depAlpha, depGamma].Pairwise (fun a b => debExternals.Hash a ≠ debExternals.Hash b) ∨
        ∃ a b, [depAlpha, depGamma] = [a, b] ∧ a ≠ b ∧
          debExternals.Hash a = debExternals.Hash b) ∧
      [depAlpha, depGamma].Pairwise (fun a b => debExternals.Hash a ≠ debExternals.Hash b) :=
  ⟨by decide,
    C13_missing_distinct_hashes_or_pair debExternals listNeedy sourcesBeta 8 ["i386", "amd64"]
      (listNeedy.PrepareIndex debExternals) [depAlpha, depGamma] (by decide),
    by decide⟩

/-- C22 as stated fails: the second query returns the package `tool` of the list, whose
`Source` field `Tool` is outside the strict source pattern, so the package is in the union
of the query results. The first query has returned another package under the same key;
`Append` of the second result stops at this conflict, `Filter` drops the error, the package
with the invalid field never enters the result, and `Filter` succeeds. -/
theorem C22_conflicting_result_hides_source :
    listBadSource.indexed = true ∧ optionsToolConflict.WithSources = true ∧
      optionsToolConflict.Queries = [queryToolPlain, queryToolByKey] ∧
      (queryToolByKey listBadSource).packages.map Prod.snd = [pkgBadSource] ∧
      pkgBadSource.Source ≠ "" ∧ ¬ StrictSourcePattern pkgBadSource.Source ∧
      ((queryToolPlain listBadSource).Append (queryToolByKey listBadSource)).2 ≠ none ∧
      listBadSource.Filter debExternals DependencyQuery optionsToolConflict 1 =
        some (Except.ok { packages := [("Pi386 tool 1.0", pkgToolPlain)] }) :=
  ⟨by decide, rfl, rfl, by decide, by decide,
    fun h => absurd ((SourceRegex_matches_iff pkgBadSource.Source).2 h) (by decide),
    by decide, by decide⟩

/-- C22 (amended): on an indexed list, `Filter` with `WithSources`, whose queries return
entries of the list, fails with the error `invalid Source field` if and only if some package
in the union of the query results has a non-empty `Source` field outside the strict source
pattern. -/
theorem C22_invalid_source_in_query_results (E : Externals)
    (DependencyQuery : Dependency → PackageQuery) (l : PackageList) (options : FilterOptions)
    (fuel : Nat) (hl : l.indexed = true) (hws : options.WithSources = true)
    (hq : ∀ query ∈ options.Queries, QueryWithin l query) :
    (∃ src, l.Filter E DependencyQuery options fuel =
        some (Except.error (Failure.error ("invalid Source field: " ++ src)))) ↔
      ∃ query ∈ options.Queries, ∃ p ∈ (query l).packages.map Prod.snd,
        p.Source ≠ "" ∧ ¬ StrictSourcePattern p.Source := by
  rw [Filter_invalid_source_iff E DependencyQuery l options fuel hl hws]
  have hmem : ∀ e, e ∈ (queryResult l options).packages ↔
      ∃ query ∈ options.Queries, e ∈ (query l).packages := by
    intro e
    unfold queryResult
    rw [@foldl_Append_entries_iff l PackageQuery (fun query => query l) options.Queries
      NewPackageList (PartOf_new l) (fun query hquery => hq query hquery) e]
    constructor
    · rintro (h | h)
      · simp [NewPackageList, NewPackageListWithDuplicates] at h
      · exact h
    · exact Or.inr
  constructor
  · rintro ⟨p, hp, hsrc, hpat⟩
    obtain ⟨e, he, rfl⟩ := List.mem_map.1 hp
    obtain ⟨query, hquery, hin⟩ := (hmem e).1 he
    exact ⟨query, hquery, e.2, List.mem_map.2 ⟨e, hin, rfl⟩, hsrc, hpat⟩
  · rintro ⟨query, hquery, p, hp, hsrc, hpat⟩
    obtain ⟨e, he, rfl⟩ := List.mem_map.1 hp
    exact ⟨e.2, List.mem_map.2 ⟨e, (hmem e).2 ⟨query, hquery, he⟩, rfl⟩, hsrc, hpat⟩

/-- Witness of C22: the list that holds `tool` with the `Source` field `Tool`, queried by
key. -/
theorem C22_invalid_source_in_query_results_witness :
    (listBadSource.indexed = true ∧ optionsBadSource.WithSources = true ∧
      listBadSource.Filter debExternals DependencyQuery optionsBadSource 1 =
        some (Except.error (Failure.error "invalid Source field: Tool"))) ∧
      ((∃ src, listBadSource.Filter debExternals DependencyQuery optionsBadSource 1 =
          some (Except.error (Failure.error ("invalid Source field: " ++ src)))) ↔
        ∃ query ∈ optionsBadSource.Queries,
          ∃ p ∈ (query listBadSource).packages.map Prod.snd,
            p.Source ≠ "" ∧ ¬ StrictSourcePattern p.Source) :=
  have hq : ∀ query ∈ optionsBadSource.Queries, QueryWithin listBadSource query := by
    intro query hquery
    have : query = fun l => l.SearchByKey debExternals "i386" "tool" "1.0" := by
      simpa [optionsBadSource] using hquery
    subst this
    unfold QueryWithin
    decide
  ⟨⟨by decide, rfl, by decide⟩,
    C22_invalid_source_in_query_results debExternals DependencyQuery listBadSource
      optionsBadSource 1 (by decide) rfl hq⟩

end Aptly
